import Mathlib

/-!
# Cosmos SDK: bank ledger and staking genesis

A shallow embedding of `x/bank/keeper.go` and `x/staking/genesis.go`.

* Go functions become Lean functions with the keeper state passed explicitly.
* A Go function returning `(value, error)` returns the pair `value × Option Error`;
  only the kind of an error is kept, not its message.
* A Go panic is the outer `none` of an `Option`.
* `sdk.Int` is arbitrary precision and is embedded as `Int`.

The packages `types` (coins), `x/auth` (accounts) and `x/staking/keeper` are used by the
embedded code but are not part of the sources at hand; what is needed of them is modelled
and marked as such.
-/

namespace sdk

/-- Modelled from the spec: the coin type of `types/coin.go` (only its tests are at hand):
one denomination with an arbitrary-precision amount. -/
structure Coin where
  Denom : String
  Amount : Int
deriving DecidableEq, Repr

/-- Modelled from the spec: `sdk.Coins`, a list of coins; the nil and the empty list are
both `[]`. -/
abbrev Coins := List Coin

/-- Modelled from the spec: `sdk.AccAddress`, the bytes of an account address. -/
abbrev AccAddress := List Nat

/-- Modelled from the spec: `sdk.ValAddress`, the bytes of a validator operator address. -/
abbrev ValAddress := List Nat

/-- Modelled from the spec: the error kinds of `types/errors.go` and of `x/bank/types` that
the embedded code returns. -/
inductive Error where
  | ErrInvalidCoins
  | ErrInsufficientCoins
  | ErrUnknownAddress
  | ErrInternal
  | ErrInputOutputMismatch
deriving DecidableEq, Repr

/-- Modelled from the spec: the tags attached to the result of a ledger operation. -/
inductive Tag where
  | Action (name : String)
  | Delegator (addr : AccAddress)
  | Sender (addr : AccAddress)
  | Recipient (addr : AccAddress)
deriving DecidableEq, Repr

/-- Modelled from the spec: `sdk.Tags`, a list of tags. -/
abbrev Tags := List Tag

/-- The part of `sdk.Context` that the embedded code reads: the time and height of the
block header. -/
structure Context where
  BlockTime : Int
  BlockHeight : Int
deriving DecidableEq, Repr

/-- Modelled from the spec: `validateDenom` of `types/coin.go`: a denomination is a
lower-case letter followed by 2 to 15 lower-case letters or digits (`TestCoin` and
`TestParse` reject `"b"`, `"Atom"`, `"atom "`, `"3foo"` and `"foo-bar"`). -/
def validateDenom (denom : String) : Bool :=
  match denom.toList with
  | [] => false
  | c :: cs =>
    c.isLower && cs.all (fun x => x.isLower || x.isDigit)
      && decide (2 ≤ cs.length) && decide (cs.length ≤ 15)

/-- Modelled from the spec: `Coin.IsZero`. -/
def Coin.IsZero (coin : Coin) : Bool := decide (coin.Amount = 0)

/-- Modelled from the spec: `Coin.IsPositive`. -/
def Coin.IsPositive (coin : Coin) : Bool := decide (0 < coin.Amount)

/-- Modelled from the spec: `Coin.IsNegative`. -/
def Coin.IsNegative (coin : Coin) : Bool := decide (coin.Amount < 0)

/-- Modelled from the spec: `NewCoins()` without arguments, the empty coin set. -/
def NewCoins : Coins := []

/-- Modelled from the spec: the order test of `Coins.IsValid`: the denominations are strictly
ascending in the byte order of Go strings. -/
def Coins.isSortedByDenom : Coins → Bool
  | [] => true
  | [_] => true
  | a :: b :: rest => decide (a.Denom.toList < b.Denom.toList) && Coins.isSortedByDenom (b :: rest)

/-- Modelled from the spec: `Coins.IsValid` of `types/coin.go`: "validated non-negative,
multi-denomination, sorted-by-denom canonical form"; as `TestCoins` pins it down, every
denomination is valid, every amount is strictly positive and the denominations are
strictly ascending. The empty set is valid. -/
def Coins.IsValid (coins : Coins) : Bool :=
  coins.all (fun c => validateDenom c.Denom && c.IsPositive) && Coins.isSortedByDenom coins

/-- Modelled from the spec: the amount that a coin set holds of one denomination, zero when the
denomination is absent: the sum over the coins of that denomination. -/
def Coins.amount : Coins → String → Int
  | [], _ => 0
  | c :: cs, denom => (if c.Denom = denom then c.Amount else 0) + Coins.amount cs denom

/-- Modelled from the spec: `Coins.AmountOf` of `types/coin.go`: the amount of a
denomination, zero when absent; it panics on an invalid denomination (`TestAmountOf`). -/
def Coins.AmountOf (coins : Coins) (denom : String) : Option Int :=
  if validateDenom denom then some (Coins.amount coins denom) else none

/-- Modelled from the spec: `removeZeroCoins` of `types/coin.go`: the coins with a non-zero
amount (`TestPlusCoins` drops the zero coins of either summand). -/
def removeZeroCoins (coins : Coins) : Coins := coins.filter (fun c => !c.IsZero)

/-- Modelled from the spec: a step of `safeAdd`: append a coin to a sum unless its amount is
zero. -/
def consNonZero (coin : Coin) (sum : Coins) : Coins := if coin.IsZero then sum else coin :: sum

/-- Modelled from the spec: the inner loop of `safeAdd`: the head `a` of the first list
against the second list. -/
def safeAddAux (a : Coin) (as : Coins) (k : Coins → Coins) : Coins → Coins
  | [] => removeZeroCoins (a :: as)
  | b :: bs =>
    if a.Denom.toList < b.Denom.toList then consNonZero a (k (b :: bs))
    else if a.Denom = b.Denom then consNonZero ⟨a.Denom, a.Amount + b.Amount⟩ (k bs)
    else consNonZero b (safeAddAux a as k bs)

/-- Modelled from the spec: `Coins.safeAdd` of `types/coin.go`, the addition of two coin
sets that are sorted by denomination: the two lists are merged in denomination order,
amounts of equal denominations are added and zero amounts are dropped (the cases of
`TestPlusCoins`). Amounts may be negative. -/
def Coins.safeAdd : Coins → Coins → Coins
  | [], coinsB => removeZeroCoins coinsB
  | a :: as, coinsB => safeAddAux a as (Coins.safeAdd as) coinsB

/-- Modelled from the spec: `Coins.Add`. -/
def Coins.Add (coins coinsB : Coins) : Coins := Coins.safeAdd coins coinsB

/-- Modelled from the spec: `Coins.negative`: every amount negated. -/
def Coins.negative (coins : Coins) : Coins := coins.map (fun c => ⟨c.Denom, - c.Amount⟩)

/-- Modelled from the spec: `Coins.IsAnyNegative`: some coin has a negative amount. -/
def Coins.IsAnyNegative (coins : Coins) : Bool := coins.any Coin.IsNegative

/-- Modelled from the spec: `Coins.SafeSub`: the difference and whether one of its amounts
is negative. -/
def Coins.SafeSub (coins coinsB : Coins) : Coins × Bool :=
  let diff := Coins.safeAdd coins (Coins.negative coinsB)
  (diff, Coins.IsAnyNegative diff)

/-- Modelled from the spec: `Coins.Sub`: the difference; it panics when an amount would be
negative (`TestMinusCoins`). -/
def Coins.Sub (coins coinsB : Coins) : Option Coins :=
  let r := Coins.SafeSub coins coinsB
  if r.2 then none else some r.1

end sdk

namespace auth

open sdk

/-- Modelled from the spec: the vesting data of a vesting account of `x/auth` ("tracking
how much of a delegator's balance is vesting vs. spendable"; "delegations amounts are
tracked for both vesting and vested coins"). `OriginalVesting` is locked until
`EndTime`. -/
structure VestingInfo where
  OriginalVesting : sdk.Coins
  DelegatedFree : sdk.Coins
  DelegatedVesting : sdk.Coins
  EndTime : Int
deriving DecidableEq, Repr

/-- Modelled from the spec: an account of `x/auth` as far as the ledger sees it: its
coins and, for a vesting account, its vesting data. The address is the key under which the
account is stored. -/
structure Account where
  Coins : sdk.Coins
  Vesting : Option VestingInfo
deriving DecidableEq, Repr

/-- Modelled from the spec: `Account.GetCoins`. -/
def Account.GetCoins (acc : Account) : sdk.Coins := acc.Coins

/-- Modelled from the spec: `Account.SetCoins`; the account implementations of `x/auth`
store the coins and return no error. -/
def Account.SetCoins (acc : Account) (coins : sdk.Coins) : Account × Option Error :=
  ({ acc with Coins := coins }, none)

/-- Modelled from the spec: whether the account implements `auth.VestingAccount`. -/
def Account.IsVesting (acc : Account) : Bool := acc.Vesting.isSome

/-- Modelled from the spec: the coins still vesting at a block time: the original vesting
coins until the end time, none afterwards. -/
def VestingInfo.GetVestingCoins (v : VestingInfo) (blockTime : Int) : sdk.Coins :=
  if v.EndTime ≤ blockTime then [] else v.OriginalVesting

/-- Modelled from the spec: `Account.SpendableCoins`: all coins of a plain account; for a
vesting account, per denomination of the balance, the smaller of the balance and of
balance plus delegated vesting minus still vesting coins. -/
def Account.SpendableCoins (acc : Account) (blockTime : Int) : sdk.Coins :=
  match acc.Vesting with
  | none => acc.Coins
  | some v =>
    removeZeroCoins (acc.Coins.map (fun c =>
      ⟨c.Denom, min (c.Amount + sdk.Coins.amount v.DelegatedVesting c.Denom
        - sdk.Coins.amount (v.GetVestingCoins blockTime) c.Denom) c.Amount⟩))

/-- Modelled from the spec: `VestingAccount.TrackDelegation`: the delegated coins leave
the balance, counted against the still vesting coins first. -/
def Account.TrackDelegation (acc : Account) (v : VestingInfo) (blockTime : Int) (amt : sdk.Coins) :
    Option Account :=
  let x : Coin → Int := fun c =>
    min (max (sdk.Coins.amount (v.GetVestingCoins blockTime) c.Denom
      - sdk.Coins.amount v.DelegatedVesting c.Denom) 0) c.Amount
  match sdk.Coins.Sub acc.Coins amt with
  | none => none
  | some coins =>
    some { Coins := coins
           Vesting := some { v with
             DelegatedVesting :=
               sdk.Coins.Add v.DelegatedVesting (amt.map (fun c => ⟨c.Denom, x c⟩))
             DelegatedFree :=
               sdk.Coins.Add v.DelegatedFree (amt.map (fun c => ⟨c.Denom, c.Amount - x c⟩)) } }

/-- Modelled from the spec: `VestingAccount.TrackUndelegation`: the undelegated coins
return to the balance, counted against the delegated free coins first. -/
def Account.TrackUndelegation (acc : Account) (v : VestingInfo) (amt : sdk.Coins) : Account :=
  let x : Coin → Int := fun c => min (sdk.Coins.amount v.DelegatedFree c.Denom) c.Amount
  let y : Coin → Int := fun c => min (sdk.Coins.amount v.DelegatedVesting c.Denom) (c.Amount - x c)
  { Coins := sdk.Coins.Add acc.Coins amt
    Vesting := some { v with
      DelegatedFree :=
        sdk.Coins.safeAdd v.DelegatedFree (amt.map (fun c => ⟨c.Denom, - x c⟩))
      DelegatedVesting :=
        sdk.Coins.safeAdd v.DelegatedVesting (amt.map (fun c => ⟨c.Denom, - y c⟩)) } }

/-- Modelled from the spec: the state of `auth.AccountKeeper`, "a plain account ledger
(get/set coins per address, existence checks)": the stored accounts, one per address. -/
abbrev AccountKeeper := AList (fun _ : AccAddress => Account)

/-- Modelled from the spec: `AccountKeeper.GetAccount`: the account stored at an address, if
any. -/
def AccountKeeper.GetAccount (ak : AccountKeeper) (addr : AccAddress) : Option Account :=
  AList.lookup addr ak

/-- Modelled from the spec: `AccountKeeper.SetAccount`: store the account at its address. -/
def AccountKeeper.SetAccount (ak : AccountKeeper) (addr : AccAddress) (acc : Account) :
    AccountKeeper :=
  AList.insert addr acc ak

/-- Modelled from the spec: `NewAccountWithAddress`: a plain account without coins. -/
def AccountKeeper.NewAccountWithAddress (_addr : AccAddress) : Account :=
  { Coins := [], Vesting := none }

/-- Modelled from the spec: `IterateAccounts`: the stored accounts. -/
def AccountKeeper.IterateAccounts (ak : AccountKeeper) : List Account :=
  ak.entries.map (fun e => e.2)

end auth

namespace bank

open sdk auth

/-- The coins at `addr`; the empty set when there is no account. -/
def getCoins (am : AccountKeeper) (addr : AccAddress) : Coins :=
  match AccountKeeper.GetAccount am addr with
  | none => NewCoins
  | some acc => acc.GetCoins

def setCoins (am : AccountKeeper) (addr : AccAddress) (amt : Coins) :
    Option (AccountKeeper × Option Error) :=
  if !Coins.IsValid amt then some (am, some Error.ErrInvalidCoins)
  else
    let acc := match AccountKeeper.GetAccount am addr with
      | none => AccountKeeper.NewAccountWithAddress addr
      | some acc => acc
    match acc.SetCoins amt with
    | (_, some _) => none
    | (acc1, none) => some (AccountKeeper.SetAccount am addr acc1, none)

def getAccount (ak : AccountKeeper) (addr : AccAddress) : Option Account :=
  AccountKeeper.GetAccount ak addr

def setAccount (ak : AccountKeeper) (addr : AccAddress) (acc : Account) : AccountKeeper :=
  AccountKeeper.SetAccount ak addr acc

/-- The old and the spendable coins that `subtractCoins` reads at `addr`. -/
def oldAndSpendableCoins (ctx : Context) (ak : AccountKeeper) (addr : AccAddress) :
    Coins × Coins :=
  match getAccount ak addr with
  | none => (NewCoins, NewCoins)
  | some acc => (acc.GetCoins, acc.SpendableCoins ctx.BlockTime)

def subtractCoins (ctx : Context) (ak : AccountKeeper) (addr : AccAddress) (amt : Coins) :
    Option (AccountKeeper × Coins × Option Error) :=
  if !Coins.IsValid amt then some (ak, [], some Error.ErrInvalidCoins)
  else
    let oldCoins := (oldAndSpendableCoins ctx ak addr).1
    let spendableCoins := (oldAndSpendableCoins ctx ak addr).2
    if (Coins.SafeSub spendableCoins amt).2 then some (ak, amt, some Error.ErrInsufficientCoins)
    else
      match Coins.Sub oldCoins amt with
      | none => none
      | some newCoins =>
        match setCoins ak addr newCoins with
        | none => none
        | some (ak1, err) => some (ak1, newCoins, err)

def addCoins (am : AccountKeeper) (addr : AccAddress) (amt : Coins) :
    Option (AccountKeeper × Coins × Option Error) :=
  if !Coins.IsValid amt then some (am, [], some Error.ErrInvalidCoins)
  else
    let oldCoins := getCoins am addr
    let newCoins := Coins.Add oldCoins amt
    if Coins.IsAnyNegative newCoins then some (am, amt, some Error.ErrInsufficientCoins)
    else
      match setCoins am addr newCoins with
      | none => none
      | some (am1, err) => some (am1, newCoins, err)

def sendCoins (ctx : Context) (am : AccountKeeper) (fromAddr toAddr : AccAddress) (amt : Coins) :
    Option (AccountKeeper × Option Error) :=
  if !Coins.IsValid amt then some (am, some Error.ErrInvalidCoins)
  else
    match subtractCoins ctx am fromAddr amt with
    | none => none
    | some (am1, _, some err) => some (am1, some err)
    | some (am1, _, none) =>
      match addCoins am1 toAddr amt with
      | none => none
      | some (am2, _, some err) => some (am2, some err)
      | some (am2, _, none) => some (am2, none)

/-- CONTRACT: assumes that amt is valid. The account after the delegation is tracked; a
plain account has `amt` subtracted from its coins. -/
def trackDelegation (acc : Account) (blockTime : Int) (amt : Coins) :
    Option (Account × Option Error) :=
  match acc.Vesting with
  | some v =>
    match acc.TrackDelegation v blockTime amt with
    | none => none
    | some acc1 => some (acc1, none)
  | none =>
    match Coins.Sub acc.GetCoins amt with
    | none => none
    | some coins => some (acc.SetCoins coins)

/-- CONTRACT: assumes that amt is valid. -/
def trackUndelegation (acc : Account) (amt : Coins) : Option (Account × Option Error) :=
  match acc.Vesting with
  | some v => some (acc.TrackUndelegation v amt, none)
  | none => some (acc.SetCoins (Coins.Add acc.GetCoins amt))

def delegateCoins (ctx : Context) (ak : AccountKeeper) (addr : AccAddress) (amt : Coins) :
    Option (AccountKeeper × Tags × Option Error) :=
  if !Coins.IsValid amt then some (ak, [], some Error.ErrInvalidCoins)
  else
    match getAccount ak addr with
    | none => some (ak, [], some Error.ErrUnknownAddress)
    | some acc =>
      let oldCoins := acc.GetCoins
      if (Coins.SafeSub oldCoins amt).2 then some (ak, [], some Error.ErrInsufficientCoins)
      else
        match trackDelegation acc ctx.BlockTime amt with
        | none => none
        | some (_, some _) => some (ak, [], some Error.ErrInternal)
        | some (acc1, none) =>
          some (setAccount ak addr acc1, [Tag.Action "delegate_coins", Tag.Delegator addr], none)

def undelegateCoins (ak : AccountKeeper) (addr : AccAddress) (amt : Coins) :
    Option (AccountKeeper × Tags × Option Error) :=
  if !Coins.IsValid amt then some (ak, [], some Error.ErrInvalidCoins)
  else
    match getAccount ak addr with
    | none => some (ak, [], some Error.ErrUnknownAddress)
    | some acc =>
      match trackUndelegation acc amt with
      | none => none
      | some (_, some _) => some (ak, [], some Error.ErrInternal)
      | some (acc1, none) =>
        some (setAccount ak addr acc1, [Tag.Action "undelegate_coins", Tag.Delegator addr], none)

/-- `BaseKeeper.SetCoins` sets the coins at the addr. -/
def SetCoins (ak : AccountKeeper) (addr : AccAddress) (amt : Coins) :
    Option (AccountKeeper × Option Error) :=
  if !Coins.IsValid amt then some (ak, some Error.ErrInvalidCoins)
  else setCoins ak addr amt

/-- `BaseKeeper.SubtractCoins` subtracts amt from the coins at the addr. -/
def SubtractCoins (ctx : Context) (ak : AccountKeeper) (addr : AccAddress) (amt : Coins) :
    Option (AccountKeeper × Coins × Option Error) :=
  if !Coins.IsValid amt then some (ak, [], some Error.ErrInvalidCoins)
  else subtractCoins ctx ak addr amt

/-- `BaseKeeper.AddCoins` adds amt to the coins at the addr. -/
def AddCoins (ak : AccountKeeper) (addr : AccAddress) (amt : Coins) :
    Option (AccountKeeper × Coins × Option Error) :=
  if !Coins.IsValid amt then some (ak, [], some Error.ErrInvalidCoins)
  else addCoins ak addr amt

/-- `BaseKeeper.DelegateCoins` performs delegation by deducting amt coins from an account
with address addr. -/
def DelegateCoins (ctx : Context) (ak : AccountKeeper) (addr : AccAddress) (amt : Coins) :
    Option (AccountKeeper × Tags × Option Error) :=
  if !Coins.IsValid amt then some (ak, [], some Error.ErrInvalidCoins)
  else delegateCoins ctx ak addr amt

/-- `BaseKeeper.UndelegateCoins` performs undelegation by crediting amt coins to an
account with address addr. -/
def UndelegateCoins (ak : AccountKeeper) (addr : AccAddress) (amt : Coins) :
    Option (AccountKeeper × Tags × Option Error) :=
  if !Coins.IsValid amt then some (ak, [], some Error.ErrInvalidCoins)
  else undelegateCoins ak addr amt

/-- `BaseSendKeeper.SendCoins` moves coins from one account to another. -/
def SendCoins (ctx : Context) (ak : AccountKeeper) (fromAddr toAddr : AccAddress) (amt : Coins) :
    Option (AccountKeeper × Option Error) :=
  if !Coins.IsValid amt then some (ak, some Error.ErrInvalidCoins)
  else sendCoins ctx ak fromAddr toAddr amt

/-- The total, over all accounts of the ledger, of the balance in one denomination. -/
def totalSupply (ak : AccountKeeper) (denom : String) : Int :=
  ((AccountKeeper.IterateAccounts ak).map (fun acc => Coins.amount acc.GetCoins denom)).sum

end bank

namespace store

/-- Modelled from the spec: the key-value store contract ("get, set, delete, plus ordered
iteration by key"): a store is the list of its entries in iteration order; `set` writes an
entry at its place in the order `lt`, replacing the entry of an equal key. -/
def set {K V : Type} [DecidableEq K] (lt : K → K → Bool) (k : K) (v : V) :
    List (K × V) → List (K × V)
  | [] => [(k, v)]
  | e :: rest =>
    if lt k e.1 then (k, v) :: e :: rest
    else if k = e.1 then (k, v) :: rest
    else e :: set lt k v rest

/-- Modelled from the spec: the value stored under a key, if any. -/
def get {K V : Type} [DecidableEq K] (k : K) : List (K × V) → Option V
  | [] => none
  | e :: rest => if k = e.1 then some e.2 else get k rest

/-- Modelled from the spec: the byte order of the keys of a store. -/
def bytesLT (a b : List Nat) : Bool := decide (a < b)

/-- Modelled from the spec: the byte order of keys made of several addresses of one length. -/
def keyLT (a b : List (List Nat)) : Bool := decide (a < b)

/-- Modelled from the spec: the order of the time keys of a queue ("ascending completion
time"). -/
def timeLT (a b : Int) : Bool := decide (a < b)

end store

namespace staking

open sdk auth

/-- Modelled from the spec: `sdk.Dec`, a decimal with 18 places, given by its integer
mantissa. -/
structure Dec where
  Mantissa : Int
deriving DecidableEq, Repr

/-- Modelled from the spec: `Dec.IsZero`. -/
def Dec.IsZero (d : Dec) : Bool := decide (d.Mantissa = 0)

/-- Modelled from the spec: "status ∈ {Unbonded, Unbonding, Bonded}". -/
inductive BondStatus where
  | Unbonded
  | Unbonding
  | Bonded
deriving DecidableEq, Repr

/-- Modelled from the spec: "Pool: { notBondedTokens, bondedTokens }". -/
structure Pool where
  NotBondedTokens : Int
  BondedTokens : Int
deriving DecidableEq, Repr

/-- Modelled from the spec: "Parameters consumed: unbondingTime (duration), maxValidators
(int), bondDenom (string), maxEntries (int, per unbonding/redelegation pair)". -/
structure Params where
  UnbondingTime : Int
  MaxValidators : Nat
  MaxEntries : Nat
  BondDenom : String
deriving DecidableEq, Repr

/-- Modelled from the spec: the description of a validator. -/
structure Description where
  Moniker : String
  Identity : String
  Website : String
  Details : String
deriving DecidableEq, Repr

/-- Modelled from the spec: the commission of a validator. -/
structure Commission where
  Rate : Dec
  MaxRate : Dec
  MaxChangeRate : Dec
  UpdateTime : Int
deriving DecidableEq, Repr

/-- Modelled from the spec: "Validator: { operatorAddress (unique key),
consensusPublicKey, status, tokens, delegatorShares, jailed, unbondingCompletionTime,
description, commission }". -/
structure Validator where
  OperatorAddress : ValAddress
  ConsPubKey : List Nat
  Jailed : Bool
  Status : BondStatus
  Tokens : Int
  DelegatorShares : Dec
  Description : Description
  UnbondingHeight : Int
  UnbondingCompletionTime : Int
  Commission : Commission
deriving DecidableEq, Repr

/-- Modelled from the spec: `Validator.IsBonded`. -/
def Validator.IsBonded (v : Validator) : Bool := decide (v.Status = BondStatus.Bonded)

/-- Modelled from the spec: `Validator.IsUnbonding`. -/
def Validator.IsUnbonding (v : Validator) : Bool := decide (v.Status = BondStatus.Unbonding)

/-- Modelled from the spec: "Delegation: { delegatorAddress, validatorAddress, shares }". -/
structure Delegation where
  DelegatorAddress : AccAddress
  ValidatorAddress : ValAddress
  Shares : Dec
deriving DecidableEq, Repr

/-- Modelled from the spec: "UnbondingDelegationEntry: { creationHeight, completionTime,
initialBalance, balance }". -/
structure UnbondingDelegationEntry where
  CreationHeight : Int
  CompletionTime : Int
  InitialBalance : Int
  Balance : Int
deriving DecidableEq, Repr

/-- Modelled from the spec: "UnbondingDelegation{delegatorAddress, validatorAddress,
entries[]}". -/
structure UnbondingDelegation where
  DelegatorAddress : AccAddress
  ValidatorAddress : ValAddress
  Entries : List UnbondingDelegationEntry
deriving DecidableEq, Repr

/-- Modelled from the spec: "RedelegationEntry: { creationHeight, completionTime,
initialBalance, sharesDst }". -/
structure RedelegationEntry where
  CreationHeight : Int
  CompletionTime : Int
  InitialBalance : Int
  SharesDst : Dec
deriving DecidableEq, Repr

/-- Modelled from the spec: "Redelegation{delegatorAddress, validatorSrcAddress,
validatorDstAddress, entries[]}". -/
structure Redelegation where
  DelegatorAddress : AccAddress
  ValidatorSrcAddress : ValAddress
  ValidatorDstAddress : ValAddress
  Entries : List RedelegationEntry
deriving DecidableEq, Repr

/-- Modelled from the spec: an entry of the "last power snapshot per validator". -/
structure LastValidatorPower where
  Address : ValAddress
  Power : Int
deriving DecidableEq, Repr

/-- Modelled from the spec: the genesis payload `types.GenesisState` with the fields that
`InitGenesis` reads and `ExportGenesis` fills. -/
structure GenesisState where
  Pool : Pool
  Params : Params
  LastTotalPower : Int
  LastValidatorPowers : List LastValidatorPower
  Validators : List Validator
  Delegations : List Delegation
  UnbondingDelegations : List UnbondingDelegation
  Redelegations : List Redelegation
  Exported : Bool
deriving DecidableEq, Repr

/-- Modelled from the spec: the "emitted validator-set delta message":
"{consensusIdentity, power}; power == 0 signals removal". -/
structure ValidatorUpdate where
  PubKey : List Nat
  Power : Int
deriving DecidableEq, Repr

/-- Modelled from the spec: the key "(delegator, validator)" of an unbonding queue entry. -/
structure DVPair where
  DelegatorAddress : AccAddress
  ValidatorAddress : ValAddress
deriving DecidableEq, Repr

/-- Modelled from the spec: the key "(delegator, validator, dstValidator)" of a redelegation
queue entry. -/
structure DVVTriplet where
  DelegatorAddress : AccAddress
  ValidatorSrcAddress : ValAddress
  ValidatorDstAddress : ValAddress
deriving DecidableEq, Repr

/-- The calls that `InitGenesis` makes on the keeper and that change its state or reach a
hook listener, recorded in the order in which they are made. -/
inductive KeeperCall where
  | SetPool (pool : Pool)
  | SetParams (params : Params)
  | SetLastTotalPower (power : Int)
  | SetValidator (validator : Validator)
  | SetValidatorByConsAddr (validator : Validator)
  | SetValidatorByPowerIndex (validator : Validator)
  | AfterValidatorCreated (valAddr : ValAddress)
  | InsertValidatorQueue (validator : Validator)
  | BeforeDelegationCreated (delAddr : AccAddress) (valAddr : ValAddress)
  | SetDelegation (delegation : Delegation)
  | AfterDelegationModified (delAddr : AccAddress) (valAddr : ValAddress)
  | SetUnbondingDelegation (ubd : UnbondingDelegation)
  | InsertUBDQueue (ubd : UnbondingDelegation) (completionTime : Int)
  | SetRedelegation (red : Redelegation)
  | InsertRedelegationQueue (red : Redelegation) (completionTime : Int)
  | SetLastValidatorPower (operator : ValAddress) (power : Int)
  | ApplyAndReturnValidatorSetUpdates
deriving DecidableEq, Repr

/-- Whether a recorded call is one of the hooks. -/
def KeeperCall.IsHook : KeeperCall → Bool
  | KeeperCall.AfterValidatorCreated _ => true
  | KeeperCall.BeforeDelegationCreated _ _ => true
  | KeeperCall.AfterDelegationModified _ _ => true
  | _ => false

/-- Modelled from the spec: the state of the staking keeper of `x/staking/keeper`, which
is not among the sources: the stored pool, params and last total power, the validator
registry with its two secondary indexes and its unbonding timer, the delegation ledger, the
unbonding and redelegation records with their time-keyed queues, the last validator
powers, and the record of the calls made. Every store lists its entries in key order. -/
structure Keeper where
  Pool : Option Pool
  Params : Option Params
  LastTotalPower : Option Int
  Validators : List (ValAddress × Validator)
  ValidatorsByConsAddr : List (List Nat × ValAddress)
  ValidatorsByPowerIndex : List ((Int × ValAddress) × ValAddress)
  ValidatorQueue : List (Int × List ValAddress)
  Delegations : List (List (List Nat) × Delegation)
  UnbondingDelegations : List (List (List Nat) × UnbondingDelegation)
  UBDQueue : List (Int × List DVPair)
  Redelegations : List (List (List Nat) × Redelegation)
  RedelegationQueue : List (Int × List DVVTriplet)
  LastValidatorPowers : List (ValAddress × Int)
  Calls : List KeeperCall
deriving DecidableEq, Repr

/-- Modelled from the spec: the keeper over an empty store. -/
def Keeper.empty : Keeper :=
  { Pool := none, Params := none, LastTotalPower := none, Validators := [],
    ValidatorsByConsAddr := [], ValidatorsByPowerIndex := [], ValidatorQueue := [],
    Delegations := [], UnbondingDelegations := [], UBDQueue := [], Redelegations := [],
    RedelegationQueue := [], LastValidatorPowers := [], Calls := [] }

/-- Modelled from the spec: `Keeper.SetPool`. -/
def Keeper.SetPool (k : Keeper) (pool : staking.Pool) : Keeper :=
  { k with Pool := some pool, Calls := k.Calls ++ [KeeperCall.SetPool pool] }

/-- Modelled from the spec: `Keeper.GetPool`: the stored pool; reading a pool that was never
stored panics. -/
def Keeper.GetPool (k : Keeper) : Option staking.Pool := k.Pool

/-- Modelled from the spec: `Keeper.SetParams`. -/
def Keeper.SetParams (k : Keeper) (params : staking.Params) : Keeper :=
  { k with Params := some params, Calls := k.Calls ++ [KeeperCall.SetParams params] }

/-- Modelled from the spec: `Keeper.GetParams`: the stored params; reading params that were
never stored panics. -/
def Keeper.GetParams (k : Keeper) : Option staking.Params := k.Params

/-- Modelled from the spec: `Keeper.SetLastTotalPower`, "the new total bonded power". -/
def Keeper.SetLastTotalPower (k : Keeper) (power : Int) : Keeper :=
  { k with LastTotalPower := some power,
           Calls := k.Calls ++ [KeeperCall.SetLastTotalPower power] }

/-- Modelled from the spec: `Keeper.GetLastTotalPower`: the stored last total power, zero when
none was stored. -/
def Keeper.GetLastTotalPower (k : Keeper) : Int :=
  match k.LastTotalPower with
  | none => 0
  | some power => power

/-- Modelled from the spec: "SetValidator: upserts the canonical record", keyed by operator
address. -/
def Keeper.SetValidator (k : Keeper) (validator : Validator) : Keeper :=
  { k with
    Validators := store.set store.bytesLT validator.OperatorAddress validator k.Validators,
    Calls := k.Calls ++ [KeeperCall.SetValidator validator] }

/-- Modelled from the spec: "GetValidator(operatorAddress) -> Validator, found". -/
def Keeper.GetValidator (k : Keeper) (addr : ValAddress) : Option Validator :=
  store.get addr k.Validators

/-- Modelled from the spec: the index "by consensus-key (1:1)"; the consensus identity is the
public key. -/
def Keeper.SetValidatorByConsAddr (k : Keeper) (validator : Validator) : Keeper :=
  { k with
    ValidatorsByConsAddr :=
      store.set store.bytesLT validator.ConsPubKey validator.OperatorAddress
        k.ValidatorsByConsAddr,
    Calls := k.Calls ++ [KeeperCall.SetValidatorByConsAddr validator] }

/-- Modelled from the spec: the rank order of the power index: "tokens descending,
operatorAddress ascending". -/
def powerRankLT (a b : Int × ValAddress) : Bool :=
  decide (b.1 < a.1) || (decide (a.1 = b.1) && decide (a.2 < b.2))

/-- Modelled from the spec: `SetValidatorByPowerIndex`: the validator enters the power-rank
index at its rank. -/
def Keeper.SetValidatorByPowerIndex (k : Keeper) (validator : Validator) : Keeper :=
  { k with
    ValidatorsByPowerIndex :=
      store.set powerRankLT (validator.Tokens, validator.OperatorAddress)
        validator.OperatorAddress k.ValidatorsByPowerIndex,
    Calls := k.Calls ++ [KeeperCall.SetValidatorByPowerIndex validator] }

/-- Modelled from the spec: the hook `AfterValidatorCreated`; the hooks are listeners outside
the core, "this core calls each synchronously and propagates no return value": a call of a
hook is recorded. -/
def Keeper.AfterValidatorCreated (k : Keeper) (valAddr : ValAddress) : Keeper :=
  { k with Calls := k.Calls ++ [KeeperCall.AfterValidatorCreated valAddr] }

/-- Modelled from the spec: the hook `BeforeDelegationCreated`; the call is recorded. -/
def Keeper.BeforeDelegationCreated (k : Keeper) (delAddr : AccAddress) (valAddr : ValAddress) :
    Keeper :=
  { k with Calls := k.Calls ++ [KeeperCall.BeforeDelegationCreated delAddr valAddr] }

/-- Modelled from the spec: the hook `AfterDelegationModified`; the call is recorded. -/
def Keeper.AfterDelegationModified (k : Keeper) (delAddr : AccAddress) (valAddr : ValAddress) :
    Keeper :=
  { k with Calls := k.Calls ++ [KeeperCall.AfterDelegationModified delAddr valAddr] }

/-- Modelled from the spec: the entries of a queue that mature at a time. -/
def timeSlice {V : Type} (queue : List (Int × List V)) (time : Int) : List V :=
  match store.get time queue with
  | none => []
  | some slice => slice

/-- Modelled from the spec: "InsertQueue(entry, completionTime) appends the key under that
timestamp bucket." -/
def insertQueue {V : Type} (queue : List (Int × List V)) (time : Int) (v : V) :
    List (Int × List V) :=
  store.set store.timeLT time (timeSlice queue time ++ [v]) queue

/-- Modelled from the spec: the "validator-level unbonding timer", keyed by the unbonding
completion time of the validator. -/
def Keeper.InsertValidatorQueue (k : Keeper) (validator : Validator) : Keeper :=
  { k with
    ValidatorQueue :=
      insertQueue k.ValidatorQueue validator.UnbondingCompletionTime validator.OperatorAddress,
    Calls := k.Calls ++ [KeeperCall.InsertValidatorQueue validator] }

/-- Modelled from the spec: `SetDelegation`: the delegation record, "unique per (delegator,
validator) pair". -/
def Keeper.SetDelegation (k : Keeper) (delegation : Delegation) : Keeper :=
  { k with
    Delegations :=
      store.set store.keyLT [delegation.DelegatorAddress, delegation.ValidatorAddress]
        delegation k.Delegations,
    Calls := k.Calls ++ [KeeperCall.SetDelegation delegation] }

/-- Modelled from the spec: `SetUnbondingDelegation`: the record "keyed by (delegator,
validator)". -/
def Keeper.SetUnbondingDelegation (k : Keeper) (ubd : UnbondingDelegation) : Keeper :=
  { k with
    UnbondingDelegations :=
      store.set store.keyLT [ubd.DelegatorAddress, ubd.ValidatorAddress] ubd
        k.UnbondingDelegations,
    Calls := k.Calls ++ [KeeperCall.SetUnbondingDelegation ubd] }

/-- Modelled from the spec: `InsertUBDQueue`: the pair of the record enters the unbonding queue
at the completion time. -/
def Keeper.InsertUBDQueue (k : Keeper) (ubd : UnbondingDelegation) (completionTime : Int) :
    Keeper :=
  { k with
    UBDQueue :=
      insertQueue k.UBDQueue completionTime
        { DelegatorAddress := ubd.DelegatorAddress, ValidatorAddress := ubd.ValidatorAddress },
    Calls := k.Calls ++ [KeeperCall.InsertUBDQueue ubd completionTime] }

/-- Modelled from the spec: `SetRedelegation`: the record keyed by delegator, source and
destination validator. -/
def Keeper.SetRedelegation (k : Keeper) (red : Redelegation) : Keeper :=
  { k with
    Redelegations :=
      store.set store.keyLT
        [red.DelegatorAddress, red.ValidatorSrcAddress, red.ValidatorDstAddress] red
        k.Redelegations,
    Calls := k.Calls ++ [KeeperCall.SetRedelegation red] }

/-- Modelled from the spec: `InsertRedelegationQueue`: the triplet of the record enters the
redelegation queue at the completion time. -/
def Keeper.InsertRedelegationQueue (k : Keeper) (red : Redelegation) (completionTime : Int) :
    Keeper :=
  { k with
    RedelegationQueue :=
      insertQueue k.RedelegationQueue completionTime
        { DelegatorAddress := red.DelegatorAddress,
          ValidatorSrcAddress := red.ValidatorSrcAddress,
          ValidatorDstAddress := red.ValidatorDstAddress },
    Calls := k.Calls ++ [KeeperCall.InsertRedelegationQueue red completionTime] }

/-- Modelled from the spec: `SetLastValidatorPower`: the "last power" of a validator. -/
def Keeper.SetLastValidatorPower (k : Keeper) (operator : ValAddress) (power : Int) : Keeper :=
  { k with
    LastValidatorPowers := store.set store.bytesLT operator power k.LastValidatorPowers,
    Calls := k.Calls ++ [KeeperCall.SetLastValidatorPower operator power] }

/-- Modelled from the spec: `GetAllValidators`: every stored validator, in key order. -/
def Keeper.GetAllValidators (k : Keeper) : List Validator := k.Validators.map (fun e => e.2)

/-- Modelled from the spec: `GetAllDelegations`: every stored delegation, in key order. -/
def Keeper.GetAllDelegations (k : Keeper) : List Delegation := k.Delegations.map (fun e => e.2)

/-- Modelled from the spec: `IterateUnbondingDelegations`: every stored unbonding delegation,
in key order. -/
def Keeper.IterateUnbondingDelegations (k : Keeper) : List UnbondingDelegation :=
  k.UnbondingDelegations.map (fun e => e.2)

/-- Modelled from the spec: `IterateRedelegations`: every stored redelegation, in key order. -/
def Keeper.IterateRedelegations (k : Keeper) : List Redelegation :=
  k.Redelegations.map (fun e => e.2)

/-- Modelled from the spec: `IterateLastValidatorPowers`: every stored last validator power,
in key order. -/
def Keeper.IterateLastValidatorPowers (k : Keeper) : List LastValidatorPower :=
  k.LastValidatorPowers.map (fun e => { Address := e.1, Power := e.2 })

/-- Modelled from the spec: the power of a validator in the consensus engine, "derived
from bonded stake": its tokens when it is bonded, zero otherwise. -/
def Validator.TendermintPower (v : Validator) : Int :=
  if v.IsBonded then v.Tokens else 0

/-- Modelled from the spec: the delta message of a validator with its current power. -/
def Validator.ABCIValidatorUpdate (v : Validator) : ValidatorUpdate :=
  { PubKey := v.ConsPubKey, Power := v.TendermintPower }

/-- Modelled from the spec: `sdk.ValidatorUpdateDelay`, the number of blocks after which
a change of the validator set takes effect. -/
def ValidatorUpdateDelay : Int := 1

/-- The validator set updater `ApplyAndReturnValidatorSetUpdates` of the keeper is not
among the sources; the embedding takes it as a parameter of this type. The outer `none` is
a panic. -/
abbrev Updater := Context → Keeper → Option (Keeper × List ValidatorUpdate)

/-- The pool that `InitGenesis` stores: the declared one, with the not-bonded tokens
summed up from the accounts when none are declared. -/
def genesisPool (data : GenesisState) : List Account → Option Pool
  | [] => some data.Pool
  | acc :: rest =>
    match Coins.AmountOf acc.GetCoins data.Params.BondDenom with
    | none => none
    | some amount =>
      genesisPool
        { data with Pool := { data.Pool with
            NotBondedTokens := data.Pool.NotBondedTokens + amount } } rest

/-- The body of the loop of `InitGenesis` over the validators of the payload. -/
def initValidator (exported : Bool) (keeper : Keeper) (validator : Validator) : Keeper :=
  let keeper := keeper.SetValidator validator
  let keeper := keeper.SetValidatorByConsAddr validator
  let keeper := keeper.SetValidatorByPowerIndex validator
  let keeper :=
    if !exported then keeper.AfterValidatorCreated validator.OperatorAddress else keeper
  if validator.IsUnbonding then keeper.InsertValidatorQueue validator else keeper

/-- The body of the loop of `InitGenesis` over the delegations of the payload. -/
def initDelegation (exported : Bool) (keeper : Keeper) (delegation : Delegation) : Keeper :=
  let keeper :=
    if !exported then
      keeper.BeforeDelegationCreated delegation.DelegatorAddress delegation.ValidatorAddress
    else keeper
  let keeper := keeper.SetDelegation delegation
  if !exported then
    keeper.AfterDelegationModified delegation.DelegatorAddress delegation.ValidatorAddress
  else keeper

/-- The body of the loop of `InitGenesis` over the unbonding delegations of the payload. -/
def initUnbondingDelegation (keeper : Keeper) (ubd : UnbondingDelegation) : Keeper :=
  ubd.Entries.foldl (fun k entry => k.InsertUBDQueue ubd entry.CompletionTime)
    (keeper.SetUnbondingDelegation ubd)

/-- The body of the loop of `InitGenesis` over the redelegations of the payload. -/
def initRedelegation (keeper : Keeper) (red : Redelegation) : Keeper :=
  red.Entries.foldl (fun k entry => k.InsertRedelegationQueue red entry.CompletionTime)
    (keeper.SetRedelegation red)

/-- The loop of `InitGenesis` over the last validator powers of an exported payload. -/
def initLastValidatorPowers :
    Keeper → List ValidatorUpdate → List LastValidatorPower →
      Option (Keeper × List ValidatorUpdate)
  | keeper, res, [] => some (keeper, res)
  | keeper, res, lv :: rest =>
    let keeper := keeper.SetLastValidatorPower lv.Address lv.Power
    match keeper.GetValidator lv.Address with
    | none => none
    | some validator =>
      let update := { validator.ABCIValidatorUpdate with Power := lv.Power }
      initLastValidatorPowers keeper (res ++ [update]) rest

/-- The pool that `InitGenesis` stores: when the payload declares no not-bonded tokens, the
pool with the not-bonded tokens summed up from the accounts; the declared pool otherwise.
`AmountOf` panics on an invalid bond denomination. -/
def storedPool (accountKeeper : AccountKeeper) (data : GenesisState) : Option Pool :=
  if data.Pool.NotBondedTokens = 0 then
    genesisPool data (AccountKeeper.IterateAccounts accountKeeper)
  else some data.Pool

/-- The writes of `InitGenesis` before it turns to the validator updates: pool, params,
last total power, then the validators, the delegations, the unbonding delegations and the
redelegations of the payload, in this order. -/
def writeGenesis (keeper : Keeper) (pool : Pool) (data : GenesisState) : Keeper :=
  let keeper := keeper.SetPool pool
  let keeper := keeper.SetParams data.Params
  let keeper := keeper.SetLastTotalPower data.LastTotalPower
  let keeper := data.Validators.foldl (initValidator data.Exported) keeper
  let keeper := data.Delegations.foldl (initDelegation data.Exported) keeper
  let keeper := data.UnbondingDelegations.foldl initUnbondingDelegation keeper
  data.Redelegations.foldl initRedelegation keeper

/-- The keeper as the validator set updater finds it when `InitGenesis` calls it. -/
def Keeper.callUpdater (keeper : Keeper) : Keeper :=
  { keeper with Calls := keeper.Calls ++ [KeeperCall.ApplyAndReturnValidatorSetUpdates] }

/-- `InitGenesis` sets the pool and parameters for the provided keeper, sets every
validator of the payload along with its indexes, sets the delegations, and finally updates
the bonded validators. It returns the validator set updates. The updater runs at block
height `1 - ValidatorUpdateDelay`. -/
def InitGenesis (applyAndReturnValidatorSetUpdates : Updater) (ctx : Context) (keeper : Keeper)
    (accountKeeper : AccountKeeper) (data : GenesisState) :
    Option (Keeper × List ValidatorUpdate) :=
  let ctx := { ctx with BlockHeight := 1 - ValidatorUpdateDelay }
  match storedPool accountKeeper data with
  | none => none
  | some pool =>
    let keeper := writeGenesis keeper pool data
    if data.Exported then initLastValidatorPowers keeper [] data.LastValidatorPowers
    else applyAndReturnValidatorSetUpdates ctx keeper.callUpdater

/-- `ExportGenesis` returns a GenesisState for a given keeper: the pool, params,
validators, and bonds found in the keeper. Like `InitGenesis` it is given the keeper state
and returns the keeper state it leaves behind, here along with the genesis state; it calls
the reads of the keeper only. -/
def ExportGenesis (keeper : Keeper) : Option (Keeper × GenesisState) :=
  match keeper.GetPool, keeper.GetParams with
  | some pool, some params =>
    let lastTotalPower := keeper.GetLastTotalPower
    let validators := keeper.GetAllValidators
    let delegations := keeper.GetAllDelegations
    let unbondingDelegations := keeper.IterateUnbondingDelegations
    let redelegations := keeper.IterateRedelegations
    let lastValidatorPowers := keeper.IterateLastValidatorPowers
    some (keeper,
      { Pool := pool
        Params := params
        LastTotalPower := lastTotalPower
        LastValidatorPowers := lastValidatorPowers
        Validators := validators
        Delegations := delegations
        UnbondingDelegations := unbondingDelegations
        Redelegations := redelegations
        Exported := true })
  | _, _ => none

inductive GenesisError where
  | DuplicateValidator
  | BondedAndJailed
  | ZeroDelegatorShares
  | InvalidParams
deriving DecidableEq, Repr

/-- Modelled from the spec: `Params.Validate` of `x/staking/types` ("params in correct
bounds"): the bond denomination is not empty and the maximum number of validators is
positive. -/
def Params.Validate (p : Params) : Option GenesisError :=
  if p.BondDenom = "" then some GenesisError.InvalidParams
  else if p.MaxValidators = 0 then some GenesisError.InvalidParams
  else none

/-- The loop of `validateGenesisStateValidators`; `addrMap` holds the consensus public
keys seen so far. -/
def validateValidatorsLoop : List (List Nat) → List Validator → Option GenesisError
  | _, [] => none
  | addrMap, val :: rest =>
    let strKey := val.ConsPubKey
    if strKey ∈ addrMap then some GenesisError.DuplicateValidator
    else if val.Jailed && val.IsBonded then some GenesisError.BondedAndJailed
    else if val.DelegatorShares.IsZero && !val.IsUnbonding then
      some GenesisError.ZeroDelegatorShares
    else validateValidatorsLoop (strKey :: addrMap) rest

def validateGenesisStateValidators (validators : List Validator) : Option GenesisError :=
  validateValidatorsLoop [] validators

/-- `ValidateGenesis` validates the provided staking genesis state to ensure the expected
invariants holds. -/
def ValidateGenesis (data : GenesisState) : Option GenesisError :=
  match validateGenesisStateValidators data.Validators with
  | some err => some err
  | none =>
    match data.Params.Validate with
    | some err => some err
    | none => none

end staking

namespace sdk

/-- The denominations of a coin list are strictly ascending, hence pairwise distinct. -/
def Coins.Sorted (coins : Coins) : Prop :=
  coins.Pairwise (fun x y => x.Denom.toList < y.Denom.toList)

/-- Every denomination of the list lies strictly above `x`. -/
def Coins.Above (x : List Char) (coins : Coins) : Prop :=
  ∀ c ∈ coins, x < c.Denom.toList

end sdk

namespace bank

open sdk auth

/-- A ledger with two plain accounts: `[1]` holds 5 atom, `[2]` holds 3 btc. -/
def ledgerTwo : AccountKeeper :=
  AccountKeeper.SetAccount
    (AccountKeeper.SetAccount ∅ [1] { Coins := [⟨"atom", 5⟩], Vesting := none })
    [2] { Coins := [⟨"btc", 3⟩], Vesting := none }

/-- A ledger in which the stored balance of `[2]` is negative. -/
def ledgerNegative : AccountKeeper :=
  AccountKeeper.SetAccount
    (AccountKeeper.SetAccount ∅ [1] { Coins := [⟨"atom", 5⟩], Vesting := none })
    [2] { Coins := [⟨"atom", -5⟩], Vesting := none }

/-- A ledger in which the stored balance of `[1]` is not sorted by denomination. -/
def ledgerUnsorted : AccountKeeper :=
  AccountKeeper.SetAccount ∅ [1] { Coins := [⟨"btc", 1⟩, ⟨"atom", 1⟩], Vesting := none }

/-- A ledger in which the stored balance of `[1]` has an upper-case denomination. -/
def ledgerUpperCase : AccountKeeper :=
  AccountKeeper.SetAccount ∅ [1] { Coins := [⟨"ATOM", 1⟩, ⟨"atom", 5⟩], Vesting := none }

/-- A ledger in which the stored balance of the recipient `[2]` has an upper-case
denomination. -/
def ledgerUpperCaseRecipient : AccountKeeper :=
  AccountKeeper.SetAccount
    (AccountKeeper.SetAccount ∅ [1] { Coins := [⟨"atom", 5⟩], Vesting := none })
    [2] { Coins := [⟨"ATOM", 1⟩], Vesting := none }

end bank

namespace store

/-- The keys are strictly ascending in the order `lt`, hence pairwise distinct. -/
def Ascending {K : Type} (lt : K → K → Bool) (keys : List K) : Prop :=
  keys.Pairwise (fun a b => lt a b = true)

end store

namespace staking

open sdk auth

def KeeperCall.IsDelegationWrite : KeeperCall → Bool
  | KeeperCall.SetDelegation _ => true
  | _ => false

/-- The calls of one pass of the loop of `InitGenesis` over the validators. -/
def validatorCalls (exported : Bool) (v : Validator) : List KeeperCall :=
  [KeeperCall.SetValidator v, KeeperCall.SetValidatorByConsAddr v,
      KeeperCall.SetValidatorByPowerIndex v]
    ++ (if !exported then [KeeperCall.AfterValidatorCreated v.OperatorAddress] else [])
    ++ (if v.IsUnbonding then [KeeperCall.InsertValidatorQueue v] else [])

/-- The calls of one pass of the loop of `InitGenesis` over the delegations. -/
def delegationCalls (exported : Bool) (d : Delegation) : List KeeperCall :=
  (if !exported then [KeeperCall.BeforeDelegationCreated d.DelegatorAddress d.ValidatorAddress]
    else [])
    ++ [KeeperCall.SetDelegation d]
    ++ (if !exported then
        [KeeperCall.AfterDelegationModified d.DelegatorAddress d.ValidatorAddress]
      else [])

/-- The calls of one pass of the loop of `InitGenesis` over the unbonding delegations. -/
def unbondingDelegationCalls (ubd : UnbondingDelegation) : List KeeperCall :=
  KeeperCall.SetUnbondingDelegation ubd
    :: ubd.Entries.map (fun entry => KeeperCall.InsertUBDQueue ubd entry.CompletionTime)

/-- The calls of one pass of the loop of `InitGenesis` over the redelegations. -/
def redelegationCalls (red : Redelegation) : List KeeperCall :=
  KeeperCall.SetRedelegation red
    :: red.Entries.map (fun entry => KeeperCall.InsertRedelegationQueue red entry.CompletionTime)

/-- The calls of `InitGenesis` before it turns to the validator updates. -/
def genesisCalls (pool : Pool) (data : GenesisState) : List KeeperCall :=
  [KeeperCall.SetPool pool, KeeperCall.SetParams data.Params,
      KeeperCall.SetLastTotalPower data.LastTotalPower]
    ++ data.Validators.flatMap (validatorCalls data.Exported)
    ++ data.Delegations.flatMap (delegationCalls data.Exported)
    ++ data.UnbondingDelegations.flatMap unbondingDelegationCalls
    ++ data.Redelegations.flatMap redelegationCalls

/-- The hooks that the spec ascribes to an import that is not a resumption of an export:
the creation hook of every validator, then the before-creation and the after-modification
hook around the write of every delegation, in payload order. -/
def importHooksAndDelegationWrites (data : GenesisState) : List KeeperCall :=
  data.Validators.map (fun v => KeeperCall.AfterValidatorCreated v.OperatorAddress)
    ++ data.Delegations.flatMap (fun d =>
      [KeeperCall.BeforeDelegationCreated d.DelegatorAddress d.ValidatorAddress,
        KeeperCall.SetDelegation d,
        KeeperCall.AfterDelegationModified d.DelegatorAddress d.ValidatorAddress])

def paramsExample : Params :=
  { UnbondingTime := 1814400, MaxValidators := 100, MaxEntries := 7, BondDenom := "stake" }

def validatorOne : Validator :=
  { OperatorAddress := [1], ConsPubKey := [101], Jailed := false, Status := BondStatus.Bonded,
    Tokens := 9, DelegatorShares := ⟨9⟩, Description := ⟨"one", "", "", ""⟩,
    UnbondingHeight := 0, UnbondingCompletionTime := 0,
    Commission := ⟨⟨0⟩, ⟨0⟩, ⟨0⟩, 0⟩ }

def validatorTwo : Validator :=
  { OperatorAddress := [2], ConsPubKey := [102], Jailed := false, Status := BondStatus.Bonded,
    Tokens := 8, DelegatorShares := ⟨8⟩, Description := ⟨"two", "", "", ""⟩,
    UnbondingHeight := 0, UnbondingCompletionTime := 0,
    Commission := ⟨⟨0⟩, ⟨0⟩, ⟨0⟩, 0⟩ }

/-- A valid genesis state without validators that is not marked as exported. -/
def genesisNotExported : GenesisState :=
  { Pool := ⟨10, 0⟩, Params := paramsExample, LastTotalPower := 0, LastValidatorPowers := [],
    Validators := [], Delegations := [], UnbondingDelegations := [], Redelegations := [],
    Exported := false }

/-- A valid exported genesis state that lists its validators against the key order. -/
def genesisUnsorted : GenesisState :=
  { Pool := ⟨10, 17⟩, Params := paramsExample, LastTotalPower := 17, LastValidatorPowers := [],
    Validators := [validatorTwo, validatorOne], Delegations := [], UnbondingDelegations := [],
    Redelegations := [], Exported := true }

/-- A valid exported genesis state that declares no not-bonded tokens. -/
def genesisZeroPool : GenesisState :=
  { Pool := ⟨0, 17⟩, Params := paramsExample, LastTotalPower := 17, LastValidatorPowers := [],
    Validators := [validatorOne, validatorTwo], Delegations := [], UnbondingDelegations := [],
    Redelegations := [], Exported := true }

/-- A valid exported genesis state whose last validator powers name an unknown validator. -/
def genesisMissingValidator : GenesisState :=
  { Pool := ⟨10, 0⟩, Params := paramsExample, LastTotalPower := 9,
    LastValidatorPowers := [⟨[1], 9⟩],
    Validators := [], Delegations := [], UnbondingDelegations := [], Redelegations := [],
    Exported := true }

/-- A genesis state that declares no not-bonded tokens and an invalid bond denomination. -/
def genesisInvalidBondDenom : GenesisState :=
  { Pool := ⟨0, 0⟩,
    Params := { UnbondingTime := 1814400, MaxValidators := 100, MaxEntries := 7,
                BondDenom := "Invalid" },
    LastTotalPower := 0, LastValidatorPowers := [],
    Validators := [], Delegations := [], UnbondingDelegations := [], Redelegations := [],
    Exported := true }

/-- An exported genesis state with two validators, one delegation, one unbonding entry
and one redelegation entry, all listed in key order. -/
def genesisFull : GenesisState :=
  { Pool := ⟨10, 17⟩, Params := paramsExample, LastTotalPower := 17,
    LastValidatorPowers := [⟨[1], 9⟩, ⟨[2], 8⟩],
    Validators := [validatorOne, validatorTwo],
    Delegations := [⟨[1], [1], ⟨9⟩⟩, ⟨[2], [2], ⟨8⟩⟩],
    UnbondingDelegations := [⟨[1], [2], [⟨1, 100, 5, 5⟩]⟩],
    Redelegations := [⟨[1], [1], [2], [⟨1, 100, 3, ⟨3⟩⟩]⟩],
    Exported := true }

/-- The payload `genesisFull` as a first import, not marked as exported. -/
def genesisFresh : GenesisState := { genesisFull with Exported := false }

/-- A ledger with one plain account holding 5 stake. -/
def ledgerStake : AccountKeeper :=
  AccountKeeper.SetAccount ∅ [1] { Coins := [⟨"stake", 5⟩], Vesting := none }

end staking

namespace sdk

/-- Modelled from the spec: `Coins.IsAllGTE` of `types/coin.go`, one of the "comparison
operations" of the ledger primitive: the difference of the two coin sets has no negative
amount (the cases of `TestCoinsGTE`). -/
def Coins.IsAllGTE (coins coinsB : Coins) : Bool :=
  let diff := (Coins.SafeSub coins coinsB).1
  if diff.length = 0 then true else !Coins.IsAnyNegative diff

end sdk

namespace bank

open sdk auth

/-- HasCoins returns whether or not an account has at least amt coins. -/
def hasCoins (am : AccountKeeper) (addr : AccAddress) (amt : Coins) : Bool :=
  Coins.IsAllGTE (getCoins am addr) amt

/-- `BaseViewKeeper.GetCoins` returns the coins at the addr. -/
def GetCoins (ak : AccountKeeper) (addr : AccAddress) : Coins := getCoins ak addr

/-- `BaseViewKeeper.HasCoins` returns whether or not an account has at least amt coins. -/
def HasCoins (ak : AccountKeeper) (addr : AccAddress) (amt : Coins) : Bool :=
  hasCoins ak addr amt

/-- A ledger in which the stored balance of `[1]` lists its denominations in descending
order. -/
def ledgerDescending : AccountKeeper :=
  AccountKeeper.SetAccount ∅ [1]
    { Coins := [⟨"zzz", 1⟩, ⟨"btc", 1⟩, ⟨"atom", 1⟩], Vesting := none }

end bank

namespace staking

open sdk auth

/-- The recorded call writes an unbonding delegation or a redelegation, or inserts into
one of their queues. -/
def KeeperCall.IsMaturationWrite : KeeperCall → Bool
  | KeeperCall.SetUnbondingDelegation _ => true
  | KeeperCall.InsertUBDQueue _ _ => true
  | KeeperCall.SetRedelegation _ => true
  | KeeperCall.InsertRedelegationQueue _ _ => true
  | _ => false

/-- The recorded call writes a validator to the registry or to one of its two secondary
indexes. -/
def KeeperCall.IsValidatorWrite : KeeperCall → Bool
  | KeeperCall.SetValidator _ => true
  | KeeperCall.SetValidatorByConsAddr _ => true
  | KeeperCall.SetValidatorByPowerIndex _ => true
  | _ => false

/-- The recorded call is the call of the validator set updater. -/
def KeeperCall.IsUpdaterCall : KeeperCall → Bool
  | KeeperCall.ApplyAndReturnValidatorSetUpdates => true
  | _ => false

/-- The pair under which an unbonding delegation enters the unbonding queue. -/
def UnbondingDelegation.Pair (ubd : UnbondingDelegation) : DVPair :=
  { DelegatorAddress := ubd.DelegatorAddress, ValidatorAddress := ubd.ValidatorAddress }

/-- The triplet under which a redelegation enters the redelegation queue. -/
def Redelegation.Triplet (red : Redelegation) : DVVTriplet :=
  { DelegatorAddress := red.DelegatorAddress,
    ValidatorSrcAddress := red.ValidatorSrcAddress,
    ValidatorDstAddress := red.ValidatorDstAddress }

/-- A validator with the operator address of `validatorOne` and a consensus key of its
own. -/
def validatorOneAgain : Validator :=
  { validatorOne with ConsPubKey := [103], Tokens := 7, DelegatorShares := ⟨7⟩ }

/-- A genesis state with two validators of one operator address. -/
def genesisDuplicateOperator : GenesisState :=
  { Pool := ⟨10, 16⟩, Params := paramsExample, LastTotalPower := 16, LastValidatorPowers := [],
    Validators := [validatorOne, validatorOneAgain], Delegations := [],
    UnbondingDelegations := [], Redelegations := [], Exported := true }

end staking

namespace staking

/-- The exported payload `genesisFull` with last validator powers that differ from the
tokens of the validators. -/
def genesisStalePowers : GenesisState :=
  { genesisFull with LastValidatorPowers := [⟨[1], 4⟩, ⟨[2], 3⟩] }

end staking

namespace sdk

/-- Modelled from the spec: `Coins.Plus` of `types/coin.go`, the name under which
`coin_test.go` calls the sum of two coin sets (the keeper calls it `Add`): the merge of
`safeAdd` (`TestPlusCoins`). -/
def Coins.Plus (coins coinsB : Coins) : Coins := Coins.safeAdd coins coinsB

/-- Modelled from the spec: `Coins.Minus` of `types/coin.go`, the name under which
`coin_test.go` calls the difference of two coin sets (the keeper calls it `Sub`): it panics
when an amount of the difference is negative (`TestMinusCoins`). -/
def Coins.Minus (coins coinsB : Coins) : Option Coins :=
  let r := Coins.SafeSub coins coinsB
  if r.2 then none else some r.1

/-- Modelled from the spec: `Coins.IsPositive` of `types/coin.go`: the set is not empty and
every amount is strictly positive (`TestCoins`: the empty set is not positive). -/
def Coins.IsPositive (coins : Coins) : Bool :=
  if coins.length = 0 then false else coins.all Coin.IsPositive

/-- Modelled from the spec: `Coins.IsAllGT` of `types/coin.go`: the difference of the two
coin sets is not empty and all its amounts are positive (the cases of `TestCoinsGT`). -/
def Coins.IsAllGT (coins coinsB : Coins) : Bool :=
  let diff := (Coins.SafeSub coins coinsB).1
  if diff.length = 0 then false else Coins.IsPositive diff

/-- Modelled from the spec: `Coins.IsAllLT` of `types/coin.go` (the cases of
`TestCoinsLT`). -/
def Coins.IsAllLT (coins coinsB : Coins) : Bool := Coins.IsAllGT coinsB coins

/-- Modelled from the spec: `Coins.IsAllLTE` of `types/coin.go` (the cases of
`TestCoinsLTE`). -/
def Coins.IsAllLTE (coins coinsB : Coins) : Bool := Coins.IsAllGTE coinsB coins

/-- Modelled from the spec: `NewCoin` of `types/coin.go`: it panics on an invalid
denomination and on a negative amount (`TestCoin`). -/
def NewCoin (denom : String) (amount : Int) : Option Coin :=
  if !validateDenom denom then none
  else if amount < 0 then none
  else some ⟨denom, amount⟩

/-- Modelled from the spec: `NewInt64Coin` of `types/coin.go`: `NewCoin` on an amount given
as a machine integer, which converts to `sdk.Int` without loss. -/
def NewInt64Coin (denom : String) (amount : Int) : Option Coin := NewCoin denom amount

/-- Modelled from the spec: `NewPositiveCoin` of `types/coin.go`: `NewCoin` that also
panics on a zero amount (`TestCoin`). -/
def NewPositiveCoin (denom : String) (amount : Int) : Option Coin :=
  if amount = 0 then none else NewCoin denom amount

/-- Modelled from the spec: `NewPositiveInt64Coin` of `types/coin.go`. -/
def NewPositiveInt64Coin (denom : String) (amount : Int) : Option Coin :=
  NewPositiveCoin denom amount

/-- Modelled from the spec: `Coins.Sort` of `types/coin.go`: the coins in ascending order of
denomination (`TestSortCoins`); coins of one denomination keep their order. -/
def Coins.Sort (coins : Coins) : Coins :=
  coins.insertionSort (fun a b => ¬ b.Denom.toList < a.Denom.toList)

/-- Modelled from the spec: the white space that parsing skips: space, tab, line feed,
vertical tab, form feed and carriage return. -/
def isSpace (c : Char) : Bool :=
  c = ' ' || c = '\t' || c = '\n' || c = Char.ofNat 11 || c = Char.ofNat 12 || c = '\r'

/-- Modelled from the spec: `strings.TrimSpace` on the characters of a string. -/
def trimSpace (s : List Char) : List Char :=
  (s.dropWhile isSpace).rdropWhile isSpace

/-- Modelled from the spec: `strings.Split` on the characters of a string: the pieces
between the separators; the empty string gives one empty piece. -/
def splitOn (sep : Char) : List Char → List (List Char)
  | [] => [[]]
  | c :: cs =>
    if c = sep then [] :: splitOn sep cs
    else
      match splitOn sep cs with
      | [] => [[c]]
      | e :: es => (c :: e) :: es

/-- Modelled from the spec: the value of a string of decimal digits. -/
def digitsValue (ds : List Char) : Nat :=
  ds.foldl (fun acc c => 10 * acc + (c.toNat - 48)) 0

/-- Modelled from the spec: the errors of parsing, by kind. -/
inductive ParseError where
  | InvalidCoinExpression
  | InvalidCoins
  | NoCoins
deriving DecidableEq, Repr

/-- Modelled from the spec: `ParseCoin` of `types/coin.go` on the characters of a string:
after trimming, an amount of one or more digits, optional white space, and a valid
denomination up to the end (the cases of `TestParse`). -/
def parseCoin (coinStr : List Char) : Option Coin :=
  let t := trimSpace coinStr
  let amountStr := t.takeWhile Char.isDigit
  let denomStr := (t.dropWhile Char.isDigit).dropWhile isSpace
  if amountStr = [] then none
  else if !validateDenom (String.mk denomStr) then none
  else some ⟨String.mk denomStr, (digitsValue amountStr : Nat)⟩

/-- Modelled from the spec: `ParseCoin` of `types/coin.go`; on an error the coin returned is
the zero value. -/
def ParseCoin (coinStr : String) : Coin × Option ParseError :=
  match parseCoin coinStr.toList with
  | none => (⟨"", 0⟩, some ParseError.InvalidCoinExpression)
  | some coin => (coin, none)

/-- Modelled from the spec: the loop of `ParseCoins` over the comma-separated elements:
every element has to parse. -/
def parseElements : List (List Char) → Option Coins
  | [] => some []
  | e :: es =>
    match parseCoin e with
    | none => none
    | some coin =>
      match parseElements es with
      | none => none
      | some coins => some (coin :: coins)

/-- Modelled from the spec: `ParseCoins` of `types/coin.go`: the empty string (after
trimming) is the nil coin set; otherwise every comma-separated element is parsed, the coins
are sorted, and a result that is not a valid coin set is an error (the cases of
`TestParse`). -/
def ParseCoins (coinsStr : String) : Coins × Option ParseError :=
  let t := trimSpace coinsStr.toList
  if t = [] then ([], none)
  else
    match parseElements (splitOn ',' t) with
    | none => ([], some ParseError.InvalidCoinExpression)
    | some coins =>
      let sorted := Coins.Sort coins
      if !Coins.IsValid sorted then ([], some ParseError.InvalidCoins)
      else (sorted, none)

/-- Modelled from the spec: `ParsePositiveCoins` of `types/coin.go`: `ParseCoins` whose
result has to be a positive coin set, so not empty (`TestParse`). -/
def ParsePositiveCoins (coinsStr : String) : Coins × Option ParseError :=
  match ParseCoins coinsStr with
  | (coins, none) =>
    if !Coins.IsPositive coins then ([], some ParseError.NoCoins) else (coins, none)
  | (_, some err) => ([], some err)

/-- Modelled from the spec: the decimal digit of a number below ten. -/
def digitChar (d : Nat) : Char :=
  ['0', '1', '2', '3', '4', '5', '6', '7', '8', '9'].getD (d % 10) '0'

/-- Modelled from the spec: the decimal digits of a natural number in front of `acc`, most
significant first. -/
def decimalAux : Nat → Nat → List Char → List Char
  | 0, _, acc => acc
  | fuel + 1, n, acc =>
    if n / 10 = 0 then digitChar n :: acc
    else decimalAux fuel (n / 10) (digitChar n :: acc)

/-- Modelled from the spec: the decimal representation of a natural number. -/
def decimal (n : Nat) : List Char := decimalAux (n + 1) n []

/-- Modelled from the spec: the decimal representation of an `sdk.Int`. -/
def intChars (i : Int) : List Char :=
  if i < 0 then '-' :: decimal i.natAbs else decimal i.natAbs

/-- Modelled from the spec: the characters of `Coin.String`: nothing for a zero amount,
otherwise the amount followed by the denomination (`TestCoinString`). -/
def coinChars (coin : Coin) : List Char :=
  if coin.IsZero then [] else intChars coin.Amount ++ coin.Denom.toList

/-- Modelled from the spec: the elements of a list of strings joined by commas. -/
def joinComma : List (List Char) → List Char
  | [] => []
  | [e] => e
  | e :: es => e ++ ',' :: joinComma es

/-- Modelled from the spec: the characters of `Coins.String`: the coins with a non-zero
amount in ascending order of denomination, each as amount and denomination, separated by
commas (`TestCoinsString`). -/
def coinsChars (coins : Coins) : List Char :=
  joinComma ((removeZeroCoins (Coins.Sort coins)).map coinChars)

/-- Modelled from the spec: `Coin.String` of `types/coin.go`. -/
def Coin.String (coin : Coin) := String.mk (coinChars coin)

/-- Modelled from the spec: `Coins.String` of `types/coin.go`. -/
def Coins.String (coins : Coins) := String.mk (coinsChars coins)

end sdk

namespace staking

/-- Modelled from the spec: the number of decimal places of `sdk.Dec`. -/
def Precision : Nat := 18

/-- Modelled from the spec: `Int.ToDec`: the decimal of an integer. -/
def ToDec (i : Int) : Dec := ⟨i * 10 ^ Precision⟩

/-- Modelled from the spec: `Dec.Add`. -/
def Dec.Add (d d2 : Dec) : Dec := ⟨d.Mantissa + d2.Mantissa⟩

/-- Modelled from the spec: `Dec.MulInt`: a decimal times an integer. -/
def Dec.MulInt (d : Dec) (i : Int) : Dec := ⟨d.Mantissa * i⟩

/-- Modelled from the spec: `Dec.QuoInt`: a decimal divided by an integer, "rounds down";
a division by zero panics. -/
def Dec.QuoInt (d : Dec) (i : Int) : Option Dec :=
  if i = 0 then none else some ⟨Int.fdiv d.Mantissa i⟩

/-- Modelled from the spec: `AddTokensFromDelegation(validator, amount) -> (validator',
issuedShares)` of §4.1 (`Validator.AddTokensFromDel` of `x/staking/types`, which the tests
call with the pool as a further argument and result; the spec gives the operation without
the pool): "if delegatorShares == 0, issuing rate is 1 share per token (bootstrap case);
else issuedShares = amount * delegatorShares / tokens. Rounds down. Mutates tokens +=
amount, delegatorShares += issuedShares". -/
def Validator.AddTokensFromDelegation (v : Validator) (amount : Int) :
    Option (Validator × Dec) :=
  let issued : Option Dec :=
    if v.DelegatorShares.IsZero then some (ToDec amount)
    else (v.DelegatorShares.MulInt amount).QuoInt v.Tokens
  match issued with
  | none => none
  | some issuedShares =>
    some ({ v with Tokens := v.Tokens + amount,
                   DelegatorShares := v.DelegatorShares.Add issuedShares }, issuedShares)

/-- Modelled from the spec: the pool after tokens have moved from the not-bonded counter to
the bonded counter. -/
def Pool.notBondedTokensToBonded (p : Pool) (tokens : Int) : Pool :=
  { NotBondedTokens := p.NotBondedTokens - tokens, BondedTokens := p.BondedTokens + tokens }

/-- Modelled from the spec: the pool after tokens have moved from the bonded counter to the
not-bonded counter. -/
def Pool.bondedTokensToNotBonded (p : Pool) (tokens : Int) : Pool :=
  { NotBondedTokens := p.NotBondedTokens + tokens, BondedTokens := p.BondedTokens - tokens }

/-- Modelled from the spec: `UpdateStatus(validator, newStatus, pool) -> (validator',
pool')` of §4.1 (`Validator.UpdateStatus` of `x/staking/types`): "moves the validator's
token total between the bonded and not-bonded pool counters according to the status
transition (Bonded↔{Unbonding,Unbonded} moves tokens between pool buckets; no-op if status
is unchanged)". -/
def Validator.UpdateStatus (v : Validator) (pool : Pool) (NewStatus : BondStatus) :
    Validator × Pool :=
  match v.Status, NewStatus with
  | BondStatus.Unbonded, BondStatus.Unbonded => (v, pool)
  | BondStatus.Unbonded, BondStatus.Bonded =>
    ({ v with Status := NewStatus }, pool.notBondedTokensToBonded v.Tokens)
  | BondStatus.Unbonded, BondStatus.Unbonding => ({ v with Status := NewStatus }, pool)
  | BondStatus.Unbonding, BondStatus.Unbonding => (v, pool)
  | BondStatus.Unbonding, BondStatus.Bonded =>
    ({ v with Status := NewStatus }, pool.notBondedTokensToBonded v.Tokens)
  | BondStatus.Unbonding, BondStatus.Unbonded => ({ v with Status := NewStatus }, pool)
  | BondStatus.Bonded, BondStatus.Bonded => (v, pool)
  | BondStatus.Bonded, _ =>
    ({ v with Status := NewStatus }, pool.bondedTokensToNotBonded v.Tokens)

end staking

namespace staking

/-- A validator without tokens and shares, as `NewValidator` creates it. -/
def validatorFresh : Validator :=
  { validatorOne with Status := BondStatus.Unbonded, Tokens := 0, DelegatorShares := ⟨0⟩ }

/-- A validator with delegator shares and no tokens. -/
def validatorTokenless : Validator :=
  { validatorOne with Status := BondStatus.Unbonded, Tokens := 0, DelegatorShares := ⟨9⟩ }

/-- A validator whose shares are not a multiple of its tokens. -/
def validatorThirds : Validator :=
  { validatorOne with Tokens := 3, DelegatorShares := ⟨10⟩ }

end staking

namespace bank

open sdk auth

/-- A ledger in which `[1]` is a vesting account whose stored balance is not sorted by
denomination; its btc is still vesting. -/
def ledgerVestingUnsorted : AccountKeeper :=
  AccountKeeper.SetAccount ∅ [1]
    { Coins := [⟨"btc", 1⟩, ⟨"atom", 1⟩],
      Vesting := some { OriginalVesting := [⟨"btc", 1⟩], DelegatedFree := [],
                        DelegatedVesting := [], EndTime := 100 } }

end bank

namespace sdk

/-- Modelled from the spec: `Coins.IsEqual` of `types/coin.go`: the two coin lists hold the
same coins once sorted (the cases of `TestEqualCoins`). -/
def Coins.IsEqual (coins coinsB : Coins) : Bool :=
  decide (Coins.Sort coins = Coins.Sort coinsB)

end sdk

namespace bank

open sdk auth

/-- Modelled from the spec: `types.Input` of `x/bank/types`: an address and the coins to
take from it. -/
structure Input where
  Address : AccAddress
  Coins : sdk.Coins
deriving DecidableEq, Repr

/-- Modelled from the spec: `types.Output` of `x/bank/types`: an address and the coins to
give to it. -/
structure Output where
  Address : AccAddress
  Coins : sdk.Coins
deriving DecidableEq, Repr

/-- Modelled from the spec: `types.ValidateInputsOutputs` of `x/bank/types`, which
`inputOutputCoins` calls to "check supply invariant and validity of Coins": the coins of
every input and of every output are a valid coin set, and the total of the inputs equals
the total of the outputs. -/
def ValidateInputsOutputs (inputs : List Input) (outputs : List Output) : Option Error :=
  if inputs.any (fun inp => !Coins.IsValid inp.Coins) then some Error.ErrInvalidCoins
  else if outputs.any (fun out => !Coins.IsValid out.Coins) then some Error.ErrInvalidCoins
  else
    let totalIn := inputs.foldl (fun total inp => Coins.Add total inp.Coins) []
    let totalOut := outputs.foldl (fun total out => Coins.Add total out.Coins) []
    if !Coins.IsEqual totalIn totalOut then some Error.ErrInputOutputMismatch else none

/-- The loop of `inputOutputCoins` over the inputs: every input is subtracted from its
address and adds a sender tag; the first error ends the loop, with the ledger as the
earlier inputs have left it. -/
def subtractInputs (ctx : Context) :
    AccountKeeper → Tags → List Input → Option (AccountKeeper × Tags × Option Error)
  | am, allTags, [] => some (am, allTags, none)
  | am, allTags, inp :: rest =>
    match subtractCoins ctx am inp.Address inp.Coins with
    | none => none
    | some (am1, _, some err) => some (am1, [], some err)
    | some (am1, _, none) => subtractInputs ctx am1 (allTags ++ [Tag.Sender inp.Address]) rest

/-- The loop of `inputOutputCoins` over the outputs: every output is added to its address
and adds a recipient tag; the first error ends the loop. -/
def addOutputs :
    AccountKeeper → Tags → List Output → Option (AccountKeeper × Tags × Option Error)
  | am, allTags, [] => some (am, allTags, none)
  | am, allTags, out :: rest =>
    match addCoins am out.Address out.Coins with
    | none => none
    | some (am1, _, some err) => some (am1, [], some err)
    | some (am1, _, none) => addOutputs am1 (allTags ++ [Tag.Recipient out.Address]) rest

/-- InputOutputCoins handles a list of inputs and outputs.
NOTE: Make sure to revert state changes from tx on error. -/
def inputOutputCoins (ctx : Context) (am : AccountKeeper) (inputs : List Input)
    (outputs : List Output) : Option (AccountKeeper × Tags × Option Error) :=
  match ValidateInputsOutputs inputs outputs with
  | some err => some (am, [], some err)
  | none =>
    match subtractInputs ctx am [] inputs with
    | none => none
    | some (am1, _, some err) => some (am1, [], some err)
    | some (am1, allTags, none) => addOutputs am1 allTags outputs

/-- `BaseKeeper.InputOutputCoins` handles a list of inputs and outputs. -/
def InputOutputCoins (ctx : Context) (ak : AccountKeeper) (inputs : List Input)
    (outputs : List Output) : Option (AccountKeeper × Tags × Option Error) :=
  inputOutputCoins ctx ak inputs outputs

/-- The amount of a denomination that a list of inputs takes from an address. -/
def debited (inputs : List Input) (addr : AccAddress) (denom : String) : Int :=
  (inputs.map (fun inp => if inp.Address = addr then Coins.amount inp.Coins denom else 0)).sum

/-- The amount of a denomination that a list of outputs gives to an address. -/
def credited (outputs : List Output) (addr : AccAddress) (denom : String) : Int :=
  (outputs.map (fun out => if out.Address = addr then Coins.amount out.Coins denom else 0)).sum

/-- Every balance stored in the ledger is a valid coin set. -/
def balancesValid (ak : AccountKeeper) : Bool :=
  (AccountKeeper.IterateAccounts ak).all (fun acc => Coins.IsValid acc.GetCoins)

end bank

namespace staking

open sdk auth

/-- The recorded call inserts a validator into the validator unbonding queue. -/
def KeeperCall.IsValidatorQueueInsert : KeeperCall → Bool
  | KeeperCall.InsertValidatorQueue _ => true
  | _ => false

/-- A validator that is unbonding, with its unbonding completing at time 50. -/
def validatorUnbonding : Validator :=
  { validatorTwo with Status := BondStatus.Unbonding, UnbondingCompletionTime := 50 }

/-- A validator that is unbonding, with tokens and without delegator shares. -/
def validatorShareless : Validator :=
  { validatorTwo with Status := BondStatus.Unbonding, DelegatorShares := ⟨0⟩ }

/-- A genesis state with a bonded and an unbonding validator. -/
def genesisUnbonding : GenesisState :=
  { genesisFresh with Validators := [validatorOne, validatorUnbonding] }

/-- A genesis state whose validators break the invariant of tokens and shares: the first
has shares and no tokens, the second has tokens and no shares. -/
def genesisTokenless : GenesisState :=
  { Pool := ⟨10, 0⟩, Params := paramsExample, LastTotalPower := 0, LastValidatorPowers := [],
    Validators := [validatorTokenless, validatorShareless], Delegations := [],
    UnbondingDelegations := [], Redelegations := [], Exported := false }

/-- A validator set updater for the examples: it leaves the keeper as it is and returns the
update of every stored validator. -/
def updaterAll : Updater :=
  fun _ keeper => some (keeper, keeper.GetAllValidators.map Validator.ABCIValidatorUpdate)

end staking

/-! # Lemmas and theorems -/

/-! ## Coin sets: the arithmetic of `safeAdd` -/

namespace sdk

theorem safeAdd_nil_left (b : Coins) : Coins.safeAdd [] b = removeZeroCoins b := rfl

theorem safeAdd_nil_right (a : Coin) (as : Coins) :
    Coins.safeAdd (a :: as) [] = removeZeroCoins (a :: as) := rfl

theorem safeAdd_cons_cons (a : Coin) (as : Coins) (b : Coin) (bs : Coins) :
    Coins.safeAdd (a :: as) (b :: bs) =
      if a.Denom.toList < b.Denom.toList then consNonZero a (Coins.safeAdd as (b :: bs))
      else if a.Denom = b.Denom then
        consNonZero ⟨a.Denom, a.Amount + b.Amount⟩ (Coins.safeAdd as bs)
      else consNonZero b (Coins.safeAdd (a :: as) bs) := rfl

/-- Induction along the merge of `safeAdd`. -/
theorem safeAdd_induction {P : Coins → Coins → Prop}
    (nil_left : ∀ b, P [] b)
    (nil_right : ∀ a as, P (a :: as) [])
    (step_lt : ∀ a as b bs, a.Denom.toList < b.Denom.toList →
      P as (b :: bs) → P (a :: as) (b :: bs))
    (step_eq : ∀ a as b bs, ¬ a.Denom.toList < b.Denom.toList → a.Denom = b.Denom →
      P as bs → P (a :: as) (b :: bs))
    (step_gt : ∀ a as b bs, ¬ a.Denom.toList < b.Denom.toList → a.Denom ≠ b.Denom →
      P (a :: as) bs → P (a :: as) (b :: bs)) :
    ∀ a b, P a b := by
  intro a
  induction a with
  | nil => exact nil_left
  | cons a as iha =>
    intro b
    induction b with
    | nil => exact nil_right a as
    | cons b bs ihb =>
      by_cases h1 : a.Denom.toList < b.Denom.toList
      · exact step_lt a as b bs h1 (iha _)
      · by_cases h2 : a.Denom = b.Denom
        · exact step_eq a as b bs h1 h2 (iha _)
        · exact step_gt a as b bs h1 h2 ihb

theorem amount_cons (c : Coin) (cs : Coins) (d : String) :
    Coins.amount (c :: cs) d = (if c.Denom = d then c.Amount else 0) + Coins.amount cs d := rfl

theorem amount_nil (d : String) : Coins.amount [] d = 0 := rfl

theorem amount_removeZeroCoins (l : Coins) (d : String) :
    Coins.amount (removeZeroCoins l) d = Coins.amount l d := by
  induction l with
  | nil => rfl
  | cons c cs ih =>
    by_cases hz : c.Amount = 0
    · have : removeZeroCoins (c :: cs) = removeZeroCoins cs := by
        simp [removeZeroCoins, Coin.IsZero, hz]
      rw [this, ih, amount_cons, hz]; simp
    · have : removeZeroCoins (c :: cs) = c :: removeZeroCoins cs := by
        simp [removeZeroCoins, Coin.IsZero, hz]
      rw [this, amount_cons, amount_cons, ih]

theorem amount_consNonZero (c : Coin) (l : Coins) (d : String) :
    Coins.amount (consNonZero c l) d = (if c.Denom = d then c.Amount else 0) + Coins.amount l d := by
  by_cases hz : c.Amount = 0
  · simp [consNonZero, Coin.IsZero, hz]
  · simp [consNonZero, Coin.IsZero, hz, amount_cons]

/-- Addition of coin sets adds up the amounts of every denomination, whatever the order
of the lists. -/
theorem amount_safeAdd (a b : Coins) (d : String) :
    Coins.amount (Coins.safeAdd a b) d = Coins.amount a d + Coins.amount b d := by
  revert a b
  apply safeAdd_induction
  · intro b; rw [safeAdd_nil_left, amount_removeZeroCoins, amount_nil]; simp
  · intro a as; rw [safeAdd_nil_right, amount_removeZeroCoins, amount_nil]; simp
  · intro a as b bs h1 ih
    rw [safeAdd_cons_cons, if_pos h1, amount_consNonZero, ih, amount_cons a as]; ring
  · intro a as b bs h1 h2 ih
    rw [safeAdd_cons_cons, if_neg h1, if_pos h2, amount_consNonZero, ih, amount_cons a as,
      amount_cons b bs]
    simp only [h2]
    split <;> ring
  · intro a as b bs h1 h2 ih
    rw [safeAdd_cons_cons, if_neg h1, if_neg h2, amount_consNonZero, ih, amount_cons b bs]; ring

theorem amount_negative (b : Coins) (d : String) :
    Coins.amount (Coins.negative b) d = - Coins.amount b d := by
  induction b with
  | nil => rfl
  | cons c cs ih =>
    have : Coins.negative (c :: cs) = ⟨c.Denom, - c.Amount⟩ :: Coins.negative cs := rfl
    rw [this, amount_cons, amount_cons, ih]
    by_cases hd : c.Denom = d
    · simp only [hd, if_true]; ring
    · simp only [hd, if_false]; ring

theorem amount_Add (a b : Coins) (d : String) :
    Coins.amount (Coins.Add a b) d = Coins.amount a d + Coins.amount b d :=
  amount_safeAdd a b d

theorem amount_SafeSub (a b : Coins) (d : String) :
    Coins.amount (Coins.SafeSub a b).1 d = Coins.amount a d - Coins.amount b d := by
  show Coins.amount (Coins.safeAdd a (Coins.negative b)) d = _
  rw [amount_safeAdd, amount_negative]; ring

theorem Sub_eq_some {a b r : Coins} (h : Coins.Sub a b = some r) :
    r = (Coins.SafeSub a b).1 ∧ (Coins.SafeSub a b).2 = false := by
  unfold Coins.Sub at h
  by_cases h2 : (Coins.SafeSub a b).2 = true
  · simp [h2] at h
  · simp [h2] at h
    exact ⟨h.symm, by simpa using h2⟩

theorem amount_Sub {a b r : Coins} (h : Coins.Sub a b = some r) (d : String) :
    Coins.amount r d = Coins.amount a d - Coins.amount b d := by
  rw [(Sub_eq_some h).1, amount_SafeSub]

end sdk

namespace sdk

theorem mem_removeZeroCoins {x : Coin} {l : Coins} :
    x ∈ removeZeroCoins l ↔ x ∈ l ∧ x.Amount ≠ 0 := by
  simp [removeZeroCoins, Coin.IsZero]

theorem mem_consNonZero {x c : Coin} {l : Coins} :
    x ∈ consNonZero c l ↔ (x = c ∧ c.Amount ≠ 0) ∨ x ∈ l := by
  by_cases hz : c.Amount = 0
  · simp [consNonZero, Coin.IsZero, hz]
  · simp [consNonZero, Coin.IsZero, hz]

/-- Every coin of a sum is non-zero and has a denomination of one of the summands. -/
theorem mem_safeAdd (a b : Coins) :
    ∀ x ∈ Coins.safeAdd a b,
      x.Amount ≠ 0 ∧ ((∃ y ∈ a, y.Denom = x.Denom) ∨ (∃ y ∈ b, y.Denom = x.Denom)) := by
  revert a b
  apply safeAdd_induction
  · intro b x hx
    rw [safeAdd_nil_left, mem_removeZeroCoins] at hx
    exact ⟨hx.2, Or.inr ⟨x, hx.1, rfl⟩⟩
  · intro a as x hx
    rw [safeAdd_nil_right, mem_removeZeroCoins] at hx
    exact ⟨hx.2, Or.inl ⟨x, hx.1, rfl⟩⟩
  · intro a as b bs h1 ih x hx
    rw [safeAdd_cons_cons, if_pos h1, mem_consNonZero] at hx
    rcases hx with ⟨rfl, hz⟩ | hx
    · exact ⟨hz, Or.inl ⟨x, List.mem_cons_self _ _, rfl⟩⟩
    · rcases ih x hx with ⟨hz, ⟨y, hy, hd⟩ | h⟩
      · exact ⟨hz, Or.inl ⟨y, List.mem_cons_of_mem _ hy, hd⟩⟩
      · exact ⟨hz, Or.inr h⟩
  · intro a as b bs h1 h2 ih x hx
    rw [safeAdd_cons_cons, if_neg h1, if_pos h2, mem_consNonZero] at hx
    rcases hx with ⟨rfl, hz⟩ | hx
    · exact ⟨hz, Or.inl ⟨a, List.mem_cons_self _ _, rfl⟩⟩
    · rcases ih x hx with ⟨hz, ⟨y, hy, hd⟩ | ⟨y, hy, hd⟩⟩
      · exact ⟨hz, Or.inl ⟨y, List.mem_cons_of_mem _ hy, hd⟩⟩
      · exact ⟨hz, Or.inr ⟨y, List.mem_cons_of_mem _ hy, hd⟩⟩
  · intro a as b bs h1 h2 ih x hx
    rw [safeAdd_cons_cons, if_neg h1, if_neg h2, mem_consNonZero] at hx
    rcases hx with ⟨rfl, hz⟩ | hx
    · exact ⟨hz, Or.inr ⟨x, List.mem_cons_self _ _, rfl⟩⟩
    · rcases ih x hx with ⟨hz, h | ⟨y, hy, hd⟩⟩
      · exact ⟨hz, Or.inl h⟩
      · exact ⟨hz, Or.inr ⟨y, List.mem_cons_of_mem _ hy, hd⟩⟩

theorem Above_safeAdd {x : List Char} {a b : Coins} (ha : Coins.Above x a)
    (hb : Coins.Above x b) : Coins.Above x (Coins.safeAdd a b) := by
  intro c hc
  rcases (mem_safeAdd a b c hc).2 with ⟨y, hy, hd⟩ | ⟨y, hy, hd⟩
  · rw [← hd]; exact ha y hy
  · rw [← hd]; exact hb y hy

theorem Sorted_cons {c : Coin} {l : Coins} :
    Coins.Sorted (c :: l) ↔ Coins.Above c.Denom.toList l ∧ Coins.Sorted l := by
  unfold Coins.Sorted Coins.Above
  exact List.pairwise_cons

theorem Sorted_nil : Coins.Sorted [] := List.Pairwise.nil

theorem Sorted_consNonZero {c : Coin} {l : Coins} (h1 : Coins.Above c.Denom.toList l)
    (h2 : Coins.Sorted l) : Coins.Sorted (consNonZero c l) := by
  unfold consNonZero
  split
  · exact h2
  · exact Sorted_cons.2 ⟨h1, h2⟩

theorem Sorted_removeZeroCoins {l : Coins} (h : Coins.Sorted l) :
    Coins.Sorted (removeZeroCoins l) :=
  List.Pairwise.sublist (List.filter_sublist l) h

theorem Above_trans {x y : List Char} {l : Coins} (hxy : x < y) (h : Coins.Above y l) :
    Coins.Above x l := fun c hc => lt_trans hxy (h c hc)

theorem Above_cons {x : List Char} {c : Coin} {l : Coins} :
    Coins.Above x (c :: l) ↔ x < c.Denom.toList ∧ Coins.Above x l := by
  simp [Coins.Above]

theorem denom_lt_of_not_lt {a b : Coin} (h1 : ¬ a.Denom.toList < b.Denom.toList)
    (h2 : a.Denom ≠ b.Denom) : b.Denom.toList < a.Denom.toList := by
  rcases lt_trichotomy a.Denom.toList b.Denom.toList with h | h | h
  · exact absurd h h1
  · exact absurd (String.ext h) h2
  · exact h

/-- The sum of two coin sets sorted by denomination is sorted by denomination. -/
theorem Sorted_safeAdd (a b : Coins) :
    Coins.Sorted a → Coins.Sorted b → Coins.Sorted (Coins.safeAdd a b) := by
  revert a b
  apply safeAdd_induction
  · intro b _ hb; exact Sorted_removeZeroCoins hb
  · intro a as ha _; exact Sorted_removeZeroCoins ha
  · intro a as b bs h1 ih ha hb
    rw [safeAdd_cons_cons, if_pos h1]
    obtain ⟨ha1, ha2⟩ := Sorted_cons.1 ha
    obtain ⟨hb1, _⟩ := Sorted_cons.1 hb
    exact Sorted_consNonZero
      (Above_safeAdd ha1 (Above_cons.2 ⟨h1, Above_trans h1 hb1⟩)) (ih ha2 hb)
  · intro a as b bs h1 h2 ih ha hb
    rw [safeAdd_cons_cons, if_neg h1, if_pos h2]
    obtain ⟨ha1, ha2⟩ := Sorted_cons.1 ha
    obtain ⟨hb1, hb2⟩ := Sorted_cons.1 hb
    refine Sorted_consNonZero (Above_safeAdd ha1 ?_) (ih ha2 hb2)
    show Coins.Above a.Denom.toList bs
    rw [h2]; exact hb1
  · intro a as b bs h1 h2 ih ha hb
    rw [safeAdd_cons_cons, if_neg h1, if_neg h2]
    obtain ⟨ha1, _⟩ := Sorted_cons.1 ha
    obtain ⟨hb1, hb2⟩ := Sorted_cons.1 hb
    have hlt := denom_lt_of_not_lt h1 h2
    exact Sorted_consNonZero
      (Above_safeAdd (Above_cons.2 ⟨hlt, Above_trans hlt ha1⟩) hb1) (ih ha hb2)

theorem Sorted_negative {b : Coins} (h : Coins.Sorted b) : Coins.Sorted (Coins.negative b) := by
  unfold Coins.Sorted Coins.negative
  rw [List.pairwise_map]
  exact h

theorem amount_eq_zero_of_Above {l : Coins} {d : String} (h : Coins.Above d.toList l) :
    Coins.amount l d = 0 := by
  induction l with
  | nil => rfl
  | cons c cs ih =>
    obtain ⟨h1, h2⟩ := Above_cons.1 h
    have hne : c.Denom ≠ d := by
      intro he; rw [he] at h1; exact lt_irrefl _ h1
    rw [amount_cons, if_neg hne, ih h2]; simp

/-- In a coin set sorted by denomination a coin carries the whole amount of its
denomination. -/
theorem amount_of_mem_Sorted {l : Coins} (hs : Coins.Sorted l) {c : Coin} (hc : c ∈ l) :
    Coins.amount l c.Denom = c.Amount := by
  induction l with
  | nil => simp at hc
  | cons x xs ih =>
    obtain ⟨h1, h2⟩ := Sorted_cons.1 hs
    rcases List.mem_cons.1 hc with rfl | hc
    · rw [amount_cons, if_pos rfl, amount_eq_zero_of_Above h1]; simp
    · have hne : x.Denom ≠ c.Denom := by
        intro he
        have := h1 c hc
        rw [he] at this; exact lt_irrefl _ this
      rw [amount_cons, if_neg hne, ih h2 hc]; simp

theorem IsAnyNegative_iff {l : Coins} :
    Coins.IsAnyNegative l = true ↔ ∃ c ∈ l, c.Amount < 0 := by
  simp [Coins.IsAnyNegative, Coin.IsNegative]

theorem IsAnyNegative_eq_false_iff {l : Coins} :
    Coins.IsAnyNegative l = false ↔ ∀ c ∈ l, 0 ≤ c.Amount := by
  rw [← Bool.not_eq_true, IsAnyNegative_iff]
  simp

theorem exists_neg_of_amount_neg {l : Coins} {d : String} (h : Coins.amount l d < 0) :
    ∃ c ∈ l, c.Amount < 0 := by
  induction l with
  | nil => simp [amount_nil] at h
  | cons x xs ih =>
    rw [amount_cons] at h
    by_cases hx : x.Amount < 0
    · exact ⟨x, List.mem_cons_self _ _, hx⟩
    · have h0 : 0 ≤ (if x.Denom = d then x.Amount else 0) := by
        split
        · exact not_lt.1 hx
        · exact le_refl _
      obtain ⟨c, hc, hn⟩ := ih (by linarith)
      exact ⟨c, List.mem_cons_of_mem _ hc, hn⟩

/-- For coin sets sorted by denomination, `SafeSub` reports a negative amount exactly when
the first set is smaller than the second in some denomination. -/
theorem SafeSub_hasNeg_iff {a b : Coins} (ha : Coins.Sorted a) (hb : Coins.Sorted b) :
    (Coins.SafeSub a b).2 = true ↔ ∃ d, Coins.amount a d < Coins.amount b d := by
  show Coins.IsAnyNegative (Coins.SafeSub a b).1 = true ↔ _
  rw [IsAnyNegative_iff]
  constructor
  · rintro ⟨c, hc, hn⟩
    refine ⟨c.Denom, ?_⟩
    have hs : Coins.Sorted (Coins.SafeSub a b).1 := Sorted_safeAdd a _ ha (Sorted_negative hb)
    have := amount_of_mem_Sorted hs hc
    rw [amount_SafeSub] at this
    linarith
  · rintro ⟨d, hd⟩
    apply exists_neg_of_amount_neg (d := d)
    rw [amount_SafeSub]; linarith

theorem isSortedByDenom_iff (l : Coins) : Coins.isSortedByDenom l = true ↔ Coins.Sorted l := by
  induction l with
  | nil => simp [Coins.isSortedByDenom, Sorted_nil]
  | cons a t ih =>
    cases t with
    | nil => simp [Coins.isSortedByDenom, Coins.Sorted]
    | cons b rest =>
      rw [Sorted_cons, ← ih]
      simp only [Coins.isSortedByDenom, Bool.and_eq_true, decide_eq_true_eq]
      constructor
      · rintro ⟨h1, h2⟩
        refine ⟨?_, h2⟩
        have hb := (Sorted_cons.1 (ih.1 h2)).1
        exact Above_cons.2 ⟨h1, Above_trans h1 hb⟩
      · rintro ⟨h1, h2⟩
        exact ⟨(Above_cons.1 h1).1, h2⟩

/-- What `IsValid` decides: valid denominations, strictly positive amounts, strictly
ascending denominations. -/
theorem IsValid_iff (l : Coins) :
    Coins.IsValid l = true ↔
      (∀ c ∈ l, validateDenom c.Denom = true ∧ 0 < c.Amount) ∧ Coins.Sorted l := by
  unfold Coins.IsValid
  rw [Bool.and_eq_true, isSortedByDenom_iff]
  simp [Coin.IsPositive]

theorem amount_nonneg_of_IsValid {l : Coins} (h : Coins.IsValid l = true) (d : String) :
    0 ≤ Coins.amount l d := by
  by_contra hn
  obtain ⟨c, hc, hneg⟩ := exists_neg_of_amount_neg (not_le.1 hn)
  have := (((IsValid_iff l).1 h).1 c hc).2
  linarith

/-- The sum of two valid coin sets is a valid coin set without a negative amount. -/
theorem IsValid_Add {a b : Coins} (ha : Coins.IsValid a = true) (hb : Coins.IsValid b = true) :
    Coins.IsValid (Coins.Add a b) = true ∧ Coins.IsAnyNegative (Coins.Add a b) = false := by
  obtain ⟨ha1, ha2⟩ := (IsValid_iff a).1 ha
  obtain ⟨hb1, hb2⟩ := (IsValid_iff b).1 hb
  have hs : Coins.Sorted (Coins.Add a b) := Sorted_safeAdd a b ha2 hb2
  have hpos : ∀ c ∈ Coins.Add a b, validateDenom c.Denom = true ∧ 0 < c.Amount := by
    intro c hc
    obtain ⟨hz, hd⟩ := mem_safeAdd a b c hc
    constructor
    · rcases hd with ⟨y, hy, hd⟩ | ⟨y, hy, hd⟩
      · rw [← hd]; exact (ha1 y hy).1
      · rw [← hd]; exact (hb1 y hy).1
    · have h1 := amount_of_mem_Sorted hs hc
      rw [amount_Add] at h1
      have h2 := amount_nonneg_of_IsValid ha c.Denom
      have h3 := amount_nonneg_of_IsValid hb c.Denom
      omega
  refine ⟨(IsValid_iff _).2 ⟨hpos, hs⟩, ?_⟩
  rw [IsAnyNegative_eq_false_iff]
  intro c hc
  exact le_of_lt (hpos c hc).2

/-- The difference of two valid coin sets is a valid coin set when it has no negative
amount. -/
theorem IsValid_SafeSub {a b : Coins} (ha : Coins.IsValid a = true)
    (hb : Coins.IsValid b = true) (hn : (Coins.SafeSub a b).2 = false) :
    Coins.IsValid (Coins.SafeSub a b).1 = true := by
  obtain ⟨ha1, ha2⟩ := (IsValid_iff a).1 ha
  obtain ⟨hb1, hb2⟩ := (IsValid_iff b).1 hb
  have hs : Coins.Sorted (Coins.SafeSub a b).1 := Sorted_safeAdd a _ ha2 (Sorted_negative hb2)
  have hnn : ∀ c ∈ (Coins.SafeSub a b).1, 0 ≤ c.Amount := IsAnyNegative_eq_false_iff.1 hn
  refine (IsValid_iff _).2 ⟨?_, hs⟩
  intro c hc
  obtain ⟨hz, hd⟩ := mem_safeAdd a _ c hc
  constructor
  · rcases hd with ⟨y, hy, hd⟩ | ⟨y, hy, hd⟩
    · rw [← hd]; exact (ha1 y hy).1
    · obtain ⟨z, hz1, hz2⟩ := List.mem_map.1 hy
      rw [← hd, ← hz2]; exact (hb1 z hz1).1
  · have := hnn c hc
    omega

end sdk

/-! ## The account ledger -/

namespace auth

open sdk

theorem GetAccount_SetAccount_same (ak : AccountKeeper) (addr : AccAddress) (acc : Account) :
    AccountKeeper.GetAccount (AccountKeeper.SetAccount ak addr acc) addr = some acc := by
  simp [AccountKeeper.GetAccount, AccountKeeper.SetAccount]

theorem GetAccount_SetAccount_ne (ak : AccountKeeper) {addr other : AccAddress} (acc : Account)
    (h : other ≠ addr) :
    AccountKeeper.GetAccount (AccountKeeper.SetAccount ak addr acc) other =
      AccountKeeper.GetAccount ak other := by
  simp [AccountKeeper.GetAccount, AccountKeeper.SetAccount, AList.lookup_insert_ne h]

theorem sum_kerase (f : Account → Int) (a : AccAddress)
    (l : List (Sigma (fun _ : AccAddress => Account))) :
    ((List.kerase a l).map (fun e => f e.2)).sum
        + (match List.dlookup a l with
            | some v => f v
            | none => 0)
      = (l.map (fun e => f e.2)).sum := by
  induction l with
  | nil => simp
  | cons e t ih =>
    obtain ⟨k, v⟩ := e
    by_cases h : a = k
    · subst h
      simp [List.kerase_cons_eq, List.dlookup_cons_eq]
      ring
    · have h2 : k ≠ a := fun e => h e.symm
      rw [List.kerase_cons_ne h, List.dlookup_cons_ne _ _ h]
      simp only [List.map_cons, List.sum_cons]
      rw [← ih]; ring

theorem amount_map_le {f : Coin → Coin} (hd : ∀ c, (f c).Denom = c.Denom)
    (ha : ∀ c, (f c).Amount ≤ c.Amount) (l : Coins) (d : String) :
    Coins.amount (l.map f) d ≤ Coins.amount l d := by
  induction l with
  | nil => exact le_refl _
  | cons c cs ih =>
    rw [List.map_cons, amount_cons, amount_cons, hd]
    by_cases h : c.Denom = d
    · simp only [h, if_true]; have := ha c; linarith
    · simp only [h, if_false]; linarith

/-- The spendable coins of an account never exceed its coins. -/
theorem amount_SpendableCoins_le (acc : Account) (t : Int) (d : String) :
    Coins.amount (acc.SpendableCoins t) d ≤ Coins.amount acc.Coins d := by
  unfold Account.SpendableCoins
  cases acc.Vesting with
  | none => exact le_refl _
  | some v =>
    simp only
    rw [amount_removeZeroCoins]
    exact amount_map_le
      (f := fun c => ⟨c.Denom, min (c.Amount + Coins.amount v.DelegatedVesting c.Denom
        - Coins.amount (v.GetVestingCoins t) c.Denom) c.Amount⟩)
      (fun _ => rfl) (fun _ => min_le_right _ _) _ _

theorem Sorted_SpendableCoins {acc : Account} (h : Coins.Sorted acc.Coins) (t : Int) :
    Coins.Sorted (acc.SpendableCoins t) := by
  unfold Account.SpendableCoins
  cases acc.Vesting with
  | none => exact h
  | some v =>
    simp only
    apply Sorted_removeZeroCoins
    unfold Coins.Sorted
    rw [List.pairwise_map]
    exact h

end auth

namespace bank

open sdk auth

theorem getCoins_SetAccount_same (ak : AccountKeeper) (addr : AccAddress) (acc : Account) :
    getCoins (AccountKeeper.SetAccount ak addr acc) addr = acc.Coins := by
  simp [getCoins, GetAccount_SetAccount_same, Account.GetCoins]

theorem getCoins_SetAccount_ne (ak : AccountKeeper) {addr other : AccAddress} (acc : Account)
    (h : other ≠ addr) :
    getCoins (AccountKeeper.SetAccount ak addr acc) other = getCoins ak other := by
  simp [getCoins, GetAccount_SetAccount_ne ak acc h]

/-- Storing an account changes the supply by the difference of its new and old coins. -/
theorem totalSupply_SetAccount (ak : AccountKeeper) (addr : AccAddress) (acc : Account)
    (d : String) :
    totalSupply (AccountKeeper.SetAccount ak addr acc) d =
      totalSupply ak d - Coins.amount (getCoins ak addr) d + Coins.amount acc.Coins d := by
  have h := sum_kerase (fun a => Coins.amount a.GetCoins d) addr ak.entries
  unfold totalSupply AccountKeeper.IterateAccounts AccountKeeper.SetAccount
  rw [AList.insert_entries]
  simp only [List.map_map, List.map_cons, List.sum_cons, Function.comp_def]
  have h3 : Coins.amount (getCoins ak addr) d =
      (match List.dlookup addr ak.entries with
        | some v => Coins.amount v.GetCoins d
        | none => 0) := by
    unfold getCoins AccountKeeper.GetAccount AList.lookup
    cases List.dlookup addr ak.entries <;> rfl
  rw [h3, ← h]
  simp only [Account.GetCoins]
  ring

/-- The account that `setCoins` stores at `addr`. -/
theorem setCoins_valid (ak : AccountKeeper) (addr : AccAddress) {amt : Coins}
    (h : Coins.IsValid amt = true) :
    setCoins ak addr amt =
      some (AccountKeeper.SetAccount ak addr
        { Coins := amt, Vesting := (AccountKeeper.GetAccount ak addr).bind (fun a => a.Vesting) },
        none) := by
  unfold setCoins
  simp only [h, Bool.not_true, Bool.false_eq_true, if_false]
  cases AccountKeeper.GetAccount ak addr <;> rfl

theorem setCoins_invalid (ak : AccountKeeper) (addr : AccAddress) {amt : Coins}
    (h : Coins.IsValid amt = false) :
    setCoins ak addr amt = some (ak, some Error.ErrInvalidCoins) := by
  unfold setCoins
  simp [h]

end bank

/-! ## The bank keeper -/

namespace bank

open sdk auth

theorem oldAndSpendableCoins_fst (ctx : Context) (ak : AccountKeeper) (addr : AccAddress) :
    (oldAndSpendableCoins ctx ak addr).1 = getCoins ak addr := by
  unfold oldAndSpendableCoins getCoins getAccount
  cases AccountKeeper.GetAccount ak addr <;> rfl

theorem amount_spendable_le (ctx : Context) (ak : AccountKeeper) (addr : AccAddress)
    (d : String) :
    Coins.amount (oldAndSpendableCoins ctx ak addr).2 d ≤ Coins.amount (getCoins ak addr) d := by
  unfold oldAndSpendableCoins getCoins getAccount
  cases AccountKeeper.GetAccount ak addr with
  | none => exact le_refl _
  | some acc => exact amount_SpendableCoins_le acc _ d

theorem Sorted_spendable (ctx : Context) (ak : AccountKeeper) (addr : AccAddress)
    (h : Coins.Sorted (getCoins ak addr)) :
    Coins.Sorted (oldAndSpendableCoins ctx ak addr).2 := by
  unfold oldAndSpendableCoins getAccount
  unfold getCoins at h
  cases hacc : AccountKeeper.GetAccount ak addr with
  | none => exact Sorted_nil
  | some acc =>
    rw [hacc] at h
    exact Sorted_SpendableCoins h _

/-- The spendable coins of a plain account, and of no account, are the coins. -/
theorem spendable_eq_old (ctx : Context) (ak : AccountKeeper) (addr : AccAddress)
    (h : ∀ acc, AccountKeeper.GetAccount ak addr = some acc → acc.IsVesting = false) :
    (oldAndSpendableCoins ctx ak addr).2 = (oldAndSpendableCoins ctx ak addr).1 := by
  unfold oldAndSpendableCoins getAccount
  cases hacc : AccountKeeper.GetAccount ak addr with
  | none => rfl
  | some acc =>
    have := h acc hacc
    unfold Account.IsVesting at this
    simp only [Account.SpendableCoins, Account.GetCoins]
    cases hv : acc.Vesting with
    | none => rfl
    | some v => rw [hv] at this; simp at this

/-- The steps of `subtractCoins` for a valid amount. -/
theorem subtractCoins_of_valid (ctx : Context) (ak : AccountKeeper) (addr : AccAddress)
    {amt : Coins} (hv : Coins.IsValid amt = true) :
    subtractCoins ctx ak addr amt =
      if (Coins.SafeSub (oldAndSpendableCoins ctx ak addr).2 amt).2 then
        some (ak, amt, some Error.ErrInsufficientCoins)
      else
        match Coins.Sub (getCoins ak addr) amt with
        | none => none
        | some newCoins =>
          match setCoins ak addr newCoins with
          | none => none
          | some (ak1, err) => some (ak1, newCoins, err) := by
  unfold subtractCoins
  simp only [hv, Bool.not_true, Bool.false_eq_true, if_false, oldAndSpendableCoins_fst]

/-- When `subtractCoins` returns an error the ledger is the one it was given. -/
theorem subtractCoins_error_unchanged {ctx : Context} {ak ak1 : AccountKeeper}
    {addr : AccAddress} {amt c : Coins} {e : Error}
    (h : subtractCoins ctx ak addr amt = some (ak1, c, some e)) : ak1 = ak := by
  by_cases hv : Coins.IsValid amt = true
  · rw [subtractCoins_of_valid ctx ak addr hv] at h
    split at h
    · simp at h; exact h.1.symm
    · cases hs : Coins.Sub (getCoins ak addr) amt with
      | none => rw [hs] at h; simp at h
      | some newCoins =>
        rw [hs] at h
        dsimp only at h
        by_cases hn : Coins.IsValid newCoins = true
        · rw [setCoins_valid ak addr hn] at h; simp at h
        · rw [setCoins_invalid ak addr (by simpa using hn)] at h
          simp at h; exact h.1.symm
  · unfold subtractCoins at h
    simp [hv] at h
    exact h.1.symm

/-- When `subtractCoins` succeeds, the difference is valid and stored at `addr`. -/
theorem subtractCoins_success {ctx : Context} {ak ak1 : AccountKeeper}
    {addr : AccAddress} {amt c : Coins}
    (h : subtractCoins ctx ak addr amt = some (ak1, c, none)) :
    Coins.IsValid c = true ∧ Coins.Sub (getCoins ak addr) amt = some c ∧
      ak1 = AccountKeeper.SetAccount ak addr
        { Coins := c, Vesting := (AccountKeeper.GetAccount ak addr).bind (fun a => a.Vesting) } := by
  by_cases hv : Coins.IsValid amt = true
  · rw [subtractCoins_of_valid ctx ak addr hv] at h
    split at h
    · simp at h
    · cases hs : Coins.Sub (getCoins ak addr) amt with
      | none => rw [hs] at h; simp at h
      | some newCoins =>
        rw [hs] at h
        dsimp only at h
        by_cases hn : Coins.IsValid newCoins = true
        · rw [setCoins_valid ak addr hn] at h
          simp at h
          obtain ⟨h1, h2⟩ := h
          subst h2
          exact ⟨hn, rfl, h1.symm⟩
        · rw [setCoins_invalid ak addr (by simpa using hn)] at h
          simp at h
  · unfold subtractCoins at h
    simp [hv] at h

/-- The steps of `addCoins` for a valid amount. -/
theorem addCoins_of_valid (ak : AccountKeeper) (addr : AccAddress)
    {amt : Coins} (hv : Coins.IsValid amt = true) :
    addCoins ak addr amt =
      if Coins.IsAnyNegative (Coins.Add (getCoins ak addr) amt) then
        some (ak, amt, some Error.ErrInsufficientCoins)
      else
        match setCoins ak addr (Coins.Add (getCoins ak addr) amt) with
        | none => none
        | some (ak1, err) => some (ak1, Coins.Add (getCoins ak addr) amt, err) := by
  unfold addCoins
  simp only [hv, Bool.not_true, Bool.false_eq_true, if_false]

/-- Adding a valid amount to a valid balance succeeds. -/
theorem addCoins_of_valid_balance (ak : AccountKeeper) (addr : AccAddress) {amt : Coins}
    (hv : Coins.IsValid amt = true) (hold : Coins.IsValid (getCoins ak addr) = true) :
    addCoins ak addr amt =
      some (AccountKeeper.SetAccount ak addr
        { Coins := Coins.Add (getCoins ak addr) amt,
          Vesting := (AccountKeeper.GetAccount ak addr).bind (fun a => a.Vesting) },
        Coins.Add (getCoins ak addr) amt, none) := by
  obtain ⟨h1, h2⟩ := IsValid_Add hold hv
  rw [addCoins_of_valid ak addr hv, h2, setCoins_valid ak addr h1]
  simp

/-- Subtracting a valid amount that the spendable coins cover from a valid balance
succeeds. -/
theorem subtractCoins_of_valid_balance (ctx : Context) (ak : AccountKeeper) (addr : AccAddress)
    {amt : Coins} (hv : Coins.IsValid amt = true)
    (hold : Coins.IsValid (getCoins ak addr) = true)
    (hcov : ∀ d, Coins.amount amt d ≤ Coins.amount (oldAndSpendableCoins ctx ak addr).2 d) :
    Coins.IsValid (Coins.SafeSub (getCoins ak addr) amt).1 = true ∧
    subtractCoins ctx ak addr amt =
      some (AccountKeeper.SetAccount ak addr
        { Coins := (Coins.SafeSub (getCoins ak addr) amt).1,
          Vesting := (AccountKeeper.GetAccount ak addr).bind (fun a => a.Vesting) },
        (Coins.SafeSub (getCoins ak addr) amt).1, none) := by
  have hso : Coins.Sorted (getCoins ak addr) := ((IsValid_iff _).1 hold).2
  have hsa : Coins.Sorted amt := ((IsValid_iff _).1 hv).2
  have h1 : (Coins.SafeSub (oldAndSpendableCoins ctx ak addr).2 amt).2 = false := by
    rw [← Bool.not_eq_true, SafeSub_hasNeg_iff (Sorted_spendable ctx ak addr hso) hsa]
    rintro ⟨d, hd⟩
    have := hcov d
    linarith
  have h2 : (Coins.SafeSub (getCoins ak addr) amt).2 = false := by
    rw [← Bool.not_eq_true, SafeSub_hasNeg_iff hso hsa]
    rintro ⟨d, hd⟩
    have := hcov d
    have := amount_spendable_le ctx ak addr d
    linarith
  have h3 := IsValid_SafeSub hold hv h2
  refine ⟨h3, ?_⟩
  have h4 : Coins.Sub (getCoins ak addr) amt = some (Coins.SafeSub (getCoins ak addr) amt).1 := by
    unfold Coins.Sub
    simp [h2]
  rw [subtractCoins_of_valid ctx ak addr hv, h1, h4]
  simp only [Bool.false_eq_true, if_false]
  rw [setCoins_valid ak addr h3]

end bank

namespace bank

open sdk auth

theorem setCoins_returns (ak : AccountKeeper) (addr : AccAddress) (amt : Coins) :
    ∃ r, setCoins ak addr amt = some r := by
  by_cases h : Coins.IsValid amt = true
  · exact ⟨_, setCoins_valid ak addr h⟩
  · exact ⟨_, setCoins_invalid ak addr (by simpa using h)⟩

theorem addCoins_returns (ak : AccountKeeper) (addr : AccAddress) (amt : Coins) :
    ∃ r, addCoins ak addr amt = some r := by
  by_cases hv : Coins.IsValid amt = true
  · rw [addCoins_of_valid ak addr hv]
    split
    · exact ⟨_, rfl⟩
    · obtain ⟨r, hr⟩ := setCoins_returns ak addr (Coins.Add (getCoins ak addr) amt)
      rw [hr]; exact ⟨_, rfl⟩
  · unfold addCoins
    simp [hv]

/-- For a plain account, and for no account, `subtractCoins` does not panic. -/
theorem subtractCoins_returns (ctx : Context) (ak : AccountKeeper) (addr : AccAddress)
    (amt : Coins)
    (h : ∀ acc, AccountKeeper.GetAccount ak addr = some acc → acc.IsVesting = false) :
    ∃ r, subtractCoins ctx ak addr amt = some r := by
  by_cases hv : Coins.IsValid amt = true
  · rw [subtractCoins_of_valid ctx ak addr hv, spendable_eq_old ctx ak addr h,
      oldAndSpendableCoins_fst]
    by_cases hn : (Coins.SafeSub (getCoins ak addr) amt).2 = true
    · rw [if_pos hn]; exact ⟨_, rfl⟩
    · rw [if_neg hn]
      have hs : Coins.Sub (getCoins ak addr) amt
          = some (Coins.SafeSub (getCoins ak addr) amt).1 := by
        unfold Coins.Sub
        simp [hn]
      rw [hs]
      obtain ⟨r, hr⟩ := setCoins_returns ak addr (Coins.SafeSub (getCoins ak addr) amt).1
      dsimp only
      rw [hr]; exact ⟨_, rfl⟩
  · unfold subtractCoins
    simp [hv]

theorem sendCoins_returns (ctx : Context) (ak : AccountKeeper) (fromAddr toAddr : AccAddress)
    (amt : Coins)
    (h : ∀ acc, AccountKeeper.GetAccount ak fromAddr = some acc → acc.IsVesting = false) :
    ∃ r, sendCoins ctx ak fromAddr toAddr amt = some r := by
  unfold sendCoins
  split
  · exact ⟨_, rfl⟩
  · obtain ⟨⟨ak1, c, e⟩, hr⟩ := subtractCoins_returns ctx ak fromAddr amt h
    rw [hr]
    cases e with
    | some e => exact ⟨_, rfl⟩
    | none =>
      obtain ⟨⟨ak2, c2, e2⟩, hr2⟩ := addCoins_returns ak1 toAddr amt
      dsimp only
      rw [hr2]
      cases e2 <;> exact ⟨_, rfl⟩

/-- The supply is unchanged whenever `sendCoins` returns and the balance stored at the
recipient is a valid coin set. -/
theorem sendCoins_totalSupply {ctx : Context} {ak : AccountKeeper}
    {fromAddr toAddr : AccAddress} {amt : Coins}
    (hto : Coins.IsValid (getCoins ak toAddr) = true)
    {r : AccountKeeper × Option Error} (hr : sendCoins ctx ak fromAddr toAddr amt = some r)
    (d : String) : totalSupply r.1 d = totalSupply ak d := by
  unfold sendCoins at hr
  by_cases hv : Coins.IsValid amt = true
  · simp only [hv, Bool.not_true, Bool.false_eq_true, if_false] at hr
    cases hsub : subtractCoins ctx ak fromAddr amt with
    | none => rw [hsub] at hr; simp at hr
    | some x =>
      obtain ⟨ak1, c, e⟩ := x
      rw [hsub] at hr
      cases e with
      | some e =>
        simp at hr
        rw [← hr, subtractCoins_error_unchanged hsub]
      | none =>
        dsimp only at hr
        obtain ⟨hc, hs, hak1⟩ := subtractCoins_success hsub
        have hto1 : Coins.IsValid (getCoins ak1 toAddr) = true := by
          rw [hak1]
          by_cases hft : toAddr = fromAddr
          · rw [hft, getCoins_SetAccount_same]; exact hc
          · rw [getCoins_SetAccount_ne ak _ hft]; exact hto
        rw [addCoins_of_valid_balance ak1 toAddr hv hto1] at hr
        simp at hr
        rw [← hr]
        simp only
        rw [totalSupply_SetAccount, amount_Add, hak1, totalSupply_SetAccount]
        simp only
        rw [amount_Sub hs]
        ring
  · simp [hv] at hr
    rw [← hr]

/-- C2 (as stated, refuted): a ledger in which `SendCoins` returns an error after the sender
has been debited. The recipient `[2]` holds a negative balance, `addCoins` rejects the sum
as negative, and the supply of atom falls from 0 to -1. -/
theorem SendCoins_error_changes_supply :
    (SendCoins ⟨0, 0⟩ ledgerNegative [1] [2] [⟨"atom", 1⟩]).map
        (fun r => (r.2, totalSupply r.1 "atom"))
      = some (some Error.ErrInsufficientCoins, -1)
    ∧ totalSupply ledgerNegative "atom" = 0
    ∧ Coins.IsValid [⟨"atom", 1⟩] = true := by
  decide

/-- C2 (amended): `SendCoins` never creates or destroys coins when the balance stored at
the recipient is a valid coin set: whenever the call returns, with success or with an
error, the sum over all accounts of the balance of each denomination is the same as before;
and the call does return when the sender is a plain account or has no account. -/
theorem SendCoins_preserves_totalSupply (ctx : Context) (ak : AccountKeeper)
    (fromAddr toAddr : AccAddress) (amt : Coins)
    (hto : Coins.IsValid (getCoins ak toAddr) = true) :
    (∀ r, SendCoins ctx ak fromAddr toAddr amt = some r →
      ∀ d, totalSupply r.1 d = totalSupply ak d)
    ∧ ((∀ acc, AccountKeeper.GetAccount ak fromAddr = some acc → acc.IsVesting = false) →
      ∃ r, SendCoins ctx ak fromAddr toAddr amt = some r) := by
  constructor
  · intro r hr d
    unfold SendCoins at hr
    split at hr
    · simp at hr; rw [← hr]
    · exact sendCoins_totalSupply hto hr d
  · intro h
    unfold SendCoins
    split
    · exact ⟨_, rfl⟩
    · exact sendCoins_returns ctx ak fromAddr toAddr amt h

theorem SendCoins_preserves_totalSupply_witness :
    Coins.IsValid (getCoins ledgerTwo [2]) = true ∧
    ((∀ r, SendCoins ⟨0, 0⟩ ledgerTwo [1] [2] [⟨"atom", 2⟩] = some r →
      ∀ d, totalSupply r.1 d = totalSupply ledgerTwo d)
    ∧ ((∀ acc, AccountKeeper.GetAccount ledgerTwo [1] = some acc → acc.IsVesting = false) →
      ∃ r, SendCoins ⟨0, 0⟩ ledgerTwo [1] [2] [⟨"atom", 2⟩] = some r)) :=
  ⟨by decide,
    SendCoins_preserves_totalSupply ⟨0, 0⟩ ledgerTwo [1] [2] [⟨"atom", 2⟩] (by decide)⟩

end bank

namespace bank

open sdk auth

/-- C3 (as stated, refuted): the account `[1]` stores 1 btc and 1 atom, not sorted by
denomination; the subtraction of 1 atom returns an insufficient-coins error although the
spendable coins are not smaller than the amount in any denomination. -/
theorem subtractCoins_unsorted_balance_insufficient :
    Coins.IsValid [⟨"atom", 1⟩] = true
    ∧ subtractCoins ⟨0, 0⟩ ledgerUnsorted [1] [⟨"atom", 1⟩]
        = some (ledgerUnsorted, [⟨"atom", 1⟩], some Error.ErrInsufficientCoins)
    ∧ ∀ d, Coins.amount [⟨"atom", 1⟩] d
        ≤ Coins.amount (oldAndSpendableCoins ⟨0, 0⟩ ledgerUnsorted [1]).2 d := by
  refine ⟨by decide, rfl, ?_⟩
  intro d
  have h : (oldAndSpendableCoins ⟨0, 0⟩ ledgerUnsorted [1]).2
      = [⟨"btc", 1⟩, ⟨"atom", 1⟩] := by decide
  rw [h]
  simp only [Coins.amount]
  split_ifs <;> omega

/-- C3 (amended): for every valid amount and every account whose stored balance is sorted
by denomination (strictly, so without duplicates), `subtractCoins` returns an
insufficient-coins error exactly when the spendable coins of the account (empty when no
account exists at the address) are smaller than the amount in at least one denomination;
in that case it returns the amount as the coins result and the ledger unchanged. -/
theorem subtractCoins_insufficient_iff (ctx : Context) (ak : AccountKeeper) (addr : AccAddress)
    (amt : Coins) (hv : Coins.IsValid amt = true) (hs : Coins.Sorted (getCoins ak addr)) :
    ((∃ ak1 c, subtractCoins ctx ak addr amt = some (ak1, c, some Error.ErrInsufficientCoins))
      ↔ ∃ d, Coins.amount (oldAndSpendableCoins ctx ak addr).2 d < Coins.amount amt d)
    ∧ ((∃ d, Coins.amount (oldAndSpendableCoins ctx ak addr).2 d < Coins.amount amt d) →
      subtractCoins ctx ak addr amt = some (ak, amt, some Error.ErrInsufficientCoins))
    ∧ (AccountKeeper.GetAccount ak addr = none → (oldAndSpendableCoins ctx ak addr).2 = []) := by
  have hsa : Coins.Sorted amt := ((IsValid_iff _).1 hv).2
  have hiff := SafeSub_hasNeg_iff (Sorted_spendable ctx ak addr hs) hsa
  have hback : (∃ d, Coins.amount (oldAndSpendableCoins ctx ak addr).2 d < Coins.amount amt d) →
      subtractCoins ctx ak addr amt = some (ak, amt, some Error.ErrInsufficientCoins) := by
    intro h
    rw [subtractCoins_of_valid ctx ak addr hv, if_pos (hiff.2 h)]
  refine ⟨⟨?_, fun h => ⟨ak, amt, hback h⟩⟩, hback, ?_⟩
  · rintro ⟨ak1, c, h⟩
    rw [subtractCoins_of_valid ctx ak addr hv] at h
    by_cases hn : (Coins.SafeSub (oldAndSpendableCoins ctx ak addr).2 amt).2 = true
    · exact hiff.1 hn
    · rw [if_neg hn] at h
      cases hsub : Coins.Sub (getCoins ak addr) amt with
      | none => rw [hsub] at h; simp at h
      | some newCoins =>
        rw [hsub] at h
        dsimp only at h
        by_cases hnv : Coins.IsValid newCoins = true
        · rw [setCoins_valid ak addr hnv] at h; simp at h
        · rw [setCoins_invalid ak addr (by simpa using hnv)] at h; simp at h
  · intro h
    unfold oldAndSpendableCoins getAccount
    rw [h]
    rfl

theorem subtractCoins_insufficient_iff_witness :
    Coins.IsValid [⟨"atom", 7⟩] = true ∧ Coins.Sorted (getCoins ledgerTwo [1]) ∧
    (((∃ ak1 c, subtractCoins ⟨0, 0⟩ ledgerTwo [1] [⟨"atom", 7⟩]
          = some (ak1, c, some Error.ErrInsufficientCoins))
      ↔ ∃ d, Coins.amount (oldAndSpendableCoins ⟨0, 0⟩ ledgerTwo [1]).2 d
          < Coins.amount [⟨"atom", 7⟩] d)
    ∧ ((∃ d, Coins.amount (oldAndSpendableCoins ⟨0, 0⟩ ledgerTwo [1]).2 d
          < Coins.amount [⟨"atom", 7⟩] d) →
      subtractCoins ⟨0, 0⟩ ledgerTwo [1] [⟨"atom", 7⟩]
        = some (ledgerTwo, [⟨"atom", 7⟩], some Error.ErrInsufficientCoins))
    ∧ (AccountKeeper.GetAccount ledgerTwo [1] = none →
      (oldAndSpendableCoins ⟨0, 0⟩ ledgerTwo [1]).2 = [])) :=
  ⟨by decide, (isSortedByDenom_iff _).1 (by decide),
    subtractCoins_insufficient_iff ⟨0, 0⟩ ledgerTwo [1] [⟨"atom", 7⟩] (by decide)
      ((isSortedByDenom_iff _).1 (by decide))⟩

/-- C4 (as stated, refuted): the account `[1]` stores 1 ATOM and 5 atom; its spendable
coins cover the valid amount of 2 atom, yet `subtractCoins` does not succeed: the new
balance keeps the upper-case denomination, `setCoins` rejects it and the ledger is
unchanged. -/
theorem subtractCoins_invalid_balance_fails :
    Coins.IsValid [⟨"atom", 2⟩] = true
    ∧ subtractCoins ⟨0, 0⟩ ledgerUpperCase [1] [⟨"atom", 2⟩]
        = some (ledgerUpperCase, [⟨"ATOM", 1⟩, ⟨"atom", 3⟩], some Error.ErrInvalidCoins)
    ∧ ∀ d, Coins.amount [⟨"atom", 2⟩] d
        ≤ Coins.amount (oldAndSpendableCoins ⟨0, 0⟩ ledgerUpperCase [1]).2 d := by
  refine ⟨by decide, rfl, ?_⟩
  intro d
  have h : (oldAndSpendableCoins ⟨0, 0⟩ ledgerUpperCase [1]).2
      = [⟨"ATOM", 1⟩, ⟨"atom", 5⟩] := by decide
  rw [h]
  simp only [Coins.amount]
  split_ifs <;> omega

/-- C4 (amended): for every valid amount and every account whose stored balance is a valid
coin set and whose spendable coins cover the amount, `subtractCoins` (and `SubtractCoins`)
succeeds, the balance stored at the address afterwards equals the old balance minus the
amount in every denomination, the returned coins are that new stored balance, and every
other account is unchanged. -/
theorem subtractCoins_covered (ctx : Context) (ak : AccountKeeper) (addr : AccAddress)
    (amt : Coins) (hv : Coins.IsValid amt = true)
    (hold : Coins.IsValid (getCoins ak addr) = true)
    (hcov : ∀ d, Coins.amount amt d ≤ Coins.amount (oldAndSpendableCoins ctx ak addr).2 d) :
    ∃ ak1, subtractCoins ctx ak addr amt = some (ak1, getCoins ak1 addr, none)
      ∧ SubtractCoins ctx ak addr amt = some (ak1, getCoins ak1 addr, none)
      ∧ (∀ d, Coins.amount (getCoins ak1 addr) d
          = Coins.amount (getCoins ak addr) d - Coins.amount amt d)
      ∧ (∀ other, other ≠ addr →
          AccountKeeper.GetAccount ak1 other = AccountKeeper.GetAccount ak other) := by
  obtain ⟨_, h2⟩ := subtractCoins_of_valid_balance ctx ak addr hv hold hcov
  refine ⟨AccountKeeper.SetAccount ak addr
    { Coins := (Coins.SafeSub (getCoins ak addr) amt).1,
      Vesting := (AccountKeeper.GetAccount ak addr).bind (fun a => a.Vesting) }, ?_, ?_, ?_, ?_⟩
  · rw [h2, getCoins_SetAccount_same]
  · unfold SubtractCoins
    simp only [hv, Bool.not_true, Bool.false_eq_true, if_false]
    rw [h2, getCoins_SetAccount_same]
  · intro d
    rw [getCoins_SetAccount_same]
    exact amount_SafeSub _ _ d
  · intro other hne
    exact GetAccount_SetAccount_ne ak _ hne

theorem subtractCoins_covered_witness :
    Coins.IsValid [⟨"atom", 2⟩] = true ∧ Coins.IsValid (getCoins ledgerTwo [1]) = true ∧
    (∀ d, Coins.amount [⟨"atom", 2⟩] d
      ≤ Coins.amount (oldAndSpendableCoins ⟨0, 0⟩ ledgerTwo [1]).2 d) ∧
    ∃ ak1, subtractCoins ⟨0, 0⟩ ledgerTwo [1] [⟨"atom", 2⟩] = some (ak1, getCoins ak1 [1], none)
      ∧ SubtractCoins ⟨0, 0⟩ ledgerTwo [1] [⟨"atom", 2⟩] = some (ak1, getCoins ak1 [1], none)
      ∧ (∀ d, Coins.amount (getCoins ak1 [1]) d
          = Coins.amount (getCoins ledgerTwo [1]) d - Coins.amount [⟨"atom", 2⟩] d)
      ∧ (∀ other, other ≠ [1] →
          AccountKeeper.GetAccount ak1 other = AccountKeeper.GetAccount ledgerTwo other) := by
  have hcov : ∀ d, Coins.amount [⟨"atom", 2⟩] d
      ≤ Coins.amount (oldAndSpendableCoins ⟨0, 0⟩ ledgerTwo [1]).2 d := by
    intro d
    have h : (oldAndSpendableCoins ⟨0, 0⟩ ledgerTwo [1]).2 = [⟨"atom", 5⟩] := by decide
    rw [h]
    simp only [Coins.amount]
    split_ifs <;> omega
  exact ⟨by decide, by decide, hcov,
    subtractCoins_covered ⟨0, 0⟩ ledgerTwo [1] [⟨"atom", 2⟩] (by decide) (by decide) hcov⟩

/-- C5: for every valid amount and every ledger in which the balance stored at the address
is a valid coin set (the empty one when no account exists), `addCoins` (and `AddCoins`)
returns no error, an account exists at the address afterwards, its balance equals the old
balance plus the amount in every denomination, the returned coins are exactly that new
balance, and every other account is unchanged. -/
theorem addCoins_valid (ak : AccountKeeper) (addr : AccAddress) (amt : Coins)
    (hv : Coins.IsValid amt = true) (hold : Coins.IsValid (getCoins ak addr) = true) :
    ∃ ak1, addCoins ak addr amt = some (ak1, getCoins ak1 addr, none)
      ∧ AddCoins ak addr amt = some (ak1, getCoins ak1 addr, none)
      ∧ (∃ acc, AccountKeeper.GetAccount ak1 addr = some acc)
      ∧ (∀ d, Coins.amount (getCoins ak1 addr) d
          = Coins.amount (getCoins ak addr) d + Coins.amount amt d)
      ∧ (∀ other, other ≠ addr →
          AccountKeeper.GetAccount ak1 other = AccountKeeper.GetAccount ak other) := by
  have h2 := addCoins_of_valid_balance ak addr hv hold
  refine ⟨AccountKeeper.SetAccount ak addr
    { Coins := Coins.Add (getCoins ak addr) amt,
      Vesting := (AccountKeeper.GetAccount ak addr).bind (fun a => a.Vesting) },
    ?_, ?_, ⟨_, GetAccount_SetAccount_same ak addr _⟩, ?_, ?_⟩
  · rw [h2, getCoins_SetAccount_same]
  · unfold AddCoins
    simp only [hv, Bool.not_true, Bool.false_eq_true, if_false]
    rw [h2, getCoins_SetAccount_same]
  · intro d
    rw [getCoins_SetAccount_same]
    exact amount_Add _ _ d
  · intro other hne
    exact GetAccount_SetAccount_ne ak _ hne

theorem addCoins_valid_witness :
    Coins.IsValid [⟨"atom", 2⟩] = true ∧ Coins.IsValid (getCoins ledgerTwo [3]) = true ∧
    ∃ ak1, addCoins ledgerTwo [3] [⟨"atom", 2⟩] = some (ak1, getCoins ak1 [3], none)
      ∧ AddCoins ledgerTwo [3] [⟨"atom", 2⟩] = some (ak1, getCoins ak1 [3], none)
      ∧ (∃ acc, AccountKeeper.GetAccount ak1 [3] = some acc)
      ∧ (∀ d, Coins.amount (getCoins ak1 [3]) d
          = Coins.amount (getCoins ledgerTwo [3]) d + Coins.amount [⟨"atom", 2⟩] d)
      ∧ (∀ other, other ≠ [3] →
          AccountKeeper.GetAccount ak1 other = AccountKeeper.GetAccount ledgerTwo other) :=
  ⟨by decide, by decide, addCoins_valid ledgerTwo [3] [⟨"atom", 2⟩] (by decide) (by decide)⟩

/-- C6: each of `SetCoins`, `SubtractCoins`, `AddCoins`, `DelegateCoins`, `UndelegateCoins`
and `SendCoins`, called with an amount that is not a valid coin set, returns an
invalid-coins error and the ledger it was given, so that no account is created or
modified. -/
theorem invalid_amount_rejected (ctx : Context) (ak : AccountKeeper)
    (addr toAddr : AccAddress) (amt : Coins) (h : Coins.IsValid amt = false) :
    SetCoins ak addr amt = some (ak, some Error.ErrInvalidCoins)
    ∧ SubtractCoins ctx ak addr amt = some (ak, [], some Error.ErrInvalidCoins)
    ∧ AddCoins ak addr amt = some (ak, [], some Error.ErrInvalidCoins)
    ∧ DelegateCoins ctx ak addr amt = some (ak, [], some Error.ErrInvalidCoins)
    ∧ UndelegateCoins ak addr amt = some (ak, [], some Error.ErrInvalidCoins)
    ∧ SendCoins ctx ak addr toAddr amt = some (ak, some Error.ErrInvalidCoins) := by
  simp [SetCoins, SubtractCoins, AddCoins, DelegateCoins, UndelegateCoins, SendCoins, h]

theorem invalid_amount_rejected_witness :
    Coins.IsValid [⟨"gas", 1⟩, ⟨"gas", 1⟩] = false ∧
    (SetCoins ledgerTwo [1] [⟨"gas", 1⟩, ⟨"gas", 1⟩] = some (ledgerTwo, some Error.ErrInvalidCoins)
    ∧ SubtractCoins ⟨0, 0⟩ ledgerTwo [1] [⟨"gas", 1⟩, ⟨"gas", 1⟩]
        = some (ledgerTwo, [], some Error.ErrInvalidCoins)
    ∧ AddCoins ledgerTwo [1] [⟨"gas", 1⟩, ⟨"gas", 1⟩]
        = some (ledgerTwo, [], some Error.ErrInvalidCoins)
    ∧ DelegateCoins ⟨0, 0⟩ ledgerTwo [1] [⟨"gas", 1⟩, ⟨"gas", 1⟩]
        = some (ledgerTwo, [], some Error.ErrInvalidCoins)
    ∧ UndelegateCoins ledgerTwo [1] [⟨"gas", 1⟩, ⟨"gas", 1⟩]
        = some (ledgerTwo, [], some Error.ErrInvalidCoins)
    ∧ SendCoins ⟨0, 0⟩ ledgerTwo [1] [2] [⟨"gas", 1⟩, ⟨"gas", 1⟩]
        = some (ledgerTwo, some Error.ErrInvalidCoins)) :=
  ⟨by decide,
    invalid_amount_rejected ⟨0, 0⟩ ledgerTwo [1] [2] [⟨"gas", 1⟩, ⟨"gas", 1⟩] (by decide)⟩

/-- C7 (as stated, refuted): sender `[1]` holds 5 atom, the distinct recipient `[2]` stores
a balance with an upper-case denomination; the spendable coins of the sender cover the
valid amount of 2 atom, yet `SendCoins` returns an invalid-coins error. -/
theorem SendCoins_invalid_recipient_balance_fails :
    Coins.IsValid [⟨"atom", 2⟩] = true
    ∧ ([1] : AccAddress) ≠ [2]
    ∧ (SendCoins ⟨0, 0⟩ ledgerUpperCaseRecipient [1] [2] [⟨"atom", 2⟩]).map (fun r => r.2)
        = some (some Error.ErrInvalidCoins)
    ∧ ∀ d, Coins.amount [⟨"atom", 2⟩] d
        ≤ Coins.amount (oldAndSpendableCoins ⟨0, 0⟩ ledgerUpperCaseRecipient [1]).2 d := by
  refine ⟨by decide, by decide, by decide, ?_⟩
  intro d
  have h : (oldAndSpendableCoins ⟨0, 0⟩ ledgerUpperCaseRecipient [1]).2
      = [⟨"atom", 5⟩] := by decide
  rw [h]
  simp only [Coins.amount]
  split_ifs <;> omega

/-- C7 (amended): for every valid amount and distinct addresses `fromAddr` and `toAddr`
whose stored balances are valid coin sets, such that the spendable coins of `fromAddr`
cover the amount, `SendCoins` succeeds and afterwards the balance of `fromAddr` is its old
balance minus the amount, the balance of `toAddr` is its old balance plus the amount
(`toAddr` has an account afterwards), and every other account is unchanged. -/
theorem SendCoins_covered (ctx : Context) (ak : AccountKeeper) (fromAddr toAddr : AccAddress)
    (amt : Coins) (hv : Coins.IsValid amt = true) (hne : fromAddr ≠ toAddr)
    (hfrom : Coins.IsValid (getCoins ak fromAddr) = true)
    (hto : Coins.IsValid (getCoins ak toAddr) = true)
    (hcov : ∀ d, Coins.amount amt d ≤ Coins.amount (oldAndSpendableCoins ctx ak fromAddr).2 d) :
    ∃ ak1, SendCoins ctx ak fromAddr toAddr amt = some (ak1, none)
      ∧ (∀ d, Coins.amount (getCoins ak1 fromAddr) d
          = Coins.amount (getCoins ak fromAddr) d - Coins.amount amt d)
      ∧ (∀ d, Coins.amount (getCoins ak1 toAddr) d
          = Coins.amount (getCoins ak toAddr) d + Coins.amount amt d)
      ∧ (∃ acc, AccountKeeper.GetAccount ak1 toAddr = some acc)
      ∧ (∀ other, other ≠ fromAddr → other ≠ toAddr →
          AccountKeeper.GetAccount ak1 other = AccountKeeper.GetAccount ak other) := by
  obtain ⟨_, h2⟩ := subtractCoins_of_valid_balance ctx ak fromAddr hv hfrom hcov
  have hto1 : Coins.IsValid (getCoins (AccountKeeper.SetAccount ak fromAddr
      { Coins := (Coins.SafeSub (getCoins ak fromAddr) amt).1,
        Vesting := (AccountKeeper.GetAccount ak fromAddr).bind (fun a => a.Vesting) })
      toAddr) = true := by
    rw [getCoins_SetAccount_ne ak _ (Ne.symm hne)]; exact hto
  have h3 := addCoins_of_valid_balance _ toAddr hv hto1
  refine ⟨AccountKeeper.SetAccount (AccountKeeper.SetAccount ak fromAddr
      { Coins := (Coins.SafeSub (getCoins ak fromAddr) amt).1,
        Vesting := (AccountKeeper.GetAccount ak fromAddr).bind (fun a => a.Vesting) }) toAddr
    { Coins := Coins.Add (getCoins (AccountKeeper.SetAccount ak fromAddr
        { Coins := (Coins.SafeSub (getCoins ak fromAddr) amt).1,
          Vesting := (AccountKeeper.GetAccount ak fromAddr).bind (fun a => a.Vesting) })
        toAddr) amt,
      Vesting := (AccountKeeper.GetAccount (AccountKeeper.SetAccount ak fromAddr
        { Coins := (Coins.SafeSub (getCoins ak fromAddr) amt).1,
          Vesting := (AccountKeeper.GetAccount ak fromAddr).bind (fun a => a.Vesting) })
        toAddr).bind (fun a => a.Vesting) },
    ?_, ?_, ?_, ⟨_, GetAccount_SetAccount_same _ toAddr _⟩, ?_⟩
  · unfold SendCoins sendCoins
    simp only [hv, Bool.not_true, Bool.false_eq_true, if_false]
    rw [h2]
    dsimp only
    rw [h3]
  · intro d
    rw [getCoins_SetAccount_ne _ _ hne, getCoins_SetAccount_same]
    exact amount_SafeSub _ _ d
  · intro d
    rw [getCoins_SetAccount_same, amount_Add, getCoins_SetAccount_ne ak _ (Ne.symm hne)]
  · intro other h1 h2
    rw [GetAccount_SetAccount_ne _ _ h2, GetAccount_SetAccount_ne _ _ h1]

theorem SendCoins_covered_witness :
    Coins.IsValid [⟨"atom", 2⟩] = true ∧ ([1] : AccAddress) ≠ [2]
    ∧ Coins.IsValid (getCoins ledgerTwo [1]) = true
    ∧ Coins.IsValid (getCoins ledgerTwo [2]) = true
    ∧ (∀ d, Coins.amount [⟨"atom", 2⟩] d
        ≤ Coins.amount (oldAndSpendableCoins ⟨0, 0⟩ ledgerTwo [1]).2 d)
    ∧ ∃ ak1, SendCoins ⟨0, 0⟩ ledgerTwo [1] [2] [⟨"atom", 2⟩] = some (ak1, none)
      ∧ (∀ d, Coins.amount (getCoins ak1 [1]) d
          = Coins.amount (getCoins ledgerTwo [1]) d - Coins.amount [⟨"atom", 2⟩] d)
      ∧ (∀ d, Coins.amount (getCoins ak1 [2]) d
          = Coins.amount (getCoins ledgerTwo [2]) d + Coins.amount [⟨"atom", 2⟩] d)
      ∧ (∃ acc, AccountKeeper.GetAccount ak1 [2] = some acc)
      ∧ (∀ other, other ≠ [1] → other ≠ [2] →
          AccountKeeper.GetAccount ak1 other = AccountKeeper.GetAccount ledgerTwo other) := by
  have hcov : ∀ d, Coins.amount [⟨"atom", 2⟩] d
      ≤ Coins.amount (oldAndSpendableCoins ⟨0, 0⟩ ledgerTwo [1]).2 d := by
    intro d
    have h : (oldAndSpendableCoins ⟨0, 0⟩ ledgerTwo [1]).2 = [⟨"atom", 5⟩] := by decide
    rw [h]
    simp only [Coins.amount]
    split_ifs <;> omega
  exact ⟨by decide, by decide, by decide, by decide, hcov,
    SendCoins_covered ⟨0, 0⟩ ledgerTwo [1] [2] [⟨"atom", 2⟩] (by decide) (by decide)
      (by decide) (by decide) hcov⟩

end bank

/-! ## The stores of the staking keeper -/

namespace store

theorem set_append {K V : Type} [DecidableEq K] (lt : K → K → Bool)
    (hasymm : ∀ a b, lt a b = true → lt b a = false) (hne : ∀ a b, lt a b = true → a ≠ b)
    (k : K) (v : V) :
    ∀ l : List (K × V), (∀ e ∈ l, lt e.1 k = true) → set lt k v l = l ++ [(k, v)] := by
  intro l
  induction l with
  | nil => intro _; rfl
  | cons e rest ih =>
    intro h
    have he := h e (List.mem_cons_self _ _)
    have h1 : lt k e.1 = false := hasymm _ _ he
    have h2 : k ≠ e.1 := fun heq => hne _ _ he heq.symm
    simp only [set, h1, Bool.false_eq_true, if_false, h2, List.cons_append]
    rw [ih (fun x hx => h x (List.mem_cons_of_mem _ hx))]

/-- Writing entries with strictly ascending keys, each above the keys already stored,
appends them in their order. -/
theorem foldl_set_ascending {K V α : Type} [DecidableEq K] (lt : K → K → Bool)
    (hasymm : ∀ a b, lt a b = true → lt b a = false) (hne : ∀ a b, lt a b = true → a ≠ b)
    (key : α → K) (val : α → V) :
    ∀ (xs : List α) (l0 : List (K × V)), Ascending lt (xs.map key) →
      (∀ e ∈ l0, ∀ x ∈ xs, lt e.1 (key x) = true) →
      xs.foldl (fun l x => set lt (key x) (val x) l) l0 = l0 ++ xs.map (fun x => (key x, val x)) := by
  intro xs
  induction xs with
  | nil => intro l0 _ _; simp
  | cons x rest ih =>
    intro l0 hasc h0
    rw [List.foldl_cons]
    rw [set_append lt hasymm hne (key x) (val x) l0
      (fun e he => h0 e he x (List.mem_cons_self _ _))]
    unfold Ascending at hasc
    rw [List.map_cons, List.pairwise_cons] at hasc
    rw [ih (l0 ++ [(key x, val x)]) hasc.2]
    · simp
    · intro e he y hy
      rcases List.mem_append.1 he with he | he
      · exact h0 e he y (List.mem_cons_of_mem _ hy)
      · simp only [List.mem_singleton] at he
        subst he
        exact hasc.1 (key y) (List.mem_map_of_mem key hy)

theorem get_map_of_mem {K α : Type} [DecidableEq K] (key : α → K) :
    ∀ (xs : List α) (x : α), x ∈ xs → ∃ y, get (key x) (xs.map (fun a => (key a, a))) = some y := by
  intro xs
  induction xs with
  | nil => intro x hx; simp at hx
  | cons a rest ih =>
    intro x hx
    by_cases h : key x = key a
    · exact ⟨a, by simp [get, h]⟩
    · rcases List.mem_cons.1 hx with rfl | hx
      · exact absurd rfl h
      · obtain ⟨y, hy⟩ := ih x hx
        exact ⟨y, by simp [get, h, hy]⟩

theorem bytesLT_asymm (a b : List Nat) (h : bytesLT a b = true) : bytesLT b a = false := by
  simp only [bytesLT, decide_eq_true_eq, decide_eq_false_iff_not] at *
  exact lt_asymm h

theorem bytesLT_ne (a b : List Nat) (h : bytesLT a b = true) : a ≠ b := by
  simp only [bytesLT, decide_eq_true_eq] at h
  exact ne_of_lt h

theorem keyLT_asymm (a b : List (List Nat)) (h : keyLT a b = true) : keyLT b a = false := by
  simp only [keyLT, decide_eq_true_eq, decide_eq_false_iff_not] at *
  exact lt_asymm h

theorem keyLT_ne (a b : List (List Nat)) (h : keyLT a b = true) : a ≠ b := by
  simp only [keyLT, decide_eq_true_eq] at h
  exact ne_of_lt h

end store

/-! ## Staking genesis -/

namespace staking

open sdk auth

theorem foldl_keep {β γ : Type} (proj : Keeper → γ) (f : Keeper → β → Keeper)
    (h : ∀ k x, proj (f k x) = proj k) (l : List β) (k : Keeper) :
    proj (l.foldl f k) = proj k := by
  induction l generalizing k with
  | nil => rfl
  | cons x rest ih => rw [List.foldl_cons, ih, h]

theorem foldl_proj {β γ : Type} (proj : Keeper → γ) (f : Keeper → β → Keeper)
    (g : γ → β → γ) (h : ∀ k x, proj (f k x) = g (proj k) x) (l : List β) (k : Keeper) :
    proj (l.foldl f k) = l.foldl g (proj k) := by
  induction l generalizing k with
  | nil => rfl
  | cons x rest ih => rw [List.foldl_cons, ih, h, List.foldl_cons]

theorem flatMap_singleton {α β : Type} (f : α → β) (l : List α) :
    l.flatMap (fun x => [f x]) = l.map f := by
  induction l with
  | nil => rfl
  | cons x rest ih => rw [List.flatMap_cons, ih]; rfl

theorem foldl_Calls {β : Type} (f : Keeper → β → Keeper) (c : β → List KeeperCall)
    (h : ∀ k x, (f k x).Calls = k.Calls ++ c x) (l : List β) (k : Keeper) :
    (l.foldl f k).Calls = k.Calls ++ l.flatMap c := by
  induction l generalizing k with
  | nil => simp
  | cons x rest ih => rw [List.foldl_cons, ih, h, List.flatMap_cons, List.append_assoc]

/-- What one pass of the validator loop leaves of the exported stores. -/
theorem initValidator_fields (exported : Bool) (k : Keeper) (v : Validator) :
    (initValidator exported k v).Pool = k.Pool
    ∧ (initValidator exported k v).Params = k.Params
    ∧ (initValidator exported k v).LastTotalPower = k.LastTotalPower
    ∧ (initValidator exported k v).Validators
        = store.set store.bytesLT v.OperatorAddress v k.Validators
    ∧ (initValidator exported k v).Delegations = k.Delegations
    ∧ (initValidator exported k v).UnbondingDelegations = k.UnbondingDelegations
    ∧ (initValidator exported k v).Redelegations = k.Redelegations
    ∧ (initValidator exported k v).LastValidatorPowers = k.LastValidatorPowers := by
  cases exported <;> cases h : v.IsUnbonding <;>
    simp [initValidator, h, Keeper.SetValidator, Keeper.SetValidatorByConsAddr,
      Keeper.SetValidatorByPowerIndex, Keeper.AfterValidatorCreated,
      Keeper.InsertValidatorQueue]

theorem initValidator_Calls (exported : Bool) (k : Keeper) (v : Validator) :
    (initValidator exported k v).Calls = k.Calls ++ validatorCalls exported v := by
  cases exported <;> cases h : v.IsUnbonding <;>
    simp [initValidator, validatorCalls, h, Keeper.SetValidator, Keeper.SetValidatorByConsAddr,
      Keeper.SetValidatorByPowerIndex, Keeper.AfterValidatorCreated,
      Keeper.InsertValidatorQueue]

theorem initDelegation_fields (exported : Bool) (k : Keeper) (d : Delegation) :
    (initDelegation exported k d).Pool = k.Pool
    ∧ (initDelegation exported k d).Params = k.Params
    ∧ (initDelegation exported k d).LastTotalPower = k.LastTotalPower
    ∧ (initDelegation exported k d).Validators = k.Validators
    ∧ (initDelegation exported k d).Delegations
        = store.set store.keyLT [d.DelegatorAddress, d.ValidatorAddress] d k.Delegations
    ∧ (initDelegation exported k d).UnbondingDelegations = k.UnbondingDelegations
    ∧ (initDelegation exported k d).Redelegations = k.Redelegations
    ∧ (initDelegation exported k d).LastValidatorPowers = k.LastValidatorPowers := by
  cases exported <;>
    simp [initDelegation, Keeper.SetDelegation, Keeper.BeforeDelegationCreated,
      Keeper.AfterDelegationModified]

theorem initDelegation_Calls (exported : Bool) (k : Keeper) (d : Delegation) :
    (initDelegation exported k d).Calls = k.Calls ++ delegationCalls exported d := by
  cases exported <;>
    simp [initDelegation, delegationCalls, Keeper.SetDelegation, Keeper.BeforeDelegationCreated,
      Keeper.AfterDelegationModified]

theorem initUnbondingDelegation_fields (k : Keeper) (u : UnbondingDelegation) :
    (initUnbondingDelegation k u).Pool = k.Pool
    ∧ (initUnbondingDelegation k u).Params = k.Params
    ∧ (initUnbondingDelegation k u).LastTotalPower = k.LastTotalPower
    ∧ (initUnbondingDelegation k u).Validators = k.Validators
    ∧ (initUnbondingDelegation k u).Delegations = k.Delegations
    ∧ (initUnbondingDelegation k u).UnbondingDelegations
        = store.set store.keyLT [u.DelegatorAddress, u.ValidatorAddress] u k.UnbondingDelegations
    ∧ (initUnbondingDelegation k u).Redelegations = k.Redelegations
    ∧ (initUnbondingDelegation k u).LastValidatorPowers = k.LastValidatorPowers := by
  unfold initUnbondingDelegation
  have key : ∀ {γ : Type} (proj : Keeper → γ),
      (∀ (k : Keeper) (e : UnbondingDelegationEntry), proj (k.InsertUBDQueue u e.CompletionTime) = proj k) →
      proj (List.foldl (fun k entry => k.InsertUBDQueue u entry.CompletionTime)
        (k.SetUnbondingDelegation u) u.Entries) = proj (k.SetUnbondingDelegation u) :=
    fun proj h => foldl_keep proj _ h _ _
  exact ⟨key (fun k => k.Pool) (fun _ _ => rfl), key (fun k => k.Params) (fun _ _ => rfl),
    key (fun k => k.LastTotalPower) (fun _ _ => rfl),
    key (fun k => k.Validators) (fun _ _ => rfl),
    key (fun k => k.Delegations) (fun _ _ => rfl),
    key (fun k => k.UnbondingDelegations) (fun _ _ => rfl),
    key (fun k => k.Redelegations) (fun _ _ => rfl),
    key (fun k => k.LastValidatorPowers) (fun _ _ => rfl)⟩

theorem initUnbondingDelegation_Calls (k : Keeper) (u : UnbondingDelegation) :
    (initUnbondingDelegation k u).Calls = k.Calls ++ unbondingDelegationCalls u := by
  unfold initUnbondingDelegation unbondingDelegationCalls
  rw [foldl_Calls _ (fun entry => [KeeperCall.InsertUBDQueue u entry.CompletionTime])
    (fun _ _ => rfl), flatMap_singleton]
  simp [Keeper.SetUnbondingDelegation]

theorem initRedelegation_fields (k : Keeper) (r : Redelegation) :
    (initRedelegation k r).Pool = k.Pool
    ∧ (initRedelegation k r).Params = k.Params
    ∧ (initRedelegation k r).LastTotalPower = k.LastTotalPower
    ∧ (initRedelegation k r).Validators = k.Validators
    ∧ (initRedelegation k r).Delegations = k.Delegations
    ∧ (initRedelegation k r).UnbondingDelegations = k.UnbondingDelegations
    ∧ (initRedelegation k r).Redelegations
        = store.set store.keyLT
            [r.DelegatorAddress, r.ValidatorSrcAddress, r.ValidatorDstAddress] r k.Redelegations
    ∧ (initRedelegation k r).LastValidatorPowers = k.LastValidatorPowers := by
  unfold initRedelegation
  have key : ∀ {γ : Type} (proj : Keeper → γ),
      (∀ (k : Keeper) (e : RedelegationEntry), proj (k.InsertRedelegationQueue r e.CompletionTime) = proj k) →
      proj (List.foldl (fun k entry => k.InsertRedelegationQueue r entry.CompletionTime)
        (k.SetRedelegation r) r.Entries) = proj (k.SetRedelegation r) :=
    fun proj h => foldl_keep proj _ h _ _
  exact ⟨key (fun k => k.Pool) (fun _ _ => rfl), key (fun k => k.Params) (fun _ _ => rfl),
    key (fun k => k.LastTotalPower) (fun _ _ => rfl),
    key (fun k => k.Validators) (fun _ _ => rfl),
    key (fun k => k.Delegations) (fun _ _ => rfl),
    key (fun k => k.UnbondingDelegations) (fun _ _ => rfl),
    key (fun k => k.Redelegations) (fun _ _ => rfl),
    key (fun k => k.LastValidatorPowers) (fun _ _ => rfl)⟩

theorem initRedelegation_Calls (k : Keeper) (r : Redelegation) :
    (initRedelegation k r).Calls = k.Calls ++ redelegationCalls r := by
  unfold initRedelegation redelegationCalls
  rw [foldl_Calls _ (fun entry => [KeeperCall.InsertRedelegationQueue r entry.CompletionTime])
    (fun _ _ => rfl), flatMap_singleton]
  simp [Keeper.SetRedelegation]

/-- The calls of the writing part of `InitGenesis`, in order. -/
theorem writeGenesis_Calls (keeper : Keeper) (pool : Pool) (data : GenesisState) :
    (writeGenesis keeper pool data).Calls = keeper.Calls ++ genesisCalls pool data := by
  unfold writeGenesis genesisCalls
  simp only []
  rw [foldl_Calls _ _ initRedelegation_Calls, foldl_Calls _ _ initUnbondingDelegation_Calls,
    foldl_Calls _ _ (initDelegation_Calls data.Exported),
    foldl_Calls _ _ (initValidator_Calls data.Exported)]
  simp [Keeper.SetPool, Keeper.SetParams, Keeper.SetLastTotalPower]

theorem writeGenesis_Pool (keeper : Keeper) (pool : Pool) (data : GenesisState) :
    (writeGenesis keeper pool data).Pool = some pool := by
  unfold writeGenesis
  simp only []
  rw [foldl_keep (fun k => k.Pool) _ (fun k x => (initRedelegation_fields k x).1),
    foldl_keep (fun k => k.Pool) _ (fun k x => (initUnbondingDelegation_fields k x).1),
    foldl_keep (fun k => k.Pool) _ (fun k x => (initDelegation_fields _ k x).1),
    foldl_keep (fun k => k.Pool) _ (fun k x => (initValidator_fields _ k x).1)]
  rfl

theorem writeGenesis_Params (keeper : Keeper) (pool : Pool) (data : GenesisState) :
    (writeGenesis keeper pool data).Params = some data.Params := by
  unfold writeGenesis
  simp only []
  rw [foldl_keep (fun k => k.Params) _ (fun k x => (initRedelegation_fields k x).2.1),
    foldl_keep (fun k => k.Params) _ (fun k x => (initUnbondingDelegation_fields k x).2.1),
    foldl_keep (fun k => k.Params) _ (fun k x => (initDelegation_fields _ k x).2.1),
    foldl_keep (fun k => k.Params) _ (fun k x => (initValidator_fields _ k x).2.1)]
  rfl

theorem writeGenesis_LastTotalPower (keeper : Keeper) (pool : Pool) (data : GenesisState) :
    (writeGenesis keeper pool data).LastTotalPower = some data.LastTotalPower := by
  unfold writeGenesis
  simp only []
  rw [foldl_keep (fun k => k.LastTotalPower) _ (fun k x => (initRedelegation_fields k x).2.2.1),
    foldl_keep (fun k => k.LastTotalPower) _
      (fun k x => (initUnbondingDelegation_fields k x).2.2.1),
    foldl_keep (fun k => k.LastTotalPower) _ (fun k x => (initDelegation_fields _ k x).2.2.1),
    foldl_keep (fun k => k.LastTotalPower) _ (fun k x => (initValidator_fields _ k x).2.2.1)]
  rfl

theorem writeGenesis_Validators (keeper : Keeper) (pool : Pool) (data : GenesisState) :
    (writeGenesis keeper pool data).Validators
      = data.Validators.foldl (fun l v => store.set store.bytesLT v.OperatorAddress v l)
          keeper.Validators := by
  unfold writeGenesis
  simp only []
  rw [foldl_keep (fun k => k.Validators) _ (fun k x => (initRedelegation_fields k x).2.2.2.1),
    foldl_keep (fun k => k.Validators) _
      (fun k x => (initUnbondingDelegation_fields k x).2.2.2.1),
    foldl_keep (fun k => k.Validators) _ (fun k x => (initDelegation_fields _ k x).2.2.2.1),
    foldl_proj (fun k => k.Validators) _
      (fun l v => store.set store.bytesLT v.OperatorAddress v l) (fun k x => (initValidator_fields _ k x).2.2.2.1)]
  rfl

theorem writeGenesis_Delegations (keeper : Keeper) (pool : Pool) (data : GenesisState) :
    (writeGenesis keeper pool data).Delegations
      = data.Delegations.foldl
          (fun l d => store.set store.keyLT [d.DelegatorAddress, d.ValidatorAddress] d l)
          keeper.Delegations := by
  unfold writeGenesis
  simp only []
  rw [foldl_keep (fun k => k.Delegations) _ (fun k x => (initRedelegation_fields k x).2.2.2.2.1),
    foldl_keep (fun k => k.Delegations) _
      (fun k x => (initUnbondingDelegation_fields k x).2.2.2.2.1),
    foldl_proj (fun k => k.Delegations) _
      (fun l d => store.set store.keyLT [d.DelegatorAddress, d.ValidatorAddress] d l) (fun k x => (initDelegation_fields _ k x).2.2.2.2.1),
    foldl_keep (fun k => k.Delegations) _ (fun k x => (initValidator_fields _ k x).2.2.2.2.1)]
  rfl

theorem writeGenesis_UnbondingDelegations (keeper : Keeper) (pool : Pool)
    (data : GenesisState) :
    (writeGenesis keeper pool data).UnbondingDelegations
      = data.UnbondingDelegations.foldl
          (fun l u => store.set store.keyLT [u.DelegatorAddress, u.ValidatorAddress] u l)
          keeper.UnbondingDelegations := by
  unfold writeGenesis
  simp only []
  rw [foldl_keep (fun k => k.UnbondingDelegations) _
      (fun k x => (initRedelegation_fields k x).2.2.2.2.2.1),
    foldl_proj (fun k => k.UnbondingDelegations) _
      (fun l u => store.set store.keyLT [u.DelegatorAddress, u.ValidatorAddress] u l)
      (fun k x => (initUnbondingDelegation_fields k x).2.2.2.2.2.1),
    foldl_keep (fun k => k.UnbondingDelegations) _
      (fun k x => (initDelegation_fields _ k x).2.2.2.2.2.1),
    foldl_keep (fun k => k.UnbondingDelegations) _
      (fun k x => (initValidator_fields _ k x).2.2.2.2.2.1)]
  rfl

theorem writeGenesis_Redelegations (keeper : Keeper) (pool : Pool) (data : GenesisState) :
    (writeGenesis keeper pool data).Redelegations
      = data.Redelegations.foldl
          (fun l r => store.set store.keyLT
            [r.DelegatorAddress, r.ValidatorSrcAddress, r.ValidatorDstAddress] r l)
          keeper.Redelegations := by
  unfold writeGenesis
  simp only []
  rw [foldl_proj (fun k => k.Redelegations) _
      (fun l r => store.set store.keyLT
        [r.DelegatorAddress, r.ValidatorSrcAddress, r.ValidatorDstAddress] r l)
      (fun k x => (initRedelegation_fields k x).2.2.2.2.2.2.1),
    foldl_keep (fun k => k.Redelegations) _
      (fun k x => (initUnbondingDelegation_fields k x).2.2.2.2.2.2.1),
    foldl_keep (fun k => k.Redelegations) _
      (fun k x => (initDelegation_fields _ k x).2.2.2.2.2.2.1),
    foldl_keep (fun k => k.Redelegations) _
      (fun k x => (initValidator_fields _ k x).2.2.2.2.2.2.1)]
  rfl

end staking

namespace staking

open sdk auth

theorem genesisPool_eq (accounts : List Account) :
    ∀ data : GenesisState, validateDenom data.Params.BondDenom = true →
      genesisPool data accounts
        = some { NotBondedTokens := data.Pool.NotBondedTokens
                    + (accounts.map
                        (fun acc => Coins.amount acc.GetCoins data.Params.BondDenom)).sum,
                 BondedTokens := data.Pool.BondedTokens } := by
  induction accounts with
  | nil => intro data _; simp [genesisPool]
  | cons acc rest ih =>
    intro data hd
    simp only [genesisPool, Coins.AmountOf, hd, if_true]
    rw [ih { data with Pool := { data.Pool with
      NotBondedTokens := data.Pool.NotBondedTokens
        + Coins.amount acc.GetCoins data.Params.BondDenom } } hd]
    simp only [List.map_cons, List.sum_cons]
    congr 2
    ring

theorem storedPool_of_ne_zero (accountKeeper : AccountKeeper) (data : GenesisState)
    (h : data.Pool.NotBondedTokens ≠ 0) : storedPool accountKeeper data = some data.Pool := by
  unfold storedPool
  rw [if_neg h]

theorem storedPool_of_zero (accountKeeper : AccountKeeper) (data : GenesisState)
    (h : data.Pool.NotBondedTokens = 0) (hd : validateDenom data.Params.BondDenom = true) :
    storedPool accountKeeper data
      = some { NotBondedTokens := bank.totalSupply accountKeeper data.Params.BondDenom,
               BondedTokens := data.Pool.BondedTokens } := by
  unfold storedPool
  rw [if_pos h, genesisPool_eq _ _ hd, h]
  simp [bank.totalSupply]

/-- What the loop over the last validator powers leaves of the keeper when it returns. -/
theorem initLastValidatorPowers_fields :
    ∀ (lvps : List LastValidatorPower) (k : Keeper) (res : List ValidatorUpdate)
      (k1 : Keeper) (res1 : List ValidatorUpdate),
      initLastValidatorPowers k res lvps = some (k1, res1) →
      k1.Pool = k.Pool ∧ k1.Params = k.Params ∧ k1.LastTotalPower = k.LastTotalPower
      ∧ k1.Validators = k.Validators ∧ k1.Delegations = k.Delegations
      ∧ k1.UnbondingDelegations = k.UnbondingDelegations
      ∧ k1.Redelegations = k.Redelegations
      ∧ k1.Calls = k.Calls
          ++ lvps.map (fun lv => KeeperCall.SetLastValidatorPower lv.Address lv.Power) := by
  intro lvps
  induction lvps with
  | nil =>
    intro k res k1 res1 h
    simp only [initLastValidatorPowers, Option.some.injEq, Prod.mk.injEq] at h
    obtain ⟨rfl, _⟩ := h
    simp
  | cons lv rest ih =>
    intro k res k1 res1 h
    simp only [initLastValidatorPowers] at h
    split at h
    · simp at h
    · obtain ⟨h1, h2, h3, h4, h5, h6, h7, h8⟩ := ih _ _ _ _ h
      refine ⟨h1, h2, h3, h4, h5, h6, h7, ?_⟩
      rw [h8]
      simp [Keeper.SetLastValidatorPower]

/-- The loop over the last validator powers returns when every entry names a stored
validator. -/
theorem initLastValidatorPowers_returns :
    ∀ (lvps : List LastValidatorPower) (k : Keeper) (res : List ValidatorUpdate),
      (∀ lv ∈ lvps, ∃ v, store.get lv.Address k.Validators = some v) →
      ∃ r, initLastValidatorPowers k res lvps = some r := by
  intro lvps
  induction lvps with
  | nil => intro k res _; exact ⟨_, rfl⟩
  | cons lv rest ih =>
    intro k res h
    obtain ⟨v, hv⟩ := h lv (List.mem_cons_self _ _)
    have hg : (k.SetLastValidatorPower lv.Address lv.Power).GetValidator lv.Address = some v := hv
    simp only [initLastValidatorPowers, hg]
    exact ih _ _ (fun lv1 h1 => h lv1 (List.mem_cons_of_mem _ h1))

/-- `InitGenesis` of an exported payload. -/
theorem InitGenesis_exported (upd : Updater) (ctx : Context) (keeper : Keeper)
    (accountKeeper : AccountKeeper) (data : GenesisState) (pool : Pool)
    (hexp : data.Exported = true) (hpool : storedPool accountKeeper data = some pool) :
    InitGenesis upd ctx keeper accountKeeper data
      = initLastValidatorPowers (writeGenesis keeper pool data) [] data.LastValidatorPowers := by
  unfold InitGenesis
  simp only [hpool, hexp, if_true]

/-- C1 (as stated, refuted): four valid genesis states that do not survive the round trip.
(a) A payload that is not marked as exported comes back marked as exported. (b) An exported
payload that lists validator `[2]` before validator `[1]` comes back in key order. (c) An
exported payload that declares no not-bonded tokens comes back with the 5 stake of the
account ledger as not-bonded tokens. (d) For an exported payload whose last validator
powers name a validator that the payload does not hold, `InitGenesis` panics. -/
theorem InitGenesis_ExportGenesis_not_identity :
    (ValidateGenesis genesisNotExported = none
      ∧ ∀ (upd : Updater) (ctx : Context) (accountKeeper : AccountKeeper) (k k1 : Keeper)
          (res : List ValidatorUpdate) (g : GenesisState),
          InitGenesis upd ctx Keeper.empty accountKeeper genesisNotExported = some (k, res) →
          ExportGenesis k = some (k1, g) → g.Exported ≠ genesisNotExported.Exported)
    ∧ (ValidateGenesis genesisUnsorted = none
      ∧ ∀ (upd : Updater) (ctx : Context) (accountKeeper : AccountKeeper),
          ((InitGenesis upd ctx Keeper.empty accountKeeper genesisUnsorted).bind
              (fun r => ExportGenesis r.1)).map (fun e => e.2.Validators)
            = some [validatorOne, validatorTwo]
          ∧ genesisUnsorted.Validators = [validatorTwo, validatorOne])
    ∧ (ValidateGenesis genesisZeroPool = none
      ∧ ∀ (upd : Updater) (ctx : Context),
          ((InitGenesis upd ctx Keeper.empty ledgerStake genesisZeroPool).bind
              (fun r => ExportGenesis r.1)).map (fun e => e.2.Pool)
            = some ⟨5, 17⟩
          ∧ genesisZeroPool.Pool = ⟨0, 17⟩)
    ∧ (ValidateGenesis genesisMissingValidator = none
      ∧ ∀ (upd : Updater) (ctx : Context) (accountKeeper : AccountKeeper),
          InitGenesis upd ctx Keeper.empty accountKeeper genesisMissingValidator = none) := by
  refine ⟨⟨by decide, ?_⟩, ⟨by decide, ?_⟩, ⟨by decide, ?_⟩, ⟨by decide, ?_⟩⟩
  · intro upd ctx accountKeeper k k1 res g _ hg
    unfold ExportGenesis at hg
    split at hg
    · simp only [Option.some.injEq, Prod.mk.injEq] at hg
      rw [← hg.2]
      simp [genesisNotExported]
    · simp at hg
  · intro upd ctx accountKeeper
    exact ⟨rfl, rfl⟩
  · intro upd ctx
    exact ⟨rfl, rfl⟩
  · intro upd ctx accountKeeper
    rfl

/-- C1 (amended): for every genesis state accepted by `ValidateGenesis` that is marked as
exported, declares not-bonded tokens, lists its validators, delegations, unbonding
delegations and redelegations in ascending key order (so without duplicate keys) and names
in its last validator powers only validators of the payload, `InitGenesis` on an empty
store returns, and `ExportGenesis` on the keeper state it produces leaves that state as it
is and returns a genesis state equal to the payload in every field except
`LastValidatorPowers`. -/
theorem InitGenesis_ExportGenesis_roundtrip (upd : Updater) (ctx : Context)
    (accountKeeper : AccountKeeper) (data : GenesisState)
    (_hvalid : ValidateGenesis data = none)
    (hexp : data.Exported = true)
    (hpool : data.Pool.NotBondedTokens ≠ 0)
    (hvals : store.Ascending store.bytesLT (data.Validators.map (fun v => v.OperatorAddress)))
    (hdels : store.Ascending store.keyLT
      (data.Delegations.map (fun d => [d.DelegatorAddress, d.ValidatorAddress])))
    (hubds : store.Ascending store.keyLT
      (data.UnbondingDelegations.map (fun u => [u.DelegatorAddress, u.ValidatorAddress])))
    (hreds : store.Ascending store.keyLT
      (data.Redelegations.map
        (fun r => [r.DelegatorAddress, r.ValidatorSrcAddress, r.ValidatorDstAddress])))
    (hlvp : ∀ lv ∈ data.LastValidatorPowers,
      ∃ v ∈ data.Validators, v.OperatorAddress = lv.Address) :
    ∃ k res g, InitGenesis upd ctx Keeper.empty accountKeeper data = some (k, res)
      ∧ ExportGenesis k = some (k, g)
      ∧ { g with LastValidatorPowers := data.LastValidatorPowers } = data := by
  have hsp := storedPool_of_ne_zero accountKeeper data hpool
  have hV : (writeGenesis Keeper.empty data.Pool data).Validators
      = data.Validators.map (fun v => (v.OperatorAddress, v)) := by
    rw [writeGenesis_Validators]
    have := store.foldl_set_ascending store.bytesLT store.bytesLT_asymm store.bytesLT_ne
      (fun v : Validator => v.OperatorAddress) (fun v => v) data.Validators [] hvals
      (fun e he => by simp at he)
    simpa [Keeper.empty] using this
  have hD : (writeGenesis Keeper.empty data.Pool data).Delegations
      = data.Delegations.map (fun d => ([d.DelegatorAddress, d.ValidatorAddress], d)) := by
    rw [writeGenesis_Delegations]
    have := store.foldl_set_ascending store.keyLT store.keyLT_asymm store.keyLT_ne
      (fun d : Delegation => [d.DelegatorAddress, d.ValidatorAddress]) (fun d => d)
      data.Delegations [] hdels (fun e he => by simp at he)
    simpa [Keeper.empty] using this
  have hU : (writeGenesis Keeper.empty data.Pool data).UnbondingDelegations
      = data.UnbondingDelegations.map
          (fun u => ([u.DelegatorAddress, u.ValidatorAddress], u)) := by
    rw [writeGenesis_UnbondingDelegations]
    have := store.foldl_set_ascending store.keyLT store.keyLT_asymm store.keyLT_ne
      (fun u : UnbondingDelegation => [u.DelegatorAddress, u.ValidatorAddress]) (fun u => u)
      data.UnbondingDelegations [] hubds (fun e he => by simp at he)
    simpa [Keeper.empty] using this
  have hR : (writeGenesis Keeper.empty data.Pool data).Redelegations
      = data.Redelegations.map
          (fun r => ([r.DelegatorAddress, r.ValidatorSrcAddress, r.ValidatorDstAddress], r)) := by
    rw [writeGenesis_Redelegations]
    have := store.foldl_set_ascending store.keyLT store.keyLT_asymm store.keyLT_ne
      (fun r : Redelegation =>
        [r.DelegatorAddress, r.ValidatorSrcAddress, r.ValidatorDstAddress]) (fun r => r)
      data.Redelegations [] hreds (fun e he => by simp at he)
    simpa [Keeper.empty] using this
  have hfound : ∀ lv ∈ data.LastValidatorPowers,
      ∃ v, store.get lv.Address (writeGenesis Keeper.empty data.Pool data).Validators
        = some v := by
    intro lv hlv
    obtain ⟨v, hv, hva⟩ := hlvp lv hlv
    rw [hV, ← hva]
    exact store.get_map_of_mem (fun v : Validator => v.OperatorAddress) data.Validators v hv
  obtain ⟨⟨k, res⟩, hr⟩ := initLastValidatorPowers_returns data.LastValidatorPowers
    (writeGenesis Keeper.empty data.Pool data) [] hfound
  obtain ⟨h1, h2, h3, h4, h5, h6, h7, _⟩ :=
    initLastValidatorPowers_fields _ _ _ _ _ hr
  refine ⟨k, res,
    { Pool := data.Pool, Params := data.Params, LastTotalPower := k.GetLastTotalPower,
      LastValidatorPowers := k.IterateLastValidatorPowers, Validators := k.GetAllValidators,
      Delegations := k.GetAllDelegations,
      UnbondingDelegations := k.IterateUnbondingDelegations,
      Redelegations := k.IterateRedelegations, Exported := true }, ?_, ?_, ?_⟩
  · rw [InitGenesis_exported upd ctx Keeper.empty accountKeeper data data.Pool hexp hsp, hr]
  · unfold ExportGenesis Keeper.GetPool Keeper.GetParams
    rw [h1, h2, writeGenesis_Pool, writeGenesis_Params]
  · simp only [Keeper.GetLastTotalPower, Keeper.GetAllValidators, Keeper.GetAllDelegations,
      Keeper.IterateUnbondingDelegations, Keeper.IterateRedelegations, h3, h4, h5, h6, h7,
      writeGenesis_LastTotalPower, hV, hD, hU, hR, List.map_map, Function.comp_def,
      List.map_id', ← hexp]

theorem InitGenesis_ExportGenesis_roundtrip_witness :
    ∃ k res g,
      InitGenesis (fun _ _ => none) ⟨0, 0⟩ Keeper.empty bank.ledgerTwo genesisFull = some (k, res)
      ∧ ExportGenesis k = some (k, g)
      ∧ { g with LastValidatorPowers := genesisFull.LastValidatorPowers } = genesisFull :=
  InitGenesis_ExportGenesis_roundtrip (fun _ _ => none) ⟨0, 0⟩ bank.ledgerTwo genesisFull
    (by decide) (by decide) (by decide)
    (by unfold store.Ascending; decide) (by unfold store.Ascending; decide)
    (by unfold store.Ascending; decide) (by unfold store.Ascending; decide) (by decide)

end staking

namespace staking

open sdk auth

theorem flatMap_nil_of_forall {α β : Type} (f : α → List β) (l : List α)
    (h : ∀ x, f x = []) : l.flatMap f = [] := by
  induction l with
  | nil => rfl
  | cons x rest ih => rw [List.flatMap_cons, ih, h]; rfl

theorem filter_validatorCalls (exported : Bool) (v : Validator) :
    (validatorCalls exported v).filter (fun c => c.IsHook || c.IsDelegationWrite)
      = if exported then [] else [KeeperCall.AfterValidatorCreated v.OperatorAddress] := by
  cases exported <;> cases h : v.IsUnbonding <;>
    simp [validatorCalls, h, KeeperCall.IsHook, KeeperCall.IsDelegationWrite]

theorem filter_delegationCalls (exported : Bool) (d : Delegation) :
    (delegationCalls exported d).filter (fun c => c.IsHook || c.IsDelegationWrite)
      = if exported then [KeeperCall.SetDelegation d]
        else [KeeperCall.BeforeDelegationCreated d.DelegatorAddress d.ValidatorAddress,
          KeeperCall.SetDelegation d,
          KeeperCall.AfterDelegationModified d.DelegatorAddress d.ValidatorAddress] := by
  cases exported <;>
    simp [delegationCalls, KeeperCall.IsHook, KeeperCall.IsDelegationWrite]

theorem filter_unbondingDelegationCalls (u : UnbondingDelegation) :
    (unbondingDelegationCalls u).filter (fun c => c.IsHook || c.IsDelegationWrite) = [] := by
  simp [unbondingDelegationCalls, KeeperCall.IsHook, KeeperCall.IsDelegationWrite,
    List.filter_eq_nil_iff]

theorem filter_redelegationCalls (r : Redelegation) :
    (redelegationCalls r).filter (fun c => c.IsHook || c.IsDelegationWrite) = [] := by
  simp [redelegationCalls, KeeperCall.IsHook, KeeperCall.IsDelegationWrite,
    List.filter_eq_nil_iff]

/-- The hooks and delegation writes among the calls of the writing part of `InitGenesis`. -/
theorem filter_genesisCalls (pool : Pool) (data : GenesisState) :
    (genesisCalls pool data).filter (fun c => c.IsHook || c.IsDelegationWrite)
      = if data.Exported then data.Delegations.map KeeperCall.SetDelegation
        else importHooksAndDelegationWrites data := by
  unfold genesisCalls importHooksAndDelegationWrites
  simp only [List.filter_append, List.filter_flatMap, filter_validatorCalls,
    filter_delegationCalls, filter_unbondingDelegationCalls, filter_redelegationCalls]
  cases data.Exported
  · simp [KeeperCall.IsHook, KeeperCall.IsDelegationWrite, flatMap_singleton,
      flatMap_nil_of_forall]
  · simp [KeeperCall.IsHook, KeeperCall.IsDelegationWrite, flatMap_singleton,
      flatMap_nil_of_forall]

theorem filter_IsHook_eq (l : List KeeperCall) :
    l.filter KeeperCall.IsHook
      = (l.filter (fun c => c.IsHook || c.IsDelegationWrite)).filter KeeperCall.IsHook := by
  rw [List.filter_filter]
  congr 1
  funext c
  cases c <;> rfl

/-- C8: `InitGenesis` writes the payload and then either replays the last validator powers
(exported payload) or calls the validator set updater. Among the calls of the writing part,
the hooks and the writes of delegations are: for a payload that is not exported,
`AfterValidatorCreated` once per validator in payload order, then for every delegation in
payload order `BeforeDelegationCreated`, the write of the delegation and
`AfterDelegationModified`; for an exported payload only the writes of the delegations and
no hook. An exported import ends without any hook having been called. -/
theorem InitGenesis_hooks (upd : Updater) (ctx : Context) (keeper : Keeper)
    (accountKeeper : AccountKeeper) (data : GenesisState) :
    (InitGenesis upd ctx keeper accountKeeper data
      = match storedPool accountKeeper data with
        | none => none
        | some pool =>
          if data.Exported then
            initLastValidatorPowers (writeGenesis keeper pool data) [] data.LastValidatorPowers
          else
            upd { ctx with BlockHeight := 1 - ValidatorUpdateDelay }
              (writeGenesis keeper pool data).callUpdater)
    ∧ (∀ pool,
        (writeGenesis keeper pool data).Calls.filter (fun c => c.IsHook || c.IsDelegationWrite)
          = keeper.Calls.filter (fun c => c.IsHook || c.IsDelegationWrite)
            ++ (if data.Exported then data.Delegations.map KeeperCall.SetDelegation
                else
                  data.Validators.map
                      (fun v => KeeperCall.AfterValidatorCreated v.OperatorAddress)
                    ++ data.Delegations.flatMap (fun d =>
                      [KeeperCall.BeforeDelegationCreated d.DelegatorAddress d.ValidatorAddress,
                        KeeperCall.SetDelegation d,
                        KeeperCall.AfterDelegationModified d.DelegatorAddress
                          d.ValidatorAddress])))
    ∧ (∀ pool,
        (writeGenesis keeper pool data).callUpdater.Calls.filter KeeperCall.IsHook
          = keeper.Calls.filter KeeperCall.IsHook
            ++ (if data.Exported then []
                else
                  data.Validators.map
                      (fun v => KeeperCall.AfterValidatorCreated v.OperatorAddress)
                    ++ data.Delegations.flatMap (fun d =>
                      [KeeperCall.BeforeDelegationCreated d.DelegatorAddress d.ValidatorAddress,
                        KeeperCall.AfterDelegationModified d.DelegatorAddress
                          d.ValidatorAddress])))
    ∧ (data.Exported = true → ∀ k res,
        InitGenesis upd ctx keeper accountKeeper data = some (k, res) →
        k.Calls.filter KeeperCall.IsHook = keeper.Calls.filter KeeperCall.IsHook) := by
  have hw : ∀ pool,
      (writeGenesis keeper pool data).Calls.filter (fun c => c.IsHook || c.IsDelegationWrite)
        = keeper.Calls.filter (fun c => c.IsHook || c.IsDelegationWrite)
          ++ (if data.Exported then data.Delegations.map KeeperCall.SetDelegation
              else importHooksAndDelegationWrites data) := by
    intro pool
    rw [writeGenesis_Calls, List.filter_append, filter_genesisCalls]
  have hh : ∀ pool,
      (writeGenesis keeper pool data).Calls.filter KeeperCall.IsHook
        = keeper.Calls.filter KeeperCall.IsHook
          ++ (if data.Exported then []
              else
                data.Validators.map
                    (fun v => KeeperCall.AfterValidatorCreated v.OperatorAddress)
                  ++ data.Delegations.flatMap (fun d =>
                    [KeeperCall.BeforeDelegationCreated d.DelegatorAddress d.ValidatorAddress,
                      KeeperCall.AfterDelegationModified d.DelegatorAddress
                        d.ValidatorAddress])) := by
    intro pool
    rw [filter_IsHook_eq, hw pool, List.filter_append, ← filter_IsHook_eq]
    congr 1
    cases data.Exported
    · simp [importHooksAndDelegationWrites, List.filter_flatMap, KeeperCall.IsHook,
        List.filter_map, Function.comp_def]
    · simp [List.filter_map, Function.comp_def, KeeperCall.IsHook]
  refine ⟨rfl, hw, ?_, ?_⟩
  · intro pool
    rw [← hh pool]
    simp [Keeper.callUpdater, KeeperCall.IsHook]
  · intro hexp k res h
    cases hp : storedPool accountKeeper data with
    | none => simp [InitGenesis, hp] at h
    | some pool =>
      rw [InitGenesis_exported upd ctx keeper accountKeeper data pool hexp hp] at h
      obtain ⟨_, _, _, _, _, _, _, hc⟩ := initLastValidatorPowers_fields _ _ _ _ _ h
      rw [hc, List.filter_append, hh pool, hexp]
      simp [List.filter_map, Function.comp_def, KeeperCall.IsHook]

/-- C8 at concrete payloads: the hooks of a first import of `genesisFresh`, and none for
the exported `genesisFull`. -/
theorem InitGenesis_hooks_witness :
    (writeGenesis Keeper.empty genesisFresh.Pool genesisFresh).Calls.filter
        (fun c => c.IsHook || c.IsDelegationWrite)
      = [KeeperCall.AfterValidatorCreated [1], KeeperCall.AfterValidatorCreated [2],
          KeeperCall.BeforeDelegationCreated [1] [1], KeeperCall.SetDelegation ⟨[1], [1], ⟨9⟩⟩,
          KeeperCall.AfterDelegationModified [1] [1],
          KeeperCall.BeforeDelegationCreated [2] [2], KeeperCall.SetDelegation ⟨[2], [2], ⟨8⟩⟩,
          KeeperCall.AfterDelegationModified [2] [2]]
    ∧ ∀ k res,
        InitGenesis (fun _ _ => none) ⟨0, 0⟩ Keeper.empty bank.ledgerTwo genesisFull
          = some (k, res) →
        k.Calls.filter KeeperCall.IsHook = [] :=
  ⟨((InitGenesis_hooks (fun _ _ => none) ⟨0, 0⟩ Keeper.empty bank.ledgerTwo genesisFresh).2.1
      genesisFresh.Pool).trans (by decide),
    (InitGenesis_hooks (fun _ _ => none) ⟨0, 0⟩ Keeper.empty bank.ledgerTwo genesisFull).2.2.2
      (by decide)⟩

/-- C9 (as stated, refuted): the payload `genesisZeroPool` declares the pool (0, 17); with
an account ledger holding 5 stake, `GetPool` after `InitGenesis` returns (5, 17). -/
theorem InitGenesis_pool_not_verbatim :
    (∀ (upd : Updater) (ctx : Context),
      (InitGenesis upd ctx Keeper.empty ledgerStake genesisZeroPool).map (fun r => r.1.GetPool)
        = some (some ⟨5, 17⟩))
    ∧ genesisZeroPool.Pool = ⟨0, 17⟩ :=
  ⟨fun _ _ => rfl, rfl⟩

/-- C9 (amended): for every genesis payload the params stored by `InitGenesis` are exactly
the payload's Params, and the pool stored is exactly the payload's Pool whenever the
payload declares not-bonded tokens (a non-zero `NotBondedTokens`): after the writes of
the import, `GetParams` returns `data.Params` and `GetPool` returns `data.Pool`, and so
they do after the whole of `InitGenesis` for an exported payload. -/
theorem InitGenesis_stores_pool_params (upd : Updater) (ctx : Context) (keeper : Keeper)
    (accountKeeper : AccountKeeper) (data : GenesisState) :
    (∀ pool, (writeGenesis keeper pool data).GetParams = some data.Params
      ∧ (writeGenesis keeper pool data).GetPool = some pool)
    ∧ (data.Pool.NotBondedTokens ≠ 0 →
        InitGenesis upd ctx keeper accountKeeper data
          = (if data.Exported then
              initLastValidatorPowers (writeGenesis keeper data.Pool data) []
                data.LastValidatorPowers
            else
              upd { ctx with BlockHeight := 1 - ValidatorUpdateDelay }
                (writeGenesis keeper data.Pool data).callUpdater)
        ∧ (writeGenesis keeper data.Pool data).callUpdater.GetPool = some data.Pool
        ∧ (writeGenesis keeper data.Pool data).callUpdater.GetParams = some data.Params)
    ∧ (data.Exported = true → ∀ k res,
        InitGenesis upd ctx keeper accountKeeper data = some (k, res) →
        k.GetParams = some data.Params
        ∧ (data.Pool.NotBondedTokens ≠ 0 → k.GetPool = some data.Pool)) := by
  refine ⟨fun pool => ⟨writeGenesis_Params keeper pool data, writeGenesis_Pool keeper pool data⟩,
    ?_, ?_⟩
  · intro hne
    refine ⟨?_, writeGenesis_Pool keeper _ data, writeGenesis_Params keeper _ data⟩
    unfold InitGenesis
    rw [storedPool_of_ne_zero accountKeeper data hne]
  · intro hexp k res h
    cases hp : storedPool accountKeeper data with
    | none => simp [InitGenesis, hp] at h
    | some pool =>
      rw [InitGenesis_exported upd ctx keeper accountKeeper data pool hexp hp] at h
      obtain ⟨h1, h2, _⟩ := initLastValidatorPowers_fields _ _ _ _ _ h
      refine ⟨?_, ?_⟩
      · show k.Params = _
        rw [h2]; exact writeGenesis_Params keeper pool data
      · intro hne
        rw [storedPool_of_ne_zero accountKeeper data hne] at hp
        simp only [Option.some.injEq] at hp
        show k.Pool = _
        rw [h1, ← hp]; exact writeGenesis_Pool keeper _ data

/-- C9 at the concrete exported payload `genesisFull`: pool and params come back as
declared. -/
theorem InitGenesis_stores_pool_params_witness :
    (InitGenesis (fun _ _ => none) ⟨0, 0⟩ Keeper.empty bank.ledgerTwo genesisFull).map
        (fun r => (r.1.GetPool, r.1.GetParams))
      = some (some genesisFull.Pool, some genesisFull.Params)
    ∧ ∀ k res,
        InitGenesis (fun _ _ => none) ⟨0, 0⟩ Keeper.empty bank.ledgerTwo genesisFull
          = some (k, res) →
        k.GetParams = some genesisFull.Params
        ∧ (genesisFull.Pool.NotBondedTokens ≠ 0 → k.GetPool = some genesisFull.Pool) :=
  ⟨rfl,
    (InitGenesis_stores_pool_params (fun _ _ => none) ⟨0, 0⟩ Keeper.empty bank.ledgerTwo
      genesisFull).2.2 (by decide)⟩

/-- C10 (as stated, refuted): the payload `genesisInvalidBondDenom` declares no not-bonded
tokens and the bond denomination `"Invalid"`; with one account in the ledger `InitGenesis`
panics in `AmountOf` and stores no pool. -/
theorem InitGenesis_invalid_bond_denom_panics :
    (∀ (upd : Updater) (ctx : Context) (keeper : Keeper),
      InitGenesis upd ctx keeper ledgerStake genesisInvalidBondDenom = none)
    ∧ genesisInvalidBondDenom.Pool.NotBondedTokens = 0 :=
  ⟨fun _ _ _ => rfl, rfl⟩

/-- C10 (amended): when the payload declares no not-bonded tokens and its bond denomination
is a valid denomination, `InitGenesis` stores a pool whose `NotBondedTokens` is the sum,
over all accounts of the account ledger, of the balance in the bond denomination, with the
declared `BondedTokens`; when the declared `NotBondedTokens` is non-zero, the declared pool
is stored and `InitGenesis` does not depend on the account ledger. -/
theorem InitGenesis_pool_from_accounts (upd : Updater) (ctx : Context) (keeper : Keeper)
    (accountKeeper : AccountKeeper) (data : GenesisState) :
    (data.Pool.NotBondedTokens = 0 → validateDenom data.Params.BondDenom = true →
      storedPool accountKeeper data
        = some { NotBondedTokens := bank.totalSupply accountKeeper data.Params.BondDenom,
                 BondedTokens := data.Pool.BondedTokens }
      ∧ (∀ pool, storedPool accountKeeper data = some pool →
          (writeGenesis keeper pool data).GetPool
            = some { NotBondedTokens := bank.totalSupply accountKeeper data.Params.BondDenom,
                     BondedTokens := data.Pool.BondedTokens }))
    ∧ (data.Pool.NotBondedTokens ≠ 0 →
      storedPool accountKeeper data = some data.Pool
      ∧ (writeGenesis keeper data.Pool data).GetPool = some data.Pool
      ∧ ∀ other : AccountKeeper,
          InitGenesis upd ctx keeper other data = InitGenesis upd ctx keeper accountKeeper data)
    ∧ (InitGenesis upd ctx keeper accountKeeper data
      = match storedPool accountKeeper data with
        | none => none
        | some pool =>
          if data.Exported then
            initLastValidatorPowers (writeGenesis keeper pool data) [] data.LastValidatorPowers
          else
            upd { ctx with BlockHeight := 1 - ValidatorUpdateDelay }
              (writeGenesis keeper pool data).callUpdater) := by
  refine ⟨?_, ?_, rfl⟩
  · intro hz hd
    have hs := storedPool_of_zero accountKeeper data hz hd
    refine ⟨hs, ?_⟩
    intro pool hp
    rw [hs] at hp
    simp only [Option.some.injEq] at hp
    rw [← hp]
    exact writeGenesis_Pool keeper _ data
  · intro hne
    refine ⟨storedPool_of_ne_zero accountKeeper data hne, writeGenesis_Pool keeper _ data, ?_⟩
    intro other
    unfold InitGenesis
    rw [storedPool_of_ne_zero accountKeeper data hne, storedPool_of_ne_zero other data hne]

/-- C10 at concrete payloads: `genesisZeroPool` with the ledger holding 5 stake stores
the pool (5, 17); `genesisFull` stores its declared pool whatever the ledger. -/
theorem InitGenesis_pool_from_accounts_witness :
    (storedPool ledgerStake genesisZeroPool = some ⟨5, 17⟩
      ∧ (writeGenesis Keeper.empty ⟨5, 17⟩ genesisZeroPool).GetPool = some ⟨5, 17⟩)
    ∧ (storedPool ledgerStake genesisFull = some genesisFull.Pool
      ∧ (writeGenesis Keeper.empty genesisFull.Pool genesisFull).GetPool = some genesisFull.Pool
      ∧ ∀ other : AccountKeeper,
          InitGenesis (fun _ _ => none) ⟨0, 0⟩ Keeper.empty other genesisFull
            = InitGenesis (fun _ _ => none) ⟨0, 0⟩ Keeper.empty ledgerStake genesisFull) :=
  ⟨⟨((InitGenesis_pool_from_accounts (fun _ _ => none) ⟨0, 0⟩ Keeper.empty ledgerStake
        genesisZeroPool).1 (by decide) (by decide)).1.trans (by decide),
      rfl⟩,
    (InitGenesis_pool_from_accounts (fun _ _ => none) ⟨0, 0⟩ Keeper.empty ledgerStake
      genesisFull).2.1 (by decide)⟩

end staking

/-! ## Queues and indexes of the staking keeper -/

namespace store

theorem get_set_same {K V : Type} [DecidableEq K] (lt : K → K → Bool) (k : K) (v : V) :
    ∀ l : List (K × V), get k (set lt k v l) = some v := by
  intro l
  induction l with
  | nil => simp [set, get]
  | cons e rest ih =>
    simp only [set]
    split
    · simp [get]
    · split
      · simp [get]
      · rename_i h1 h2
        simp only [get, h2, if_false]
        exact ih

theorem get_set_ne {K V : Type} [DecidableEq K] (lt : K → K → Bool) (k : K) (v : V)
    {other : K} (hne : other ≠ k) :
    ∀ l : List (K × V), get other (set lt k v l) = get other l := by
  intro l
  induction l with
  | nil => simp [set, get, hne]
  | cons e rest ih =>
    simp only [set]
    split
    · simp [get, hne]
    · split
      · rename_i h1 h2
        have : other ≠ e.1 := by rw [← h2]; exact hne
        simp [get, hne, this]
      · simp only [get]
        rw [ih]

/-- Writing entries of pairwise distinct keys leaves every one of them readable. -/
theorem get_foldl_set {K V α : Type} [DecidableEq K] (lt : K → K → Bool) (key : α → K)
    (val : α → V) :
    ∀ (xs : List α) (l0 : List (K × V)), (xs.map key).Nodup → ∀ x ∈ xs,
      get (key x) (xs.foldl (fun l a => set lt (key a) (val a) l) l0) = some (val x) := by
  intro xs
  induction xs using List.reverseRecOn with
  | nil => intro l0 _ x hx; simp at hx
  | append_singleton pre a ih =>
    intro l0 hnd x hx
    rw [List.foldl_append, List.foldl_cons, List.foldl_nil]
    rw [List.map_append, List.nodup_append] at hnd
    obtain ⟨hpre, _, hdis⟩ := hnd
    rcases List.mem_append.1 hx with hx | hx
    · have hne : key x ≠ key a := by
        intro he
        exact hdis (List.mem_map_of_mem key hx) (by simp [he])
      rw [get_set_ne lt (key a) (val a) hne]
      exact ih l0 hpre x hx
    · simp only [List.mem_singleton] at hx
      subst hx
      exact get_set_same lt (key x) (val x) _

end store

namespace staking

open sdk auth

theorem foldl_append_proj {β γ : Type} (g : Keeper → List γ) (f : Keeper → β → Keeper)
    (c : β → List γ) (h : ∀ k x, g (f k x) = g k ++ c x) (l : List β) (k : Keeper) :
    g (l.foldl f k) = g k ++ l.flatMap c := by
  induction l generalizing k with
  | nil => simp
  | cons x rest ih => rw [List.foldl_cons, ih, h, List.flatMap_cons, List.append_assoc]

theorem timeSlice_insertQueue {V : Type} (queue : List (Int × List V)) (time : Int) (v : V)
    (t : Int) :
    timeSlice (insertQueue queue time v) t
      = timeSlice queue t ++ (if time = t then [v] else []) := by
  unfold insertQueue
  by_cases h : time = t
  · subst h
    simp only [timeSlice, store.get_set_same, if_true]
  · have hne : t ≠ time := fun e => h e.symm
    simp only [timeSlice, store.get_set_ne store.timeLT time _ hne, h, if_false,
      List.append_nil]

/-- What one pass of the validator loop leaves of the indexes and queues. -/
theorem initValidator_queues (exported : Bool) (k : Keeper) (v : Validator) :
    (initValidator exported k v).UBDQueue = k.UBDQueue
    ∧ (initValidator exported k v).RedelegationQueue = k.RedelegationQueue
    ∧ (initValidator exported k v).ValidatorsByConsAddr
        = store.set store.bytesLT v.ConsPubKey v.OperatorAddress k.ValidatorsByConsAddr
    ∧ (initValidator exported k v).ValidatorsByPowerIndex
        = store.set powerRankLT (v.Tokens, v.OperatorAddress) v.OperatorAddress
            k.ValidatorsByPowerIndex := by
  cases exported <;> cases h : v.IsUnbonding <;>
    simp [initValidator, h, Keeper.SetValidator, Keeper.SetValidatorByConsAddr,
      Keeper.SetValidatorByPowerIndex, Keeper.AfterValidatorCreated,
      Keeper.InsertValidatorQueue]

theorem initDelegation_queues (exported : Bool) (k : Keeper) (d : Delegation) :
    (initDelegation exported k d).UBDQueue = k.UBDQueue
    ∧ (initDelegation exported k d).RedelegationQueue = k.RedelegationQueue
    ∧ (initDelegation exported k d).ValidatorsByConsAddr = k.ValidatorsByConsAddr
    ∧ (initDelegation exported k d).ValidatorsByPowerIndex = k.ValidatorsByPowerIndex := by
  cases exported <;>
    simp [initDelegation, Keeper.SetDelegation, Keeper.BeforeDelegationCreated,
      Keeper.AfterDelegationModified]

theorem initUnbondingDelegation_queues (k : Keeper) (u : UnbondingDelegation) :
    (∀ t, timeSlice (initUnbondingDelegation k u).UBDQueue t
        = timeSlice k.UBDQueue t
          ++ u.Entries.flatMap (fun e => if e.CompletionTime = t then [u.Pair] else []))
    ∧ (initUnbondingDelegation k u).RedelegationQueue = k.RedelegationQueue
    ∧ (initUnbondingDelegation k u).ValidatorsByConsAddr = k.ValidatorsByConsAddr
    ∧ (initUnbondingDelegation k u).ValidatorsByPowerIndex = k.ValidatorsByPowerIndex := by
  unfold initUnbondingDelegation
  have key : ∀ {γ : Type} (proj : Keeper → γ),
      (∀ (k : Keeper) (e : UnbondingDelegationEntry),
        proj (k.InsertUBDQueue u e.CompletionTime) = proj k) →
      proj (List.foldl (fun k entry => k.InsertUBDQueue u entry.CompletionTime)
        (k.SetUnbondingDelegation u) u.Entries) = proj (k.SetUnbondingDelegation u) :=
    fun proj h => foldl_keep proj _ h _ _
  refine ⟨?_, key (fun k => k.RedelegationQueue) (fun _ _ => rfl),
    key (fun k => k.ValidatorsByConsAddr) (fun _ _ => rfl),
    key (fun k => k.ValidatorsByPowerIndex) (fun _ _ => rfl)⟩
  intro t
  exact foldl_append_proj (fun k => timeSlice k.UBDQueue t)
    (fun (k : Keeper) (entry : UnbondingDelegationEntry) =>
      k.InsertUBDQueue u entry.CompletionTime)
    (fun (e : UnbondingDelegationEntry) => if e.CompletionTime = t then [u.Pair] else [])
    (fun k e => timeSlice_insertQueue k.UBDQueue e.CompletionTime u.Pair t) _ _

theorem initRedelegation_queues (k : Keeper) (r : Redelegation) :
    (initRedelegation k r).UBDQueue = k.UBDQueue
    ∧ (∀ t, timeSlice (initRedelegation k r).RedelegationQueue t
        = timeSlice k.RedelegationQueue t
          ++ r.Entries.flatMap (fun e => if e.CompletionTime = t then [r.Triplet] else []))
    ∧ (initRedelegation k r).ValidatorsByConsAddr = k.ValidatorsByConsAddr
    ∧ (initRedelegation k r).ValidatorsByPowerIndex = k.ValidatorsByPowerIndex := by
  unfold initRedelegation
  have key : ∀ {γ : Type} (proj : Keeper → γ),
      (∀ (k : Keeper) (e : RedelegationEntry),
        proj (k.InsertRedelegationQueue r e.CompletionTime) = proj k) →
      proj (List.foldl (fun k entry => k.InsertRedelegationQueue r entry.CompletionTime)
        (k.SetRedelegation r) r.Entries) = proj (k.SetRedelegation r) :=
    fun proj h => foldl_keep proj _ h _ _
  refine ⟨key (fun k => k.UBDQueue) (fun _ _ => rfl), ?_,
    key (fun k => k.ValidatorsByConsAddr) (fun _ _ => rfl),
    key (fun k => k.ValidatorsByPowerIndex) (fun _ _ => rfl)⟩
  intro t
  exact foldl_append_proj (fun k => timeSlice k.RedelegationQueue t)
    (fun (k : Keeper) (entry : RedelegationEntry) =>
      k.InsertRedelegationQueue r entry.CompletionTime)
    (fun (e : RedelegationEntry) => if e.CompletionTime = t then [r.Triplet] else [])
    (fun k e => timeSlice_insertQueue k.RedelegationQueue e.CompletionTime r.Triplet t) _ _

/-- The unbonding queue after the writing part of `InitGenesis`. -/
theorem writeGenesis_UBDQueue (keeper : Keeper) (pool : Pool) (data : GenesisState) (t : Int) :
    timeSlice (writeGenesis keeper pool data).UBDQueue t
      = timeSlice keeper.UBDQueue t
        ++ data.UnbondingDelegations.flatMap (fun u =>
            u.Entries.flatMap (fun e => if e.CompletionTime = t then [u.Pair] else [])) := by
  unfold writeGenesis
  simp only []
  rw [foldl_keep (fun k => k.UBDQueue) _ (fun k x => (initRedelegation_queues k x).1),
    foldl_append_proj (fun k => timeSlice k.UBDQueue t) _ _
      (fun k u => (initUnbondingDelegation_queues k u).1 t),
    foldl_keep (fun k => k.UBDQueue) _ (fun k x => (initDelegation_queues _ k x).1),
    foldl_keep (fun k => k.UBDQueue) _ (fun k x => (initValidator_queues _ k x).1)]
  rfl

/-- The redelegation queue after the writing part of `InitGenesis`. -/
theorem writeGenesis_RedelegationQueue (keeper : Keeper) (pool : Pool) (data : GenesisState)
    (t : Int) :
    timeSlice (writeGenesis keeper pool data).RedelegationQueue t
      = timeSlice keeper.RedelegationQueue t
        ++ data.Redelegations.flatMap (fun r =>
            r.Entries.flatMap (fun e => if e.CompletionTime = t then [r.Triplet] else [])) := by
  unfold writeGenesis
  simp only []
  rw [foldl_append_proj (fun k => timeSlice k.RedelegationQueue t) _ _
      (fun k r => (initRedelegation_queues k r).2.1 t),
    foldl_keep (fun k => k.RedelegationQueue) _
      (fun k x => (initUnbondingDelegation_queues k x).2.1),
    foldl_keep (fun k => k.RedelegationQueue) _ (fun k x => (initDelegation_queues _ k x).2.1),
    foldl_keep (fun k => k.RedelegationQueue) _ (fun k x => (initValidator_queues _ k x).2.1)]
  rfl

theorem writeGenesis_ValidatorsByConsAddr (keeper : Keeper) (pool : Pool)
    (data : GenesisState) :
    (writeGenesis keeper pool data).ValidatorsByConsAddr
      = data.Validators.foldl
          (fun l v => store.set store.bytesLT v.ConsPubKey v.OperatorAddress l)
          keeper.ValidatorsByConsAddr := by
  unfold writeGenesis
  simp only []
  rw [foldl_keep (fun k => k.ValidatorsByConsAddr) _
      (fun k x => (initRedelegation_queues k x).2.2.1),
    foldl_keep (fun k => k.ValidatorsByConsAddr) _
      (fun k x => (initUnbondingDelegation_queues k x).2.2.1),
    foldl_keep (fun k => k.ValidatorsByConsAddr) _
      (fun k x => (initDelegation_queues _ k x).2.2.1),
    foldl_proj (fun k => k.ValidatorsByConsAddr) _
      (fun l v => store.set store.bytesLT v.ConsPubKey v.OperatorAddress l)
      (fun k x => (initValidator_queues _ k x).2.2.1)]
  rfl

theorem writeGenesis_ValidatorsByPowerIndex (keeper : Keeper) (pool : Pool)
    (data : GenesisState) :
    (writeGenesis keeper pool data).ValidatorsByPowerIndex
      = data.Validators.foldl
          (fun l v => store.set powerRankLT (v.Tokens, v.OperatorAddress) v.OperatorAddress l)
          keeper.ValidatorsByPowerIndex := by
  unfold writeGenesis
  simp only []
  rw [foldl_keep (fun k => k.ValidatorsByPowerIndex) _
      (fun k x => (initRedelegation_queues k x).2.2.2),
    foldl_keep (fun k => k.ValidatorsByPowerIndex) _
      (fun k x => (initUnbondingDelegation_queues k x).2.2.2),
    foldl_keep (fun k => k.ValidatorsByPowerIndex) _
      (fun k x => (initDelegation_queues _ k x).2.2.2),
    foldl_proj (fun k => k.ValidatorsByPowerIndex) _
      (fun l v => store.set powerRankLT (v.Tokens, v.OperatorAddress) v.OperatorAddress l)
      (fun k x => (initValidator_queues _ k x).2.2.2)]
  rfl

end staking

namespace staking

open sdk auth

theorem filter_all_true {α : Type} (p : α → Bool) (l : List α) (h : ∀ x ∈ l, p x = true) :
    l.filter p = l := List.filter_eq_self.2 h

theorem filter_maturation_genesisCalls (pool : Pool) (data : GenesisState) :
    (genesisCalls pool data).filter KeeperCall.IsMaturationWrite
      = data.UnbondingDelegations.flatMap unbondingDelegationCalls
        ++ data.Redelegations.flatMap redelegationCalls := by
  have hv : ∀ v, (validatorCalls data.Exported v).filter KeeperCall.IsMaturationWrite = [] := by
    intro v
    cases data.Exported <;> cases h : v.IsUnbonding <;>
      simp [validatorCalls, h, KeeperCall.IsMaturationWrite]
  have hd : ∀ d, (delegationCalls data.Exported d).filter KeeperCall.IsMaturationWrite = [] := by
    intro d
    cases data.Exported <;> simp [delegationCalls, KeeperCall.IsMaturationWrite]
  have hu : ∀ u, (unbondingDelegationCalls u).filter KeeperCall.IsMaturationWrite
      = unbondingDelegationCalls u := by
    intro u
    apply filter_all_true
    intro c hc
    simp only [unbondingDelegationCalls, List.mem_cons, List.mem_map] at hc
    rcases hc with rfl | ⟨e, _, rfl⟩ <;> rfl
  have hr : ∀ r, (redelegationCalls r).filter KeeperCall.IsMaturationWrite
      = redelegationCalls r := by
    intro r
    apply filter_all_true
    intro c hc
    simp only [redelegationCalls, List.mem_cons, List.mem_map] at hc
    rcases hc with rfl | ⟨e, _, rfl⟩ <;> rfl
  unfold genesisCalls
  simp only [List.filter_append, List.filter_flatMap, hv, hd, hu, hr]
  simp [KeeperCall.IsMaturationWrite, flatMap_nil_of_forall]

/-- C11: `InitGenesis` rebuilds the maturation queues from the stored entry lists. Among
the calls of its writing part, those that write an unbonding delegation or a redelegation
or insert into their queues are: for every unbonding delegation of the payload, in order,
the write of the record, then one insertion into the unbonding queue per entry with the
completion time of that entry; then likewise for every redelegation and the redelegation
queue; and no other. Accordingly the bucket of a time in either queue gains one key of the
record for each of its entries completing at that time, and the records are written to
their stores. -/
theorem InitGenesis_rebuilds_queues (upd : Updater) (ctx : Context) (keeper : Keeper)
    (accountKeeper : AccountKeeper) (data : GenesisState) :
    (InitGenesis upd ctx keeper accountKeeper data
      = match storedPool accountKeeper data with
        | none => none
        | some pool =>
          if data.Exported then
            initLastValidatorPowers (writeGenesis keeper pool data) [] data.LastValidatorPowers
          else
            upd { ctx with BlockHeight := 1 - ValidatorUpdateDelay }
              (writeGenesis keeper pool data).callUpdater)
    ∧ (∀ pool,
        (writeGenesis keeper pool data).Calls.filter KeeperCall.IsMaturationWrite
          = keeper.Calls.filter KeeperCall.IsMaturationWrite
            ++ data.UnbondingDelegations.flatMap (fun ubd =>
                KeeperCall.SetUnbondingDelegation ubd
                  :: ubd.Entries.map
                      (fun entry => KeeperCall.InsertUBDQueue ubd entry.CompletionTime))
            ++ data.Redelegations.flatMap (fun red =>
                KeeperCall.SetRedelegation red
                  :: red.Entries.map
                      (fun entry => KeeperCall.InsertRedelegationQueue red entry.CompletionTime)))
    ∧ (∀ pool t,
        timeSlice (writeGenesis keeper pool data).UBDQueue t
          = timeSlice keeper.UBDQueue t
            ++ data.UnbondingDelegations.flatMap (fun ubd =>
                ubd.Entries.flatMap
                  (fun entry => if entry.CompletionTime = t then [ubd.Pair] else [])))
    ∧ (∀ pool t,
        timeSlice (writeGenesis keeper pool data).RedelegationQueue t
          = timeSlice keeper.RedelegationQueue t
            ++ data.Redelegations.flatMap (fun red =>
                red.Entries.flatMap
                  (fun entry => if entry.CompletionTime = t then [red.Triplet] else [])))
    ∧ (∀ pool,
        (writeGenesis keeper pool data).UnbondingDelegations
          = data.UnbondingDelegations.foldl
              (fun l u => store.set store.keyLT [u.DelegatorAddress, u.ValidatorAddress] u l)
              keeper.UnbondingDelegations
        ∧ (writeGenesis keeper pool data).Redelegations
          = data.Redelegations.foldl
              (fun l r => store.set store.keyLT
                [r.DelegatorAddress, r.ValidatorSrcAddress, r.ValidatorDstAddress] r l)
              keeper.Redelegations) := by
  refine ⟨rfl, ?_, ?_, ?_, ?_⟩
  · intro pool
    rw [writeGenesis_Calls, List.filter_append, filter_maturation_genesisCalls,
      List.append_assoc]
    rfl
  · intro pool t
    exact writeGenesis_UBDQueue keeper pool data t
  · intro pool t
    exact writeGenesis_RedelegationQueue keeper pool data t
  · intro pool
    exact ⟨writeGenesis_UnbondingDelegations keeper pool data,
      writeGenesis_Redelegations keeper pool data⟩

/-- C11 at the payload `genesisFull`: the maturation writes and the buckets of time 100. -/
theorem InitGenesis_rebuilds_queues_witness :
    (writeGenesis Keeper.empty genesisFull.Pool genesisFull).Calls.filter
        KeeperCall.IsMaturationWrite
      = [KeeperCall.SetUnbondingDelegation ⟨[1], [2], [⟨1, 100, 5, 5⟩]⟩,
          KeeperCall.InsertUBDQueue ⟨[1], [2], [⟨1, 100, 5, 5⟩]⟩ 100,
          KeeperCall.SetRedelegation ⟨[1], [1], [2], [⟨1, 100, 3, ⟨3⟩⟩]⟩,
          KeeperCall.InsertRedelegationQueue ⟨[1], [1], [2], [⟨1, 100, 3, ⟨3⟩⟩]⟩ 100]
    ∧ timeSlice (writeGenesis Keeper.empty genesisFull.Pool genesisFull).UBDQueue 100
      = [⟨[1], [2]⟩]
    ∧ timeSlice (writeGenesis Keeper.empty genesisFull.Pool genesisFull).RedelegationQueue 100
      = [⟨[1], [1], [2]⟩] :=
  ⟨((InitGenesis_rebuilds_queues (fun _ _ => none) ⟨0, 0⟩ Keeper.empty bank.ledgerTwo
      genesisFull).2.1 genesisFull.Pool).trans (by decide),
    ((InitGenesis_rebuilds_queues (fun _ _ => none) ⟨0, 0⟩ Keeper.empty bank.ledgerTwo
      genesisFull).2.2.1 genesisFull.Pool 100).trans (by decide),
    ((InitGenesis_rebuilds_queues (fun _ _ => none) ⟨0, 0⟩ Keeper.empty bank.ledgerTwo
      genesisFull).2.2.2.1 genesisFull.Pool 100).trans (by decide)⟩

theorem filter_validator_genesisCalls (pool : Pool) (data : GenesisState) :
    (genesisCalls pool data).filter KeeperCall.IsValidatorWrite
      = data.Validators.flatMap (fun v =>
          [KeeperCall.SetValidator v, KeeperCall.SetValidatorByConsAddr v,
            KeeperCall.SetValidatorByPowerIndex v]) := by
  have hv : ∀ v, (validatorCalls data.Exported v).filter KeeperCall.IsValidatorWrite
      = [KeeperCall.SetValidator v, KeeperCall.SetValidatorByConsAddr v,
          KeeperCall.SetValidatorByPowerIndex v] := by
    intro v
    cases data.Exported <;> cases h : v.IsUnbonding <;>
      simp [validatorCalls, h, KeeperCall.IsValidatorWrite]
  have hd : ∀ d, (delegationCalls data.Exported d).filter KeeperCall.IsValidatorWrite = [] := by
    intro d
    cases data.Exported <;> simp [delegationCalls, KeeperCall.IsValidatorWrite]
  have hu : ∀ u, (unbondingDelegationCalls u).filter KeeperCall.IsValidatorWrite = [] := by
    intro u
    simp [unbondingDelegationCalls, KeeperCall.IsValidatorWrite, List.filter_eq_nil_iff]
  have hr : ∀ r, (redelegationCalls r).filter KeeperCall.IsValidatorWrite = [] := by
    intro r
    simp [redelegationCalls, KeeperCall.IsValidatorWrite, List.filter_eq_nil_iff]
  unfold genesisCalls
  simp only [List.filter_append, List.filter_flatMap, hv, hd, hu, hr]
  simp [KeeperCall.IsValidatorWrite, flatMap_nil_of_forall]

/-- C12: for every validator of the payload, exported or not, `InitGenesis` writes the
validator to the registry and then to the index by consensus key and to the index by power
rank. `InitGenesis` is its writing part followed by the last-power loop or the updater;
among the calls of the writing part the writes of validators are these three per validator,
in payload order, and no other. When the operator addresses of the payload are pairwise
distinct, `GetValidator` returns every validator of the payload unchanged after the writes,
and after the whole of `InitGenesis` for an exported payload, which returns when the pool
is stored without a panic and the last validator powers name validators of the payload
only; the index by power rank then holds every validator, and so does the index by
consensus key when the consensus keys are pairwise distinct. -/
theorem InitGenesis_writes_validators (upd : Updater) (ctx : Context) (keeper : Keeper)
    (accountKeeper : AccountKeeper) (data : GenesisState) :
    (InitGenesis upd ctx keeper accountKeeper data
      = match storedPool accountKeeper data with
        | none => none
        | some pool =>
          if data.Exported then
            initLastValidatorPowers (writeGenesis keeper pool data) [] data.LastValidatorPowers
          else
            upd { ctx with BlockHeight := 1 - ValidatorUpdateDelay }
              (writeGenesis keeper pool data).callUpdater)
    ∧ (∀ pool,
        (writeGenesis keeper pool data).Calls.filter KeeperCall.IsValidatorWrite
          = keeper.Calls.filter KeeperCall.IsValidatorWrite
            ++ data.Validators.flatMap (fun v =>
                [KeeperCall.SetValidator v, KeeperCall.SetValidatorByConsAddr v,
                  KeeperCall.SetValidatorByPowerIndex v]))
    ∧ ((data.Validators.map (fun v => v.OperatorAddress)).Nodup →
        (∀ pool, ∀ v ∈ data.Validators,
          (writeGenesis keeper pool data).GetValidator v.OperatorAddress = some v
          ∧ store.get (v.Tokens, v.OperatorAddress)
              (writeGenesis keeper pool data).ValidatorsByPowerIndex = some v.OperatorAddress)
        ∧ (data.Exported = true → ∀ k res,
            InitGenesis upd ctx keeper accountKeeper data = some (k, res) →
            ∀ v ∈ data.Validators, k.GetValidator v.OperatorAddress = some v)
        ∧ (data.Exported = true → ∀ pool, storedPool accountKeeper data = some pool →
            (∀ lv ∈ data.LastValidatorPowers,
              ∃ v ∈ data.Validators, v.OperatorAddress = lv.Address) →
            ∃ k res, InitGenesis upd ctx keeper accountKeeper data = some (k, res)
              ∧ ∀ v ∈ data.Validators, k.GetValidator v.OperatorAddress = some v))
    ∧ ((data.Validators.map (fun v => v.ConsPubKey)).Nodup →
        ∀ pool, ∀ v ∈ data.Validators,
          store.get v.ConsPubKey (writeGenesis keeper pool data).ValidatorsByConsAddr
            = some v.OperatorAddress) := by
  have hget : (data.Validators.map (fun v => v.OperatorAddress)).Nodup →
      ∀ pool, ∀ v ∈ data.Validators,
        (writeGenesis keeper pool data).GetValidator v.OperatorAddress = some v := by
    intro hnd pool v hv
    unfold Keeper.GetValidator
    rw [writeGenesis_Validators]
    exact store.get_foldl_set store.bytesLT (fun v : Validator => v.OperatorAddress)
      (fun v => v) data.Validators keeper.Validators hnd v hv
  have hafter : (data.Validators.map (fun v => v.OperatorAddress)).Nodup →
      data.Exported = true → ∀ k res,
        InitGenesis upd ctx keeper accountKeeper data = some (k, res) →
        ∀ v ∈ data.Validators, k.GetValidator v.OperatorAddress = some v := by
    intro hnd hexp k res h v hv
    cases hp : storedPool accountKeeper data with
    | none => simp [InitGenesis, hp] at h
    | some pool =>
      rw [InitGenesis_exported upd ctx keeper accountKeeper data pool hexp hp] at h
      obtain ⟨_, _, _, h4, _⟩ := initLastValidatorPowers_fields _ _ _ _ _ h
      have := hget hnd pool v hv
      unfold Keeper.GetValidator at this ⊢
      rw [h4]; exact this
  refine ⟨rfl, ?_, ?_, ?_⟩
  · intro pool
    rw [writeGenesis_Calls, List.filter_append, filter_validator_genesisCalls]
  · intro hnd
    refine ⟨?_, hafter hnd, ?_⟩
    · intro pool v hv
      refine ⟨hget hnd pool v hv, ?_⟩
      rw [writeGenesis_ValidatorsByPowerIndex]
      have hnd2 : (data.Validators.map
          (fun v : Validator => (v.Tokens, v.OperatorAddress))).Nodup := by
        have h2 : (data.Validators.map
            (fun v : Validator => (v.Tokens, v.OperatorAddress))).map
              (fun p : Int × ValAddress => p.2)
            = data.Validators.map (fun v => v.OperatorAddress) := by
          rw [List.map_map]; rfl
        rw [← h2] at hnd
        exact List.Nodup.of_map _ hnd
      exact store.get_foldl_set powerRankLT
        (fun v : Validator => (v.Tokens, v.OperatorAddress))
        (fun v => v.OperatorAddress) data.Validators keeper.ValidatorsByPowerIndex hnd2 v hv
    · intro hexp pool hp hlvp
      have hfound : ∀ lv ∈ data.LastValidatorPowers,
          ∃ v, store.get lv.Address (writeGenesis keeper pool data).Validators = some v := by
        intro lv hlv
        obtain ⟨v, hv, hva⟩ := hlvp lv hlv
        have := hget hnd pool v hv
        unfold Keeper.GetValidator at this
        rw [hva] at this
        exact ⟨v, this⟩
      obtain ⟨⟨k, res⟩, hr⟩ := initLastValidatorPowers_returns data.LastValidatorPowers
        (writeGenesis keeper pool data) [] hfound
      have hinit : InitGenesis upd ctx keeper accountKeeper data = some (k, res) := by
        rw [InitGenesis_exported upd ctx keeper accountKeeper data pool hexp hp, hr]
      exact ⟨k, res, hinit, hafter hnd hexp k res hinit⟩
  · intro hnd pool v hv
    rw [writeGenesis_ValidatorsByConsAddr]
    exact store.get_foldl_set store.bytesLT (fun v : Validator => v.ConsPubKey)
      (fun v => v.OperatorAddress) data.Validators keeper.ValidatorsByConsAddr hnd v hv

/-- C12 at the exported payload `genesisFull`: the writes, and the whole of `InitGenesis`,
which returns a keeper that holds both validators. -/
theorem InitGenesis_writes_validators_witness :
    (writeGenesis Keeper.empty genesisFull.Pool genesisFull).Calls.filter
        KeeperCall.IsValidatorWrite
      = [KeeperCall.SetValidator validatorOne, KeeperCall.SetValidatorByConsAddr validatorOne,
          KeeperCall.SetValidatorByPowerIndex validatorOne,
          KeeperCall.SetValidator validatorTwo, KeeperCall.SetValidatorByConsAddr validatorTwo,
          KeeperCall.SetValidatorByPowerIndex validatorTwo]
    ∧ (∀ k res,
        InitGenesis (fun _ _ => none) ⟨0, 0⟩ Keeper.empty bank.ledgerTwo genesisFull
          = some (k, res) →
        ∀ v ∈ genesisFull.Validators, k.GetValidator v.OperatorAddress = some v)
    ∧ (∃ k res,
        InitGenesis (fun _ _ => none) ⟨0, 0⟩ Keeper.empty bank.ledgerTwo genesisFull
          = some (k, res)
        ∧ ∀ v ∈ genesisFull.Validators, k.GetValidator v.OperatorAddress = some v)
    ∧ (InitGenesis (fun _ _ => none) ⟨0, 0⟩ Keeper.empty bank.ledgerTwo genesisFull).map
        (fun r => (r.1.GetValidator [1], r.1.GetValidator [2]))
      = some (some validatorOne, some validatorTwo) :=
  ⟨((InitGenesis_writes_validators (fun _ _ => none) ⟨0, 0⟩ Keeper.empty bank.ledgerTwo
      genesisFull).2.1 genesisFull.Pool).trans (by decide),
    ((InitGenesis_writes_validators (fun _ _ => none) ⟨0, 0⟩ Keeper.empty bank.ledgerTwo
      genesisFull).2.2.1 (by decide)).2.1 (by decide),
    ((InitGenesis_writes_validators (fun _ _ => none) ⟨0, 0⟩ Keeper.empty bank.ledgerTwo
      genesisFull).2.2.1 (by decide)).2.2 (by decide) genesisFull.Pool (by decide)
        (by decide),
    by decide⟩

end staking

namespace staking

open sdk auth

/-- The updates and the stored last powers that the loop over the last validator powers
produces when it returns. -/
theorem initLastValidatorPowers_result :
    ∀ (lvps : List LastValidatorPower) (k : Keeper) (res : List ValidatorUpdate)
      (k1 : Keeper) (res1 : List ValidatorUpdate),
      initLastValidatorPowers k res lvps = some (k1, res1) →
      res1.map some
        = res.map some ++ lvps.map (fun lv =>
            (k.GetValidator lv.Address).map
              (fun v => ({ PubKey := v.ConsPubKey, Power := lv.Power } : ValidatorUpdate)))
      ∧ k1.LastValidatorPowers
        = lvps.foldl (fun l lv => store.set store.bytesLT lv.Address lv.Power l)
            k.LastValidatorPowers := by
  intro lvps
  induction lvps with
  | nil =>
    intro k res k1 res1 h
    simp only [initLastValidatorPowers, Option.some.injEq, Prod.mk.injEq] at h
    obtain ⟨rfl, rfl⟩ := h
    simp
  | cons lv rest ih =>
    intro k res k1 res1 h
    simp only [initLastValidatorPowers] at h
    cases hg : (k.SetLastValidatorPower lv.Address lv.Power).GetValidator lv.Address with
    | none => rw [hg] at h; simp at h
    | some v =>
      rw [hg] at h
      obtain ⟨h1, h2⟩ := ih _ _ _ _ h
      have hsame : ∀ a, (k.SetLastValidatorPower lv.Address lv.Power).GetValidator a
          = k.GetValidator a := fun _ => rfl
      refine ⟨?_, ?_⟩
      · rw [h1]
        simp only [hsame, List.map_append, List.map_cons, List.map_nil, List.append_assoc,
          List.singleton_append]
        rw [← hsame lv.Address, hg]
        rfl
      · rw [h2]; rfl

/-- The loop over the last validator powers panics when an entry names an operator address
for which no validator is stored. -/
theorem initLastValidatorPowers_panics :
    ∀ (lvps : List LastValidatorPower) (k : Keeper) (res : List ValidatorUpdate),
      (∃ lv ∈ lvps, k.GetValidator lv.Address = none) →
      initLastValidatorPowers k res lvps = none := by
  intro lvps
  induction lvps with
  | nil => intro k res h; simp at h
  | cons lv rest ih =>
    intro k res h
    have hsame : ∀ a, (k.SetLastValidatorPower lv.Address lv.Power).GetValidator a
        = k.GetValidator a := fun _ => rfl
    simp only [initLastValidatorPowers]
    cases hg : (k.SetLastValidatorPower lv.Address lv.Power).GetValidator lv.Address with
    | none => rfl
    | some v =>
      simp only []
      apply ih
      obtain ⟨lv1, hmem, hnone⟩ := h
      rcases List.mem_cons.1 hmem with rfl | hmem
      · rw [hsame, hnone] at hg; simp at hg
      · exact ⟨lv1, hmem, by rw [hsame]; exact hnone⟩

/-- C13: when the payload is marked as exported, `InitGenesis` does not run the validator
set updater: its result does not depend on the updater and it records no call of it. Over
the state `k0` it has written, it returns when every entry of `LastValidatorPowers` names a
stored validator and panics when one does not; when it returns, the updates are one per
entry in payload order, each with the consensus key of the validator stored under the
address of the entry and with the power recorded in the entry, and every entry has been
written as the last power of its validator. -/
theorem InitGenesis_exported_updates (upd : Updater) (ctx : Context) (keeper : Keeper)
    (accountKeeper : AccountKeeper) (data : GenesisState) (hexp : data.Exported = true) :
    (∀ upd2 : Updater,
      InitGenesis upd2 ctx keeper accountKeeper data
        = InitGenesis upd ctx keeper accountKeeper data)
    ∧ (∀ pool, storedPool accountKeeper data = some pool →
        ((∀ lv ∈ data.LastValidatorPowers,
            ∃ v, (writeGenesis keeper pool data).GetValidator lv.Address = some v) →
          ∃ r, InitGenesis upd ctx keeper accountKeeper data = some r)
        ∧ ((∃ lv ∈ data.LastValidatorPowers,
            (writeGenesis keeper pool data).GetValidator lv.Address = none) →
          InitGenesis upd ctx keeper accountKeeper data = none)
        ∧ (∀ k res, InitGenesis upd ctx keeper accountKeeper data = some (k, res) →
            res.map some
              = data.LastValidatorPowers.map (fun lv =>
                  ((writeGenesis keeper pool data).GetValidator lv.Address).map
                    (fun v => ({ PubKey := v.ConsPubKey, Power := lv.Power } : ValidatorUpdate)))
            ∧ res.length = data.LastValidatorPowers.length
            ∧ k.Calls
              = keeper.Calls ++ genesisCalls pool data
                ++ data.LastValidatorPowers.map
                    (fun lv => KeeperCall.SetLastValidatorPower lv.Address lv.Power)
            ∧ k.Calls.filter KeeperCall.IsUpdaterCall
              = keeper.Calls.filter KeeperCall.IsUpdaterCall
            ∧ k.LastValidatorPowers
              = data.LastValidatorPowers.foldl
                  (fun l lv => store.set store.bytesLT lv.Address lv.Power l)
                  keeper.LastValidatorPowers
            ∧ ((data.LastValidatorPowers.map (fun lv => lv.Address)).Nodup →
                ∀ lv ∈ data.LastValidatorPowers,
                  store.get lv.Address k.LastValidatorPowers = some lv.Power))) := by
  refine ⟨?_, ?_⟩
  · intro upd2
    unfold InitGenesis
    cases storedPool accountKeeper data with
    | none => rfl
    | some pool => simp only [hexp, if_true]
  · intro pool hp
    rw [InitGenesis_exported upd ctx keeper accountKeeper data pool hexp hp]
    refine ⟨?_, ?_, ?_⟩
    · intro h
      exact initLastValidatorPowers_returns _ _ _ h
    · intro h
      exact initLastValidatorPowers_panics _ _ _ h
    · intro k res h
      obtain ⟨h1, h2⟩ := initLastValidatorPowers_result _ _ _ _ _ h
      obtain ⟨_, _, _, _, _, _, _, h8⟩ := initLastValidatorPowers_fields _ _ _ _ _ h
      have hL : (writeGenesis keeper pool data).LastValidatorPowers
          = keeper.LastValidatorPowers := by
        unfold writeGenesis
        simp only []
        rw [foldl_keep (fun k => k.LastValidatorPowers) _
            (fun k x => (initRedelegation_fields k x).2.2.2.2.2.2.2),
          foldl_keep (fun k => k.LastValidatorPowers) _
            (fun k x => (initUnbondingDelegation_fields k x).2.2.2.2.2.2.2),
          foldl_keep (fun k => k.LastValidatorPowers) _
            (fun k x => (initDelegation_fields _ k x).2.2.2.2.2.2.2),
          foldl_keep (fun k => k.LastValidatorPowers) _
            (fun k x => (initValidator_fields _ k x).2.2.2.2.2.2.2)]
        rfl
      have hres : res.map some
          = data.LastValidatorPowers.map (fun lv =>
              ((writeGenesis keeper pool data).GetValidator lv.Address).map
                (fun v => ({ PubKey := v.ConsPubKey, Power := lv.Power } : ValidatorUpdate))) := by
        simpa using h1
      have hcalls : k.Calls = keeper.Calls ++ genesisCalls pool data
          ++ data.LastValidatorPowers.map
              (fun lv => KeeperCall.SetLastValidatorPower lv.Address lv.Power) := by
        rw [h8, writeGenesis_Calls]
      have hK : k.LastValidatorPowers
          = data.LastValidatorPowers.foldl
              (fun l lv => store.set store.bytesLT lv.Address lv.Power l)
              keeper.LastValidatorPowers := by
        rw [h2, hL]
      refine ⟨hres, ?_, hcalls, ?_, hK, ?_⟩
      · have := congrArg List.length hres
        simpa using this
      · rw [hcalls, List.filter_append, List.filter_append]
        have hg : (genesisCalls pool data).filter KeeperCall.IsUpdaterCall = [] := by
          rw [List.filter_eq_nil_iff]
          intro c hc
          have hc2 : c ∈ (writeGenesis Keeper.empty pool data).Calls := by
            rw [writeGenesis_Calls]; simpa [Keeper.empty] using hc
          intro hu
          cases c <;> simp [KeeperCall.IsUpdaterCall] at hu
          rw [writeGenesis_Calls] at hc2
          simp only [Keeper.empty, List.nil_append, genesisCalls, List.mem_append,
            List.mem_cons, List.mem_flatMap, List.mem_singleton] at hc2
          rcases hc2 with (((h | h) | h) | h) | h
          · simp at h
          · obtain ⟨v, _, hv⟩ := h
            cases data.Exported <;> cases hu2 : v.IsUnbonding <;>
              simp [validatorCalls, hu2] at hv
          · obtain ⟨d, _, hd⟩ := h
            cases data.Exported <;> simp [delegationCalls] at hd
          · obtain ⟨u, _, hu2⟩ := h
            simp [unbondingDelegationCalls] at hu2
          · obtain ⟨r, _, hr⟩ := h
            simp [redelegationCalls] at hr
        have hl : (data.LastValidatorPowers.map
            (fun lv => KeeperCall.SetLastValidatorPower lv.Address lv.Power)).filter
              KeeperCall.IsUpdaterCall = [] := by
          rw [List.filter_eq_nil_iff]
          intro c hc
          obtain ⟨lv, _, rfl⟩ := List.mem_map.1 hc
          simp [KeeperCall.IsUpdaterCall]
        rw [hg, hl]; simp
      · intro hnd lv hlv
        rw [hK]
        exact store.get_foldl_set store.bytesLT (fun lv : LastValidatorPower => lv.Address)
          (fun lv => lv.Power) data.LastValidatorPowers keeper.LastValidatorPowers hnd lv hlv

/-- C13 at the exported payload `genesisStalePowers`: two updates with the recorded powers
4 and 3, not the powers 9 and 8 of the tokens of the validators; the payload
`genesisMissingValidator` names a validator that is not stored. -/
theorem InitGenesis_exported_updates_witness :
    genesisStalePowers.Exported = true
    ∧ (InitGenesis (fun _ _ => none) ⟨0, 0⟩ Keeper.empty bank.ledgerTwo genesisStalePowers).map
        (fun r => r.2) = some [⟨[101], 4⟩, ⟨[102], 3⟩]
    ∧ genesisStalePowers.Validators.map Validator.ABCIValidatorUpdate = [⟨[101], 9⟩, ⟨[102], 8⟩]
    ∧ InitGenesis (fun _ _ => none) ⟨0, 0⟩ Keeper.empty bank.ledgerTwo genesisMissingValidator
        = none
    ∧ ∀ upd2 : Updater,
        InitGenesis upd2 ⟨0, 0⟩ Keeper.empty bank.ledgerTwo genesisStalePowers
          = InitGenesis (fun _ _ => none) ⟨0, 0⟩ Keeper.empty bank.ledgerTwo
              genesisStalePowers :=
  ⟨by decide, rfl, by decide, rfl,
    (InitGenesis_exported_updates (fun _ _ => none) ⟨0, 0⟩ Keeper.empty bank.ledgerTwo
      genesisStalePowers (by decide)).1⟩

/-- C14: `ExportGenesis` is non-destructive and marks its result as an export. For every
keeper state, when `ExportGenesis` returns, the keeper state after the call is the state
before it, stores, indexes, queues and the record of mutator and hook calls alike, so that
a second export returns the same; the genesis state it returns is marked as exported, and
its pool, params, last total power, validators, delegations, unbonding delegations,
redelegations and last validator powers are what `GetPool`, `GetParams`,
`GetLastTotalPower`, `GetAllValidators`, `GetAllDelegations`,
`IterateUnbondingDelegations`, `IterateRedelegations` and `IterateLastValidatorPowers`
return. It returns exactly when a pool and params are stored. -/
theorem ExportGenesis_reads (keeper : Keeper) :
    (∀ k1 g, ExportGenesis keeper = some (k1, g) →
      k1 = keeper
      ∧ ExportGenesis k1 = some (k1, g)
      ∧ g.Exported = true
      ∧ keeper.GetPool = some g.Pool
      ∧ keeper.GetParams = some g.Params
      ∧ g.LastTotalPower = keeper.GetLastTotalPower
      ∧ g.Validators = keeper.GetAllValidators
      ∧ g.Delegations = keeper.GetAllDelegations
      ∧ g.UnbondingDelegations = keeper.IterateUnbondingDelegations
      ∧ g.Redelegations = keeper.IterateRedelegations
      ∧ g.LastValidatorPowers = keeper.IterateLastValidatorPowers)
    ∧ ((∃ k1 g, ExportGenesis keeper = some (k1, g))
      ↔ ∃ pool params, keeper.GetPool = some pool ∧ keeper.GetParams = some params) := by
  refine ⟨?_, ?_⟩
  · intro k1 g h
    have h0 := h
    unfold ExportGenesis at h
    split at h
    · rename_i pool params hp hq
      simp only [Option.some.injEq, Prod.mk.injEq] at h
      obtain ⟨hk, hg⟩ := h
      subst hk
      subst hg
      exact ⟨rfl, h0, rfl, hp, hq, rfl, rfl, rfl, rfl, rfl, rfl⟩
    · simp at h
  · constructor
    · rintro ⟨k1, g, h⟩
      unfold ExportGenesis at h
      split at h
      · rename_i pool params hp hq
        exact ⟨pool, params, hp, hq⟩
      · simp at h
    · rintro ⟨pool, params, hp, hq⟩
      unfold ExportGenesis
      rw [hp, hq]
      exact ⟨_, _, rfl⟩

/-- C14 on the keeper state that the import of `genesisFull` leaves: the export returns, and
the keeper state it leaves holds the same queues and the same record of calls. -/
theorem ExportGenesis_reads_example :
    ((InitGenesis (fun _ _ => none) ⟨0, 0⟩ Keeper.empty bank.ledgerTwo genesisFull).bind
        (fun r => (ExportGenesis r.1).map
          (fun e => (decide (e.1.Calls = r.1.Calls), decide (e.1.UBDQueue = r.1.UBDQueue),
            decide (e.1.RedelegationQueue = r.1.RedelegationQueue), e.2.Exported,
            e.2.Validators))))
      = some (true, true, true, true, [validatorOne, validatorTwo]) := by
  decide

theorem validateValidatorsLoop_eq_none (validators : List Validator) :
    ∀ addrMap : List (List Nat),
      validateValidatorsLoop addrMap validators = none ↔
        (∀ v ∈ validators, v.ConsPubKey ∉ addrMap)
        ∧ (validators.map (fun v => v.ConsPubKey)).Nodup
        ∧ (∀ v ∈ validators, ¬ (v.Jailed = true ∧ v.Status = BondStatus.Bonded))
        ∧ (∀ v ∈ validators, v.DelegatorShares.Mantissa = 0 → v.Status = BondStatus.Unbonding) := by
  induction validators with
  | nil => intro addrMap; simp [validateValidatorsLoop]
  | cons val rest ih =>
    intro addrMap
    simp only [validateValidatorsLoop]
    by_cases h1 : val.ConsPubKey ∈ addrMap
    · simp [h1]
    · rw [if_neg h1]
      by_cases h2 : (val.Jailed && val.IsBonded) = true
      · rw [if_pos h2]
        simp only [Bool.and_eq_true, Validator.IsBonded, decide_eq_true_eq] at h2
        simp only [reduceCtorEq, false_iff, not_and]
        intro _ _ h _
        exact h val (List.mem_cons_self _ _) h2.1 h2.2
      · rw [if_neg h2]
        simp only [Bool.and_eq_true, Validator.IsBonded, decide_eq_true_eq] at h2
        by_cases h3 : (val.DelegatorShares.IsZero && !val.IsUnbonding) = true
        · rw [if_pos h3]
          simp only [Bool.and_eq_true, Dec.IsZero, Validator.IsUnbonding, decide_eq_true_eq,
            Bool.not_eq_true', decide_eq_false_iff_not] at h3
          simp only [reduceCtorEq, false_iff, not_and]
          intro _ _ _ h
          exact h3.2 (h val (List.mem_cons_self _ _) h3.1)
        · rw [if_neg h3]
          simp only [Bool.and_eq_true, Dec.IsZero, Validator.IsUnbonding, decide_eq_true_eq,
            Bool.not_eq_true', decide_eq_false_iff_not, not_and, not_not] at h3
          rw [ih]
          simp only [List.mem_cons, forall_eq_or_imp, List.map_cons, List.nodup_cons,
            List.mem_map, not_exists, not_and, not_or]
          constructor
          · rintro ⟨ha, hb, hc, hd⟩
            refine ⟨⟨h1, fun v hv => (ha v hv).2⟩, ⟨?_, hb⟩, ⟨fun a b => h2 ⟨a, b⟩, hc⟩, ⟨h3, hd⟩⟩
            intro v hv he
            exact (ha v hv).1 he
          · rintro ⟨⟨_, ha⟩, ⟨hn, hb⟩, ⟨_, hc⟩, ⟨_, hd⟩⟩
            refine ⟨fun v hv => ⟨fun he => hn v hv he, ha v hv⟩, hb, hc, hd⟩

/-- C15: `ValidateGenesis` returns no error exactly when no two validators of the payload
have the same consensus public key, no validator is both jailed and bonded, every validator
with zero delegator shares has the status Unbonding, and the params of the payload pass
`Params.Validate`. -/
theorem ValidateGenesis_eq_none_iff (data : GenesisState) :
    ValidateGenesis data = none ↔
      (data.Validators.map (fun v => v.ConsPubKey)).Nodup
      ∧ (∀ v ∈ data.Validators, ¬ (v.Jailed = true ∧ v.Status = BondStatus.Bonded))
      ∧ (∀ v ∈ data.Validators,
          v.DelegatorShares.IsZero = true → v.Status = BondStatus.Unbonding)
      ∧ data.Params.Validate = none := by
  have hloop := validateValidatorsLoop_eq_none data.Validators []
  simp only [List.not_mem_nil, not_false_eq_true, implies_true, true_and] at hloop
  unfold ValidateGenesis validateGenesisStateValidators
  cases hv : validateValidatorsLoop [] data.Validators with
  | some err =>
    simp only [reduceCtorEq, false_iff]
    intro h
    have := hloop.2 ⟨h.1, h.2.1, fun v hv hz => h.2.2.1 v hv (by simpa [Dec.IsZero] using hz)⟩
    rw [hv] at this
    simp at this
  | none =>
    obtain ⟨ha, hb, hc⟩ := hloop.1 hv
    simp only []
    cases hp : data.Params.Validate with
    | some err => simp
    | none =>
      simp only [true_iff]
      exact ⟨ha, hb, fun v hv hz => hc v hv (by simpa [Dec.IsZero] using hz), trivial⟩

/-- C16 (as stated, refuted): `ValidateGenesis` accepts `genesisDuplicateOperator`, whose
two validators are distinct and have the same operator address. -/
theorem ValidateGenesis_accepts_duplicate_operator :
    ValidateGenesis genesisDuplicateOperator = none
    ∧ genesisDuplicateOperator.Validators = [validatorOne, validatorOneAgain]
    ∧ validatorOne ≠ validatorOneAgain
    ∧ validatorOne.OperatorAddress = validatorOneAgain.OperatorAddress := by
  decide

/-- C16 (amended): `ValidateGenesis` rejects duplicate validators by their consensus
public key: every genesis state it accepts has no two validators with the same consensus
public key. -/
theorem ValidateGenesis_no_duplicate_cons_key (data : GenesisState)
    (h : ValidateGenesis data = none) :
    (data.Validators.map (fun v => v.ConsPubKey)).Nodup := by
  have hloop := validateValidatorsLoop_eq_none data.Validators []
  unfold ValidateGenesis validateGenesisStateValidators at h
  cases hv : validateValidatorsLoop [] data.Validators with
  | some err => rw [hv] at h; simp at h
  | none => exact (hloop.1 hv).2.1

theorem ValidateGenesis_no_duplicate_cons_key_witness :
    ValidateGenesis genesisFull = none
    ∧ (genesisFull.Validators.map (fun v => v.ConsPubKey)).Nodup :=
  ⟨by decide, ValidateGenesis_no_duplicate_cons_key genesisFull (by decide)⟩

end staking

namespace sdk

/-- `IsAllGTE` holds exactly when the difference has no negative amount. -/
theorem IsAllGTE_eq (a b : Coins) : Coins.IsAllGTE a b = !(Coins.SafeSub a b).2 := by
  unfold Coins.IsAllGTE
  simp only []
  split
  · rename_i h
    have hnil : (Coins.SafeSub a b).1 = [] := List.length_eq_zero.1 h
    have h2 : (Coins.SafeSub a b).2 = Coins.IsAnyNegative (Coins.SafeSub a b).1 := rfl
    rw [h2, hnil]
    rfl
  · rfl

/-- Two coin sets that are sorted by denomination, hold no zero amount and hold the same
amount of every denomination are the same list. -/
theorem eq_of_amount_eq :
    ∀ {a b : Coins}, Coins.Sorted a → Coins.Sorted b →
      (∀ c ∈ a, c.Amount ≠ 0) → (∀ c ∈ b, c.Amount ≠ 0) →
      (∀ d, Coins.amount a d = Coins.amount b d) → a = b := by
  intro a
  induction a with
  | nil =>
    intro b _ hb _ hzb h
    cases b with
    | nil => rfl
    | cons y ys =>
      have h1 := amount_of_mem_Sorted hb (List.mem_cons_self y ys)
      rw [← h y.Denom, amount_nil] at h1
      exact absurd h1.symm (hzb y (List.mem_cons_self _ _))
  | cons x xs ih =>
    intro b ha hb hza hzb h
    have hx := amount_of_mem_Sorted ha (List.mem_cons_self x xs)
    cases b with
    | nil =>
      rw [h x.Denom, amount_nil] at hx
      exact absurd hx.symm (hza x (List.mem_cons_self _ _))
    | cons y ys =>
      have hy := amount_of_mem_Sorted hb (List.mem_cons_self y ys)
      obtain ⟨ha1, ha2⟩ := Sorted_cons.1 ha
      obtain ⟨hb1, hb2⟩ := Sorted_cons.1 hb
      rcases lt_trichotomy x.Denom.toList y.Denom.toList with hlt | heq | hgt
      · have h0 : Coins.amount (y :: ys) x.Denom = 0 :=
          amount_eq_zero_of_Above (Above_cons.2 ⟨hlt, Above_trans hlt hb1⟩)
        rw [h x.Denom, h0] at hx
        exact absurd hx.symm (hza x (List.mem_cons_self _ _))
      · have hd : x.Denom = y.Denom := String.ext heq
        have hamt : x.Amount = y.Amount := by
          rw [← hx, ← hy, h x.Denom, hd]
        have hxy : x = y := by
          cases x; cases y; simp only [Coin.mk.injEq]; exact ⟨hd, hamt⟩
        subst hxy
        have htail : ∀ d, Coins.amount xs d = Coins.amount ys d := by
          intro d
          have := h d
          rw [amount_cons, amount_cons] at this
          linarith
        rw [ih ha2 hb2 (fun c hc => hza c (List.mem_cons_of_mem _ hc))
          (fun c hc => hzb c (List.mem_cons_of_mem _ hc)) htail]
      · have h0 : Coins.amount (x :: xs) y.Denom = 0 :=
          amount_eq_zero_of_Above (Above_cons.2 ⟨hgt, Above_trans hgt ha1⟩)
        rw [← h y.Denom, h0] at hy
        exact absurd hy.symm (hzb y (List.mem_cons_self _ _))

/-- An upper-case character is neither a lower-case letter nor a digit. -/
theorem not_isLower_of_isUpper (c : Char) (h : c.isUpper = true) :
    c.isLower = false ∧ c.isDigit = false := by
  simp only [Char.isUpper, Char.isLower, Char.isDigit, Bool.and_eq_true, decide_eq_true_eq,
    Bool.and_eq_false_imp, decide_eq_false_iff_not, ge_iff_le] at *
  obtain ⟨h1, h2⟩ := h
  have h1n : (65 : UInt32).toNat ≤ c.val.toNat := h1
  have h2n : c.val.toNat ≤ (90 : UInt32).toNat := h2
  have e1 : (65 : UInt32).toNat = 65 := rfl
  have e2 : (90 : UInt32).toNat = 90 := rfl
  have e3 : (97 : UInt32).toNat = 97 := rfl
  have e4 : (48 : UInt32).toNat = 48 := rfl
  have e5 : (57 : UInt32).toNat = 57 := rfl
  constructor
  · intro h3
    have h3n : (97 : UInt32).toNat ≤ c.val.toNat := h3
    omega
  · intro h3 h4
    have h4n : c.val.toNat ≤ (57 : UInt32).toNat := h4
    omega

/-- A denomination with an upper-case character is not valid. -/
theorem validateDenom_upper {denom : String} (h : ∃ ch ∈ denom.toList, ch.isUpper = true) :
    validateDenom denom = false := by
  obtain ⟨ch, hmem, hup⟩ := h
  obtain ⟨hl, hdg⟩ := not_isLower_of_isUpper ch hup
  unfold validateDenom
  cases hd : denom.toList with
  | nil => rfl
  | cons c cs =>
    rw [hd] at hmem
    simp only []
    rcases List.mem_cons.1 hmem with rfl | hcs
    · simp [hl]
    · have : cs.all (fun x => x.isLower || x.isDigit) = false := by
        rw [List.all_eq_false]
        exact ⟨ch, hcs, by simp [hl, hdg]⟩
      simp [this]

/-- C20: `Coins.IsValid` is true exactly for the coin lists in which every denomination is
a valid denomination, every amount is strictly positive and the denominations are strictly
ascending; the empty list is one of them. It is false for every list with an upper-case
character in a denomination, with a zero or negative amount, with a denomination that
occurs twice, or with a pair of coins out of order; and it decides the lists of `TestCoins`
as the test expects. -/
theorem Coins_IsValid_characterisation :
    (∀ l : Coins, Coins.IsValid l = true ↔
      (∀ c ∈ l, validateDenom c.Denom = true) ∧ (∀ c ∈ l, 0 < c.Amount)
        ∧ l.Pairwise (fun x y => x.Denom.toList < y.Denom.toList))
    ∧ Coins.IsValid [] = true
    ∧ (∀ l : Coins, (∃ c ∈ l, ∃ ch ∈ c.Denom.toList, ch.isUpper = true) →
        Coins.IsValid l = false)
    ∧ (∀ l : Coins, (∃ c ∈ l, c.Amount ≤ 0) → Coins.IsValid l = false)
    ∧ (∀ l : Coins, ¬ (l.map (fun c => c.Denom)).Nodup → Coins.IsValid l = false)
    ∧ (∀ (l1 l2 l3 : Coins) (a b : Coin), ¬ a.Denom.toList < b.Denom.toList →
        Coins.IsValid (l1 ++ a :: l2 ++ b :: l3) = false)
    ∧ Coins.IsValid [⟨"gas", 1⟩, ⟨"mineral", 1⟩, ⟨"tree", 1⟩] = true
    ∧ Coins.IsValid [⟨"gAs", 1⟩, ⟨"MineraL", 1⟩, ⟨"TREE", 1⟩] = false
    ∧ Coins.IsValid [⟨"gAs", 1⟩, ⟨"mineral", 1⟩] = false
    ∧ Coins.IsValid [⟨"gAs", 1⟩] = false
    ∧ Coins.IsValid [⟨"gold", 0⟩] = false
    ∧ Coins.IsValid [⟨"tree", 1⟩, ⟨"gas", 1⟩, ⟨"mineral", 1⟩] = false
    ∧ Coins.IsValid [⟨"gas", 1⟩, ⟨"tree", 1⟩, ⟨"mineral", 1⟩] = false
    ∧ Coins.IsValid [⟨"gas", 1⟩, ⟨"tree", 0⟩, ⟨"mineral", 1⟩] = false
    ∧ Coins.IsValid [⟨"gas", 1⟩, ⟨"gas", 1⟩, ⟨"mineral", 1⟩] = false
    ∧ Coins.IsValid [⟨"gas", -1⟩, ⟨"mineral", 1⟩] = false := by
  have hiff : ∀ l : Coins, Coins.IsValid l = true ↔
      (∀ c ∈ l, validateDenom c.Denom = true) ∧ (∀ c ∈ l, 0 < c.Amount)
        ∧ l.Pairwise (fun x y => x.Denom.toList < y.Denom.toList) := by
    intro l
    rw [IsValid_iff]
    unfold Coins.Sorted
    constructor
    · rintro ⟨h1, h2⟩
      exact ⟨fun c hc => (h1 c hc).1, fun c hc => (h1 c hc).2, h2⟩
    · rintro ⟨h1, h2, h3⟩
      exact ⟨fun c hc => ⟨h1 c hc, h2 c hc⟩, h3⟩
  refine ⟨hiff, by decide, ?_, ?_, ?_, ?_, by decide, by decide, by decide, by decide,
    by decide, by decide, by decide, by decide, by decide, by decide⟩
  · rintro l ⟨c, hc, hup⟩
    rw [← Bool.not_eq_true]
    intro hv
    have h1 := ((hiff l).1 hv).1 c hc
    rw [validateDenom_upper hup] at h1
    exact absurd h1 (by simp)
  · rintro l ⟨c, hc, hle⟩
    rw [← Bool.not_eq_true]
    intro hv
    have h1 := ((hiff l).1 hv).2.1 c hc
    omega
  · intro l hnd
    rw [← Bool.not_eq_true]
    intro hv
    apply hnd
    have h3 := ((hiff l).1 hv).2.2
    rw [List.Nodup, List.pairwise_map]
    refine List.Pairwise.imp ?_ h3
    intro x y hxy he
    rw [he] at hxy
    exact lt_irrefl _ hxy
  · intro l1 l2 l3 a b hnlt
    rw [← Bool.not_eq_true]
    intro hv
    have h3 := ((hiff _).1 hv).2.2
    rw [List.append_assoc, List.pairwise_append] at h3
    have h4 := h3.2.1
    rw [List.cons_append, List.pairwise_cons] at h4
    exact hnlt (h4.1 b (by simp))

end sdk

namespace bank

open sdk auth

/-- C17: for every valid amount, `DelegateCoins` and `UndelegateCoins` (and the functions
`delegateCoins` and `undelegateCoins` they call) return an unknown-address error when no
account exists at the address, and `DelegateCoins` returns an insufficient-coins error when
the coins of the account are smaller than the amount in some denomination; the ledger
returned with each of these errors is the ledger before the call, so no account is created
or modified. -/
theorem DelegateCoins_errors (ctx : Context) (ak : AccountKeeper) (addr : AccAddress)
    (amt : Coins) (hv : Coins.IsValid amt = true) :
    (AccountKeeper.GetAccount ak addr = none →
      DelegateCoins ctx ak addr amt = some (ak, [], some Error.ErrUnknownAddress)
      ∧ UndelegateCoins ak addr amt = some (ak, [], some Error.ErrUnknownAddress)
      ∧ delegateCoins ctx ak addr amt = some (ak, [], some Error.ErrUnknownAddress)
      ∧ undelegateCoins ak addr amt = some (ak, [], some Error.ErrUnknownAddress))
    ∧ (∀ acc, AccountKeeper.GetAccount ak addr = some acc →
        (∃ d, Coins.amount acc.GetCoins d < Coins.amount amt d) →
        DelegateCoins ctx ak addr amt = some (ak, [], some Error.ErrInsufficientCoins)
        ∧ delegateCoins ctx ak addr amt = some (ak, [], some Error.ErrInsufficientCoins)) := by
  refine ⟨?_, ?_⟩
  · intro hnone
    have h1 : delegateCoins ctx ak addr amt = some (ak, [], some Error.ErrUnknownAddress) := by
      unfold delegateCoins getAccount
      simp only [hv, Bool.not_true, Bool.false_eq_true, if_false, hnone]
    have h2 : undelegateCoins ak addr amt = some (ak, [], some Error.ErrUnknownAddress) := by
      unfold undelegateCoins getAccount
      simp only [hv, Bool.not_true, Bool.false_eq_true, if_false, hnone]
    refine ⟨?_, ?_, h1, h2⟩
    · unfold DelegateCoins
      simp only [hv, Bool.not_true, Bool.false_eq_true, if_false]
      exact h1
    · unfold UndelegateCoins
      simp only [hv, Bool.not_true, Bool.false_eq_true, if_false]
      exact h2
  · rintro acc hacc ⟨d, hd⟩
    have hneg : (Coins.SafeSub acc.GetCoins amt).2 = true := by
      show Coins.IsAnyNegative (Coins.SafeSub acc.GetCoins amt).1 = true
      rw [IsAnyNegative_iff]
      apply exists_neg_of_amount_neg (d := d)
      rw [amount_SafeSub]; linarith
    have h1 : delegateCoins ctx ak addr amt
        = some (ak, [], some Error.ErrInsufficientCoins) := by
      unfold delegateCoins getAccount
      simp only [hv, Bool.not_true, Bool.false_eq_true, if_false, hacc, hneg, if_true]
    refine ⟨?_, h1⟩
    unfold DelegateCoins
    simp only [hv, Bool.not_true, Bool.false_eq_true, if_false]
    exact h1

/-- C17 on the ledger `ledgerTwo`: no account at `[9]`; the account `[1]` holds 5 atom and no
btc. -/
theorem DelegateCoins_errors_witness :
    Coins.IsValid [⟨"btc", 1⟩] = true
    ∧ DelegateCoins ⟨0, 0⟩ ledgerTwo [9] [⟨"btc", 1⟩]
        = some (ledgerTwo, [], some Error.ErrUnknownAddress)
    ∧ UndelegateCoins ledgerTwo [9] [⟨"btc", 1⟩]
        = some (ledgerTwo, [], some Error.ErrUnknownAddress)
    ∧ DelegateCoins ⟨0, 0⟩ ledgerTwo [1] [⟨"btc", 1⟩]
        = some (ledgerTwo, [], some Error.ErrInsufficientCoins) :=
  have h := DelegateCoins_errors ⟨0, 0⟩ ledgerTwo [9] [⟨"btc", 1⟩] (by decide)
  ⟨by decide, (h.1 rfl).1, (h.1 rfl).2.1, rfl⟩

/-- C18 (as stated, refuted): the plain account `[1]` stores 1 zzz, 1 btc and 1 atom in
descending order of denomination; the valid amount of 1 atom is covered by these coins, yet
`DelegateCoins` returns an insufficient-coins error and leaves the ledger as it was. -/
theorem DelegateCoins_unsorted_balance_fails :
    (AccountKeeper.GetAccount ledgerDescending [1]).map (fun acc => acc.Vesting) = some none
    ∧ Coins.IsValid [⟨"atom", 1⟩] = true
    ∧ (∀ d, Coins.amount [⟨"atom", 1⟩] d ≤ Coins.amount (getCoins ledgerDescending [1]) d)
    ∧ DelegateCoins ⟨0, 0⟩ ledgerDescending [1] [⟨"atom", 1⟩]
        = some (ledgerDescending, [], some Error.ErrInsufficientCoins) := by
  refine ⟨by decide, by decide, ?_, rfl⟩
  intro d
  have h : getCoins ledgerDescending [1] = [⟨"zzz", 1⟩, ⟨"btc", 1⟩, ⟨"atom", 1⟩] := by decide
  rw [h]
  simp only [Coins.amount]
  split_ifs <;> omega

/-- C18 (amended): for every non-vesting account whose stored balance is sorted by
denomination (strictly, so without duplicates) and every valid amount covered by the coins
of the account, `DelegateCoins` succeeds and lowers the balance by the amount in every
denomination, and a following `UndelegateCoins` of the same amount succeeds and restores
the balance in every denomination; when the balance held no zero amount, the account
is restored as it was stored. No other account changes. -/
theorem DelegateCoins_UndelegateCoins_roundtrip (ctx : Context) (ak : AccountKeeper)
    (addr : AccAddress) (acc : Account) (amt : Coins)
    (hacc : AccountKeeper.GetAccount ak addr = some acc) (hplain : acc.Vesting = none)
    (hs : Coins.Sorted acc.Coins) (hv : Coins.IsValid amt = true)
    (hcov : ∀ d, Coins.amount amt d ≤ Coins.amount acc.Coins d) :
    ∃ ak1 tags1, DelegateCoins ctx ak addr amt = some (ak1, tags1, none)
      ∧ (∀ d, Coins.amount (getCoins ak1 addr) d
          = Coins.amount acc.Coins d - Coins.amount amt d)
      ∧ (∀ other, other ≠ addr →
          AccountKeeper.GetAccount ak1 other = AccountKeeper.GetAccount ak other)
      ∧ ∃ ak2 tags2, UndelegateCoins ak1 addr amt = some (ak2, tags2, none)
        ∧ (∀ d, Coins.amount (getCoins ak2 addr) d = Coins.amount acc.Coins d)
        ∧ (∀ other, other ≠ addr →
            AccountKeeper.GetAccount ak2 other = AccountKeeper.GetAccount ak other)
        ∧ ((∀ c ∈ acc.Coins, c.Amount ≠ 0) →
            AccountKeeper.GetAccount ak2 addr = some acc) := by
  have hsa : Coins.Sorted amt := ((IsValid_iff _).1 hv).2
  have hnn : (Coins.SafeSub acc.GetCoins amt).2 = false := by
    rw [← Bool.not_eq_true, SafeSub_hasNeg_iff (a := acc.GetCoins) hs hsa]
    rintro ⟨d, hd⟩
    have := hcov d
    have e : acc.GetCoins = acc.Coins := rfl
    rw [e] at hd
    omega
  have hsub : Coins.Sub acc.GetCoins amt = some (Coins.SafeSub acc.GetCoins amt).1 := by
    unfold Coins.Sub
    simp only [hnn, Bool.false_eq_true, if_false]
  let acc1 : Account := { acc with Coins := (Coins.SafeSub acc.GetCoins amt).1 }
  let acc2 : Account := { acc1 with Coins := Coins.Add acc1.GetCoins amt }
  have hd1 : delegateCoins ctx ak addr amt
      = some (AccountKeeper.SetAccount ak addr acc1,
          [Tag.Action "delegate_coins", Tag.Delegator addr], none) := by
    unfold delegateCoins getAccount trackDelegation
    simp only [hv, Bool.not_true, Bool.false_eq_true, if_false, hacc, hnn, hplain, hsub]
    rfl
  have hget1 : AccountKeeper.GetAccount (AccountKeeper.SetAccount ak addr acc1) addr
      = some acc1 := GetAccount_SetAccount_same ak addr acc1
  have hd2 : undelegateCoins (AccountKeeper.SetAccount ak addr acc1) addr amt
      = some (AccountKeeper.SetAccount (AccountKeeper.SetAccount ak addr acc1) addr acc2,
          [Tag.Action "undelegate_coins", Tag.Delegator addr], none) := by
    unfold undelegateCoins getAccount trackUndelegation
    simp only [hv, Bool.not_true, Bool.false_eq_true, if_false, hget1, hplain]
    rfl
  have hamt2 : ∀ d, Coins.amount acc2.Coins d = Coins.amount acc.Coins d := by
    intro d
    show Coins.amount (Coins.Add (Coins.SafeSub acc.GetCoins amt).1 amt) d = _
    rw [amount_Add, amount_SafeSub]
    show Coins.amount acc.Coins d - Coins.amount amt d + Coins.amount amt d = _
    ring
  refine ⟨AccountKeeper.SetAccount ak addr acc1,
    [Tag.Action "delegate_coins", Tag.Delegator addr], ?_, ?_, ?_,
    AccountKeeper.SetAccount (AccountKeeper.SetAccount ak addr acc1) addr acc2,
    [Tag.Action "undelegate_coins", Tag.Delegator addr], ?_, ?_, ?_, ?_⟩
  · unfold DelegateCoins
    simp only [hv, Bool.not_true, Bool.false_eq_true, if_false]
    exact hd1
  · intro d
    rw [getCoins_SetAccount_same]
    exact amount_SafeSub _ _ d
  · intro other hne
    exact GetAccount_SetAccount_ne ak _ hne
  · unfold UndelegateCoins
    simp only [hv, Bool.not_true, Bool.false_eq_true, if_false]
    exact hd2
  · intro d
    rw [getCoins_SetAccount_same]
    exact hamt2 d
  · intro other hne
    rw [GetAccount_SetAccount_ne _ _ hne, GetAccount_SetAccount_ne _ _ hne]
  · intro hz
    rw [GetAccount_SetAccount_same]
    have hs1 : Coins.Sorted (Coins.SafeSub acc.GetCoins amt).1 :=
      Sorted_safeAdd _ _ hs (Sorted_negative hsa)
    have hs2 : Coins.Sorted acc2.Coins := Sorted_safeAdd _ _ hs1 hsa
    have hz2 : ∀ c ∈ acc2.Coins, c.Amount ≠ 0 := fun c hc => (mem_safeAdd _ _ c hc).1
    have hc : acc2.Coins = acc.Coins := eq_of_amount_eq hs2 hs hz2 hz hamt2
    have hv2 : acc2.Vesting = acc.Vesting := rfl
    cases acc with
    | mk c v =>
      cases hacc2 : acc2 with
      | mk c2 v2 =>
        rw [hacc2] at hc hv2
        simp only at hc hv2
        rw [hc, hv2]

/-- C18 (amended) on the ledger `ledgerTwo`: the account `[1]` holds 5 atom, of which 2 are
delegated and undelegated. -/
theorem DelegateCoins_UndelegateCoins_roundtrip_witness :
    AccountKeeper.GetAccount ledgerTwo [1] = some ⟨[⟨"atom", 5⟩], none⟩
    ∧ Coins.IsValid [⟨"atom", 2⟩] = true
    ∧ ∃ ak1 tags1, DelegateCoins ⟨0, 0⟩ ledgerTwo [1] [⟨"atom", 2⟩] = some (ak1, tags1, none)
      ∧ (∀ d, Coins.amount (getCoins ak1 [1]) d
          = Coins.amount [⟨"atom", 5⟩] d - Coins.amount [⟨"atom", 2⟩] d)
      ∧ (∀ other, other ≠ [1] →
          AccountKeeper.GetAccount ak1 other = AccountKeeper.GetAccount ledgerTwo other)
      ∧ ∃ ak2 tags2, UndelegateCoins ak1 [1] [⟨"atom", 2⟩] = some (ak2, tags2, none)
        ∧ (∀ d, Coins.amount (getCoins ak2 [1]) d = Coins.amount [⟨"atom", 5⟩] d)
        ∧ (∀ other, other ≠ [1] →
            AccountKeeper.GetAccount ak2 other = AccountKeeper.GetAccount ledgerTwo other)
        ∧ ((∀ c ∈ ([⟨"atom", 5⟩] : Coins), c.Amount ≠ 0) →
            AccountKeeper.GetAccount ak2 [1] = some ⟨[⟨"atom", 5⟩], none⟩) := by
  have hcov : ∀ d, Coins.amount [⟨"atom", 2⟩] d ≤ Coins.amount [⟨"atom", 5⟩] d := by
    intro d
    simp only [Coins.amount]
    split_ifs <;> omega
  exact ⟨rfl, by decide,
    DelegateCoins_UndelegateCoins_roundtrip ⟨0, 0⟩ ledgerTwo [1] ⟨[⟨"atom", 5⟩], none⟩
      [⟨"atom", 2⟩] rfl rfl ((IsValid_iff _).1 (by decide)).2 (by decide) hcov⟩

/-- C19 (the code departs from its docstring): the account `[1]` stores 1 zzz, 1 btc and
1 atom in descending order of denomination. In every denomination its balance is at least
the amount of 1 atom, so the account "has at least amt coins", as the docstring of
`HasCoins` and the claim put it; yet `HasCoins` is false. -/
theorem HasCoins_unsorted_balance_false :
    (∀ d, Coins.amount [⟨"atom", 1⟩] d ≤ Coins.amount (GetCoins ledgerDescending [1]) d)
    ∧ HasCoins ledgerDescending [1] [⟨"atom", 1⟩] = false := by
  refine ⟨?_, by decide⟩
  intro d
  have h : GetCoins ledgerDescending [1] = [⟨"zzz", 1⟩, ⟨"btc", 1⟩, ⟨"atom", 1⟩] := by decide
  rw [h]
  simp only [Coins.amount]
  split_ifs <;> omega

/-- Where `HasCoins` does what its docstring says: when the balance stored at the address
and the amount are both sorted by denomination (strictly, so without duplicates),
`HasCoins` is true exactly when, for every denomination, the balance stored at the address
is at least the amount of that denomination; an address with no account has the empty
balance. -/
theorem HasCoins_iff (ak : AccountKeeper) (addr : AccAddress) (amt : Coins)
    (hs : Coins.Sorted (GetCoins ak addr)) (ha : Coins.Sorted amt) :
    (HasCoins ak addr amt = true
      ↔ ∀ d, Coins.amount amt d ≤ Coins.amount (GetCoins ak addr) d)
    ∧ (AccountKeeper.GetAccount ak addr = none → GetCoins ak addr = []) := by
  refine ⟨?_, ?_⟩
  · show Coins.IsAllGTE (getCoins ak addr) amt = true ↔ _
    rw [IsAllGTE_eq]
    have hiff := SafeSub_hasNeg_iff (a := getCoins ak addr) (b := amt) hs ha
    constructor
    · intro h d
      by_contra hlt
      have := hiff.2 ⟨d, not_le.1 hlt⟩
      rw [this] at h
      simp at h
    · intro h
      cases hb : (Coins.SafeSub (getCoins ak addr) amt).2 with
      | false => rfl
      | true =>
        obtain ⟨d, hd⟩ := hiff.1 hb
        have := h d
        have e : GetCoins ak addr = getCoins ak addr := rfl
        rw [e] at this
        omega
  · intro h
    show getCoins ak addr = []
    unfold getCoins
    rw [h]
    rfl

/-- `HasCoins` on the ledger `ledgerTwo`, whose balances are sorted: the account `[1]` holds
5 atom. -/
theorem HasCoins_iff_witness :
    Coins.Sorted (GetCoins ledgerTwo [1]) ∧ Coins.Sorted [⟨"atom", 2⟩]
    ∧ HasCoins ledgerTwo [1] [⟨"atom", 2⟩] = true
    ∧ (HasCoins ledgerTwo [1] [⟨"atom", 2⟩] = true
      ↔ ∀ d, Coins.amount [⟨"atom", 2⟩] d ≤ Coins.amount (GetCoins ledgerTwo [1]) d) :=
  have h1 : Coins.Sorted (GetCoins ledgerTwo [1]) :=
    ((IsValid_iff (GetCoins ledgerTwo [1])).1 (by decide)).2
  have h2 : Coins.Sorted [⟨"atom", 2⟩] := ((IsValid_iff _).1 (by decide)).2
  ⟨h1, h2, by decide, (HasCoins_iff ledgerTwo [1] [⟨"atom", 2⟩] h1 h2).1⟩

end bank

namespace sdk

theorem amount_nonneg_of_nonneg {l : Coins} (h : ∀ c ∈ l, 0 ≤ c.Amount) (d : String) :
    0 ≤ Coins.amount l d := by
  by_contra hn
  obtain ⟨c, hc, hneg⟩ := exists_neg_of_amount_neg (not_le.1 hn)
  have := h c hc
  linarith

theorem exists_mem_of_amount_ne_zero {l : Coins} {d : String} (h : Coins.amount l d ≠ 0) :
    ∃ c ∈ l, c.Denom = d := by
  induction l with
  | nil => exact absurd (amount_nil d) h
  | cons x xs ih =>
    by_cases hx : x.Denom = d
    · exact ⟨x, List.mem_cons_self _ _, hx⟩
    · rw [amount_cons, if_neg hx, zero_add] at h
      obtain ⟨c, hc, hd⟩ := ih h
      exact ⟨c, List.mem_cons_of_mem _ hc, hd⟩

/-- The denominations of a sorted coin set without zero amounts are those of which it holds
a non-zero amount. -/
theorem denom_mem_iff_amount_ne_zero {l : Coins} (hs : Coins.Sorted l)
    (hz : ∀ c ∈ l, c.Amount ≠ 0) (d : String) :
    (∃ c ∈ l, c.Denom = d) ↔ Coins.amount l d ≠ 0 := by
  constructor
  · rintro ⟨c, hc, rfl⟩
    rw [amount_of_mem_Sorted hs hc]
    exact hz c hc
  · exact exists_mem_of_amount_ne_zero

/-- The merge of two sorted coin sets with valid denominations is a valid coin set as soon
as none of its amounts is negative. -/
theorem IsValid_safeAdd_of_nonneg {a b : Coins} (hsa : Coins.Sorted a) (hsb : Coins.Sorted b)
    (hda : ∀ c ∈ a, validateDenom c.Denom = true) (hdb : ∀ c ∈ b, validateDenom c.Denom = true)
    (hn : ∀ c ∈ Coins.safeAdd a b, 0 ≤ c.Amount) :
    Coins.IsValid (Coins.safeAdd a b) = true := by
  refine (IsValid_iff _).2 ⟨?_, Sorted_safeAdd a b hsa hsb⟩
  intro c hc
  obtain ⟨hz, hd⟩ := mem_safeAdd a b c hc
  constructor
  · rcases hd with ⟨y, hy, hd⟩ | ⟨y, hy, hd⟩
    · rw [← hd]; exact hda y hy
    · rw [← hd]; exact hdb y hy
  · have := hn c hc
    omega

/-- C21 (as stated, refuted): the lists `[1 ATOM]` and `[]` are sorted by denomination and
have no negative amount, yet their sum is not a valid coin set; nor is the sum of
`[1 atom, 1 atom]`, sorted but not strictly, and `[]`. -/
theorem Coins_Plus_not_valid :
    Coins.Sorted [⟨"ATOM", 1⟩] ∧ Coins.Sorted []
    ∧ (∀ c ∈ ([⟨"ATOM", 1⟩] : Coins), 0 ≤ c.Amount)
    ∧ Coins.Plus [⟨"ATOM", 1⟩] [] = [⟨"ATOM", 1⟩]
    ∧ Coins.IsValid (Coins.Plus [⟨"ATOM", 1⟩] []) = false
    ∧ List.Pairwise (fun x y : Coin => ¬ y.Denom.toList < x.Denom.toList)
        [⟨"atom", 1⟩, ⟨"atom", 1⟩]
    ∧ Coins.IsValid (Coins.Plus [⟨"atom", 1⟩, ⟨"atom", 1⟩] []) = false := by
  refine ⟨(isSortedByDenom_iff _).1 (by decide), Sorted_nil, by decide, by decide, by decide,
    by decide, by decide⟩

/-- C21 (amended): for every two coin lists with valid denominations, sorted by
denomination in strictly ascending order and without a negative amount, `Coins.Plus`
returns a valid coin set whose amount of every denomination is the sum of the amounts of
the two lists; its denominations are exactly those with a non-zero sum, and it is the nil
coin set when every sum is zero. -/
theorem Coins_Plus_valid (a b : Coins) (hsa : Coins.Sorted a) (hsb : Coins.Sorted b)
    (hda : ∀ c ∈ a, validateDenom c.Denom = true) (hdb : ∀ c ∈ b, validateDenom c.Denom = true)
    (hna : ∀ c ∈ a, 0 ≤ c.Amount) (hnb : ∀ c ∈ b, 0 ≤ c.Amount) :
    Coins.IsValid (Coins.Plus a b) = true
    ∧ (∀ d, Coins.amount (Coins.Plus a b) d = Coins.amount a d + Coins.amount b d)
    ∧ (∀ d, (∃ c ∈ Coins.Plus a b, c.Denom = d) ↔ Coins.amount a d + Coins.amount b d ≠ 0)
    ∧ ((∀ d, Coins.amount a d + Coins.amount b d = 0) → Coins.Plus a b = []) := by
  have hs : Coins.Sorted (Coins.Plus a b) := Sorted_safeAdd a b hsa hsb
  have hz : ∀ c ∈ Coins.Plus a b, c.Amount ≠ 0 := fun c hc => (mem_safeAdd a b c hc).1
  have hamt : ∀ d, Coins.amount (Coins.Plus a b) d = Coins.amount a d + Coins.amount b d :=
    amount_safeAdd a b
  refine ⟨?_, hamt, ?_, ?_⟩
  · apply IsValid_safeAdd_of_nonneg hsa hsb hda hdb
    intro c hc
    have h1 := amount_of_mem_Sorted hs hc
    rw [hamt] at h1
    have h2 := amount_nonneg_of_nonneg hna c.Denom
    have h3 := amount_nonneg_of_nonneg hnb c.Denom
    omega
  · intro d
    rw [denom_mem_iff_amount_ne_zero hs hz, hamt]
  · intro h0
    apply eq_of_amount_eq hs Sorted_nil hz (by simp)
    intro d
    rw [hamt, h0, amount_nil]

/-- C21 (amended) on a case of `TestPlusCoins`: the zero amounts are omitted. -/
theorem Coins_Plus_valid_witness :
    Coins.Sorted [⟨"atom", 0⟩, ⟨"btc", 1⟩] ∧ Coins.Sorted [⟨"atom", 0⟩, ⟨"btc", 0⟩]
    ∧ Coins.Plus [⟨"atom", 0⟩, ⟨"btc", 1⟩] [⟨"atom", 0⟩, ⟨"btc", 0⟩] = [⟨"btc", 1⟩]
    ∧ Coins.Plus [⟨"atom", 0⟩, ⟨"btc", 0⟩] [⟨"atom", 0⟩, ⟨"btc", 0⟩] = []
    ∧ Coins.Plus [⟨"atom", 1⟩] [⟨"atom", 1⟩, ⟨"btc", 2⟩] = [⟨"atom", 2⟩, ⟨"btc", 2⟩]
    ∧ Coins.IsValid (Coins.Plus [⟨"atom", 0⟩, ⟨"btc", 1⟩] [⟨"atom", 0⟩, ⟨"btc", 0⟩]) = true :=
  have h1 : Coins.Sorted [⟨"atom", 0⟩, ⟨"btc", 1⟩] := (isSortedByDenom_iff _).1 (by decide)
  have h2 : Coins.Sorted [⟨"atom", 0⟩, ⟨"btc", 0⟩] := (isSortedByDenom_iff _).1 (by decide)
  ⟨h1, h2, by decide, by decide, by decide,
    (Coins_Plus_valid [⟨"atom", 0⟩, ⟨"btc", 1⟩] [⟨"atom", 0⟩, ⟨"btc", 0⟩] h1 h2
      (by decide) (by decide) (by decide) (by decide)).1⟩

/-- C22 (as stated, refuted): no denomination of `[]` exceeds `[1 ATOM]`, and `Coins.Minus`
returns `[1 ATOM]`, which is not a valid coin set. -/
theorem Coins_Minus_not_valid :
    (∀ d, Coins.amount [] d ≤ Coins.amount [⟨"ATOM", 1⟩] d)
    ∧ Coins.Minus [⟨"ATOM", 1⟩] [] = some [⟨"ATOM", 1⟩]
    ∧ Coins.IsValid [⟨"ATOM", 1⟩] = false := by
  refine ⟨?_, by decide, by decide⟩
  intro d
  simp only [Coins.amount]
  split_ifs <;> omega

/-- C22 (amended): for every two coin lists with valid denominations, sorted by
denomination in strictly ascending order, `Coins.Minus` panics exactly when the amount of
some denomination in the subtracted list exceeds the amount in the receiver; otherwise it
returns a valid coin set whose amount of every denomination is the difference, and whose
denominations are exactly those with a non-zero difference. -/
theorem Coins_Minus_panics_iff (a b : Coins) (hsa : Coins.Sorted a) (hsb : Coins.Sorted b)
    (hda : ∀ c ∈ a, validateDenom c.Denom = true)
    (hdb : ∀ c ∈ b, validateDenom c.Denom = true) :
    (Coins.Minus a b = none ↔ ∃ d, Coins.amount a d < Coins.amount b d)
    ∧ ((¬ ∃ d, Coins.amount a d < Coins.amount b d) → ∃ r, Coins.Minus a b = some r)
    ∧ (∀ r, Coins.Minus a b = some r →
        Coins.IsValid r = true
        ∧ (∀ d, Coins.amount r d = Coins.amount a d - Coins.amount b d)
        ∧ (∀ d, (∃ c ∈ r, c.Denom = d) ↔ Coins.amount a d - Coins.amount b d ≠ 0)) := by
  have hiff := SafeSub_hasNeg_iff hsa hsb
  have hnone : Coins.Minus a b = none ↔ (Coins.SafeSub a b).2 = true := by
    unfold Coins.Minus
    cases h : (Coins.SafeSub a b).2 <;> simp [h]
  refine ⟨hnone.trans hiff, ?_, ?_⟩
  · intro h
    cases hm : Coins.Minus a b with
    | none => exact absurd ((hnone.trans hiff).1 hm) h
    | some r => exact ⟨r, rfl⟩
  · intro r hr
    have hr2 : r = (Coins.SafeSub a b).1 ∧ (Coins.SafeSub a b).2 = false := by
      unfold Coins.Minus at hr
      cases h : (Coins.SafeSub a b).2
      · simp [h] at hr; exact ⟨hr.symm, rfl⟩
      · simp [h] at hr
    obtain ⟨rfl, hn⟩ := hr2
    have hs : Coins.Sorted (Coins.SafeSub a b).1 := Sorted_safeAdd a _ hsa (Sorted_negative hsb)
    have hz : ∀ c ∈ (Coins.SafeSub a b).1, c.Amount ≠ 0 := fun c hc => (mem_safeAdd a _ c hc).1
    refine ⟨?_, amount_SafeSub a b, ?_⟩
    · apply IsValid_safeAdd_of_nonneg hsa (Sorted_negative hsb) hda
      · intro c hc
        obtain ⟨z, hz1, hz2⟩ := List.mem_map.1 hc
        rw [← hz2]; exact hdb z hz1
      · exact IsAnyNegative_eq_false_iff.1 hn
    · intro d
      rw [denom_mem_iff_amount_ne_zero hs hz, amount_SafeSub]

/-- C22 (amended) on the cases of `TestMinusCoins`. -/
theorem Coins_Minus_panics_iff_witness :
    Coins.Sorted [⟨"atom", 2⟩] ∧ Coins.Sorted [⟨"atom", 1⟩, ⟨"btc", 2⟩]
    ∧ Coins.Minus [⟨"atom", 2⟩] [⟨"atom", 1⟩, ⟨"btc", 2⟩] = none
    ∧ Coins.Minus [⟨"atom", 2⟩] [⟨"btc", 0⟩] = some [⟨"atom", 2⟩]
    ∧ Coins.Minus [⟨"atom", 1⟩, ⟨"btc", 1⟩] [⟨"atom", 1⟩] = some [⟨"btc", 1⟩]
    ∧ Coins.Minus [⟨"atom", 1⟩, ⟨"btc", 1⟩] [⟨"atom", 2⟩] = none
    ∧ (Coins.Minus [⟨"atom", 2⟩] [⟨"atom", 1⟩, ⟨"btc", 2⟩] = none
        ↔ ∃ d, Coins.amount [⟨"atom", 2⟩] d < Coins.amount [⟨"atom", 1⟩, ⟨"btc", 2⟩] d) :=
  have h1 : Coins.Sorted [⟨"atom", 2⟩] := (isSortedByDenom_iff _).1 (by decide)
  have h2 : Coins.Sorted [⟨"atom", 1⟩, ⟨"btc", 2⟩] := (isSortedByDenom_iff _).1 (by decide)
  ⟨h1, h2, by decide, by decide, by decide, by decide,
    (Coins_Minus_panics_iff [⟨"atom", 2⟩] [⟨"atom", 1⟩, ⟨"btc", 2⟩] h1 h2
      (by decide) (by decide)).1⟩

/-- A denomination with a character that is neither a lower-case letter nor a digit is not
valid. -/
theorem validateDenom_bad_char {denom : String}
    (h : ∃ ch ∈ denom.toList, ch.isLower = false ∧ ch.isDigit = false) :
    validateDenom denom = false := by
  obtain ⟨ch, hmem, hl, hdg⟩ := h
  unfold validateDenom
  cases hd : denom.toList with
  | nil => rfl
  | cons c cs =>
    rw [hd] at hmem
    simp only []
    rcases List.mem_cons.1 hmem with rfl | hcs
    · simp [hl]
    · have : cs.all (fun x => x.isLower || x.isDigit) = false := by
        rw [List.all_eq_false]
        exact ⟨ch, hcs, by simp [hl, hdg]⟩
      simp [this]

/-- A denomination of fewer than three characters is not valid. -/
theorem validateDenom_short {denom : String} (h : denom.toList.length < 3) :
    validateDenom denom = false := by
  unfold validateDenom
  cases hd : denom.toList with
  | nil => rfl
  | cons c cs =>
    rw [hd] at h
    simp only [List.length_cons] at h
    have : ¬ 2 ≤ cs.length := by omega
    simp [this]

/-- C23: the coin constructors validate their input. `NewCoin` and `NewInt64Coin` panic
exactly when the amount is negative or the denomination is not valid, so they accept a zero
amount; `NewPositiveCoin` and `NewPositiveInt64Coin` panic exactly when the amount is
negative or zero or the denomination is not valid; a constructor that does not panic
returns the coin of the given denomination and amount. A denomination with an upper-case
letter or a space, or of a single character, is not valid. -/
theorem NewCoin_validates (denom : String) (amount : Int) :
    (NewCoin denom amount = none ↔ amount < 0 ∨ validateDenom denom = false)
    ∧ (NewInt64Coin denom amount = none ↔ amount < 0 ∨ validateDenom denom = false)
    ∧ (NewPositiveCoin denom amount = none ↔ amount ≤ 0 ∨ validateDenom denom = false)
    ∧ (NewPositiveInt64Coin denom amount = none
        ↔ amount ≤ 0 ∨ validateDenom denom = false)
    ∧ (∀ c, NewCoin denom amount = some c ∨ NewInt64Coin denom amount = some c
          ∨ NewPositiveCoin denom amount = some c
          ∨ NewPositiveInt64Coin denom amount = some c →
        c = ⟨denom, amount⟩)
    ∧ (validateDenom denom = true → NewCoin denom 0 = some ⟨denom, 0⟩
        ∧ NewInt64Coin denom 0 = some ⟨denom, 0⟩)
    ∧ ((∃ ch ∈ denom.toList, ch.isUpper = true ∨ ch = ' ') ∨ denom.toList.length = 1 →
        validateDenom denom = false) := by
  have h1 : NewCoin denom amount = none ↔ amount < 0 ∨ validateDenom denom = false := by
    unfold NewCoin
    cases hv : validateDenom denom
    · simp
    · by_cases ha : amount < 0
      · simp [ha]
      · simp [ha]
  have h2 : NewPositiveCoin denom amount = none
      ↔ amount ≤ 0 ∨ validateDenom denom = false := by
    unfold NewPositiveCoin
    by_cases h0 : amount = 0
    · simp [h0]
    · rw [if_neg h0, h1]
      constructor
      · rintro (h | h)
        · exact Or.inl (le_of_lt h)
        · exact Or.inr h
      · rintro (h | h)
        · exact Or.inl (lt_of_le_of_ne h h0)
        · exact Or.inr h
  have h3 : ∀ c, NewCoin denom amount = some c → c = ⟨denom, amount⟩ := by
    intro c hc
    unfold NewCoin at hc
    split at hc
    · simp at hc
    · split at hc
      · simp at hc
      · simpa using hc.symm
  have h4 : ∀ c, NewPositiveCoin denom amount = some c → c = ⟨denom, amount⟩ := by
    intro c hc
    unfold NewPositiveCoin at hc
    split at hc
    · simp at hc
    · exact h3 c hc
  refine ⟨h1, h1, h2, h2, ?_, ?_, ?_⟩
  · rintro c (h | h | h | h)
    · exact h3 c h
    · exact h3 c h
    · exact h4 c h
    · exact h4 c h
  · intro hv
    have : NewCoin denom 0 = some ⟨denom, 0⟩ := by
      unfold NewCoin
      simp [hv]
    exact ⟨this, this⟩
  · rintro (⟨ch, hmem, hup | hsp⟩ | hlen)
    · exact validateDenom_upper ⟨ch, hmem, hup⟩
    · subst hsp
      exact validateDenom_bad_char ⟨' ', hmem, by decide, by decide⟩
    · exact validateDenom_short (by omega)

/-- C23 on the cases of `TestCoin`. -/
theorem NewCoin_validates_witness :
    (NewInt64Coin "b" 0 = none
    ∧ NewInt64Coin "btc" 0 = some ⟨"btc", 0⟩
    ∧ NewPositiveInt64Coin "btc" 0 = none
    ∧ NewInt64Coin "atom" (-1) = none
    ∧ NewPositiveInt64Coin "atom" (-1) = none
    ∧ NewCoin "atom" 0 = some ⟨"atom", 0⟩
    ∧ NewCoin "atom" (-1) = none
    ∧ NewPositiveCoin "atom" 0 = none
    ∧ NewPositiveCoin "atom" (-1) = none
    ∧ NewInt64Coin "Atom" 10 = none ∧ NewPositiveInt64Coin "Atom" 10 = none
    ∧ NewCoin "Atom" 10 = none ∧ NewPositiveCoin "Atom" 10 = none
    ∧ NewInt64Coin "atom " 10 = none ∧ NewPositiveInt64Coin "atom " 10 = none
    ∧ NewCoin "atom " 10 = none ∧ NewPositiveCoin "atom " 10 = none
    ∧ NewInt64Coin "btc" 5 = some ⟨"btc", 5⟩ ∧ NewCoin "btc" 5 = some ⟨"btc", 5⟩)
    ∧ (NewCoin "atom" (-1) = none ↔ (-1 : Int) < 0 ∨ validateDenom "atom" = false) :=
  ⟨by decide, (NewCoin_validates "atom" (-1)).1⟩

end sdk

namespace sdk

/-- The difference of a coin list and itself is empty, whatever the list. -/
theorem SafeSub_self (a : Coins) : (Coins.SafeSub a a).1 = [] := by
  show Coins.safeAdd a (Coins.negative a) = []
  induction a with
  | nil => rfl
  | cons x xs ih =>
    show Coins.safeAdd (x :: xs) (⟨x.Denom, - x.Amount⟩ :: Coins.negative xs) = []
    rw [safeAdd_cons_cons, if_neg (lt_irrefl _), if_pos rfl, ih]
    simp [consNonZero, Coin.IsZero]

/-- `IsAllGT` holds exactly when the difference is not empty and has no negative amount. -/
theorem IsAllGT_iff (a b : Coins) :
    Coins.IsAllGT a b = true
      ↔ (Coins.SafeSub a b).1 ≠ [] ∧ (Coins.SafeSub a b).2 = false := by
  have hz : ∀ c ∈ (Coins.SafeSub a b).1, c.Amount ≠ 0 := fun c hc => (mem_safeAdd a _ c hc).1
  have h2 : (Coins.SafeSub a b).2 = Coins.IsAnyNegative (Coins.SafeSub a b).1 := rfl
  unfold Coins.IsAllGT Coins.IsPositive
  simp only []
  by_cases hl : (Coins.SafeSub a b).1.length = 0
  · have hnil : (Coins.SafeSub a b).1 = [] := List.length_eq_zero.1 hl
    simp [hl, hnil]
  · have hne : (Coins.SafeSub a b).1 ≠ [] := fun h => hl (by rw [h]; rfl)
    rw [if_neg hl, if_neg hl, h2, IsAnyNegative_eq_false_iff]
    simp only [List.all_eq_true, Coin.IsPositive, decide_eq_true_eq, ne_eq, hne,
      not_false_eq_true, true_and]
    constructor
    · intro h c hc
      exact le_of_lt (h c hc)
    · intro h c hc
      exact lt_of_le_of_ne (h c hc) (Ne.symm (hz c hc))

/-- The difference of two sorted coin lists is empty exactly when they hold the same amount
of every denomination. -/
theorem SafeSub_eq_nil_iff {a b : Coins} (hsa : Coins.Sorted a) (hsb : Coins.Sorted b) :
    (Coins.SafeSub a b).1 = [] ↔ ∀ d, Coins.amount a d = Coins.amount b d := by
  have hs : Coins.Sorted (Coins.SafeSub a b).1 := Sorted_safeAdd a _ hsa (Sorted_negative hsb)
  have hz : ∀ c ∈ (Coins.SafeSub a b).1, c.Amount ≠ 0 := fun c hc => (mem_safeAdd a _ c hc).1
  constructor
  · intro h d
    have := amount_SafeSub a b d
    rw [h, amount_nil] at this
    linarith
  · intro h
    apply eq_of_amount_eq hs Sorted_nil hz (by simp)
    intro d
    rw [amount_SafeSub, h d, amount_nil]
    ring

/-- C26 (as stated, refuted): the list `A` holds 1 zzz, 1 btc and 1 atom in descending order
of denomination and `B` holds 1 atom; the amount of `A` is at least that of `B` for every
denomination, yet `A.IsAllGTE(B)` is false. -/
theorem IsAllGTE_unsorted_false :
    (∀ d, Coins.amount [⟨"atom", 1⟩] d
        ≤ Coins.amount [⟨"zzz", 1⟩, ⟨"btc", 1⟩, ⟨"atom", 1⟩] d)
    ∧ Coins.IsAllGTE [⟨"zzz", 1⟩, ⟨"btc", 1⟩, ⟨"atom", 1⟩] [⟨"atom", 1⟩] = false := by
  refine ⟨?_, by decide⟩
  intro d
  simp only [Coins.amount]
  split_ifs <;> omega

/-- C26 (amended): for all coin lists `A` and `B` sorted by denomination in strictly
ascending order, `A.IsAllGTE(B)` holds exactly when the amount of `A` is at least that of
`B` for every denomination, and `A.IsAllGT(B)` holds exactly when `A.IsAllGTE(B)` and the
two differ in at least one denomination. For all coin lists, sorted or not,
`A.IsAllLT(B)` equals `B.IsAllGT(A)`, `A.IsAllLTE(B)` equals `B.IsAllGTE(A)`, `IsAllGTE`
and `IsAllLTE` are reflexive and `IsAllGT` and `IsAllLT` are irreflexive. -/
theorem Coins_comparisons (A B : Coins) (hsa : Coins.Sorted A) (hsb : Coins.Sorted B) :
    (Coins.IsAllGTE A B = true ↔ ∀ d, Coins.amount B d ≤ Coins.amount A d)
    ∧ (Coins.IsAllGT A B = true
        ↔ Coins.IsAllGTE A B = true ∧ ∃ d, Coins.amount A d ≠ Coins.amount B d)
    ∧ (∀ X Y : Coins, Coins.IsAllLT X Y = Coins.IsAllGT Y X)
    ∧ (∀ X Y : Coins, Coins.IsAllLTE X Y = Coins.IsAllGTE Y X)
    ∧ (∀ X : Coins, Coins.IsAllGTE X X = true ∧ Coins.IsAllLTE X X = true
        ∧ Coins.IsAllGT X X = false ∧ Coins.IsAllLT X X = false) := by
  have hiff := SafeSub_hasNeg_iff hsa hsb
  have hgte : Coins.IsAllGTE A B = true ↔ ∀ d, Coins.amount B d ≤ Coins.amount A d := by
    rw [IsAllGTE_eq]
    constructor
    · intro h d
      by_contra hlt
      rw [hiff.2 ⟨d, not_le.1 hlt⟩] at h
      simp at h
    · intro h
      cases hb : (Coins.SafeSub A B).2 with
      | false => rfl
      | true =>
        obtain ⟨d, hd⟩ := hiff.1 hb
        have := h d
        omega
  refine ⟨hgte, ?_, fun _ _ => rfl, fun _ _ => rfl, ?_⟩
  · rw [IsAllGT_iff, IsAllGTE_eq, Ne, SafeSub_eq_nil_iff hsa hsb]
    constructor
    · rintro ⟨h1, h2⟩
      refine ⟨by simp [h2], ?_⟩
      by_contra hne
      exact h1 (fun d => by_contra (fun hd => hne ⟨d, hd⟩))
    · rintro ⟨h1, d, hd⟩
      refine ⟨fun h => hd (h d), ?_⟩
      simpa using h1
  · intro X
    have hgteX : Coins.IsAllGTE X X = true := by
      unfold Coins.IsAllGTE
      simp [SafeSub_self]
    have hgtX : Coins.IsAllGT X X = false := by
      unfold Coins.IsAllGT
      simp [SafeSub_self]
    exact ⟨hgteX, hgteX, hgtX, hgtX⟩

/-- C26 (amended) on the cases of `TestCoinsGT`, `TestCoinsGTE`, `TestCoinsLT` and
`TestCoinsLTE`. -/
theorem Coins_comparisons_witness :
    Coins.Sorted [⟨"atom", 1⟩, ⟨"btc", 1⟩] ∧ Coins.Sorted [⟨"btc", 1⟩]
    ∧ (Coins.IsAllGT [] [] = false
    ∧ Coins.IsAllGT [⟨"atom", 1⟩] [] = true
    ∧ Coins.IsAllGT [⟨"atom", 1⟩] [⟨"atom", 1⟩] = false
    ∧ Coins.IsAllGT [⟨"atom", 1⟩] [⟨"btc", 1⟩] = false
    ∧ Coins.IsAllGT [⟨"atom", 1⟩, ⟨"btc", 1⟩] [⟨"btc", 1⟩] = true
    ∧ Coins.IsAllGT [⟨"atom", 1⟩, ⟨"btc", 1⟩] [⟨"btc", 2⟩] = false
    ∧ Coins.IsAllGTE [] [] = true
    ∧ Coins.IsAllGTE [⟨"atom", 1⟩] [] = true
    ∧ Coins.IsAllGTE [⟨"atom", 1⟩] [⟨"atom", 1⟩] = true
    ∧ Coins.IsAllGTE [⟨"atom", 1⟩] [⟨"btc", 1⟩] = false
    ∧ Coins.IsAllGTE [⟨"atom", 1⟩, ⟨"btc", 1⟩] [⟨"btc", 1⟩] = true
    ∧ Coins.IsAllGTE [⟨"atom", 1⟩, ⟨"btc", 1⟩] [⟨"btc", 2⟩] = false
    ∧ Coins.IsAllLT [] [] = false
    ∧ Coins.IsAllLT [⟨"atom", 1⟩] [] = false
    ∧ Coins.IsAllLT [⟨"atom", 1⟩] [⟨"btc", 1⟩] = false
    ∧ Coins.IsAllLT [⟨"atom", 1⟩, ⟨"btc", 1⟩] [⟨"atom", 1⟩, ⟨"btc", 1⟩] = false
    ∧ Coins.IsAllLT [⟨"atom", 1⟩, ⟨"btc", 1⟩] [⟨"atom", 1⟩, ⟨"btc", 2⟩] = true
    ∧ Coins.IsAllLT [] [⟨"atom", 1⟩] = true
    ∧ Coins.IsAllLTE [] [] = true
    ∧ Coins.IsAllLTE [⟨"atom", 1⟩] [] = false
    ∧ Coins.IsAllLTE [⟨"atom", 1⟩] [⟨"btc", 1⟩] = false
    ∧ Coins.IsAllLTE [⟨"atom", 1⟩, ⟨"btc", 1⟩] [⟨"btc", 1⟩] = false
    ∧ Coins.IsAllLTE [⟨"atom", 1⟩, ⟨"btc", 1⟩] [⟨"atom", 1⟩, ⟨"btc", 2⟩] = true
    ∧ Coins.IsAllLTE [] [⟨"atom", 1⟩] = true)
    ∧ (Coins.IsAllGT [⟨"atom", 1⟩, ⟨"btc", 1⟩] [⟨"btc", 1⟩] = true
        ↔ Coins.IsAllGTE [⟨"atom", 1⟩, ⟨"btc", 1⟩] [⟨"btc", 1⟩] = true
          ∧ ∃ d, Coins.amount [⟨"atom", 1⟩, ⟨"btc", 1⟩] d ≠ Coins.amount [⟨"btc", 1⟩] d) :=
  have h1 : Coins.Sorted [⟨"atom", 1⟩, ⟨"btc", 1⟩] := (isSortedByDenom_iff _).1 (by decide)
  have h2 : Coins.Sorted [⟨"btc", 1⟩] := (isSortedByDenom_iff _).1 (by decide)
  ⟨h1, h2, by decide, (Coins_comparisons [⟨"atom", 1⟩, ⟨"btc", 1⟩] [⟨"btc", 1⟩] h1 h2).2.1⟩

/-- The order in which `Coins.Sort` arranges the coins is total. -/
theorem sortRel_total :
    IsTotal Coin (fun a b => ¬ b.Denom.toList < a.Denom.toList) :=
  ⟨fun a b => by
    rcases lt_trichotomy a.Denom.toList b.Denom.toList with h | h | h
    · exact Or.inl (lt_asymm h)
    · exact Or.inl (by rw [h]; exact lt_irrefl _)
    · exact Or.inr (lt_asymm h)⟩

/-- The order in which `Coins.Sort` arranges the coins is transitive. -/
theorem sortRel_trans :
    IsTrans Coin (fun a b => ¬ b.Denom.toList < a.Denom.toList) :=
  ⟨fun a b c hab hbc => by
    have h1 := not_lt.1 hab
    have h2 := not_lt.1 hbc
    exact not_lt.2 (le_trans h1 h2)⟩

theorem Sort_perm (l : Coins) : (Coins.Sort l).Perm l :=
  List.perm_insertionSort _ l

theorem Sort_sorted (l : Coins) :
    (Coins.Sort l).Pairwise (fun a b => ¬ b.Denom.toList < a.Denom.toList) := by
  haveI := sortRel_total
  haveI := sortRel_trans
  exact List.sorted_insertionSort _ l

/-- A list that is strictly sorted by denomination is left as it is by `Coins.Sort`. -/
theorem Sort_of_Sorted {l : Coins} (h : Coins.Sorted l) : Coins.Sort l = l := by
  apply List.Sorted.insertionSort_eq
  exact List.Pairwise.imp (fun hxy => lt_asymm hxy) h

/-- The sorted list is strictly sorted exactly when the denominations are pairwise
distinct. -/
theorem Sorted_Sort_iff (l : Coins) :
    Coins.Sorted (Coins.Sort l) ↔ (l.map (fun c => c.Denom)).Nodup := by
  have hperm : ((Coins.Sort l).map (fun c => c.Denom)).Perm (l.map (fun c => c.Denom)) :=
    (Sort_perm l).map _
  rw [← hperm.nodup_iff]
  constructor
  · intro h
    rw [List.Nodup, List.pairwise_map]
    refine List.Pairwise.imp ?_ h
    intro x y hxy he
    rw [he] at hxy
    exact lt_irrefl _ hxy
  · intro h
    rw [List.Nodup, List.pairwise_map] at h
    refine List.Pairwise.imp ?_ ((Sort_sorted l).and h)
    rintro x y ⟨h1, h2⟩
    exact denom_lt_of_not_lt h1 (Ne.symm h2)

/-- C27: for every coin list whose denominations are valid, the list that `Coins.Sort`
yields is a valid coin set exactly when all amounts are strictly positive and the
denominations are pairwise distinct; the sorted list holds the same coins, and a list that
is already valid is left as it is, so it stays valid. -/
theorem Coins_Sort_valid_iff (l : Coins) (hd : ∀ c ∈ l, validateDenom c.Denom = true) :
    (Coins.IsValid (Coins.Sort l) = true
      ↔ (∀ c ∈ l, 0 < c.Amount) ∧ (l.map (fun c => c.Denom)).Nodup)
    ∧ (Coins.Sort l).Perm l
    ∧ (Coins.IsValid l = true → Coins.Sort l = l ∧ Coins.IsValid (Coins.Sort l) = true)
    ∧ ((∃ c ∈ l, c.Amount = 0) → Coins.IsValid (Coins.Sort l) = false)
    ∧ (¬ (l.map (fun c => c.Denom)).Nodup → Coins.IsValid (Coins.Sort l) = false) := by
  have hmem : ∀ c, c ∈ Coins.Sort l ↔ c ∈ l := fun c => (Sort_perm l).mem_iff
  have hiff : Coins.IsValid (Coins.Sort l) = true
      ↔ (∀ c ∈ l, 0 < c.Amount) ∧ (l.map (fun c => c.Denom)).Nodup := by
    rw [IsValid_iff, Sorted_Sort_iff]
    constructor
    · rintro ⟨h1, h2⟩
      exact ⟨fun c hc => (h1 c ((hmem c).2 hc)).2, h2⟩
    · rintro ⟨h1, h2⟩
      exact ⟨fun c hc => ⟨hd c ((hmem c).1 hc), h1 c ((hmem c).1 hc)⟩, h2⟩
  refine ⟨hiff, Sort_perm l, ?_, ?_, ?_⟩
  · intro hv
    have he := Sort_of_Sorted ((IsValid_iff l).1 hv).2
    exact ⟨he, by rw [he]; exact hv⟩
  · rintro ⟨c, hc, h0⟩
    rw [← Bool.not_eq_true, hiff]
    rintro ⟨h1, _⟩
    have := h1 c hc
    omega
  · intro hnd
    rw [← Bool.not_eq_true, hiff]
    rintro ⟨_, h2⟩
    exact hnd h2

/-- C27 on the cases of `TestSortCoins`. -/
theorem Coins_Sort_valid_iff_witness :
    (∀ c ∈ ([⟨"tree", 1⟩, ⟨"gas", 1⟩, ⟨"mineral", 1⟩] : Coins), validateDenom c.Denom = true)
    ∧ (Coins.Sort [⟨"tree", 1⟩, ⟨"gas", 1⟩, ⟨"mineral", 1⟩]
        = [⟨"gas", 1⟩, ⟨"mineral", 1⟩, ⟨"tree", 1⟩]
    ∧ Coins.IsValid (Coins.Sort [⟨"gas", 1⟩, ⟨"mineral", 1⟩, ⟨"tree", 1⟩]) = true
    ∧ Coins.IsValid (Coins.Sort [⟨"gold", 0⟩]) = false
    ∧ Coins.IsValid [⟨"tree", 1⟩, ⟨"gas", 1⟩, ⟨"mineral", 1⟩] = false
    ∧ Coins.IsValid (Coins.Sort [⟨"tree", 1⟩, ⟨"gas", 1⟩, ⟨"mineral", 1⟩]) = true
    ∧ Coins.IsValid [⟨"gas", 1⟩, ⟨"tree", 1⟩, ⟨"mineral", 1⟩] = false
    ∧ Coins.IsValid (Coins.Sort [⟨"gas", 1⟩, ⟨"tree", 1⟩, ⟨"mineral", 1⟩]) = true
    ∧ Coins.IsValid (Coins.Sort [⟨"gas", 1⟩, ⟨"tree", 0⟩, ⟨"mineral", 1⟩]) = false
    ∧ Coins.IsValid (Coins.Sort [⟨"gas", 1⟩, ⟨"gas", 1⟩, ⟨"mineral", 1⟩]) = false)
    ∧ (Coins.IsValid (Coins.Sort [⟨"tree", 1⟩, ⟨"gas", 1⟩, ⟨"mineral", 1⟩]) = true
        ↔ (∀ c ∈ ([⟨"tree", 1⟩, ⟨"gas", 1⟩, ⟨"mineral", 1⟩] : Coins), 0 < c.Amount)
          ∧ (([⟨"tree", 1⟩, ⟨"gas", 1⟩, ⟨"mineral", 1⟩] : Coins).map
              (fun c => c.Denom)).Nodup) :=
  ⟨by decide, by decide,
    (Coins_Sort_valid_iff [⟨"tree", 1⟩, ⟨"gas", 1⟩, ⟨"mineral", 1⟩] (by decide)).1⟩

end sdk

namespace staking

open sdk auth

/-- The steps of `AddTokensFromDelegation`: the bootstrap case, the proportional case, and
the division by zero. -/
theorem AddTokensFromDelegation_cases (v : Validator) (amount : Int) :
    (v.DelegatorShares.IsZero = true →
      v.AddTokensFromDelegation amount
        = some ({ v with Tokens := v.Tokens + amount,
                         DelegatorShares := ⟨v.DelegatorShares.Mantissa + amount * 10 ^ 18⟩ },
                ⟨amount * 10 ^ 18⟩))
    ∧ (v.DelegatorShares.IsZero = false → v.Tokens ≠ 0 →
        v.AddTokensFromDelegation amount
          = some ({ v with Tokens := v.Tokens + amount,
                           DelegatorShares := ⟨v.DelegatorShares.Mantissa
                             + Int.fdiv (v.DelegatorShares.Mantissa * amount) v.Tokens⟩ },
                  ⟨Int.fdiv (v.DelegatorShares.Mantissa * amount) v.Tokens⟩))
    ∧ (v.DelegatorShares.IsZero = false → v.Tokens = 0 →
        v.AddTokensFromDelegation amount = none) := by
  refine ⟨?_, ?_, ?_⟩
  · intro h
    unfold Validator.AddTokensFromDelegation
    simp only [h, if_true]
    rfl
  · intro h ht
    unfold Validator.AddTokensFromDelegation Dec.QuoInt
    simp only [h, Bool.false_eq_true, if_false, ht]
    rfl
  · intro h ht
    unfold Validator.AddTokensFromDelegation Dec.QuoInt
    simp only [h, Bool.false_eq_true, if_false, ht, if_true]

/-- C28 (as stated, refuted): the validator `validatorTokenless` has delegator shares and no
tokens; the shares to issue for a positive amount are a quotient by zero and adding tokens
from a delegation panics. -/
theorem AddTokensFromDelegation_zero_tokens_panics :
    validatorTokenless.DelegatorShares.IsZero = false
    ∧ validatorTokenless.Tokens = 0
    ∧ (0 : Int) < 1
    ∧ validatorTokenless.AddTokensFromDelegation 1 = none := by
  decide

/-- C28 (amended): for every validator whose tokens are not zero or whose delegator shares
are zero, and every token amount, adding tokens from a delegation issues shares equal to
the amount (1 share per token) when the delegator shares of the validator are zero, and
otherwise issues `amount * delegatorShares / tokens` shares, rounded down; the tokens of the
validator grow by exactly the amount and its delegator shares by exactly the issued shares,
and nothing else of the validator changes. -/
theorem AddTokensFromDelegation_shares (v : Validator) (amount : Int)
    (hinv : v.Tokens = 0 → v.DelegatorShares.IsZero = true) :
    ∃ issued : Dec,
      v.AddTokensFromDelegation amount
        = some ({ v with Tokens := v.Tokens + amount,
                         DelegatorShares := ⟨v.DelegatorShares.Mantissa + issued.Mantissa⟩ },
                issued)
      ∧ (v.DelegatorShares.IsZero = true → issued = ToDec amount
          ∧ issued.Mantissa = amount * 10 ^ 18)
      ∧ (v.DelegatorShares.IsZero = false →
          issued = ⟨Int.fdiv (v.DelegatorShares.Mantissa * amount) v.Tokens⟩)
      ∧ (v.DelegatorShares.IsZero = false → 0 < v.Tokens →
          issued.Mantissa * v.Tokens ≤ v.DelegatorShares.Mantissa * amount
          ∧ v.DelegatorShares.Mantissa * amount < (issued.Mantissa + 1) * v.Tokens) := by
  obtain ⟨hz, hnz, _⟩ := AddTokensFromDelegation_cases v amount
  cases hs : v.DelegatorShares.IsZero with
  | true =>
    refine ⟨⟨amount * 10 ^ 18⟩, hz hs, fun _ => ⟨rfl, rfl⟩, ?_, ?_⟩
    · intro h; simp at h
    · intro h; simp at h
  | false =>
    have ht : v.Tokens ≠ 0 := by
      intro h
      rw [hinv h] at hs
      simp at hs
    refine ⟨⟨Int.fdiv (v.DelegatorShares.Mantissa * amount) v.Tokens⟩, hnz hs ht, ?_,
      fun _ => rfl, ?_⟩
    · intro h; simp at h
    · intro _ hpos
      show Int.fdiv (v.DelegatorShares.Mantissa * amount) v.Tokens * v.Tokens
            ≤ v.DelegatorShares.Mantissa * amount
          ∧ v.DelegatorShares.Mantissa * amount
            < (Int.fdiv (v.DelegatorShares.Mantissa * amount) v.Tokens + 1) * v.Tokens
      rw [Int.fdiv_eq_ediv _ (le_of_lt hpos)]
      exact ⟨Int.ediv_mul_le _ (ne_of_gt hpos), Int.lt_ediv_add_one_mul_self _ hpos⟩

/-- C28 (amended) on three validators: the first delegation of 9 tokens to a fresh validator
issues 9 shares; 2 tokens delegated to a validator with 9 tokens and a share mantissa of 9
issue a share mantissa of 2; 1 token delegated to a validator with 3 tokens and a share
mantissa of 10 issues a share mantissa of 3, rounded down from 10/3. -/
theorem AddTokensFromDelegation_shares_witness :
    (validatorFresh.Tokens = 0 → validatorFresh.DelegatorShares.IsZero = true)
    ∧ (validatorFresh.AddTokensFromDelegation 9).map
        (fun r => (r.1.Tokens, r.1.DelegatorShares, r.2))
      = some (9, ⟨9000000000000000000⟩, ⟨9000000000000000000⟩)
    ∧ (validatorOne.AddTokensFromDelegation 2).map
        (fun r => (r.1.Tokens, r.1.DelegatorShares, r.2)) = some (11, ⟨11⟩, ⟨2⟩)
    ∧ (validatorThirds.AddTokensFromDelegation 1).map
        (fun r => (r.1.Tokens, r.1.DelegatorShares, r.2)) = some (4, ⟨13⟩, ⟨3⟩)
    ∧ ∃ issued : Dec,
      validatorFresh.AddTokensFromDelegation 9
        = some ({ validatorFresh with
                    Tokens := validatorFresh.Tokens + 9,
                    DelegatorShares :=
                      ⟨validatorFresh.DelegatorShares.Mantissa + issued.Mantissa⟩ },
                issued) :=
  ⟨by decide, by decide, by decide, by decide,
    (AddTokensFromDelegation_shares validatorFresh 9 (by decide)).imp (fun _ h => h.1)⟩

/-- C29: for every validator, pool and target status, `UpdateStatus` leaves the sum of the
bonded and the not-bonded tokens of the pool unchanged. A transition from Bonded to another
status moves exactly the tokens of the validator from the bonded to the not-bonded counter,
a transition into Bonded moves them the other way, and the pool is returned unchanged when
the status is unchanged or changes between Unbonding and Unbonded. The validator returned
has the new status and is otherwise the validator given, so it has the same tokens and
shares. -/
theorem UpdateStatus_conserves (v : Validator) (pool : Pool) (NewStatus : BondStatus) :
    (v.UpdateStatus pool NewStatus).2.BondedTokens + (v.UpdateStatus pool NewStatus).2.NotBondedTokens
      = pool.BondedTokens + pool.NotBondedTokens
    ∧ (v.Status = BondStatus.Bonded → NewStatus ≠ BondStatus.Bonded →
        (v.UpdateStatus pool NewStatus).2
          = { NotBondedTokens := pool.NotBondedTokens + v.Tokens,
              BondedTokens := pool.BondedTokens - v.Tokens })
    ∧ (v.Status ≠ BondStatus.Bonded → NewStatus = BondStatus.Bonded →
        (v.UpdateStatus pool NewStatus).2
          = { NotBondedTokens := pool.NotBondedTokens - v.Tokens,
              BondedTokens := pool.BondedTokens + v.Tokens })
    ∧ (v.Status = NewStatus → (v.UpdateStatus pool NewStatus).2 = pool)
    ∧ (v.Status ≠ BondStatus.Bonded → NewStatus ≠ BondStatus.Bonded →
        (v.UpdateStatus pool NewStatus).2 = pool)
    ∧ (v.UpdateStatus pool NewStatus).1 = { v with Status := NewStatus }
    ∧ (v.UpdateStatus pool NewStatus).1.Status = NewStatus
    ∧ (v.UpdateStatus pool NewStatus).1.Tokens = v.Tokens
    ∧ (v.UpdateStatus pool NewStatus).1.DelegatorShares = v.DelegatorShares := by
  obtain ⟨a, b, c, st, e, f, g, h, i, j⟩ := v
  obtain ⟨nb, bd⟩ := pool
  cases st <;> cases NewStatus <;>
    simp [Validator.UpdateStatus, Pool.notBondedTokensToBonded, Pool.bondedTokensToNotBonded]

/-- C29 on the bonded validator `validatorOne` with 9 tokens and a pool of 10 not-bonded and
17 bonded tokens: unbonding moves 9 tokens, bonding again is no transition. -/
theorem UpdateStatus_conserves_witness :
    (validatorOne.UpdateStatus ⟨10, 17⟩ BondStatus.Unbonding).2 = ⟨19, 8⟩
    ∧ (validatorOne.UpdateStatus ⟨10, 17⟩ BondStatus.Unbonding).1.Status = BondStatus.Unbonding
    ∧ (validatorOne.UpdateStatus ⟨10, 17⟩ BondStatus.Bonded) = (validatorOne, ⟨10, 17⟩)
    ∧ (validatorFresh.UpdateStatus ⟨10, 17⟩ BondStatus.Unbonding).2 = ⟨10, 17⟩
    ∧ (validatorOne.UpdateStatus ⟨10, 17⟩ BondStatus.Unbonding).2.BondedTokens
        + (validatorOne.UpdateStatus ⟨10, 17⟩ BondStatus.Unbonding).2.NotBondedTokens
      = (17 : Int) + 10 :=
  ⟨by decide, by decide, by decide, by decide,
    (UpdateStatus_conserves validatorOne ⟨10, 17⟩ BondStatus.Unbonding).1⟩

end staking

namespace bank

open sdk auth

/-- C30 (the code departs from its comment): the vesting account `[1]` stores 1 btc and
1 atom, not sorted by denomination, and its btc is still vesting, so its spendable coins
are 1 atom and do not exceed its coins in any denomination. For the valid amount of 1 atom
the spendable coins minus the amount have no negative amount, so the check has passed and
the subtraction "should not panic", as the comment on it and the claim put it; yet the
subtraction from the full balance panics, and so does `subtractCoins`. -/
theorem subtractCoins_unsorted_vesting_panics :
    Coins.IsValid [⟨"atom", 1⟩] = true
    ∧ oldAndSpendableCoins ⟨0, 0⟩ ledgerVestingUnsorted [1]
        = ([⟨"btc", 1⟩, ⟨"atom", 1⟩], [⟨"atom", 1⟩])
    ∧ (∀ d, Coins.amount [⟨"atom", 1⟩] d ≤ Coins.amount [⟨"btc", 1⟩, ⟨"atom", 1⟩] d)
    ∧ (Coins.SafeSub [⟨"atom", 1⟩] [⟨"atom", 1⟩]).2 = false
    ∧ Coins.Sub [⟨"btc", 1⟩, ⟨"atom", 1⟩] [⟨"atom", 1⟩] = none
    ∧ subtractCoins ⟨0, 0⟩ ledgerVestingUnsorted [1] [⟨"atom", 1⟩] = none := by
  refine ⟨by decide, by decide, ?_, by decide, by decide, rfl⟩
  intro d
  simp only [Coins.amount]
  split_ifs <;> omega

/-- Where the subtraction in `subtractCoins` is safe: once the check of the spendable coins
has passed, the
subtraction of the amount from the full balance does not panic and leaves no negative
amount, for every valid amount and every account whose spendable coins do not exceed its
coins in any denomination, provided the account is not a vesting account (its spendable
coins are its coins; also when no account exists) or its stored balance is sorted by
denomination in strictly ascending order; `subtractCoins` then returns. -/
theorem subtractCoins_Sub_defined (ctx : Context) (ak : AccountKeeper) (addr : AccAddress)
    (amt : Coins) (hv : Coins.IsValid amt = true)
    (hle : ∀ d, Coins.amount (oldAndSpendableCoins ctx ak addr).2 d
        ≤ Coins.amount (oldAndSpendableCoins ctx ak addr).1 d)
    (hn : (Coins.SafeSub (oldAndSpendableCoins ctx ak addr).2 amt).2 = false)
    (hacc : (∀ acc, AccountKeeper.GetAccount ak addr = some acc → acc.IsVesting = false)
      ∨ Coins.Sorted (oldAndSpendableCoins ctx ak addr).1) :
    (∃ newCoins, Coins.Sub (oldAndSpendableCoins ctx ak addr).1 amt = some newCoins
      ∧ Coins.IsAnyNegative newCoins = false)
    ∧ (∃ r, subtractCoins ctx ak addr amt = some r)
    ∧ ((∀ acc, AccountKeeper.GetAccount ak addr = some acc → acc.IsVesting = false) →
        (oldAndSpendableCoins ctx ak addr).2 = (oldAndSpendableCoins ctx ak addr).1) := by
  have hold : (Coins.SafeSub (oldAndSpendableCoins ctx ak addr).1 amt).2 = false := by
    rcases hacc with hplain | hs
    · rw [← spendable_eq_old ctx ak addr hplain]
      exact hn
    · have hsa : Coins.Sorted amt := ((IsValid_iff _).1 hv).2
      have hs1 : Coins.Sorted (getCoins ak addr) := by
        rw [← oldAndSpendableCoins_fst ctx ak addr]; exact hs
      have hsp := Sorted_spendable ctx ak addr hs1
      rw [← Bool.not_eq_true, SafeSub_hasNeg_iff hs hsa]
      rintro ⟨d, hd⟩
      have h1 : ¬ ∃ d, Coins.amount (oldAndSpendableCoins ctx ak addr).2 d
          < Coins.amount amt d := by
        rw [← SafeSub_hasNeg_iff hsp hsa, hn]
        simp
      exact h1 ⟨d, lt_of_le_of_lt (hle d) hd⟩
  have hsub : Coins.Sub (oldAndSpendableCoins ctx ak addr).1 amt
      = some (Coins.SafeSub (oldAndSpendableCoins ctx ak addr).1 amt).1 := by
    unfold Coins.Sub
    simp only [hold, Bool.false_eq_true, if_false]
  refine ⟨⟨_, hsub, hold⟩, ?_, spendable_eq_old ctx ak addr⟩
  rw [subtractCoins_of_valid ctx ak addr hv, if_neg (by simp [hn]),
    ← oldAndSpendableCoins_fst ctx ak addr, hsub]
  simp only []
  obtain ⟨r, hr⟩ := setCoins_returns ak addr (Coins.SafeSub (oldAndSpendableCoins ctx ak addr).1 amt).1
  rw [hr]
  exact ⟨_, rfl⟩

/-- The subtraction on the ledger `ledgerTwo`: the plain account `[1]` holds 5 atom, of
which 2 are subtracted. -/
theorem subtractCoins_Sub_defined_witness :
    Coins.IsValid [⟨"atom", 2⟩] = true
    ∧ (Coins.SafeSub (oldAndSpendableCoins ⟨0, 0⟩ ledgerTwo [1]).2 [⟨"atom", 2⟩]).2 = false
    ∧ Coins.Sub (oldAndSpendableCoins ⟨0, 0⟩ ledgerTwo [1]).1 [⟨"atom", 2⟩]
        = some [⟨"atom", 3⟩]
    ∧ ∃ newCoins, Coins.Sub (oldAndSpendableCoins ⟨0, 0⟩ ledgerTwo [1]).1 [⟨"atom", 2⟩]
        = some newCoins ∧ Coins.IsAnyNegative newCoins = false :=
  ⟨by decide, by decide, by decide,
    (subtractCoins_Sub_defined ⟨0, 0⟩ ledgerTwo [1] [⟨"atom", 2⟩] (by decide)
      (fun d => by
        have h : oldAndSpendableCoins ⟨0, 0⟩ ledgerTwo [1] = ([⟨"atom", 5⟩], [⟨"atom", 5⟩]) := by
          decide
        rw [h])
      (by decide)
      (Or.inl (fun acc h => by
        have h2 : AccountKeeper.GetAccount ledgerTwo [1] = some ⟨[⟨"atom", 5⟩], none⟩ := rfl
        rw [h2] at h
        simp only [Option.some.injEq] at h
        subst h
        rfl))).1⟩

end bank

namespace sdk

/-! ## The string format of coins -/

theorem isSpace_iff (c : Char) :
    isSpace c = true
      ↔ c = ' ' ∨ c = '\t' ∨ c = '\n' ∨ c = Char.ofNat 11 ∨ c = Char.ofNat 12 ∨ c = '\r' := by
  simp only [isSpace, Bool.or_eq_true, decide_eq_true_eq, or_assoc]

theorem not_isSpace_of_isDigit {c : Char} (h : c.isDigit = true) : isSpace c = false := by
  rw [← Bool.not_eq_true, isSpace_iff]
  rintro (rfl | rfl | rfl | rfl | rfl | rfl) <;> revert h <;> decide

theorem not_isSpace_of_isLower {c : Char} (h : c.isLower = true) : isSpace c = false := by
  rw [← Bool.not_eq_true, isSpace_iff]
  rintro (rfl | rfl | rfl | rfl | rfl | rfl) <;> revert h <;> decide

theorem not_isDigit_of_isLower {c : Char} (h : c.isLower = true) : c.isDigit = false := by
  simp only [Char.isLower, Char.isDigit, Bool.and_eq_true, decide_eq_true_eq,
    Bool.and_eq_false_imp, decide_eq_false_iff_not, ge_iff_le] at *
  obtain ⟨h1, _⟩ := h
  have h1n : (97 : UInt32).toNat ≤ c.val.toNat := h1
  have e1 : (97 : UInt32).toNat = 97 := rfl
  have e2 : (57 : UInt32).toNat = 57 := rfl
  intro _ h4
  have h4n : c.val.toNat ≤ (57 : UInt32).toNat := h4
  omega

/-- What `validateDenom` decides. -/
theorem validateDenom_iff (denom : String) :
    validateDenom denom = true
      ↔ ∃ c cs, denom.toList = c :: cs ∧ c.isLower = true
          ∧ (∀ x ∈ cs, x.isLower = true ∨ x.isDigit = true)
          ∧ 2 ≤ cs.length ∧ cs.length ≤ 15 := by
  unfold validateDenom
  cases denom.toList with
  | nil => simp
  | cons c cs => simp [and_assoc]

/-- The characters of a valid denomination are lower-case letters and digits. -/
theorem validateDenom_chars {denom : String} (h : validateDenom denom = true) :
    ∀ x ∈ denom.toList, x.isLower = true ∨ x.isDigit = true := by
  obtain ⟨c, cs, hd, hc, hcs, _, _⟩ := (validateDenom_iff denom).1 h
  rw [hd]
  intro x hx
  rcases List.mem_cons.1 hx with rfl | hx
  · exact Or.inl hc
  · exact hcs x hx

theorem lower_or_digit_not_space {x : Char} (h : x.isLower = true ∨ x.isDigit = true) :
    isSpace x = false := by
  rcases h with h | h
  · exact not_isSpace_of_isLower h
  · exact not_isSpace_of_isDigit h

theorem lower_or_digit_ne_comma {x : Char} (h : x.isLower = true ∨ x.isDigit = true) :
    x ≠ ',' := by
  rintro rfl
  revert h
  decide

theorem digitChar_isDigit (d : Nat) : (digitChar d).isDigit = true := by
  unfold digitChar
  have h : d % 10 < 10 := Nat.mod_lt _ (by decide)
  generalize d % 10 = k at h
  interval_cases k <;> rfl

theorem digitChar_value (d : Nat) : (digitChar d).toNat - 48 = d % 10 := by
  unfold digitChar
  have h : d % 10 < 10 := Nat.mod_lt _ (by decide)
  generalize d % 10 = k at h
  interval_cases k <;> rfl

theorem decimalAux_append : ∀ (fuel n : Nat) (acc : List Char),
    decimalAux fuel n acc = decimalAux fuel n [] ++ acc := by
  intro fuel
  induction fuel with
  | zero => intro n acc; rfl
  | succ f ih =>
    intro n acc
    simp only [decimalAux]
    split
    · rfl
    · rw [ih (n / 10) (digitChar n :: acc), ih (n / 10) [digitChar n]]
      simp

theorem decimalAux_isDigit : ∀ (fuel n : Nat), ∀ c ∈ decimalAux fuel n [], c.isDigit = true := by
  intro fuel
  induction fuel with
  | zero => intro n c hc; simp [decimalAux] at hc
  | succ f ih =>
    intro n c hc
    simp only [decimalAux] at hc
    split at hc
    · simp only [List.mem_singleton] at hc
      rw [hc]; exact digitChar_isDigit n
    · rw [decimalAux_append] at hc
      rcases List.mem_append.1 hc with h | h
      · exact ih _ c h
      · simp only [List.mem_singleton] at h
        rw [h]; exact digitChar_isDigit n

theorem decimal_isDigit (n : Nat) : ∀ c ∈ decimal n, c.isDigit = true :=
  decimalAux_isDigit (n + 1) n

theorem decimal_ne_nil (n : Nat) : decimal n ≠ [] := by
  unfold decimal
  simp only [decimalAux]
  split
  · simp
  · rw [decimalAux_append]
    simp

theorem digitsValue_concat (l : List Char) (c : Char) :
    digitsValue (l ++ [c]) = 10 * digitsValue l + (c.toNat - 48) := by
  simp [digitsValue, List.foldl_append]

theorem digitsValue_decimalAux : ∀ (fuel n : Nat), n < fuel →
    digitsValue (decimalAux fuel n []) = n := by
  intro fuel
  induction fuel with
  | zero => intro n h; omega
  | succ f ih =>
    intro n h
    simp only [decimalAux]
    split
    · rename_i h0
      have := digitsValue_concat [] (digitChar n)
      simp only [List.nil_append] at this
      rw [this, digitChar_value]
      simp only [digitsValue, List.foldl_nil]
      omega
    · rename_i h0
      rw [decimalAux_append, digitsValue_concat, digitChar_value, ih (n / 10) (by omega)]
      omega

/-- Reading the decimal representation of a number gives the number. -/
theorem digitsValue_decimal (n : Nat) : digitsValue (decimal n) = n :=
  digitsValue_decimalAux (n + 1) n (by omega)

theorem splitOn_ne_nil (sep : Char) (t : List Char) : splitOn sep t ≠ [] := by
  cases t with
  | nil => simp [splitOn]
  | cons c cs =>
    simp only [splitOn]
    split
    · simp
    · split <;> simp

theorem splitOn_of_not_mem {sep : Char} {e : List Char} (h : sep ∉ e) :
    splitOn sep e = [e] := by
  induction e with
  | nil => rfl
  | cons c cs ih =>
    have hc : c ≠ sep := fun he => h (by rw [he]; exact List.mem_cons_self _ _)
    have hcs : sep ∉ cs := fun hm => h (List.mem_cons_of_mem _ hm)
    simp only [splitOn, if_neg hc, ih hcs]

theorem splitOn_append_sep {sep : Char} {e : List Char} (rest : List Char) (h : sep ∉ e) :
    splitOn sep (e ++ sep :: rest) = e :: splitOn sep rest := by
  induction e with
  | nil => simp [splitOn]
  | cons c cs ih =>
    have hc : c ≠ sep := fun he => h (by rw [he]; exact List.mem_cons_self _ _)
    have hcs : sep ∉ cs := fun hm => h (List.mem_cons_of_mem _ hm)
    show splitOn sep (c :: (cs ++ sep :: rest)) = _
    simp only [splitOn, if_neg hc]
    rw [ih hcs]

/-- Splitting at the commas undoes the joining by commas of elements without a comma. -/
theorem splitOn_joinComma : ∀ (es : List (List Char)), es ≠ [] → (∀ e ∈ es, ',' ∉ e) →
    splitOn ',' (joinComma es) = es := by
  intro es
  induction es with
  | nil => intro h; exact absurd rfl h
  | cons e rest ih =>
    intro _ hno
    cases rest with
    | nil => exact splitOn_of_not_mem (hno e (List.mem_cons_self _ _))
    | cons e2 rest2 =>
      show splitOn ',' (e ++ ',' :: joinComma (e2 :: rest2)) = _
      rw [splitOn_append_sep _ (hno e (List.mem_cons_self _ _)),
        ih (by simp) (fun x hx => hno x (List.mem_cons_of_mem _ hx))]

theorem splitOn_eq_singleton_nil {sep : Char} {t : List Char} :
    splitOn sep t = [[]] ↔ t = [] := by
  constructor
  · intro h
    cases t with
    | nil => rfl
    | cons c cs =>
      exfalso
      simp only [splitOn] at h
      split at h
      · simp only [List.cons.injEq, true_and] at h
        exact splitOn_ne_nil sep cs h
      · split at h <;> simp at h
  · rintro rfl
    rfl

theorem mem_joinComma {es : List (List Char)} {x : Char} (h : x ∈ joinComma es) :
    x = ',' ∨ ∃ e ∈ es, x ∈ e := by
  induction es with
  | nil => simp [joinComma] at h
  | cons e rest ih =>
    cases rest with
    | nil => exact Or.inr ⟨e, List.mem_cons_self _ _, h⟩
    | cons e2 rest2 =>
      have h2 : x ∈ e ++ ',' :: joinComma (e2 :: rest2) := h
      rcases List.mem_append.1 h2 with h3 | h3
      · exact Or.inr ⟨e, List.mem_cons_self _ _, h3⟩
      · rcases List.mem_cons.1 h3 with h4 | h4
        · exact Or.inl h4
        · rcases ih h4 with h5 | ⟨e3, he3, hx⟩
          · exact Or.inl h5
          · exact Or.inr ⟨e3, List.mem_cons_of_mem _ he3, hx⟩

theorem joinComma_ne_nil {es : List (List Char)} (hne : es ≠ [])
    (h : ∀ e ∈ es, e ≠ []) : joinComma es ≠ [] := by
  cases es with
  | nil => exact absurd rfl hne
  | cons e rest =>
    cases rest with
    | nil => exact h e (List.mem_cons_self _ _)
    | cons e2 rest2 =>
      show e ++ ',' :: joinComma (e2 :: rest2) ≠ []
      simp

/-- Trimming leaves a string without white space as it is. -/
theorem trimSpace_of_no_space {s : List Char} (h : ∀ x ∈ s, isSpace x = false) :
    trimSpace s = s := by
  unfold trimSpace
  have h1 : s.dropWhile isSpace = s := by
    cases s with
    | nil => rfl
    | cons c cs =>
      exact List.dropWhile_cons_of_neg (by simp [h c (List.mem_cons_self _ _)])
  rw [h1, List.rdropWhile_eq_self_iff]
  intro hl
  simp [h _ (List.getLast_mem hl)]

theorem parseElements_map {f : Coin → List Char} : ∀ (coins : Coins),
    (∀ x ∈ coins, parseCoin (f x) = some x) → parseElements (coins.map f) = some coins := by
  intro coins
  induction coins with
  | nil => intro _; rfl
  | cons x xs ih =>
    intro h
    simp only [List.map_cons, parseElements, h x (List.mem_cons_self _ _),
      ih (fun y hy => h y (List.mem_cons_of_mem _ hy))]

/-- Parsing the amount and the denomination written without white space gives the coin. -/
theorem parseCoin_tight {ds : List Char} {denom : String} (hne : ds ≠ [])
    (hds : ∀ c ∈ ds, c.isDigit = true) (hv : validateDenom denom = true) :
    parseCoin (ds ++ denom.toList) = some ⟨denom, (digitsValue ds : Nat)⟩ := by
  obtain ⟨c, cs, hd, hc, hcs, _, _⟩ := (validateDenom_iff denom).1 hv
  have hnospace : ∀ x ∈ ds ++ denom.toList, isSpace x = false := by
    intro x hx
    rcases List.mem_append.1 hx with h | h
    · exact not_isSpace_of_isDigit (hds x h)
    · exact lower_or_digit_not_space (validateDenom_chars hv x h)
  have htake : (ds ++ denom.toList).takeWhile Char.isDigit = ds := by
    rw [List.takeWhile_append_of_pos hds, hd,
      List.takeWhile_cons_of_neg (by simp [not_isDigit_of_isLower hc])]
    simp
  have hdrop : (ds ++ denom.toList).dropWhile Char.isDigit = denom.toList := by
    rw [List.dropWhile_append_of_pos hds, hd,
      List.dropWhile_cons_of_neg (by simp [not_isDigit_of_isLower hc])]
  have hdrop2 : denom.toList.dropWhile isSpace = denom.toList := by
    rw [hd]
    exact List.dropWhile_cons_of_neg (by simp [not_isSpace_of_isLower hc])
  unfold parseCoin
  simp only [trimSpace_of_no_space hnospace, htake, hdrop, hdrop2, hne, if_false]
  have hmk : String.mk denom.toList = denom := rfl
  rw [hmk, hv]
  rfl

theorem coinChars_of_pos {x : Coin} (h : 0 < x.Amount) :
    coinChars x = decimal x.Amount.natAbs ++ x.Denom.toList := by
  unfold coinChars Coin.IsZero intChars
  rw [if_neg (by simp; omega), if_neg (by omega)]

/-- Parsing the string of a coin with a valid denomination and a positive amount gives the
coin. -/
theorem parseCoin_coinChars {x : Coin} (hv : validateDenom x.Denom = true)
    (hpos : 0 < x.Amount) : parseCoin (coinChars x) = some x := by
  rw [coinChars_of_pos hpos, parseCoin_tight (decimal_ne_nil _) (decimal_isDigit _) hv,
    digitsValue_decimal]
  have : ((x.Amount.natAbs : Nat) : Int) = x.Amount := Int.natAbs_of_nonneg (le_of_lt hpos)
  rw [this]

theorem coinChars_no_comma {x : Coin} (hv : validateDenom x.Denom = true)
    (hpos : 0 < x.Amount) : ',' ∉ coinChars x := by
  rw [coinChars_of_pos hpos]
  intro h
  rcases List.mem_append.1 h with h1 | h1
  · have := decimal_isDigit _ _ h1
    revert this; decide
  · exact lower_or_digit_ne_comma (validateDenom_chars hv _ h1) rfl

theorem coinChars_no_space {x : Coin} (hv : validateDenom x.Denom = true)
    (hpos : 0 < x.Amount) : ∀ ch ∈ coinChars x, isSpace ch = false := by
  rw [coinChars_of_pos hpos]
  intro ch h
  rcases List.mem_append.1 h with h1 | h1
  · exact not_isSpace_of_isDigit (decimal_isDigit _ _ h1)
  · exact lower_or_digit_not_space (validateDenom_chars hv _ h1)

theorem removeZeroCoins_of_pos {l : Coins} (h : ∀ c ∈ l, 0 < c.Amount) :
    removeZeroCoins l = l := by
  unfold removeZeroCoins
  rw [List.filter_eq_self]
  intro c hc
  have := h c hc
  simp [Coin.IsZero]
  omega

/-- Parsing the string of a valid coin set gives the coin set. -/
theorem ParseCoins_String {c : Coins} (hv : Coins.IsValid c = true) :
    ParseCoins (Coins.String c) = (c, none) := by
  obtain ⟨h1, h2⟩ := (IsValid_iff c).1 hv
  have hchars : (Coins.String c).toList = joinComma (c.map coinChars) := by
    show coinsChars c = _
    unfold coinsChars
    rw [Sort_of_Sorted h2, removeZeroCoins_of_pos (fun x hx => (h1 x hx).2)]
  have hnospace : ∀ x ∈ joinComma (c.map coinChars), isSpace x = false := by
    intro x hx
    rcases mem_joinComma hx with rfl | ⟨e, he, hxe⟩
    · decide
    · obtain ⟨y, hy, rfl⟩ := List.mem_map.1 he
      exact coinChars_no_space (h1 y hy).1 (h1 y hy).2 x hxe
  unfold ParseCoins
  simp only [hchars, trimSpace_of_no_space hnospace]
  cases c with
  | nil => rfl
  | cons x xs =>
    have hne : joinComma ((x :: xs).map coinChars) ≠ [] := by
      apply joinComma_ne_nil (by simp)
      intro e he
      obtain ⟨y, hy, rfl⟩ := List.mem_map.1 he
      rw [coinChars_of_pos (h1 y hy).2]
      simp [decimal_ne_nil]
    rw [if_neg hne, splitOn_joinComma _ (by simp)
      (fun e he => by
        obtain ⟨y, hy, rfl⟩ := List.mem_map.1 he
        exact coinChars_no_comma (h1 y hy).1 (h1 y hy).2),
      parseElements_map _ (fun y hy => parseCoin_coinChars (h1 y hy).1 (h1 y hy).2)]
    simp only [Sort_of_Sorted h2, hv, Bool.not_true, Bool.false_eq_true, if_false]

end sdk

namespace sdk

theorem not_isDigit_of_isSpace {c : Char} (h : isSpace c = true) : c.isDigit = false := by
  cases hd : c.isDigit with
  | false => rfl
  | true => rw [not_isSpace_of_isDigit hd] at h; exact absurd h (by simp)

theorem mem_dropWhile_of_neg {p : Char → Bool} {x : Char} : ∀ {l : List Char},
    x ∈ l → p x = false → x ∈ l.dropWhile p := by
  intro l
  induction l with
  | nil => intro h; simp at h
  | cons c cs ih =>
    intro h hp
    by_cases hc : p c = true
    · rw [List.dropWhile_cons_of_pos hc]
      rcases List.mem_cons.1 h with rfl | h
      · rw [hp] at hc; simp at hc
      · exact ih h hp
    · rw [List.dropWhile_cons_of_neg hc]
      exact h

theorem mem_rdropWhile_of_neg {p : Char → Bool} {x : Char} {l : List Char}
    (h : x ∈ l) (hp : p x = false) : x ∈ l.rdropWhile p := by
  unfold List.rdropWhile
  rw [List.mem_reverse]
  exact mem_dropWhile_of_neg (List.mem_reverse.2 h) hp

/-- Trimming keeps every character that is not white space. -/
theorem mem_trimSpace {x : Char} {s : List Char} (h : x ∈ s) (hp : isSpace x = false) :
    x ∈ trimSpace s :=
  mem_rdropWhile_of_neg (mem_dropWhile_of_neg h hp) hp

theorem rdropWhile_append_of_pos {p : Char → Bool} {l₁ l₂ : List Char}
    (h : ∀ a ∈ l₂, p a = true) : (l₁ ++ l₂).rdropWhile p = l₁.rdropWhile p := by
  unfold List.rdropWhile
  rw [List.reverse_append,
    List.dropWhile_append_of_pos (fun a ha => h a (List.mem_reverse.1 ha))]

/-- Trimming removes the white space around a string that begins and ends with another
character. -/
theorem trimSpace_around {ws1 ws3 m : List Char} {a b : Char}
    (h1 : ∀ x ∈ ws1, isSpace x = true) (h3 : ∀ x ∈ ws3, isSpace x = true)
    (ha : isSpace a = false) (hb : isSpace b = false) :
    trimSpace (ws1 ++ (a :: m ++ [b]) ++ ws3) = a :: m ++ [b] := by
  unfold trimSpace
  rw [List.append_assoc, List.dropWhile_append_of_pos h1, List.cons_append, List.cons_append,
    List.dropWhile_cons_of_neg (by simp [ha]), ← List.cons_append, ← List.cons_append,
    rdropWhile_append_of_pos h3, List.rdropWhile_concat_neg _ _ _ (by simp [hb])]

/-- A valid denomination ends with a character that is not white space. -/
theorem validateDenom_concat {denom : String} (hv : validateDenom denom = true) :
    ∃ c init z, denom.toList = c :: init ++ [z] ∧ c.isLower = true ∧ isSpace z = false := by
  obtain ⟨c, cs, hd, hc, hcs, hlen, _⟩ := (validateDenom_iff denom).1 hv
  have hne : cs ≠ [] := by
    intro h; rw [h] at hlen; simp at hlen
  refine ⟨c, cs.dropLast, cs.getLast hne, ?_, hc, ?_⟩
  · rw [hd, List.cons_append, List.dropLast_append_getLast hne]
  · exact lower_or_digit_not_space (hcs _ (List.getLast_mem hne))

/-- Parsing an element does not depend on the white space around it nor on the white space
between the amount and the denomination. -/
theorem parseCoin_spaced {ws1 ds ws2 ws3 : List Char} {denom : String}
    (h1 : ∀ x ∈ ws1, isSpace x = true) (h2 : ∀ x ∈ ws2, isSpace x = true)
    (h3 : ∀ x ∈ ws3, isSpace x = true) (hne : ds ≠ [])
    (hds : ∀ c ∈ ds, c.isDigit = true) (hv : validateDenom denom = true) :
    parseCoin (ws1 ++ (ds ++ ws2 ++ denom.toList) ++ ws3)
      = some ⟨denom, (digitsValue ds : Nat)⟩ := by
  obtain ⟨c, init, z, hd, hc, hz⟩ := validateDenom_concat hv
  obtain ⟨d0, ds', rfl⟩ := List.exists_cons_of_ne_nil hne
  have hd0 : isSpace d0 = false := not_isSpace_of_isDigit (hds d0 (List.mem_cons_self _ _))
  have hshape : d0 :: ds' ++ ws2 ++ denom.toList = d0 :: (ds' ++ ws2 ++ (c :: init)) ++ [z] := by
    rw [hd]; simp
  have htrim : trimSpace (ws1 ++ (d0 :: ds' ++ ws2 ++ denom.toList) ++ ws3)
      = d0 :: ds' ++ ws2 ++ denom.toList := by
    rw [hshape]
    exact trimSpace_around h1 h3 hd0 hz
  have hhead : (ws2 ++ denom.toList).takeWhile Char.isDigit = []
      ∧ (ws2 ++ denom.toList).dropWhile Char.isDigit = ws2 ++ denom.toList := by
    cases ws2 with
    | nil =>
      rw [List.nil_append, hd, List.cons_append,
        List.takeWhile_cons_of_neg (by simp [not_isDigit_of_isLower hc]),
        List.dropWhile_cons_of_neg (by simp [not_isDigit_of_isLower hc])]
      exact ⟨rfl, rfl⟩
    | cons w ws =>
      have hw := not_isDigit_of_isSpace (h2 w (List.mem_cons_self _ _))
      rw [List.cons_append, List.takeWhile_cons_of_neg (by simp [hw]),
        List.dropWhile_cons_of_neg (by simp [hw])]
      exact ⟨rfl, rfl⟩
  have htake : (d0 :: ds' ++ ws2 ++ denom.toList).takeWhile Char.isDigit = d0 :: ds' := by
    rw [List.append_assoc, List.takeWhile_append_of_pos hds, hhead.1, List.append_nil]
  have hdrop : ((d0 :: ds' ++ ws2 ++ denom.toList).dropWhile Char.isDigit).dropWhile isSpace
      = denom.toList := by
    rw [List.append_assoc, List.dropWhile_append_of_pos hds, hhead.2,
      List.dropWhile_append_of_pos h2, hd, List.cons_append,
      List.dropWhile_cons_of_neg (by simp [not_isSpace_of_isLower hc])]
  unfold parseCoin
  simp only [htrim, htake, hdrop, if_false, reduceCtorEq]
  have hmk : String.mk denom.toList = denom := rfl
  rw [hmk, hv]
  rfl

/-- Parsing an element whose text after the amount and the white space behind it begins and
ends with a character that is not white space: the element parses exactly when that text is
a valid denomination. -/
theorem parseCoin_delimited {ws1 ds ws2 ws3 m : List Char} {a : Char}
    (h1 : ∀ x ∈ ws1, isSpace x = true) (h2 : ∀ x ∈ ws2, isSpace x = true)
    (h3 : ∀ x ∈ ws3, isSpace x = true) (hne : ds ≠ [])
    (hds : ∀ c ∈ ds, c.isDigit = true) (ha : isSpace a = false)
    (ha2 : ws2 = [] → a.isDigit = false)
    (hb : isSpace ((a :: m).getLast (List.cons_ne_nil a m)) = false) :
    parseCoin (ws1 ++ (ds ++ ws2 ++ (a :: m)) ++ ws3)
      = if validateDenom (String.mk (a :: m)) = true
        then some ⟨String.mk (a :: m), (digitsValue ds : Nat)⟩ else none := by
  obtain ⟨d0, ds', rfl⟩ := List.exists_cons_of_ne_nil hne
  have hd0 : isSpace d0 = false := not_isSpace_of_isDigit (hds d0 (List.mem_cons_self _ _))
  have hlast := List.dropLast_append_getLast (List.cons_ne_nil a m)
  have hshape : d0 :: ds' ++ ws2 ++ (a :: m)
      = d0 :: (ds' ++ ws2 ++ (a :: m).dropLast) ++ [(a :: m).getLast (List.cons_ne_nil a m)] := by
    conv_lhs => rw [← hlast]
    simp
  have htrim : trimSpace (ws1 ++ (d0 :: ds' ++ ws2 ++ (a :: m)) ++ ws3)
      = d0 :: ds' ++ ws2 ++ (a :: m) := by
    rw [hshape]
    exact trimSpace_around h1 h3 hd0 hb
  have hhead : (ws2 ++ (a :: m)).takeWhile Char.isDigit = []
      ∧ (ws2 ++ (a :: m)).dropWhile Char.isDigit = ws2 ++ (a :: m) := by
    cases ws2 with
    | nil =>
      have hna := ha2 rfl
      rw [List.nil_append, List.takeWhile_cons_of_neg (by simp [hna]),
        List.dropWhile_cons_of_neg (by simp [hna])]
      exact ⟨rfl, rfl⟩
    | cons w ws =>
      have hw := not_isDigit_of_isSpace (h2 w (List.mem_cons_self _ _))
      rw [List.cons_append, List.takeWhile_cons_of_neg (by simp [hw]),
        List.dropWhile_cons_of_neg (by simp [hw])]
      exact ⟨rfl, rfl⟩
  have htake : (d0 :: ds' ++ ws2 ++ (a :: m)).takeWhile Char.isDigit = d0 :: ds' := by
    rw [List.append_assoc, List.takeWhile_append_of_pos hds, hhead.1, List.append_nil]
  have hdrop : ((d0 :: ds' ++ ws2 ++ (a :: m)).dropWhile Char.isDigit).dropWhile isSpace
      = a :: m := by
    rw [List.append_assoc, List.dropWhile_append_of_pos hds, hhead.2,
      List.dropWhile_append_of_pos h2, List.dropWhile_cons_of_neg (by simp [ha])]
  unfold parseCoin
  simp only [htrim, htake, hdrop, if_false, reduceCtorEq]
  cases validateDenom (String.mk (a :: m)) <;> rfl

theorem parseCoin_none_of_trim_nil {e : List Char} (h : trimSpace e = []) :
    parseCoin e = none := by
  unfold parseCoin
  simp [h]

/-- An element with a character that is neither a digit, a lower-case letter nor white
space does not parse. -/
theorem parseCoin_none_of_bad_char {e : List Char}
    (h : ∃ ch ∈ e, ch.isDigit = false ∧ ch.isLower = false ∧ isSpace ch = false) :
    parseCoin e = none := by
  obtain ⟨ch, hmem, hdg, hl, hsp⟩ := h
  have h1 : ch ∈ trimSpace e := mem_trimSpace hmem hsp
  have h2 : ch ∈ ((trimSpace e).dropWhile Char.isDigit).dropWhile isSpace :=
    mem_dropWhile_of_neg (mem_dropWhile_of_neg h1 hdg) hsp
  have h3 : validateDenom
      (String.mk (((trimSpace e).dropWhile Char.isDigit).dropWhile isSpace)) = false :=
    validateDenom_bad_char ⟨ch, h2, hl, hdg⟩
  unfold parseCoin
  simp only [h3, Bool.not_false, if_true]
  split <;> rfl

/-- What an element that parses looks like: after trimming, an amount of one or more
digits, white space, and a valid denomination. -/
theorem parseCoin_shape {e : List Char} {c : Coin} (h : parseCoin e = some c) :
    ∃ ds ws, trimSpace e = ds ++ ws ++ c.Denom.toList ∧ ds ≠ []
      ∧ (∀ x ∈ ds, x.isDigit = true) ∧ (∀ x ∈ ws, isSpace x = true)
      ∧ validateDenom c.Denom = true ∧ c.Amount = (digitsValue ds : Nat) := by
  unfold parseCoin at h
  simp only [] at h
  split at h
  · simp at h
  · rename_i hne
    split at h
    · simp at h
    · rename_i hv
      simp only [Option.some.injEq] at h
      subst h
      refine ⟨(trimSpace e).takeWhile Char.isDigit,
        ((trimSpace e).dropWhile Char.isDigit).takeWhile isSpace, ?_, hne, ?_, ?_, ?_, rfl⟩
      · show _ = _ ++ _ ++ ((trimSpace e).dropWhile Char.isDigit).dropWhile isSpace
        rw [List.append_assoc, List.takeWhile_append_dropWhile,
          List.takeWhile_append_dropWhile]
      · intro x hx; exact List.mem_takeWhile_imp hx
      · intro x hx; exact List.mem_takeWhile_imp hx
      · simpa using hv

theorem parseElements_eq_none_iff : ∀ (es : List (List Char)),
    parseElements es = none ↔ ∃ e ∈ es, parseCoin e = none := by
  intro es
  induction es with
  | nil => simp [parseElements]
  | cons e rest ih =>
    simp only [parseElements, List.mem_cons, exists_eq_or_imp]
    cases he : parseCoin e with
    | none => simp
    | some c =>
      cases hr : parseElements rest with
      | none =>
        rw [hr] at ih
        simp only [true_iff] at ih
        simp [ih]
      | some cs =>
        rw [hr] at ih
        simp only [reduceCtorEq, false_iff] at ih
        simp [ih]

theorem parseElements_some : ∀ (es : List (List Char)) (coins : Coins),
    parseElements es = some coins → es.map parseCoin = coins.map some := by
  intro es
  induction es with
  | nil =>
    intro coins h
    simp only [parseElements, Option.some.injEq] at h
    subst h; rfl
  | cons e rest ih =>
    intro coins h
    simp only [parseElements] at h
    cases he : parseCoin e with
    | none => rw [he] at h; simp at h
    | some c =>
      rw [he] at h
      cases hr : parseElements rest with
      | none => rw [hr] at h; simp at h
      | some cs =>
        rw [hr] at h
        simp only [Option.some.injEq] at h
        subst h
        simp only [List.map_cons, he, ih cs hr]

/-- The coins parsed from a list of elements depend only on what each element parses to. -/
theorem parseElements_congr : ∀ (es es' : List (List Char)),
    es.map parseCoin = es'.map parseCoin → parseElements es = parseElements es' := by
  intro es
  induction es with
  | nil =>
    intro es' h
    cases es' with
    | nil => rfl
    | cons _ _ => simp at h
  | cons e rest ih =>
    intro es' h
    cases es' with
    | nil => simp at h
    | cons e' rest' =>
      simp only [List.map_cons, List.cons.injEq] at h
      simp only [parseElements, h.1, ih rest' h.2]

theorem parseElements_perm {es es' : List (List Char)} (hp : es.Perm es') :
    (parseElements es = none ∧ parseElements es' = none)
      ∨ ∃ cs cs', parseElements es = some cs ∧ parseElements es' = some cs' ∧ cs.Perm cs' := by
  induction hp with
  | nil => exact Or.inr ⟨[], [], rfl, rfl, List.Perm.refl _⟩
  | cons e _ ih =>
    simp only [parseElements]
    cases he : parseCoin e with
    | none => exact Or.inl ⟨rfl, rfl⟩
    | some c =>
      rcases ih with ⟨h1, h2⟩ | ⟨cs, cs', h1, h2, h3⟩
      · rw [h1, h2]; exact Or.inl ⟨rfl, rfl⟩
      · rw [h1, h2]; exact Or.inr ⟨_, _, rfl, rfl, h3.cons c⟩
  | swap a b l =>
    simp only [parseElements]
    cases ha : parseCoin a <;> cases hb : parseCoin b <;> cases hl : parseElements l
    all_goals first
      | exact Or.inl ⟨rfl, rfl⟩
      | exact Or.inr ⟨_, _, rfl, rfl, List.Perm.swap _ _ _⟩
  | trans _ _ ih1 ih2 =>
    rcases ih1 with ⟨h1, h2⟩ | ⟨cs, cs', h1, h2, h3⟩
    · rcases ih2 with ⟨h4, h5⟩ | ⟨ds, ds', h4, h5, h6⟩
      · exact Or.inl ⟨h1, h5⟩
      · rw [h2] at h4; simp at h4
    · rcases ih2 with ⟨h4, h5⟩ | ⟨ds, ds', h4, h5, h6⟩
      · rw [h2] at h4; simp at h4
      · rw [h2] at h4
        simp only [Option.some.injEq] at h4
        subst h4
        exact Or.inr ⟨_, _, h1, h5, h3.trans h6⟩

/-- A list that is sorted by denomination and has pairwise distinct denominations is
strictly sorted. -/
theorem Sorted_of_pairwise_of_nodup {m : Coins}
    (h1 : m.Pairwise (fun a b => ¬ b.Denom.toList < a.Denom.toList))
    (h2 : (m.map (fun c => c.Denom)).Nodup) : Coins.Sorted m := by
  rw [List.Nodup, List.pairwise_map] at h2
  refine List.Pairwise.imp ?_ (h1.and h2)
  rintro x y ⟨h3, h4⟩
  exact denom_lt_of_not_lt h3 (Ne.symm h4)

/-- Two strictly sorted lists with the same coins are the same list. -/
theorem eq_of_perm_of_Sorted {m m' : Coins} (hp : m.Perm m') (h1 : Coins.Sorted m)
    (h2 : Coins.Sorted m') : m = m' := by
  haveI : IsAntisymm Coin (fun x y => x.Denom.toList < y.Denom.toList) :=
    ⟨fun a b hab hba => absurd hba (lt_asymm hab)⟩
  exact List.eq_of_perm_of_sorted hp h1 h2

/-- When the sorted list is a valid coin set. -/
theorem IsValid_Sort_iff (l : Coins) :
    Coins.IsValid (Coins.Sort l) = true
      ↔ (∀ c ∈ l, validateDenom c.Denom = true ∧ 0 < c.Amount)
        ∧ (l.map (fun c => c.Denom)).Nodup := by
  have hmem : ∀ c, c ∈ Coins.Sort l ↔ c ∈ l := fun c => (Sort_perm l).mem_iff
  rw [IsValid_iff, Sorted_Sort_iff]
  constructor
  · rintro ⟨h1, h2⟩
    exact ⟨fun c hc => h1 c ((hmem c).2 hc), h2⟩
  · rintro ⟨h1, h2⟩
    exact ⟨fun c hc => h1 c ((hmem c).1 hc), h2⟩

/-- Sorting and validating do not depend on the order of the coins. -/
theorem Sort_perm_invariant {cs cs' : Coins} (hp : cs.Perm cs') :
    Coins.IsValid (Coins.Sort cs) = Coins.IsValid (Coins.Sort cs')
    ∧ (Coins.IsValid (Coins.Sort cs) = true → Coins.Sort cs = Coins.Sort cs') := by
  have hiff : Coins.IsValid (Coins.Sort cs) = true ↔ Coins.IsValid (Coins.Sort cs') = true := by
    rw [IsValid_Sort_iff, IsValid_Sort_iff, (hp.map (fun c => c.Denom)).nodup_iff]
    constructor
    · rintro ⟨h1, h2⟩; exact ⟨fun c hc => h1 c (hp.mem_iff.2 hc), h2⟩
    · rintro ⟨h1, h2⟩; exact ⟨fun c hc => h1 c (hp.mem_iff.1 hc), h2⟩
  refine ⟨?_, ?_⟩
  · cases h1 : Coins.IsValid (Coins.Sort cs) <;> cases h2 : Coins.IsValid (Coins.Sort cs')
    · rfl
    · rw [hiff.2 h2] at h1; simp at h1
    · rw [hiff.1 h1] at h2; simp at h2
    · rfl
  · intro hv
    have hv' := hiff.1 hv
    exact eq_of_perm_of_Sorted (((Sort_perm cs).trans hp).trans (Sort_perm cs').symm)
      ((IsValid_iff _).1 hv).2 ((IsValid_iff _).1 hv').2

/-- The steps of `ParseCoins` on a string that is not blank. -/
theorem ParseCoins_of_ne_nil {s : String} (h : trimSpace s.toList ≠ []) :
    ParseCoins s
      = match parseElements (splitOn ',' (trimSpace s.toList)) with
        | none => ([], some ParseError.InvalidCoinExpression)
        | some coins =>
          if !Coins.IsValid (Coins.Sort coins) then ([], some ParseError.InvalidCoins)
          else (Coins.Sort coins, none) := by
  unfold ParseCoins
  simp only [h, if_false]

theorem ParseCoins_of_nil {s : String} (h : trimSpace s.toList = []) :
    ParseCoins s = ([], none) := by
  unfold ParseCoins
  simp only [h, if_true]

/-- C24: whenever `ParseCoins` succeeds its result is a valid coin set, so sorted in
strictly ascending order of denomination with strictly positive amounts. The result does
not depend on the order of the comma-separated elements of the input, and it depends on the
elements only through what each of them parses to, which does not depend on the white space
around the element nor between the amount and the denomination. `ParseCoins` returns an
error when an element does not parse, as does an empty element, an element with a character
that is neither a digit, a lower-case letter nor white space (a minus sign, a decimal
point, a hyphen), and an element whose text after the amount is not a valid denomination
(one with a space or a leading digit); and when an element parses to a zero amount. The empty string parses to the
nil coin set without error under `ParseCoins` and is an error under
`ParsePositiveCoins`. -/
theorem ParseCoins_valid :
    (∀ s coins, ParseCoins s = (coins, none) →
      Coins.IsValid coins = true ∧ Coins.Sorted coins ∧ ∀ c ∈ coins, 0 < c.Amount)
    ∧ (∀ s s' : String,
        (splitOn ',' (trimSpace s.toList)).Perm (splitOn ',' (trimSpace s'.toList)) →
        ParseCoins s = ParseCoins s')
    ∧ (∀ s s' : String, trimSpace s.toList ≠ [] → trimSpace s'.toList ≠ [] →
        (splitOn ',' (trimSpace s.toList)).map parseCoin
          = (splitOn ',' (trimSpace s'.toList)).map parseCoin →
        ParseCoins s = ParseCoins s')
    ∧ (∀ (ws1 ds ws2 ws3 : List Char) (denom : String),
        (∀ x ∈ ws1, isSpace x = true) → (∀ x ∈ ws2, isSpace x = true) →
        (∀ x ∈ ws3, isSpace x = true) → ds ≠ [] → (∀ x ∈ ds, x.isDigit = true) →
        validateDenom denom = true →
        parseCoin (ws1 ++ (ds ++ ws2 ++ denom.toList) ++ ws3)
          = some ⟨denom, (digitsValue ds : Nat)⟩)
    ∧ (∀ (ws1 ds ws2 ws3 m : List Char) (a : Char),
        (∀ x ∈ ws1, isSpace x = true) → (∀ x ∈ ws2, isSpace x = true) →
        (∀ x ∈ ws3, isSpace x = true) → ds ≠ [] → (∀ x ∈ ds, x.isDigit = true) →
        isSpace a = false → (ws2 = [] → a.isDigit = false) →
        isSpace ((a :: m).getLast (List.cons_ne_nil a m)) = false →
        parseCoin (ws1 ++ (ds ++ ws2 ++ (a :: m)) ++ ws3)
          = if validateDenom (String.mk (a :: m)) = true
            then some ⟨String.mk (a :: m), (digitsValue ds : Nat)⟩ else none)
    ∧ (∀ s : String, trimSpace s.toList ≠ [] →
        (∃ e ∈ splitOn ',' (trimSpace s.toList), parseCoin e = none) →
        ParseCoins s = ([], some ParseError.InvalidCoinExpression))
    ∧ (∀ e, trimSpace e = [] → parseCoin e = none)
    ∧ (∀ e, (∃ ch ∈ e, ch.isDigit = false ∧ ch.isLower = false ∧ isSpace ch = false) →
        parseCoin e = none)
    ∧ (∀ e c, parseCoin e = some c →
        ∃ ds ws, trimSpace e = ds ++ ws ++ c.Denom.toList ∧ ds ≠ []
          ∧ (∀ x ∈ ds, x.isDigit = true) ∧ (∀ x ∈ ws, isSpace x = true)
          ∧ validateDenom c.Denom = true ∧ c.Amount = (digitsValue ds : Nat))
    ∧ (∀ denom : String,
        (∃ ch ∈ denom.toList, ch = ' ' ∨ ch = '-')
          ∨ (∃ ch rest, denom.toList = ch :: rest ∧ ch.isDigit = true) →
        validateDenom denom = false)
    ∧ (∀ s : String,
        (∃ e ∈ splitOn ',' (trimSpace s.toList), ∃ c, parseCoin e = some c ∧ c.Amount = 0) →
        (ParseCoins s).2 ≠ none)
    ∧ ParseCoins "" = ([], none)
    ∧ (ParsePositiveCoins "").2 ≠ none := by
  refine ⟨?_, ?_, ?_, ?_, ?_, ?_, ?_, ?_, ?_, ?_, ?_, by decide, by decide⟩
  · intro s coins h
    have hv : Coins.IsValid coins = true := by
      by_cases ht : trimSpace s.toList = []
      · rw [ParseCoins_of_nil ht] at h
        simp only [Prod.mk.injEq, and_true] at h
        subst h; rfl
      · rw [ParseCoins_of_ne_nil ht] at h
        cases hp : parseElements (splitOn ',' (trimSpace s.toList)) with
        | none => rw [hp] at h; simp at h
        | some cs =>
          rw [hp] at h
          simp only [] at h
          cases hvs : Coins.IsValid (Coins.Sort cs) with
          | false => rw [hvs] at h; simp at h
          | true =>
            rw [hvs] at h
            simp only [Bool.not_true, Bool.false_eq_true, if_false, Prod.mk.injEq,
              and_true] at h
            subst h
            exact hvs
    obtain ⟨h1, h2⟩ := (IsValid_iff coins).1 hv
    exact ⟨hv, h2, fun c hc => (h1 c hc).2⟩
  · intro s s' hp
    by_cases ht : trimSpace s.toList = []
    · have ht' : trimSpace s'.toList = [] := by
        rw [ht] at hp
        have h1 : splitOn ',' ([] : List Char) = [[]] := rfl
        rw [h1] at hp
        exact splitOn_eq_singleton_nil.1 (List.singleton_perm.1 hp).symm
      rw [ParseCoins_of_nil ht, ParseCoins_of_nil ht']
    · have ht' : trimSpace s'.toList ≠ [] := by
        intro h
        rw [h] at hp
        have h1 : splitOn ',' ([] : List Char) = [[]] := rfl
        rw [h1] at hp
        exact ht (splitOn_eq_singleton_nil.1 (List.perm_singleton.1 hp))
      rw [ParseCoins_of_ne_nil ht, ParseCoins_of_ne_nil ht']
      rcases parseElements_perm hp with ⟨h1, h2⟩ | ⟨cs, cs', h1, h2, h3⟩
      · rw [h1, h2]
      · rw [h1, h2]
        simp only []
        obtain ⟨h4, h5⟩ := Sort_perm_invariant h3
        rw [← h4]
        cases hv : Coins.IsValid (Coins.Sort cs) with
        | false => rfl
        | true =>
          simp only [Bool.not_true, Bool.false_eq_true, if_false]
          rw [h5 hv]
  · intro s s' ht ht' h
    rw [ParseCoins_of_ne_nil ht, ParseCoins_of_ne_nil ht', parseElements_congr _ _ h]
  · intro ws1 ds ws2 ws3 denom h1 h2 h3 hne hds hv
    exact parseCoin_spaced h1 h2 h3 hne hds hv
  · intro ws1 ds ws2 ws3 m a h1 h2 h3 hne hds ha ha2 hb
    exact parseCoin_delimited h1 h2 h3 hne hds ha ha2 hb
  · intro s ht h
    rw [ParseCoins_of_ne_nil ht, (parseElements_eq_none_iff _).2 h]
  · intro e h
    exact parseCoin_none_of_trim_nil h
  · intro e h
    exact parseCoin_none_of_bad_char h
  · intro e c h
    exact parseCoin_shape h
  · rintro denom (⟨ch, hmem, rfl | rfl⟩ | ⟨ch, rest, hd, hdg⟩)
    · exact validateDenom_bad_char ⟨_, hmem, by decide, by decide⟩
    · exact validateDenom_bad_char ⟨_, hmem, by decide, by decide⟩
    · cases hv : validateDenom denom with
      | false => rfl
      | true =>
        obtain ⟨c, cs, hd2, hc, _⟩ := (validateDenom_iff denom).1 hv
        rw [hd] at hd2
        simp only [List.cons.injEq] at hd2
        rw [hd2.1, not_isDigit_of_isLower hc] at hdg
        simp at hdg
  · rintro s ⟨e, he, c, hc, h0⟩
    have ht : trimSpace s.toList ≠ [] := by
      intro h
      rw [h] at he
      have h1 : splitOn ',' ([] : List Char) = [[]] := rfl
      rw [h1, List.mem_singleton] at he
      rw [he] at hc
      simp [parseCoin, trimSpace] at hc
    rw [ParseCoins_of_ne_nil ht]
    cases hp : parseElements (splitOn ',' (trimSpace s.toList)) with
    | none => simp
    | some cs =>
      simp only []
      have hmem : c ∈ cs := by
        have h1 := parseElements_some _ _ hp
        have h2 : some c ∈ (splitOn ',' (trimSpace s.toList)).map parseCoin :=
          List.mem_map.2 ⟨e, he, hc⟩
        rw [h1] at h2
        obtain ⟨y, hy, hyc⟩ := List.mem_map.1 h2
        simp only [Option.some.injEq] at hyc
        rw [← hyc]; exact hy
      have hinv : Coins.IsValid (Coins.Sort cs) = false := by
        rw [← Bool.not_eq_true, IsValid_Sort_iff]
        rintro ⟨h1, _⟩
        have := (h1 c hmem).2
        omega
      simp [hinv]

/-- C24 on the cases of `TestParse`. -/
theorem ParseCoins_valid_witness :
    (ParseCoins "" = ([], none)
    ∧ (ParseCoins "0").2 ≠ none
    ∧ ParseCoins "1foo" = ([⟨"foo", 1⟩], none)
    ∧ ParseCoins "10bar" = ([⟨"bar", 10⟩], none)
    ∧ ParseCoins "99bar,1foo" = ([⟨"bar", 99⟩, ⟨"foo", 1⟩], none)
    ∧ ParseCoins "98 bar , 1 foo  " = ([⟨"bar", 98⟩, ⟨"foo", 1⟩], none)
    ∧ ParseCoins "  55\t \t bling\n" = ([⟨"bling", 55⟩], none)
    ∧ ParseCoins "2foo, 97 bar" = ([⟨"bar", 97⟩, ⟨"foo", 2⟩], none)
    ∧ (ParseCoins "5 mycoin,").2 ≠ none
    ∧ (ParseCoins "2 3foo, 97 bar").2 ≠ none
    ∧ (ParseCoins "11me coin, 12you coin").2 ≠ none
    ∧ (ParseCoins "1.2btc").2 ≠ none
    ∧ (ParseCoins "5foo-bar").2 ≠ none
    ∧ (ParseCoins "5foo,-3bar").2 ≠ none
    ∧ (ParseCoins "5.2foo").2 ≠ none
    ∧ (ParseCoins "-5foo").2 ≠ none
    ∧ (ParseCoins "0foo").2 ≠ none
    ∧ (ParseCoins "-0foo").2 ≠ none
    ∧ (ParsePositiveCoins "").2 ≠ none
    ∧ ParsePositiveCoins "1foo" = ([⟨"foo", 1⟩], none)
    ∧ ParsePositiveCoins "2foo, 97 bar" = ([⟨"bar", 97⟩, ⟨"foo", 2⟩], none))
    ∧ (Coins.IsValid [⟨"bar", 97⟩, ⟨"foo", 2⟩] = true ∧ Coins.Sorted [⟨"bar", 97⟩, ⟨"foo", 2⟩]
        ∧ ∀ c ∈ ([⟨"bar", 97⟩, ⟨"foo", 2⟩] : Coins), 0 < c.Amount) :=
  ⟨by decide,
    ParseCoins_valid.1 "2foo, 97 bar" [⟨"bar", 97⟩, ⟨"foo", 2⟩] (by decide)⟩

/-- C25: the string of a coin set lists the coins with a non-zero amount, each as amount
followed by denomination, separated by commas, in ascending order of denomination; it does
not depend on the order of the list when the denominations of the non-zero coins are
pairwise distinct; and for every valid coin set `c`, `ParseCoins(c.String())` succeeds and
returns `c` (and so does `ParsePositiveCoins` when `c` is not empty). -/
theorem Coins_String_canonical :
    (∀ l : Coins, ∃ m : Coins, m.Perm (removeZeroCoins l)
      ∧ m.Pairwise (fun a b => ¬ b.Denom.toList < a.Denom.toList)
      ∧ Coins.String l
        = String.mk (joinComma (m.map (fun c => intChars c.Amount ++ c.Denom.toList))))
    ∧ (∀ l l' : Coins, (removeZeroCoins l).Perm (removeZeroCoins l') →
        ((removeZeroCoins l).map (fun c => c.Denom)).Nodup →
        Coins.String l = Coins.String l')
    ∧ (∀ c : Coins, Coins.IsValid c = true → ParseCoins (Coins.String c) = (c, none))
    ∧ (∀ c : Coins, Coins.IsValid c = true → c ≠ [] →
        ParsePositiveCoins (Coins.String c) = (c, none))
    ∧ (∀ coin : Coin, Coin.String coin
        = if coin.Amount = 0 then "" else String.mk (intChars coin.Amount ++ coin.Denom.toList)) := by
  have hfilter : ∀ l : Coins, (removeZeroCoins (Coins.Sort l)).Perm (removeZeroCoins l) :=
    fun l => (Sort_perm l).filter _
  have hsorted : ∀ l : Coins, (removeZeroCoins (Coins.Sort l)).Pairwise
      (fun a b => ¬ b.Denom.toList < a.Denom.toList) :=
    fun l => List.Pairwise.sublist (List.filter_sublist _) (Sort_sorted l)
  refine ⟨?_, ?_, fun c hv => ParseCoins_String hv, ?_, ?_⟩
  · intro l
    refine ⟨removeZeroCoins (Coins.Sort l), hfilter l, hsorted l, ?_⟩
    show String.mk (coinsChars l) = _
    unfold coinsChars
    congr 2
    apply List.map_congr_left
    intro c hc
    have hz := (mem_removeZeroCoins.1 hc).2
    unfold coinChars Coin.IsZero
    rw [if_neg (by simpa using hz)]
  · intro l l' hp hnd
    show String.mk (coinsChars l) = String.mk (coinsChars l')
    unfold coinsChars
    have hperm : (removeZeroCoins (Coins.Sort l)).Perm (removeZeroCoins (Coins.Sort l')) :=
      ((hfilter l).trans hp).trans (hfilter l').symm
    have hnd1 : ((removeZeroCoins (Coins.Sort l)).map (fun c => c.Denom)).Nodup :=
      (((hfilter l).map (fun c => c.Denom)).nodup_iff).2 hnd
    have hnd2 : ((removeZeroCoins (Coins.Sort l')).map (fun c => c.Denom)).Nodup :=
      ((hperm.map (fun c => c.Denom)).nodup_iff).1 hnd1
    rw [eq_of_perm_of_Sorted hperm (Sorted_of_pairwise_of_nodup (hsorted l) hnd1)
      (Sorted_of_pairwise_of_nodup (hsorted l') hnd2)]
  · intro c hv hne
    unfold ParsePositiveCoins
    rw [ParseCoins_String hv]
    have hpos : Coins.IsPositive c = true := by
      unfold Coins.IsPositive
      have hl : c.length ≠ 0 := fun h => hne (List.length_eq_zero.1 h)
      rw [if_neg hl, List.all_eq_true]
      intro x hx
      simpa [Coin.IsPositive] using (((IsValid_iff c).1 hv).1 x hx).2
    simp [hpos]
  · intro coin
    show String.mk (coinChars coin) = _
    unfold coinChars Coin.IsZero
    by_cases h : coin.Amount = 0
    · simp [h]
    · simp [h]

/-- C25 on the cases of `TestCoinString` and `TestCoinsString`, and a round trip. -/
theorem Coins_String_canonical_witness :
    (Coin.String ⟨"atom", 0⟩ = "" ∧ Coin.String ⟨"atom", 10⟩ = "10atom"
    ∧ Coins.String [⟨"atom", 0⟩] = ""
    ∧ Coins.String [⟨"atom", 10⟩] = "10atom"
    ∧ Coins.String [⟨"atom", 0⟩, ⟨"atom", 10⟩] = "10atom"
    ∧ Coins.String [⟨"atom", 0⟩, ⟨"atom", 10⟩] = Coins.String [⟨"atom", 10⟩, ⟨"atom", 0⟩]
    ∧ Coins.String [⟨"btc", 5⟩, ⟨"atom", 10⟩] = "10atom,5btc"
    ∧ ParseCoins "10atom,5btc" = ([⟨"atom", 10⟩, ⟨"btc", 5⟩], none))
    ∧ ParseCoins (Coins.String [⟨"atom", 10⟩, ⟨"btc", 5⟩])
        = ([⟨"atom", 10⟩, ⟨"btc", 5⟩], none) :=
  ⟨by decide,
    Coins_String_canonical.2.2.1 [⟨"atom", 10⟩, ⟨"btc", 5⟩] (by decide)⟩

end sdk

/-! ## Inputs and outputs -/

namespace sdk

theorem amount_perm {a b : Coins} (h : a.Perm b) (d : String) :
    Coins.amount a d = Coins.amount b d := by
  induction h with
  | nil => rfl
  | cons x _ ih => rw [amount_cons, amount_cons, ih]
  | swap x y l => simp only [amount_cons]; ring
  | trans _ _ ih1 ih2 => rw [ih1, ih2]

theorem amount_Sort (a : Coins) (d : String) : Coins.amount (Coins.Sort a) d = Coins.amount a d :=
  amount_perm (Sort_perm a) d

theorem amount_eq_of_IsEqual {a b : Coins} (h : Coins.IsEqual a b = true) (d : String) :
    Coins.amount a d = Coins.amount b d := by
  unfold Coins.IsEqual at h
  rw [← amount_Sort a, ← amount_Sort b, of_decide_eq_true h]

end sdk

namespace bank

open sdk auth

/-- The amount of a denomination in the total of a list of coin sets. -/
theorem amount_foldl_Add {α : Type} (f : α → Coins) (l : List α) (acc : Coins) (d : String) :
    Coins.amount (l.foldl (fun total x => Coins.Add total (f x)) acc) d =
      Coins.amount acc d + (l.map (fun x => Coins.amount (f x) d)).sum := by
  induction l generalizing acc with
  | nil => simp
  | cons x xs ih =>
    rw [List.foldl_cons, ih, amount_Add, List.map_cons, List.sum_cons]
    ring

/-- What an accepted list of inputs and outputs satisfies. -/
theorem ValidateInputsOutputs_none {inputs : List Input} {outputs : List Output}
    (h : ValidateInputsOutputs inputs outputs = none) :
    (∀ inp ∈ inputs, Coins.IsValid inp.Coins = true) ∧
    (∀ out ∈ outputs, Coins.IsValid out.Coins = true) ∧
    ∀ d, (inputs.map (fun inp => Coins.amount inp.Coins d)).sum =
      (outputs.map (fun out => Coins.amount out.Coins d)).sum := by
  unfold ValidateInputsOutputs at h
  split at h
  · simp at h
  · rename_i h1
    split at h
    · simp at h
    · rename_i h2
      simp only at h
      split at h
      · simp at h
      · rename_i h3
        refine ⟨?_, ?_, ?_⟩
        · intro inp hin
          by_contra hc
          exact h1 (List.any_eq_true.2 ⟨inp, hin, by simpa using hc⟩)
        · intro out hout
          by_contra hc
          exact h2 (List.any_eq_true.2 ⟨out, hout, by simpa using hc⟩)
        · intro d
          have he : Coins.IsEqual
              (inputs.foldl (fun total inp => Coins.Add total inp.Coins) [])
              (outputs.foldl (fun total out => Coins.Add total out.Coins) []) = true := by
            simpa using h3
          have := amount_eq_of_IsEqual he d
          rw [amount_foldl_Add (fun inp : Input => inp.Coins),
            amount_foldl_Add (fun out : Output => out.Coins)] at this
          simpa [amount_nil] using this

/-- When `addCoins` returns an error the ledger is the one it was given. -/
theorem addCoins_error_unchanged {ak ak1 : AccountKeeper} {addr : AccAddress} {amt c : Coins}
    {e : Error} (h : addCoins ak addr amt = some (ak1, c, some e)) : ak1 = ak := by
  by_cases hv : Coins.IsValid amt = true
  · rw [addCoins_of_valid ak addr hv] at h
    split at h
    · simp at h; exact h.1.symm
    · by_cases hn : Coins.IsValid (Coins.Add (getCoins ak addr) amt) = true
      · rw [setCoins_valid ak addr hn] at h; simp at h
      · rw [setCoins_invalid ak addr (by simpa using hn)] at h
        simp at h; exact h.1.symm
  · unfold addCoins at h
    simp [hv] at h
    exact h.1.symm

/-- When `addCoins` succeeds, the sum is valid and stored at `addr`. -/
theorem addCoins_success {ak ak1 : AccountKeeper} {addr : AccAddress} {amt c : Coins}
    (h : addCoins ak addr amt = some (ak1, c, none)) :
    Coins.IsValid c = true ∧ c = Coins.Add (getCoins ak addr) amt ∧
      ak1 = AccountKeeper.SetAccount ak addr
        { Coins := c, Vesting := (AccountKeeper.GetAccount ak addr).bind (fun a => a.Vesting) } := by
  by_cases hv : Coins.IsValid amt = true
  · rw [addCoins_of_valid ak addr hv] at h
    split at h
    · simp at h
    · by_cases hn : Coins.IsValid (Coins.Add (getCoins ak addr) amt) = true
      · rw [setCoins_valid ak addr hn] at h
        simp at h
        obtain ⟨h1, h2⟩ := h
        subst h2
        exact ⟨hn, rfl, h1.symm⟩
      · rw [setCoins_invalid ak addr (by simpa using hn)] at h
        simp at h
  · unfold addCoins at h
    simp [hv] at h

/-- The balance at every address after storing an account. -/
theorem amount_getCoins_SetAccount (ak : AccountKeeper) (addr other : AccAddress)
    (acc : Account) (d : String) :
    Coins.amount (getCoins (AccountKeeper.SetAccount ak addr acc) other) d =
      if addr = other then Coins.amount acc.Coins d else Coins.amount (getCoins ak other) d := by
  by_cases h : addr = other
  · subst h; rw [getCoins_SetAccount_same, if_pos rfl]
  · rw [getCoins_SetAccount_ne ak acc (fun e => h e.symm), if_neg h]

/-- A successful run of the loop over the inputs: the tags, the balances and the supply. -/
theorem subtractInputs_success {ctx : Context} :
    ∀ (inputs : List Input) {am am1 : AccountKeeper} {allTags tags1 : Tags},
      subtractInputs ctx am allTags inputs = some (am1, tags1, none) →
      tags1 = allTags ++ inputs.map (fun inp => Tag.Sender inp.Address) ∧
      (∀ addr d, Coins.amount (getCoins am1 addr) d =
        Coins.amount (getCoins am addr) d - debited inputs addr d) ∧
      ∀ d, totalSupply am1 d =
        totalSupply am d - (inputs.map (fun inp => Coins.amount inp.Coins d)).sum := by
  intro inputs
  induction inputs with
  | nil =>
    intro am am1 allTags tags1 h
    simp only [subtractInputs, Option.some.injEq, Prod.mk.injEq] at h
    obtain ⟨h1, h2, _⟩ := h
    subst h1; subst h2
    simp [debited]
  | cons inp rest ih =>
    intro am am1 allTags tags1 h
    unfold subtractInputs at h
    cases hsub : subtractCoins ctx am inp.Address inp.Coins with
    | none => rw [hsub] at h; simp at h
    | some x =>
      obtain ⟨am2, c, e⟩ := x
      rw [hsub] at h
      cases e with
      | some e => simp at h
      | none =>
        dsimp only at h
        obtain ⟨_, hs, ham2⟩ := subtractCoins_success hsub
        obtain ⟨ht, hb, hsup⟩ := ih h
        refine ⟨?_, ?_, ?_⟩
        · rw [ht]; simp
        · intro addr d
          rw [hb addr d, ham2, amount_getCoins_SetAccount]
          simp only [debited, List.map_cons, List.sum_cons]
          by_cases hadd : inp.Address = addr
          · rw [if_pos hadd, if_pos hadd, amount_Sub hs, hadd]; ring
          · rw [if_neg hadd, if_neg hadd]; ring
        · intro d
          rw [hsup d, ham2, totalSupply_SetAccount]
          simp only [List.map_cons, List.sum_cons]
          rw [amount_Sub hs]; ring

/-- A successful run of the loop over the outputs: the tags, the balances and the supply. -/
theorem addOutputs_success :
    ∀ (outputs : List Output) {am am1 : AccountKeeper} {allTags tags1 : Tags},
      addOutputs am allTags outputs = some (am1, tags1, none) →
      tags1 = allTags ++ outputs.map (fun out => Tag.Recipient out.Address) ∧
      (∀ addr d, Coins.amount (getCoins am1 addr) d =
        Coins.amount (getCoins am addr) d + credited outputs addr d) ∧
      ∀ d, totalSupply am1 d =
        totalSupply am d + (outputs.map (fun out => Coins.amount out.Coins d)).sum := by
  intro outputs
  induction outputs with
  | nil =>
    intro am am1 allTags tags1 h
    simp only [addOutputs, Option.some.injEq, Prod.mk.injEq] at h
    obtain ⟨h1, h2, _⟩ := h
    subst h1; subst h2
    simp [credited]
  | cons out rest ih =>
    intro am am1 allTags tags1 h
    unfold addOutputs at h
    cases hadd : addCoins am out.Address out.Coins with
    | none => rw [hadd] at h; simp at h
    | some x =>
      obtain ⟨am2, c, e⟩ := x
      rw [hadd] at h
      cases e with
      | some e => simp at h
      | none =>
        dsimp only at h
        obtain ⟨_, hc, ham2⟩ := addCoins_success hadd
        obtain ⟨ht, hb, hsup⟩ := ih h
        refine ⟨?_, ?_, ?_⟩
        · rw [ht]; simp
        · intro addr d
          rw [hb addr d, ham2, amount_getCoins_SetAccount]
          simp only [credited, List.map_cons, List.sum_cons]
          by_cases ha : out.Address = addr
          · rw [if_pos ha, if_pos ha, hc, amount_Add, ha]; ring
          · rw [if_neg ha, if_neg ha]; ring
        · intro d
          rw [hsup d, ham2, totalSupply_SetAccount]
          simp only [List.map_cons, List.sum_cons]
          rw [hc, amount_Add]; ring

/-- C31: `inputOutputCoins` maintains the supply invariant. When it returns no error, the
inputs and outputs have passed `ValidateInputsOutputs`, the total balance of every
denomination over all accounts is unchanged, the balance of every address in every
denomination is the old one less what the inputs take from the address plus what the
outputs give to it, and the returned tags are one sender tag per input, in order, followed
by one recipient tag per output, in order. `BaseKeeper.InputOutputCoins` returns the same. -/
theorem inputOutputCoins_supply_invariant (ctx : Context) (ak ak1 : AccountKeeper)
    (inputs : List Input) (outputs : List Output) (tags : Tags)
    (h : inputOutputCoins ctx ak inputs outputs = some (ak1, tags, none)) :
    ValidateInputsOutputs inputs outputs = none
    ∧ (∀ d, totalSupply ak1 d = totalSupply ak d)
    ∧ (∀ addr d, Coins.amount (getCoins ak1 addr) d =
        Coins.amount (getCoins ak addr) d - debited inputs addr d + credited outputs addr d)
    ∧ tags = inputs.map (fun inp => Tag.Sender inp.Address)
        ++ outputs.map (fun out => Tag.Recipient out.Address)
    ∧ InputOutputCoins ctx ak inputs outputs = some (ak1, tags, none) := by
  have hio : InputOutputCoins ctx ak inputs outputs = some (ak1, tags, none) := h
  unfold inputOutputCoins at h
  cases hval : ValidateInputsOutputs inputs outputs with
  | some e => rw [hval] at h; simp at h
  | none =>
    rw [hval] at h
    dsimp only at h
    cases hsub : subtractInputs ctx ak [] inputs with
    | none => rw [hsub] at h; simp at h
    | some x =>
      obtain ⟨am1, t1, e⟩ := x
      rw [hsub] at h
      cases e with
      | some e => simp at h
      | none =>
        dsimp only at h
        obtain ⟨ht1, hb1, hs1⟩ := subtractInputs_success inputs hsub
        obtain ⟨ht2, hb2, hs2⟩ := addOutputs_success outputs h
        obtain ⟨_, _, htot⟩ := ValidateInputsOutputs_none hval
        refine ⟨rfl, ?_, ?_, ?_, hio⟩
        · intro d
          rw [hs2 d, hs1 d, htot d]; ring
        · intro addr d
          rw [hb2 addr d, hb1 addr d]
        · rw [ht2, ht1]; simp

theorem inputOutputCoins_supply_invariant_witness :
    inputOutputCoins ⟨0, 0⟩ ledgerTwo [⟨[1], [⟨"atom", 2⟩]⟩] [⟨[3], [⟨"atom", 2⟩]⟩]
      = some (AccountKeeper.SetAccount
          (AccountKeeper.SetAccount ledgerTwo [1] { Coins := [⟨"atom", 3⟩], Vesting := none })
          [3] { Coins := [⟨"atom", 2⟩], Vesting := none },
          [Tag.Sender [1], Tag.Recipient [3]], none)
    ∧ (ValidateInputsOutputs [⟨[1], [⟨"atom", 2⟩]⟩] [⟨[3], [⟨"atom", 2⟩]⟩] = none
      ∧ (∀ d, totalSupply (AccountKeeper.SetAccount
          (AccountKeeper.SetAccount ledgerTwo [1] { Coins := [⟨"atom", 3⟩], Vesting := none })
          [3] { Coins := [⟨"atom", 2⟩], Vesting := none }) d = totalSupply ledgerTwo d)
      ∧ (∀ addr d, Coins.amount (getCoins (AccountKeeper.SetAccount
          (AccountKeeper.SetAccount ledgerTwo [1] { Coins := [⟨"atom", 3⟩], Vesting := none })
          [3] { Coins := [⟨"atom", 2⟩], Vesting := none }) addr) d =
          Coins.amount (getCoins ledgerTwo addr) d
            - debited [⟨[1], [⟨"atom", 2⟩]⟩] addr d + credited [⟨[3], [⟨"atom", 2⟩]⟩] addr d)
      ∧ [Tag.Sender [1], Tag.Recipient [3]] =
          ([⟨[1], [⟨"atom", 2⟩]⟩] : List Input).map (fun inp => Tag.Sender inp.Address)
            ++ ([⟨[3], [⟨"atom", 2⟩]⟩] : List Output).map
              (fun out => Tag.Recipient out.Address)
      ∧ InputOutputCoins ⟨0, 0⟩ ledgerTwo [⟨[1], [⟨"atom", 2⟩]⟩] [⟨[3], [⟨"atom", 2⟩]⟩]
        = some (AccountKeeper.SetAccount
            (AccountKeeper.SetAccount ledgerTwo [1] { Coins := [⟨"atom", 3⟩], Vesting := none })
            [3] { Coins := [⟨"atom", 2⟩], Vesting := none },
            [Tag.Sender [1], Tag.Recipient [3]], none)) :=
  ⟨rfl, inputOutputCoins_supply_invariant ⟨0, 0⟩ ledgerTwo _ _ _ _ rfl⟩

/-- C32: `inputOutputCoins` has no internal rollback. On the ledger in which `[1]` holds
5 atom and `[2]` holds 3 btc, the inputs 2 atom from `[1]` and 1 atom from `[2]` with the
output 3 atom to `[3]` pass `ValidateInputsOutputs`; the call returns the error of
insufficient coins for the second input after it has debited the first, so that the ledger
it returns holds 3 atom at `[1]`, where the ledger it was given holds 5, and nothing at
`[3]`. -/
theorem inputOutputCoins_no_rollback :
    ValidateInputsOutputs [⟨[1], [⟨"atom", 2⟩]⟩, ⟨[2], [⟨"atom", 1⟩]⟩] [⟨[3], [⟨"atom", 3⟩]⟩]
      = none
    ∧ (inputOutputCoins ⟨0, 0⟩ ledgerTwo [⟨[1], [⟨"atom", 2⟩]⟩, ⟨[2], [⟨"atom", 1⟩]⟩]
        [⟨[3], [⟨"atom", 3⟩]⟩]).map (fun r => (r.2.2, getCoins r.1 [1], getCoins r.1 [3]))
      = some (some Error.ErrInsufficientCoins, [⟨"atom", 3⟩], [])
    ∧ getCoins ledgerTwo [1] = [⟨"atom", 5⟩] := by
  decide

end bank

/-! ## Validity of the stored balances -/

namespace bank

open sdk auth

/-- Every stored balance is valid exactly when the balance read at every address is. -/
theorem balancesValid_iff (ak : AccountKeeper) :
    balancesValid ak = true ↔ ∀ addr, Coins.IsValid (getCoins ak addr) = true := by
  unfold balancesValid AccountKeeper.IterateAccounts
  rw [List.all_eq_true]
  constructor
  · intro h addr
    unfold getCoins AccountKeeper.GetAccount
    cases hl : AList.lookup addr ak with
    | none => rfl
    | some acc =>
      have hm : acc ∈ AList.lookup addr ak := by rw [hl]; exact rfl
      exact h acc (List.mem_map.2 ⟨⟨addr, acc⟩, AList.mem_lookup_iff.1 hm, rfl⟩)
  · intro h acc hmem
    obtain ⟨e, he, rfl⟩ := List.mem_map.1 hmem
    obtain ⟨k, v⟩ := e
    have hm : v ∈ AList.lookup k ak := AList.mem_lookup_iff.2 he
    have hl : AList.lookup k ak = some v := hm
    have := h k
    unfold getCoins AccountKeeper.GetAccount at this
    rw [hl] at this
    exact this

/-- Storing an account with a valid balance keeps every stored balance valid. -/
theorem balancesValid_SetAccount {ak : AccountKeeper} (h : balancesValid ak = true)
    (addr : AccAddress) {acc : Account} (hc : Coins.IsValid acc.Coins = true) :
    balancesValid (AccountKeeper.SetAccount ak addr acc) = true := by
  rw [balancesValid_iff] at h ⊢
  intro other
  by_cases ho : other = addr
  · subst ho; rw [getCoins_SetAccount_same]; exact hc
  · rw [getCoins_SetAccount_ne ak acc ho]; exact h other

theorem setCoins_balancesValid {ak : AccountKeeper} (h : balancesValid ak = true)
    (addr : AccAddress) (amt : Coins) :
    ∃ r, setCoins ak addr amt = some r ∧ balancesValid r.1 = true := by
  by_cases hv : Coins.IsValid amt = true
  · exact ⟨_, setCoins_valid ak addr hv, balancesValid_SetAccount h addr hv⟩
  · exact ⟨_, setCoins_invalid ak addr (by simpa using hv), h⟩

/-- On a valid stored balance `subtractCoins` returns, also for a vesting account. -/
theorem subtractCoins_valid_balance_cases (ctx : Context) (ak : AccountKeeper)
    (addr : AccAddress) (amt : Coins) (hold : Coins.IsValid (getCoins ak addr) = true) :
    (∃ c e, subtractCoins ctx ak addr amt = some (ak, c, some e)) ∨
    (Coins.IsValid amt = true ∧ Coins.IsValid (Coins.SafeSub (getCoins ak addr) amt).1 = true ∧
      subtractCoins ctx ak addr amt =
        some (AccountKeeper.SetAccount ak addr
          { Coins := (Coins.SafeSub (getCoins ak addr) amt).1,
            Vesting := (AccountKeeper.GetAccount ak addr).bind (fun a => a.Vesting) },
          (Coins.SafeSub (getCoins ak addr) amt).1, none)) := by
  by_cases hv : Coins.IsValid amt = true
  · by_cases hn : (Coins.SafeSub (oldAndSpendableCoins ctx ak addr).2 amt).2 = true
    · left
      rw [subtractCoins_of_valid ctx ak addr hv, if_pos hn]
      exact ⟨_, _, rfl⟩
    · right
      have hso : Coins.Sorted (getCoins ak addr) := ((IsValid_iff _).1 hold).2
      have hsa : Coins.Sorted amt := ((IsValid_iff _).1 hv).2
      have hcov : ∀ d, Coins.amount amt d ≤ Coins.amount (oldAndSpendableCoins ctx ak addr).2 d := by
        intro d
        by_contra hlt
        exact hn ((SafeSub_hasNeg_iff (Sorted_spendable ctx ak addr hso) hsa).2
          ⟨d, lt_of_not_le hlt⟩)
      obtain ⟨h1, h2⟩ := subtractCoins_of_valid_balance ctx ak addr hv hold hcov
      exact ⟨hv, h1, h2⟩
  · left
    unfold subtractCoins
    simp [hv]

theorem subtractCoins_balancesValid (ctx : Context) {ak : AccountKeeper}
    (h : balancesValid ak = true) (addr : AccAddress) (amt : Coins) :
    ∃ r, subtractCoins ctx ak addr amt = some r ∧ balancesValid r.1 = true := by
  rcases subtractCoins_valid_balance_cases ctx ak addr amt ((balancesValid_iff ak).1 h addr) with
    ⟨c, e, hr⟩ | ⟨_, hc, hr⟩
  · exact ⟨_, hr, h⟩
  · exact ⟨_, hr, balancesValid_SetAccount h addr hc⟩

/-- On a valid stored balance `addCoins` fails only for an invalid amount, and leaves the
ledger as it is then. -/
theorem addCoins_valid_balance_cases (ak : AccountKeeper) (addr : AccAddress) (amt : Coins)
    (hold : Coins.IsValid (getCoins ak addr) = true) :
    (Coins.IsValid amt = false ∧ addCoins ak addr amt = some (ak, [], some Error.ErrInvalidCoins)) ∨
    (Coins.IsValid amt = true ∧ Coins.IsValid (Coins.Add (getCoins ak addr) amt) = true ∧
      addCoins ak addr amt =
        some (AccountKeeper.SetAccount ak addr
          { Coins := Coins.Add (getCoins ak addr) amt,
            Vesting := (AccountKeeper.GetAccount ak addr).bind (fun a => a.Vesting) },
          Coins.Add (getCoins ak addr) amt, none)) := by
  by_cases hv : Coins.IsValid amt = true
  · right
    exact ⟨hv, (IsValid_Add hold hv).1, addCoins_of_valid_balance ak addr hv hold⟩
  · left
    refine ⟨by simpa using hv, ?_⟩
    unfold addCoins
    simp [hv]

theorem addCoins_balancesValid {ak : AccountKeeper} (h : balancesValid ak = true)
    (addr : AccAddress) (amt : Coins) :
    ∃ r, addCoins ak addr amt = some r ∧ balancesValid r.1 = true := by
  rcases addCoins_valid_balance_cases ak addr amt ((balancesValid_iff ak).1 h addr) with
    ⟨_, hr⟩ | ⟨_, hc, hr⟩
  · exact ⟨_, hr, h⟩
  · exact ⟨_, hr, balancesValid_SetAccount h addr hc⟩

/-- On a ledger of valid balances `sendCoins` returns; with an error the ledger is the one
it was given, and in every case the stored balances are still valid. -/
theorem sendCoins_valid_ledger (ctx : Context) {ak : AccountKeeper}
    (h : balancesValid ak = true) (fromAddr toAddr : AccAddress) (amt : Coins) :
    ∃ r, sendCoins ctx ak fromAddr toAddr amt = some r ∧ balancesValid r.1 = true ∧
      (r.2 ≠ none → r.1 = ak) := by
  unfold sendCoins
  by_cases hv : Coins.IsValid amt = true
  · simp only [hv, Bool.not_true, Bool.false_eq_true, if_false]
    rcases subtractCoins_valid_balance_cases ctx ak fromAddr amt
        ((balancesValid_iff ak).1 h fromAddr) with ⟨c, e, hr⟩ | ⟨_, hc, hr⟩
    · rw [hr]
      exact ⟨_, rfl, h, fun _ => rfl⟩
    · rw [hr]
      dsimp only
      have h1 : balancesValid (AccountKeeper.SetAccount ak fromAddr
          { Coins := (Coins.SafeSub (getCoins ak fromAddr) amt).1,
            Vesting := (AccountKeeper.GetAccount ak fromAddr).bind (fun a => a.Vesting) })
          = true := balancesValid_SetAccount h fromAddr hc
      rw [addCoins_of_valid_balance _ toAddr hv ((balancesValid_iff _).1 h1 toAddr)]
      dsimp only
      refine ⟨_, rfl, ?_, fun hne => absurd rfl hne⟩
      exact balancesValid_SetAccount h1 toAddr (IsValid_Add ((balancesValid_iff _).1 h1 toAddr) hv).1
  · simp only [hv, Bool.not_false, if_true]
    exact ⟨_, rfl, h, fun _ => rfl⟩

/-- C36: `sendCoins` is all-or-nothing on a ledger whose stored balances are valid coin
sets. For every sender, recipient and amount the call returns; when it returns an error, the
ledger it returns is the ledger it was given, so that no account has been created or
modified; and once the debit of the sender has succeeded, the credit of the recipient
returns no error. The same holds of `SendCoins`. -/
theorem sendCoins_all_or_nothing (ctx : Context) (ak : AccountKeeper)
    (fromAddr toAddr : AccAddress) (amt : Coins) (hvalid : balancesValid ak = true) :
    (∃ r, sendCoins ctx ak fromAddr toAddr amt = some r)
    ∧ (∀ ak1 err, sendCoins ctx ak fromAddr toAddr amt = some (ak1, some err) → ak1 = ak)
    ∧ (∀ ak1 c, subtractCoins ctx ak fromAddr amt = some (ak1, c, none) →
        ∃ ak2 c2, addCoins ak1 toAddr amt = some (ak2, c2, none))
    ∧ (∀ ak1 err, SendCoins ctx ak fromAddr toAddr amt = some (ak1, some err) → ak1 = ak) := by
  obtain ⟨r, hr, _, hrb⟩ := sendCoins_valid_ledger ctx hvalid fromAddr toAddr amt
  have hsend : ∀ ak1 err, sendCoins ctx ak fromAddr toAddr amt = some (ak1, some err) →
      ak1 = ak := by
    intro ak1 err h1
    rw [hr] at h1
    have : r = (ak1, some err) := Option.some.inj h1
    subst this
    exact hrb (by simp)
  refine ⟨⟨r, hr⟩, hsend, ?_, ?_⟩
  · intro ak1 c hsub
    obtain ⟨hc, _, hak1⟩ := subtractCoins_success hsub
    have h1 : balancesValid ak1 = true := by
      rw [hak1]; exact balancesValid_SetAccount hvalid fromAddr hc
    have hv : Coins.IsValid amt = true := by
      by_contra hv
      unfold subtractCoins at hsub
      simp [hv] at hsub
    exact ⟨_, _, addCoins_of_valid_balance ak1 toAddr hv ((balancesValid_iff _).1 h1 toAddr)⟩
  · intro ak1 err h1
    unfold SendCoins at h1
    split at h1
    · simp at h1; exact h1.1.symm
    · exact hsend ak1 err h1

theorem sendCoins_all_or_nothing_witness :
    balancesValid ledgerTwo = true
    ∧ ((∃ r, sendCoins ⟨0, 0⟩ ledgerTwo [1] [2] [⟨"atom", 9⟩] = some r)
      ∧ (∀ ak1 err, sendCoins ⟨0, 0⟩ ledgerTwo [1] [2] [⟨"atom", 9⟩] = some (ak1, some err) →
          ak1 = ledgerTwo)
      ∧ (∀ ak1 c, subtractCoins ⟨0, 0⟩ ledgerTwo [1] [⟨"atom", 9⟩] = some (ak1, c, none) →
          ∃ ak2 c2, addCoins ak1 [2] [⟨"atom", 9⟩] = some (ak2, c2, none))
      ∧ (∀ ak1 err, SendCoins ⟨0, 0⟩ ledgerTwo [1] [2] [⟨"atom", 9⟩] = some (ak1, some err) →
          ak1 = ledgerTwo))
    ∧ sendCoins ⟨0, 0⟩ ledgerTwo [1] [2] [⟨"atom", 9⟩]
        = some (ledgerTwo, some Error.ErrInsufficientCoins) :=
  ⟨by decide, sendCoins_all_or_nothing ⟨0, 0⟩ ledgerTwo [1] [2] [⟨"atom", 9⟩] (by decide), rfl⟩

end bank

namespace bank

open sdk auth

theorem subtractInputs_balancesValid (ctx : Context) :
    ∀ (inputs : List Input) {am : AccountKeeper} (allTags : Tags), balancesValid am = true →
      ∃ r, subtractInputs ctx am allTags inputs = some r ∧ balancesValid r.1 = true := by
  intro inputs
  induction inputs with
  | nil => intro am allTags h; exact ⟨_, rfl, h⟩
  | cons inp rest ih =>
    intro am allTags h
    obtain ⟨⟨am1, c, e⟩, hr, hb⟩ := subtractCoins_balancesValid ctx h inp.Address inp.Coins
    unfold subtractInputs
    rw [hr]
    cases e with
    | some e => exact ⟨_, rfl, hb⟩
    | none => exact ih _ hb

theorem addOutputs_balancesValid :
    ∀ (outputs : List Output) {am : AccountKeeper} (allTags : Tags), balancesValid am = true →
      ∃ r, addOutputs am allTags outputs = some r ∧ balancesValid r.1 = true := by
  intro outputs
  induction outputs with
  | nil => intro am allTags h; exact ⟨_, rfl, h⟩
  | cons out rest ih =>
    intro am allTags h
    obtain ⟨⟨am1, c, e⟩, hr, hb⟩ := addCoins_balancesValid h out.Address out.Coins
    unfold addOutputs
    rw [hr]
    cases e with
    | some e => exact ⟨_, rfl, hb⟩
    | none => exact ih _ hb

theorem inputOutputCoins_balancesValid (ctx : Context) {ak : AccountKeeper}
    (h : balancesValid ak = true) (inputs : List Input) (outputs : List Output) :
    ∃ r, inputOutputCoins ctx ak inputs outputs = some r ∧ balancesValid r.1 = true := by
  unfold inputOutputCoins
  cases ValidateInputsOutputs inputs outputs with
  | some e => exact ⟨_, rfl, h⟩
  | none =>
    obtain ⟨⟨am1, t, e⟩, hr, hb⟩ := subtractInputs_balancesValid ctx inputs [] h
    dsimp only
    rw [hr]
    cases e with
    | some e => exact ⟨_, rfl, hb⟩
    | none => exact addOutputs_balancesValid outputs t hb

theorem Vesting_of_not_IsVesting {acc : Account} (h : acc.IsVesting = false) :
    acc.Vesting = none := by
  unfold Account.IsVesting at h
  cases hv : acc.Vesting with
  | none => rfl
  | some v => rw [hv] at h; simp at h

theorem getCoins_of_GetAccount {ak : AccountKeeper} {addr : AccAddress} {acc : Account}
    (h : AccountKeeper.GetAccount ak addr = some acc) : getCoins ak addr = acc.GetCoins := by
  unfold getCoins
  rw [h]

theorem delegateCoins_balancesValid (ctx : Context) {ak : AccountKeeper}
    (h : balancesValid ak = true) (addr : AccAddress) (amt : Coins)
    (hplain : ∀ acc, AccountKeeper.GetAccount ak addr = some acc → acc.IsVesting = false) :
    ∃ r, delegateCoins ctx ak addr amt = some r ∧ balancesValid r.1 = true := by
  unfold delegateCoins
  by_cases hv : Coins.IsValid amt = true
  · simp only [hv, Bool.not_true, Bool.false_eq_true, if_false]
    unfold getAccount
    cases hacc : AccountKeeper.GetAccount ak addr with
    | none => exact ⟨_, rfl, h⟩
    | some acc =>
      dsimp only
      by_cases hn : (Coins.SafeSub acc.GetCoins amt).2 = true
      · rw [if_pos hn]; exact ⟨_, rfl, h⟩
      · rw [if_neg hn]
        have hold : Coins.IsValid acc.GetCoins = true := by
          rw [← getCoins_of_GetAccount hacc]; exact (balancesValid_iff ak).1 h addr
        have hs : Coins.Sub acc.GetCoins amt = some (Coins.SafeSub acc.GetCoins amt).1 := by
          unfold Coins.Sub
          simp [hn]
        have hvn := Vesting_of_not_IsVesting (hplain acc hacc)
        have ht : trackDelegation acc ctx.BlockTime amt =
            some ({ Coins := (Coins.SafeSub acc.GetCoins amt).1, Vesting := none }, none) := by
          unfold trackDelegation
          rw [hvn]
          dsimp only
          rw [hs]
          simp [Account.SetCoins, hvn]
        rw [ht]
        refine ⟨_, rfl, ?_⟩
        exact balancesValid_SetAccount h addr
          (IsValid_SafeSub hold hv (by simpa using hn))
  · simp only [hv, Bool.not_false, if_true]
    exact ⟨_, rfl, h⟩

theorem undelegateCoins_balancesValid {ak : AccountKeeper}
    (h : balancesValid ak = true) (addr : AccAddress) (amt : Coins)
    (hplain : ∀ acc, AccountKeeper.GetAccount ak addr = some acc → acc.IsVesting = false) :
    ∃ r, undelegateCoins ak addr amt = some r ∧ balancesValid r.1 = true := by
  unfold undelegateCoins
  by_cases hv : Coins.IsValid amt = true
  · simp only [hv, Bool.not_true, Bool.false_eq_true, if_false]
    unfold getAccount
    cases hacc : AccountKeeper.GetAccount ak addr with
    | none => exact ⟨_, rfl, h⟩
    | some acc =>
      dsimp only
      have hold : Coins.IsValid acc.GetCoins = true := by
        rw [← getCoins_of_GetAccount hacc]; exact (balancesValid_iff ak).1 h addr
      have hvn := Vesting_of_not_IsVesting (hplain acc hacc)
      have ht : trackUndelegation acc amt =
          some ({ Coins := Coins.Add acc.GetCoins amt, Vesting := none }, none) := by
        unfold trackUndelegation
        rw [hvn]
        simp [Account.SetCoins, hvn]
      rw [ht]
      refine ⟨_, rfl, ?_⟩
      exact balancesValid_SetAccount h addr (IsValid_Add hold hv).1
  · simp only [hv, Bool.not_false, if_true]
    exact ⟨_, rfl, h⟩

/-- C37: balance validity is an invariant of the ledger. If every stored account balance is
a valid coin set, then every call of `SetCoins`, `SubtractCoins`, `AddCoins`, `SendCoins`
and `InputOutputCoins`, and every call of `DelegateCoins` and `UndelegateCoins` on an
address that holds a non-vesting account or no account, returns, with success or with an
error, and every balance stored in the ledger it returns is a valid coin set. -/
theorem balancesValid_invariant (ctx : Context) (ak : AccountKeeper)
    (hvalid : balancesValid ak = true) :
    (∀ addr amt, ∃ r, SetCoins ak addr amt = some r ∧ balancesValid r.1 = true)
    ∧ (∀ addr amt, ∃ r, SubtractCoins ctx ak addr amt = some r ∧ balancesValid r.1 = true)
    ∧ (∀ addr amt, ∃ r, AddCoins ak addr amt = some r ∧ balancesValid r.1 = true)
    ∧ (∀ fromAddr toAddr amt,
        ∃ r, SendCoins ctx ak fromAddr toAddr amt = some r ∧ balancesValid r.1 = true)
    ∧ (∀ inputs outputs,
        ∃ r, InputOutputCoins ctx ak inputs outputs = some r ∧ balancesValid r.1 = true)
    ∧ (∀ addr amt,
        (∀ acc, AccountKeeper.GetAccount ak addr = some acc → acc.IsVesting = false) →
        ∃ r, DelegateCoins ctx ak addr amt = some r ∧ balancesValid r.1 = true)
    ∧ (∀ addr amt,
        (∀ acc, AccountKeeper.GetAccount ak addr = some acc → acc.IsVesting = false) →
        ∃ r, UndelegateCoins ak addr amt = some r ∧ balancesValid r.1 = true) := by
  refine ⟨?_, ?_, ?_, ?_, ?_, ?_, ?_⟩
  · intro addr amt
    unfold SetCoins
    split
    · exact ⟨_, rfl, hvalid⟩
    · exact setCoins_balancesValid hvalid addr amt
  · intro addr amt
    unfold SubtractCoins
    split
    · exact ⟨_, rfl, hvalid⟩
    · exact subtractCoins_balancesValid ctx hvalid addr amt
  · intro addr amt
    unfold AddCoins
    split
    · exact ⟨_, rfl, hvalid⟩
    · exact addCoins_balancesValid hvalid addr amt
  · intro fromAddr toAddr amt
    unfold SendCoins
    split
    · exact ⟨_, rfl, hvalid⟩
    · obtain ⟨r, hr, hb, _⟩ := sendCoins_valid_ledger ctx hvalid fromAddr toAddr amt
      exact ⟨r, hr, hb⟩
  · intro inputs outputs
    exact inputOutputCoins_balancesValid ctx hvalid inputs outputs
  · intro addr amt hplain
    unfold DelegateCoins
    split
    · exact ⟨_, rfl, hvalid⟩
    · exact delegateCoins_balancesValid ctx hvalid addr amt hplain
  · intro addr amt hplain
    unfold UndelegateCoins
    split
    · exact ⟨_, rfl, hvalid⟩
    · exact undelegateCoins_balancesValid hvalid addr amt hplain

theorem balancesValid_invariant_witness :
    balancesValid ledgerTwo = true
    ∧ (∃ r, SubtractCoins ⟨0, 0⟩ ledgerTwo [1] [⟨"atom", 2⟩] = some r ∧ balancesValid r.1 = true)
    ∧ (∃ r, DelegateCoins ⟨0, 0⟩ ledgerTwo [1] [⟨"atom", 2⟩] = some r ∧
        balancesValid r.1 = true)
    ∧ (SubtractCoins ⟨0, 0⟩ ledgerTwo [1] [⟨"atom", 2⟩]).map (fun r => (getCoins r.1 [1], r.2.2))
        = some ([⟨"atom", 3⟩], none) :=
  ⟨by decide,
    (balancesValid_invariant ⟨0, 0⟩ ledgerTwo (by decide)).2.1 [1] [⟨"atom", 2⟩],
    (balancesValid_invariant ⟨0, 0⟩ ledgerTwo (by decide)).2.2.2.2.2.1 [1] [⟨"atom", 2⟩]
      (by decide),
    by decide⟩

/-- C38 (as stated, refuted): the plain account `[1]` stores 1 ATOM and 5 atom, a balance
that is not a valid coin set. `HasCoins` answers that the account has 2 atom, and
`SubtractCoins` of the valid amount 2 atom returns the error of invalid coins, since the
difference keeps the upper-case denomination. -/
theorem HasCoins_true_SubtractCoins_error :
    HasCoins ledgerUpperCase [1] [⟨"atom", 2⟩] = true
    ∧ (SubtractCoins ⟨0, 0⟩ ledgerUpperCase [1] [⟨"atom", 2⟩]).map (fun r => r.2)
        = some ([⟨"ATOM", 1⟩, ⟨"atom", 3⟩], some Error.ErrInvalidCoins)
    ∧ Coins.IsValid [⟨"atom", 2⟩] = true
    ∧ (AccountKeeper.GetAccount ledgerUpperCase [1]).map (fun acc => acc.IsVesting)
        = some false := by
  decide

/-- C38 (amended): `HasCoins` predicts `SubtractCoins` when the balance stored at the
address is a valid coin set. For every address holding a non-vesting account or no account
and every valid amount, `SubtractCoins` returns, and `HasCoins` is true exactly when
`SubtractCoins` returns no error. -/
theorem HasCoins_iff_SubtractCoins (ctx : Context) (ak : AccountKeeper) (addr : AccAddress)
    (amt : Coins)
    (hplain : ∀ acc, AccountKeeper.GetAccount ak addr = some acc → acc.IsVesting = false)
    (hv : Coins.IsValid amt = true) (hold : Coins.IsValid (getCoins ak addr) = true) :
    (∃ r, SubtractCoins ctx ak addr amt = some r)
    ∧ (HasCoins ak addr amt = true ↔
        ∃ ak1 c, SubtractCoins ctx ak addr amt = some (ak1, c, none)) := by
  have hS : SubtractCoins ctx ak addr amt = subtractCoins ctx ak addr amt := by
    unfold SubtractCoins
    simp [hv]
  have hH : HasCoins ak addr amt = !(Coins.SafeSub (getCoins ak addr) amt).2 := by
    unfold HasCoins hasCoins
    exact IsAllGTE_eq _ _
  have hsp : (oldAndSpendableCoins ctx ak addr).2 = getCoins ak addr := by
    rw [spendable_eq_old ctx ak addr hplain, oldAndSpendableCoins_fst]
  rw [hS, hH, subtractCoins_of_valid ctx ak addr hv, hsp]
  by_cases hn : (Coins.SafeSub (getCoins ak addr) amt).2 = true
  · rw [if_pos hn, hn]
    refine ⟨⟨_, rfl⟩, ?_⟩
    constructor
    · intro h; simp at h
    · rintro ⟨ak1, c, h⟩; simp at h
  · have hn2 : (Coins.SafeSub (getCoins ak addr) amt).2 = false := by simpa using hn
    have hs : Coins.Sub (getCoins ak addr) amt
        = some (Coins.SafeSub (getCoins ak addr) amt).1 := by
      unfold Coins.Sub
      simp [hn2]
    rw [if_neg hn, hn2, hs]
    dsimp only
    rw [setCoins_valid ak addr (IsValid_SafeSub hold hv hn2)]
    exact ⟨⟨_, rfl⟩, ⟨fun _ => ⟨_, _, rfl⟩, fun _ => rfl⟩⟩

theorem HasCoins_iff_SubtractCoins_witness :
    (∀ acc, AccountKeeper.GetAccount ledgerTwo [1] = some acc → acc.IsVesting = false)
    ∧ Coins.IsValid [⟨"atom", 2⟩] = true
    ∧ Coins.IsValid (getCoins ledgerTwo [1]) = true
    ∧ ((∃ r, SubtractCoins ⟨0, 0⟩ ledgerTwo [1] [⟨"atom", 2⟩] = some r)
      ∧ (HasCoins ledgerTwo [1] [⟨"atom", 2⟩] = true ↔
          ∃ ak1 c, SubtractCoins ⟨0, 0⟩ ledgerTwo [1] [⟨"atom", 2⟩] = some (ak1, c, none)))
    ∧ HasCoins ledgerTwo [1] [⟨"atom", 2⟩] = true
    ∧ HasCoins ledgerTwo [1] [⟨"atom", 9⟩] = false :=
  ⟨by decide, by decide, by decide,
    HasCoins_iff_SubtractCoins ⟨0, 0⟩ ledgerTwo [1] [⟨"atom", 2⟩] (by decide) (by decide)
      (by decide),
    by decide, by decide⟩

end bank

/-! ## The first import and the validator queue -/

namespace staking

open sdk auth

/-- The pool summed up from the accounts depends on the pool and the params of the payload
only. -/
theorem genesisPool_congr (accounts : List Account) :
    ∀ d1 d2 : GenesisState, d1.Pool = d2.Pool → d1.Params = d2.Params →
      genesisPool d1 accounts = genesisPool d2 accounts := by
  induction accounts with
  | nil => intro d1 d2 h1 _; simp [genesisPool, h1]
  | cons acc rest ih =>
    intro d1 d2 h1 h2
    simp only [genesisPool, h1, h2]
    cases Coins.AmountOf acc.GetCoins d2.Params.BondDenom with
    | none => rfl
    | some amount => exact ih _ _ rfl rfl

/-- C33: when the payload is not marked as exported, `InitGenesis` does not depend on the
last validator powers of the payload. A payload that differs from `data` only in that field
gives the same result, stored state and returned updates alike, and the same writes; and
the result is that of the validator set updater, at block height `1 - ValidatorUpdateDelay`,
on the keeper that holds the imported state. -/
theorem InitGenesis_ignores_LastValidatorPowers (upd : Updater) (ctx : Context)
    (keeper : Keeper) (accountKeeper : AccountKeeper) (data : GenesisState)
    (lvps : List LastValidatorPower) (hexp : data.Exported = false) :
    InitGenesis upd ctx keeper accountKeeper { data with LastValidatorPowers := lvps }
      = InitGenesis upd ctx keeper accountKeeper data
    ∧ (∀ pool, writeGenesis keeper pool { data with LastValidatorPowers := lvps }
        = writeGenesis keeper pool data)
    ∧ (∀ pool, storedPool accountKeeper data = some pool →
        InitGenesis upd ctx keeper accountKeeper data
          = upd { ctx with BlockHeight := 1 - ValidatorUpdateDelay }
              (writeGenesis keeper pool data).callUpdater) := by
  have hw : ∀ pool, writeGenesis keeper pool { data with LastValidatorPowers := lvps }
      = writeGenesis keeper pool data := fun _ => rfl
  refine ⟨?_, hw, ?_⟩
  · have hp : storedPool accountKeeper { data with LastValidatorPowers := lvps }
        = storedPool accountKeeper data := by
      unfold storedPool
      rw [genesisPool_congr _ { data with LastValidatorPowers := lvps } data rfl rfl]
    unfold InitGenesis
    rw [hp]
    cases storedPool accountKeeper data with
    | none => rfl
    | some pool =>
      dsimp only
      rw [hw pool, hexp]
      simp only [Bool.false_eq_true, if_false]
  · intro pool hpool
    unfold InitGenesis
    simp only [hpool, hexp, Bool.false_eq_true, if_false]

/-- C33 at the payload `genesisFresh`, with and without its last validator powers. -/
theorem InitGenesis_ignores_LastValidatorPowers_witness :
    genesisFresh.Exported = false
    ∧ (InitGenesis updaterAll ⟨0, 0⟩ Keeper.empty bank.ledgerTwo
          { genesisFresh with LastValidatorPowers := [] }
        = InitGenesis updaterAll ⟨0, 0⟩ Keeper.empty bank.ledgerTwo genesisFresh
      ∧ (∀ pool, writeGenesis Keeper.empty pool { genesisFresh with LastValidatorPowers := [] }
          = writeGenesis Keeper.empty pool genesisFresh)
      ∧ (∀ pool, storedPool bank.ledgerTwo genesisFresh = some pool →
          InitGenesis updaterAll ⟨0, 0⟩ Keeper.empty bank.ledgerTwo genesisFresh
            = updaterAll { (⟨0, 0⟩ : Context) with BlockHeight := 1 - ValidatorUpdateDelay }
                (writeGenesis Keeper.empty pool genesisFresh).callUpdater))
    ∧ (InitGenesis updaterAll ⟨0, 0⟩ Keeper.empty bank.ledgerTwo genesisFresh).map
          (fun r => r.2)
        = some [⟨[101], 9⟩, ⟨[102], 8⟩] :=
  ⟨rfl,
    InitGenesis_ignores_LastValidatorPowers updaterAll ⟨0, 0⟩ Keeper.empty bank.ledgerTwo
      genesisFresh [] rfl,
    by decide⟩

theorem filter_queue_insert_genesisCalls (pool : Pool) (data : GenesisState) :
    (genesisCalls pool data).filter KeeperCall.IsValidatorQueueInsert
      = data.Validators.flatMap (fun v =>
          if v.Status = BondStatus.Unbonding then [KeeperCall.InsertValidatorQueue v] else []) := by
  have hv : ∀ v, (validatorCalls data.Exported v).filter KeeperCall.IsValidatorQueueInsert
      = if v.Status = BondStatus.Unbonding then [KeeperCall.InsertValidatorQueue v] else [] := by
    intro v
    by_cases h : v.Status = BondStatus.Unbonding
    · cases data.Exported <;>
        simp [validatorCalls, Validator.IsUnbonding, h, KeeperCall.IsValidatorQueueInsert]
    · cases data.Exported <;>
        simp [validatorCalls, Validator.IsUnbonding, h, KeeperCall.IsValidatorQueueInsert]
  have hd : ∀ d, (delegationCalls data.Exported d).filter KeeperCall.IsValidatorQueueInsert
      = [] := by
    intro d
    cases data.Exported <;> simp [delegationCalls, KeeperCall.IsValidatorQueueInsert]
  have hu : ∀ u, (unbondingDelegationCalls u).filter KeeperCall.IsValidatorQueueInsert = [] := by
    intro u
    simp [unbondingDelegationCalls, KeeperCall.IsValidatorQueueInsert, List.filter_eq_nil_iff]
  have hr : ∀ r, (redelegationCalls r).filter KeeperCall.IsValidatorQueueInsert = [] := by
    intro r
    simp [redelegationCalls, KeeperCall.IsValidatorQueueInsert, List.filter_eq_nil_iff]
  unfold genesisCalls
  simp only [List.filter_append, List.filter_flatMap, hv, hd, hu, hr]
  simp [KeeperCall.IsValidatorQueueInsert, flatMap_nil_of_forall]

theorem initValidator_ValidatorQueue (exported : Bool) (k : Keeper) (v : Validator) (t : Int) :
    timeSlice (initValidator exported k v).ValidatorQueue t
      = timeSlice k.ValidatorQueue t
        ++ (if v.Status = BondStatus.Unbonding ∧ v.UnbondingCompletionTime = t then
              [v.OperatorAddress] else []) := by
  have hq := timeSlice_insertQueue k.ValidatorQueue v.UnbondingCompletionTime v.OperatorAddress t
  by_cases h : v.Status = BondStatus.Unbonding
  · by_cases ht : v.UnbondingCompletionTime = t
    · rw [if_pos ht] at hq
      cases exported <;>
        simp [initValidator, Validator.IsUnbonding, h, ht, Keeper.SetValidator,
          Keeper.SetValidatorByConsAddr, Keeper.SetValidatorByPowerIndex,
          Keeper.AfterValidatorCreated, Keeper.InsertValidatorQueue] <;>
        simpa [ht] using hq
    · rw [if_neg ht] at hq
      cases exported <;>
        simp [initValidator, Validator.IsUnbonding, h, ht, Keeper.SetValidator,
          Keeper.SetValidatorByConsAddr, Keeper.SetValidatorByPowerIndex,
          Keeper.AfterValidatorCreated, Keeper.InsertValidatorQueue] <;>
        simpa using hq
  · cases exported <;>
      simp [initValidator, Validator.IsUnbonding, h, Keeper.SetValidator,
        Keeper.SetValidatorByConsAddr, Keeper.SetValidatorByPowerIndex,
        Keeper.AfterValidatorCreated]

theorem initDelegation_ValidatorQueue (exported : Bool) (k : Keeper) (d : Delegation) :
    (initDelegation exported k d).ValidatorQueue = k.ValidatorQueue := by
  cases exported <;>
    simp [initDelegation, Keeper.SetDelegation, Keeper.BeforeDelegationCreated,
      Keeper.AfterDelegationModified]

theorem initUnbondingDelegation_ValidatorQueue (k : Keeper) (u : UnbondingDelegation) :
    (initUnbondingDelegation k u).ValidatorQueue = k.ValidatorQueue := by
  unfold initUnbondingDelegation
  exact foldl_keep (fun k => k.ValidatorQueue)
    (fun (k : Keeper) (entry : UnbondingDelegationEntry) =>
      k.InsertUBDQueue u entry.CompletionTime) (fun _ _ => rfl) _ _

theorem initRedelegation_ValidatorQueue (k : Keeper) (r : Redelegation) :
    (initRedelegation k r).ValidatorQueue = k.ValidatorQueue := by
  unfold initRedelegation
  exact foldl_keep (fun k => k.ValidatorQueue)
    (fun (k : Keeper) (entry : RedelegationEntry) =>
      k.InsertRedelegationQueue r entry.CompletionTime) (fun _ _ => rfl) _ _

/-- The validator queue after the writing part of `InitGenesis`. -/
theorem writeGenesis_ValidatorQueue (keeper : Keeper) (pool : Pool) (data : GenesisState)
    (t : Int) :
    timeSlice (writeGenesis keeper pool data).ValidatorQueue t
      = timeSlice keeper.ValidatorQueue t
        ++ data.Validators.flatMap (fun v =>
            if v.Status = BondStatus.Unbonding ∧ v.UnbondingCompletionTime = t then
              [v.OperatorAddress] else []) := by
  unfold writeGenesis
  simp only []
  rw [foldl_keep (fun k => k.ValidatorQueue) _ initRedelegation_ValidatorQueue,
    foldl_keep (fun k => k.ValidatorQueue) _ initUnbondingDelegation_ValidatorQueue,
    foldl_keep (fun k => k.ValidatorQueue) _ (initDelegation_ValidatorQueue _),
    foldl_append_proj (fun k => timeSlice k.ValidatorQueue t) _ _
      (fun k v => initValidator_ValidatorQueue _ k v t)]
  rfl

/-- C34: `InitGenesis` inserts a validator of the payload into the validator unbonding
queue exactly when the status of the validator is Unbonding. Among the calls of its writing
part, the insertions into the validator queue are one per validator of the payload with
status Unbonding, in payload order, and no other: a validator is inserted if and only if it
is in the payload with status Unbonding. Accordingly the bucket of a time in the queue gains
the operator address of every Unbonding validator whose unbonding completes at that time,
and of no Bonded or Unbonded validator. -/
theorem InitGenesis_queues_unbonding_validators (upd : Updater) (ctx : Context)
    (keeper : Keeper) (accountKeeper : AccountKeeper) (data : GenesisState) :
    (InitGenesis upd ctx keeper accountKeeper data
      = match storedPool accountKeeper data with
        | none => none
        | some pool =>
          if data.Exported then
            initLastValidatorPowers (writeGenesis keeper pool data) [] data.LastValidatorPowers
          else
            upd { ctx with BlockHeight := 1 - ValidatorUpdateDelay }
              (writeGenesis keeper pool data).callUpdater)
    ∧ (∀ pool,
        (writeGenesis keeper pool data).Calls.filter KeeperCall.IsValidatorQueueInsert
          = keeper.Calls.filter KeeperCall.IsValidatorQueueInsert
            ++ (data.Validators.filter (fun v => decide (v.Status = BondStatus.Unbonding))).map
                KeeperCall.InsertValidatorQueue)
    ∧ (∀ pool v,
        KeeperCall.InsertValidatorQueue v ∈ genesisCalls pool data ↔
          v ∈ data.Validators ∧ v.Status = BondStatus.Unbonding)
    ∧ (∀ pool t,
        timeSlice (writeGenesis keeper pool data).ValidatorQueue t
          = timeSlice keeper.ValidatorQueue t
            ++ ((data.Validators.filter (fun v => decide (v.Status = BondStatus.Unbonding))).filter
                  (fun v => decide (v.UnbondingCompletionTime = t))).map
                (fun v => v.OperatorAddress)) := by
  have hflat : ∀ (p : Validator → Prop) [DecidablePred p] {β : Type} (g : Validator → β)
      (l : List Validator),
      l.flatMap (fun v => if p v then [g v] else []) = (l.filter (fun v => decide (p v))).map g := by
    intro p _ β g l
    induction l with
    | nil => rfl
    | cons x xs ih =>
      rw [List.flatMap_cons, ih]
      by_cases hx : p x
      · simp [hx]
      · simp [hx]
  have hfilter : ∀ pool, (genesisCalls pool data).filter KeeperCall.IsValidatorQueueInsert
      = (data.Validators.filter (fun v => decide (v.Status = BondStatus.Unbonding))).map
          KeeperCall.InsertValidatorQueue := by
    intro pool
    rw [filter_queue_insert_genesisCalls]
    exact hflat (fun v => v.Status = BondStatus.Unbonding) KeeperCall.InsertValidatorQueue _
  refine ⟨rfl, ?_, ?_, ?_⟩
  · intro pool
    rw [writeGenesis_Calls, List.filter_append, hfilter]
  · intro pool v
    have hmem : KeeperCall.InsertValidatorQueue v ∈ genesisCalls pool data ↔
        KeeperCall.InsertValidatorQueue v ∈
          (genesisCalls pool data).filter KeeperCall.IsValidatorQueueInsert := by
      rw [List.mem_filter]
      exact ⟨fun h => ⟨h, rfl⟩, fun h => h.1⟩
    rw [hmem, hfilter, List.mem_map]
    constructor
    · rintro ⟨w, hw, he⟩
      have hwv : w = v := by injection he
      subst hwv
      rw [List.mem_filter] at hw
      exact ⟨hw.1, of_decide_eq_true hw.2⟩
    · rintro ⟨h1, h2⟩
      exact ⟨v, List.mem_filter.2 ⟨h1, decide_eq_true h2⟩, rfl⟩
  · intro pool t
    rw [writeGenesis_ValidatorQueue, List.filter_filter,
      hflat (fun v => v.Status = BondStatus.Unbonding ∧ v.UnbondingCompletionTime = t)
        (fun v => v.OperatorAddress)]
    congr 2
    apply List.filter_congr
    intro v _
    by_cases h1 : v.Status = BondStatus.Unbonding <;>
      by_cases h2 : v.UnbondingCompletionTime = t <;> simp [h1, h2]

/-- C34 at the payload `genesisUnbonding`, with a bonded and an unbonding validator: only
the unbonding one is inserted, at its completion time 50. -/
theorem InitGenesis_queues_unbonding_validators_example :
    (writeGenesis Keeper.empty genesisUnbonding.Pool genesisUnbonding).Calls.filter
        KeeperCall.IsValidatorQueueInsert
      = [KeeperCall.InsertValidatorQueue validatorUnbonding]
    ∧ timeSlice (writeGenesis Keeper.empty genesisUnbonding.Pool genesisUnbonding).ValidatorQueue
        50 = [[2]]
    ∧ timeSlice (writeGenesis Keeper.empty genesisUnbonding.Pool genesisUnbonding).ValidatorQueue
        0 = []
    ∧ genesisUnbonding.Validators.map (fun v => v.Status)
        = [BondStatus.Bonded, BondStatus.Unbonding] := by
  decide

theorem validateValidatorsLoop_map_tokens (f : Validator → Int) (validators : List Validator) :
    ∀ addrMap : List (List Nat),
      validateValidatorsLoop addrMap (validators.map (fun v => { v with Tokens := f v }))
        = validateValidatorsLoop addrMap validators := by
  induction validators with
  | nil => intro addrMap; rfl
  | cons val rest ih =>
    intro addrMap
    simp only [List.map_cons, validateValidatorsLoop, Validator.IsBonded, Validator.IsUnbonding,
      ih]

/-- C35 (as stated, refuted): `ValidateGenesis` accepts the genesis state
`genesisTokenless`. Its first validator has no tokens and 9 delegator shares; its second
validator has 8 tokens and no delegator shares. -/
theorem ValidateGenesis_accepts_tokens_without_shares :
    ValidateGenesis genesisTokenless = none
    ∧ genesisTokenless.Validators.map
        (fun v => (v.Tokens, v.DelegatorShares.Mantissa, v.DelegatorShares.IsZero))
      = [(0, 9, false), (8, 0, true)] := by
  decide

/-- C35 (amended): `ValidateGenesis` does not look at the tokens of the validators. Every
validator of an accepted genesis state that has zero delegator shares has the status
Unbonding, and the genesis state is still accepted when the tokens of its validators are
replaced by any other amounts. -/
theorem ValidateGenesis_zero_shares_unbonding (data : GenesisState)
    (h : ValidateGenesis data = none) :
    (∀ v ∈ data.Validators, v.DelegatorShares.IsZero = true → v.Status = BondStatus.Unbonding)
    ∧ (∀ f : Validator → Int,
        ValidateGenesis
          { data with Validators := data.Validators.map (fun v => { v with Tokens := f v }) }
          = none) := by
  have hloop : validateValidatorsLoop [] data.Validators = none := by
    unfold ValidateGenesis validateGenesisStateValidators at h
    cases hv : validateValidatorsLoop [] data.Validators with
    | none => rfl
    | some err => rw [hv] at h; simp at h
  constructor
  · intro v hv hz
    exact ((validateValidatorsLoop_eq_none data.Validators []).1 hloop).2.2.2 v hv
      (by simpa [Dec.IsZero] using hz)
  · intro f
    have h2 := h
    unfold ValidateGenesis validateGenesisStateValidators at h2 ⊢
    simp only [validateValidatorsLoop_map_tokens]
    exact h2

theorem ValidateGenesis_zero_shares_unbonding_witness :
    ValidateGenesis genesisTokenless = none
    ∧ ((∀ v ∈ genesisTokenless.Validators,
          v.DelegatorShares.IsZero = true → v.Status = BondStatus.Unbonding)
      ∧ (∀ f : Validator → Int,
          ValidateGenesis
            { genesisTokenless with
              Validators :=
                genesisTokenless.Validators.map (fun v => { v with Tokens := f v }) }
            = none)) :=
  ⟨by decide, ValidateGenesis_zero_shares_unbonding genesisTokenless (by decide)⟩

end staking
